import Mathlib

/-!
# Acute brush engine: stroke synthesis

A shallow embedding of `BrushMapping.h`, `InputTypes.h`, `BrushDab.h`,
`BrushEngine.h` and `BrushEngine.cpp`, in two readings of the C++ `float`.

## The exact reading

* The C++ `float` is idealised as an element of a linearly ordered field `K`
  (exact arithmetic, no rounding, no NaN, no infinities).  Every definition is
  generic in `K` and computable; at `K = ℚ` it can be evaluated, at `K = ℝ`
  it is the real-number reading of the program.
* `std::sqrt` is a parameter `sqrt : K → K`.  Theorems that depend on its
  values say so in a hypothesis; `qsqrt` is a computable instance over `ℚ`
  that is exact on squares of rationals.
* It carries the properties that do not depend on rounding: the structure of
  the state machine, which fields are written, clamps, order and monotonicity.

## The binary32 reading (namespace `Binary32`, number type `F32`)

* `F32` is IEEE 754 binary32: `fin k` is the number `k * 2^-149`, `inf s` an
  infinity and `nan` the NaN.  Every operation computes the exact result and
  rounds it to the nearest binary32 number, ties to even (`F32.round`);
  overflow gives an infinity, invalid operations give NaN; comparisons with
  NaN are false.  `F32.sqrt` is the correctly rounded square root.  Each
  operation of the source is rounded on its own (no extended precision, no
  contraction into a fused multiply-add).  The two zeros are identified: no
  operation of the engine tells them apart (its only divisors are a square
  root, which is never `-0`, and positive constants).
  `std::max(a, b)` is `a < b ? b : a` and `std::min(a, b)` is `b < a ? b : a`.
* The engine is transcribed a second time over `F32`, operation for operation
  in the order of the source.  The dab-emission loop takes a fuel argument
  and returns `none` when the fuel runs out; a theorem that says the loop
  returns exhibits the fuel.
* `F32.toRat` reads a finite binary32 number as a rational number, so that
  bounds on rounding errors can be stated.

## Common conventions

* The function-local `static` generators of `getInputValue` and `applyScatter`
  are two independent streams of draws, threaded explicitly (`RandomSource`).
* `std::vector` is `List`, `uint64_t timestamp` is `Nat` (no arithmetic is
  done on it by the engine), member functions take and return the engine.
* The diagnostic printing of `applyMappings` and `getInputValue` (and the
  counters that only gate it) has no effect on any value and is left out.
-/

namespace Acute

/-! ## BrushMapping.h -/

/-- Input sources that can be mapped. -/
inductive InputSource where
  | Pressure
  | TiltX
  | TiltY
  | TiltMagnitude
  | Speed
  | Rotation
  | Random
  | Constant
  deriving DecidableEq, Repr

/-- Brush properties that can be affected. -/
inductive BrushProperty where
  | Size
  | Opacity
  | Spacing
  | Hardness
  | Flow
  | Scatter
  | Rotation
  | ColorH
  | ColorS
  | ColorV
  deriving DecidableEq, Repr

/-- Mapping curve types. -/
inductive CurveType where
  | Linear
  | Quadratic
  | Cubic
  | Custom
  deriving DecidableEq, Repr

/-- A single mapping from input to output (`struct InputMapping`). -/
structure InputMapping (K : Type) where
  source : InputSource
  target : BrushProperty
  minOutput : K
  maxOutput : K
  strength : K
  curve : CurveType
  inverted : Bool
  deriving DecidableEq, Repr

section Model

variable {K : Type} [LinearOrderedField K]

/-- The function `std::max(a, b)`, which is `(a < b) ? b : a`. -/
def fmax (a b : K) : K := if a < b then b else a

/-- The function `std::min(a, b)`, which is `(b < a) ? b : a`. -/
def fmin (a b : K) : K := if b < a then b else a

/-- Default constructor `InputMapping()`. -/
def InputMapping.default : InputMapping K :=
  { source := InputSource.Constant
    target := BrushProperty.Size
    minOutput := 0
    maxOutput := 1
    strength := 1
    curve := CurveType.Linear
    inverted := false }

/-- Method `InputMapping::apply`.  Exact reading; the binary32 transcription is
`Binary32.InputMapping.apply`. -/
def InputMapping.apply (m : InputMapping K) (inputValue : K) : K :=
  let inputValue := if m.inverted then 1 - inputValue else inputValue
  let curvedValue :=
    match m.curve with
    | CurveType.Linear => inputValue
    | CurveType.Quadratic => inputValue * inputValue
    | CurveType.Cubic => inputValue * inputValue * inputValue
    | CurveType.Custom => inputValue
  let result := m.minOutput + (m.maxOutput - m.minOutput) * curvedValue
  let baseValue := (m.minOutput + m.maxOutput) * (1 / 2)
  baseValue + (result - baseValue) * m.strength

end Model

/-! ## InputTypes.h -/

/-- Input data structure from stylus/mouse (`struct InputPoint`). -/
structure InputPoint (K : Type) where
  x : K
  y : K
  pressure : K
  tiltX : K
  tiltY : K
  rotation : K
  velocityX : K
  velocityY : K
  timestamp : Nat
  deriving DecidableEq, Repr

/-! ## BrushDab.h -/

/-- A single brush dab to be rendered (`struct BrushDab`). -/
structure BrushDab (K : Type) where
  x : K
  y : K
  size : K
  opacity : K
  rotation : K
  hardness : K
  flow : K
  scatter : K
  r : K
  g : K
  b : K
  deriving DecidableEq, Repr

/-! ## BrushEngine.h -/

/-- Brush settings that define the base behaviour (`struct BrushSettings`). -/
structure BrushSettings (K : Type) where
  baseSize : K
  baseOpacity : K
  baseHardness : K
  baseFlow : K
  baseSpacing : K
  baseRotation : K
  colorR : K
  colorG : K
  colorB : K
  mappings : List (InputMapping K)
  deriving DecidableEq, Repr

/-- The engine's members (`class BrushEngine`). -/
structure BrushEngine (K : Type) where
  m_settings : BrushSettings K
  m_strokeActive : Bool
  m_lastInput : InputPoint K
  m_distanceSinceLastDab : K
  deriving DecidableEq, Repr

/-- The two function-local static generators: `dis(gen)` of `getInputValue`
(uniform on [0,1]) and `dis(gen)` of `applyScatter` (uniform on [-1,1]), each
a stream of draws with the index of the next draw. -/
structure RandomSource (K : Type) where
  inputDraws : Nat → K
  inputPos : Nat
  scatterDraws : Nat → K
  scatterPos : Nat

section Model

variable {K : Type} [LinearOrderedField K]

/-- Default constructor `InputPoint()`. -/
def InputPoint.default : InputPoint K :=
  { x := 0, y := 0, pressure := 1, tiltX := 0, tiltY := 0, rotation := 0
    velocityX := 0, velocityY := 0, timestamp := 0 }

/-- Method `InputPoint::getSpeed`. -/
def InputPoint.getSpeed (sqrt : K → K) (p : InputPoint K) : K :=
  sqrt (p.velocityX * p.velocityX + p.velocityY * p.velocityY)

/-- Method `InputPoint::getTiltMagnitude`. -/
def InputPoint.getTiltMagnitude (sqrt : K → K) (p : InputPoint K) : K :=
  sqrt (p.tiltX * p.tiltX + p.tiltY * p.tiltY)

/-- Default constructor `BrushDab()`. -/
def BrushDab.default : BrushDab K :=
  { x := 0, y := 0, size := 10, opacity := 1, rotation := 0
    hardness := 1 / 2, flow := 1, scatter := 0, r := 0, g := 0, b := 0 }

/-- Default constructor `BrushSettings()`. -/
def BrushSettings.default : BrushSettings K :=
  { baseSize := 20, baseOpacity := 1, baseHardness := 1 / 2, baseFlow := 1
    baseSpacing := 15 / 100, baseRotation := 0
    colorR := 0, colorG := 0, colorB := 0, mappings := [] }

/-! ## BrushEngine.cpp -/

/-- Constructor `BrushEngine::BrushEngine()`. -/
def BrushEngine.new : BrushEngine K :=
  { m_settings := BrushSettings.default
    m_strokeActive := false
    m_lastInput := InputPoint.default
    m_distanceSinceLastDab := 0 }

/-- Method `BrushEngine::setBrushSettings`. -/
def BrushEngine.setBrushSettings (e : BrushEngine K) (settings : BrushSettings K) :
    BrushEngine K :=
  { e with m_settings := settings }

/-- Method `BrushEngine::beginStroke`. -/
def BrushEngine.beginStroke (e : BrushEngine K) : BrushEngine K :=
  { e with m_strokeActive := true
           m_distanceSinceLastDab := 0
           m_lastInput := InputPoint.default }

/-- Method `BrushEngine::endStroke`. -/
def BrushEngine.endStroke (e : BrushEngine K) : BrushEngine K :=
  { e with m_strokeActive := false }

/-- Method `BrushEngine::addMapping`. -/
def BrushEngine.addMapping (e : BrushEngine K) (mapping : InputMapping K) : BrushEngine K :=
  { e with m_settings := { e.m_settings with mappings := e.m_settings.mappings ++ [mapping] } }

/-- Method `BrushEngine::clearMappings`. -/
def BrushEngine.clearMappings (e : BrushEngine K) : BrushEngine K :=
  { e with m_settings := { e.m_settings with mappings := [] } }

/-- Method `BrushEngine::generateDab`. -/
def generateDab (settings : BrushSettings K) (input : InputPoint K) : BrushDab K :=
  { (BrushDab.default : BrushDab K) with
    x := input.x
    y := input.y
    size := settings.baseSize
    opacity := settings.baseOpacity
    hardness := settings.baseHardness
    flow := settings.baseFlow
    rotation := settings.baseRotation
    r := settings.colorR
    g := settings.colorG
    b := settings.colorB }

/-- Method `BrushEngine::getInputValue`; the `Random` case takes the next draw
of the input stream.  Exact reading; the binary32 transcription is
`Binary32.getInputValue`. -/
def getInputValue (sqrt : K → K) (input : InputPoint K) (source : InputSource)
    (rng : RandomSource K) : K × RandomSource K :=
  match source with
  | InputSource.Pressure => (input.pressure, rng)
  | InputSource.TiltX => ((input.tiltX + 1) * (1 / 2), rng)
  | InputSource.TiltY => ((input.tiltY + 1) * (1 / 2), rng)
  | InputSource.TiltMagnitude => (fmin 1 (input.getTiltMagnitude sqrt), rng)
  | InputSource.Speed => (fmin 1 (input.getSpeed sqrt / 1000), rng)
  | InputSource.Rotation => (input.rotation / 360, rng)
  | InputSource.Random =>
      (rng.inputDraws rng.inputPos, { rng with inputPos := rng.inputPos + 1 })
  | InputSource.Constant => (1, rng)

/-- The body of the `for` loop of `BrushEngine::applyMappings`: one mapping
applied to the dab.  Exact reading; the binary32 transcription is
`Binary32.applyMapping`. -/
def applyMapping (sqrt : K → K) (input : InputPoint K)
    (st : BrushDab K × RandomSource K) (mapping : InputMapping K) :
    BrushDab K × RandomSource K :=
  let iv := getInputValue sqrt input mapping.source st.2
  let outputValue := mapping.apply iv.1
  match mapping.target with
  | BrushProperty.Size => ({ st.1 with size := st.1.size * outputValue }, iv.2)
  | BrushProperty.Opacity => ({ st.1 with opacity := st.1.opacity * outputValue }, iv.2)
  | BrushProperty.Hardness => ({ st.1 with hardness := fmax 0 (fmin 1 outputValue) }, iv.2)
  | BrushProperty.Flow => ({ st.1 with flow := st.1.flow * outputValue }, iv.2)
  | BrushProperty.Rotation => ({ st.1 with rotation := st.1.rotation + outputValue }, iv.2)
  | BrushProperty.Scatter => ({ st.1 with scatter := outputValue }, iv.2)
  | _ => (st.1, iv.2)

/-- The final clamps of `BrushEngine::applyMappings`. -/
def clampDab (dab : BrushDab K) : BrushDab K :=
  { dab with
    size := fmax (1 / 10) dab.size
    opacity := fmax 0 (fmin 1 dab.opacity)
    flow := fmax 0 (fmin 1 dab.flow) }

/-- Method `BrushEngine::applyMappings`: every mapping in order, then the clamps. -/
def applyMappings (sqrt : K → K) (settings : BrushSettings K) (input : InputPoint K)
    (dab : BrushDab K) (rng : RandomSource K) : BrushDab K × RandomSource K :=
  let st := settings.mappings.foldl (applyMapping sqrt input) (dab, rng)
  (clampDab st.1, st.2)

/-- Method `BrushEngine::calculateSpacing`. -/
def calculateSpacing (settings : BrushSettings K) (dab : BrushDab K) : K :=
  dab.size * settings.baseSpacing

/-- Method `BrushEngine::applyScatter`; the two draws are taken in statement
order, first for `x`, then for `y`.  Exact reading; the binary32 transcription is
`Binary32.applyScatter`. -/
def applyScatter (dab : BrushDab K) (rng : RandomSource K) : BrushDab K × RandomSource K :=
  if dab.scatter > 0 then
    let scatterAmount := dab.scatter * dab.size * (1 / 2)
    ({ dab with
       x := dab.x + rng.scatterDraws rng.scatterPos * scatterAmount
       y := dab.y + rng.scatterDraws (rng.scatterPos + 1) * scatterAmount },
     { rng with scatterPos := rng.scatterPos + 2 })
  else (dab, rng)

/-- The three statements `generateDab; applyMappings; applyScatter` that
`processInput` runs for every dab it emits. -/
def emitDab (sqrt : K → K) (settings : BrushSettings K) (input : InputPoint K)
    (rng : RandomSource K) : BrushDab K × RandomSource K :=
  let r := applyMappings sqrt settings input (generateDab settings input) rng
  applyScatter r.1 r.2

/-- The interpolation fraction of a loop iteration of `processInput`:
`t = (m_distanceSinceLastDab - spacing) / distance`, then
`t = std::max(0.0f, std::min(1.0f, t))`.  The numerator is never negative
inside the loop, so for `distance == 0` the float quotient is `+inf` or NaN,
and both clamp to `1`.  Exact reading; in `Binary32.emitLoop` the quotient and the clamp
are computed in binary32. -/
def interpFraction (acc spacing distance : K) : K :=
  if distance = 0 then 1 else fmax 0 (fmin 1 ((acc - spacing) / distance))

/-- The interpolated input of a loop iteration of `processInput`: a copy of
`input` with `x`, `y`, `pressure`, `tiltX`, `tiltY` overwritten.  Exact reading; the
binary32 transcription is `Binary32.interpolate`. -/
def interpolate (lastInput input : InputPoint K) (dx dy t : K) : InputPoint K :=
  { input with
    x := lastInput.x + dx * (1 - t)
    y := lastInput.y + dy * (1 - t)
    pressure := lastInput.pressure + (input.pressure - lastInput.pressure) * (1 - t)
    tiltX := lastInput.tiltX + (input.tiltX - lastInput.tiltX) * (1 - t)
    tiltY := lastInput.tiltY + (input.tiltY - lastInput.tiltY) * (1 - t) }

/-- The `while` loop of `BrushEngine::processInput`.  It returns the dabs, the
final `m_distanceSinceLastDab` and the random source.  This is the exact reading: in an
ordered field the loop runs `⌊acc / spacing⌋` times.  The binary32 loop, which rounds every
subtraction and need not terminate, is `Binary32.emitLoop`. -/
def emitLoop [FloorRing K] (sqrt : K → K) (settings : BrushSettings K)
    (lastInput input : InputPoint K) (dx dy distance spacing : K)
    (acc : K) (dabs : List (BrushDab K)) (rng : RandomSource K) :
    List (BrushDab K) × K × RandomSource K :=
  if _hloop : acc ≥ spacing ∧ spacing > 0 then
    let t := interpFraction acc spacing distance
    let interpInput := interpolate lastInput input dx dy t
    let r := emitDab sqrt settings interpInput rng
    emitLoop sqrt settings lastInput input dx dy distance spacing
      (acc - spacing) (dabs ++ [r.1]) r.2
  else (dabs, acc, rng)
termination_by ⌊acc / spacing⌋₊
decreasing_by
  obtain ⟨h1, h2⟩ := _hloop
  have hs : spacing ≠ 0 := ne_of_gt h2
  have e1 : (acc - spacing) / spacing = acc / spacing - 1 := by
    field_simp
  have h3 : (1 : K) ≤ acc / spacing := by
    rw [le_div_iff₀ h2]; linarith
  rw [e1, Nat.floor_sub_one]
  have h4 : 1 ≤ ⌊acc / spacing⌋₊ := Nat.le_floor (by simpa using h3)
  omega

/-- Method `BrushEngine::processInput`. -/
def processInput [FloorRing K] (sqrt : K → K) (e : BrushEngine K) (input : InputPoint K)
    (rng : RandomSource K) : List (BrushDab K) × BrushEngine K × RandomSource K :=
  if !e.m_strokeActive then ([], e, rng)
  else if e.m_lastInput.timestamp = 0 then
    let r := emitDab sqrt e.m_settings input rng
    ([r.1], { e with m_lastInput := input }, r.2)
  else
    let dx := input.x - e.m_lastInput.x
    let dy := input.y - e.m_lastInput.y
    let distance := sqrt (dx * dx + dy * dy)
    let tempDab := applyMappings sqrt e.m_settings input (generateDab e.m_settings input) rng
    let spacing := calculateSpacing e.m_settings tempDab.1
    let r := emitLoop sqrt e.m_settings e.m_lastInput input dx dy distance spacing
      (e.m_distanceSinceLastDab + distance) [] tempDab.2
    (r.1, { e with m_lastInput := input, m_distanceSinceLastDab := r.2.1 }, r.2.2)

/-! ## Definitions used to state the properties -/

/-- The dabs `emitDab` resolves for a list of inputs, one after the other, with the
random source threaded through. -/
def emitAll (sqrt : K → K) (settings : BrushSettings K) :
    List (InputPoint K) → RandomSource K → List (BrushDab K) × RandomSource K
  | [], rng => ([], rng)
  | p :: ps, rng =>
      let r := emitDab sqrt settings p rng
      let rest := emitAll sqrt settings ps r.2
      (r.1 :: rest.1, rest.2)

/-- The interpolated inputs of the first `n` iterations of the `while` loop of
`processInput`, for accumulator `acc` at loop entry. -/
def loopInputs (lastInput input : InputPoint K) (dx dy distance spacing : K) :
    K → Nat → List (InputPoint K)
  | _, 0 => []
  | acc, n + 1 =>
      interpolate lastInput input dx dy (interpFraction acc spacing distance) ::
        loopInputs lastInput input dx dy distance spacing (acc - spacing) n

/-- The number of iterations of the `while` loop of `processInput` for accumulator `acc`
at loop entry: `floor (acc / spacing)` for a positive spacing, none otherwise. -/
def dabCount [FloorRing K] (acc spacing : K) : Nat :=
  if 0 < spacing then ⌊acc / spacing⌋₊ else 0

/-- A computable square root on `ℚ`, exact on squares of rationals; it stands for
`std::sqrt` where the engine is evaluated on concrete rational inputs. -/
def qsqrt (q : ℚ) : ℚ := (Nat.sqrt q.num.toNat : ℚ) / (Nat.sqrt q.den : ℚ)

/-- Every draw is `0`. -/
def zeroDraws : RandomSource ℚ :=
  { inputDraws := fun _ => 0, inputPos := 0, scatterDraws := fun _ => 0, scatterPos := 0 }

/-- The calls `processInput` for a list of samples in order; the result lists the dabs
of each call. -/
def runStroke [FloorRing K] (sqrt : K → K) :
    BrushEngine K → List (InputPoint K) → RandomSource K →
      List (List (BrushDab K)) × BrushEngine K × RandomSource K
  | e, [], rng => ([], e, rng)
  | e, p :: ps, rng =>
      let r := processInput sqrt e p rng
      let rest := runStroke sqrt r.2.1 ps r.2.2
      (r.1 :: rest.1, rest.2)

/-- The representative dab of a subsequent-sample call and the spacing it gives. -/
def spacingFor (sqrt : K → K) (settings : BrushSettings K) (input : InputPoint K)
    (rng : RandomSource K) : K :=
  calculateSpacing settings
    (applyMappings sqrt settings input (generateDab settings input) rng).1

/-- The segment length of a subsequent-sample call. -/
def segmentLength (sqrt : K → K) (lastInput input : InputPoint K) : K :=
  sqrt ((input.x - lastInput.x) * (input.x - lastInput.x) +
    (input.y - lastInput.y) * (input.y - lastInput.y))

/-- A sample at `(x, y)` with the given pressure and timestamp, all other fields zero. -/
def samplePoint (x y pressure : K) (timestamp : Nat) : InputPoint K :=
  { x := x, y := y, pressure := pressure, tiltX := 0, tiltY := 0, rotation := 0
    velocityX := 0, velocityY := 0, timestamp := timestamp }

/-- A mapping with a linear, non-inverted curve. -/
def linearMapping (source : InputSource) (target : BrushProperty) (minOutput maxOutput strength : K) :
    InputMapping K :=
  { source := source, target := target, minOutput := minOutput, maxOutput := maxOutput
    strength := strength, curve := CurveType.Linear, inverted := false }

/-- Every scatter draw is `1`. -/
def unitDraws : RandomSource ℚ :=
  { inputDraws := fun _ => 0, inputPos := 0, scatterDraws := fun _ => 1, scatterPos := 0 }

/-- Default settings with one constant mapping onto `Scatter` with output 1. -/
def scatterSettings : BrushSettings ℚ :=
  { (BrushSettings.default : BrushSettings ℚ) with
    mappings := [linearMapping InputSource.Constant BrushProperty.Scatter 1 1 1] }

/-- Default settings with one constant mapping onto `Opacity` with output 5. -/
def overdriveSettings : BrushSettings ℚ :=
  { (BrushSettings.default : BrushSettings ℚ) with
    mappings := [linearMapping InputSource.Constant BrushProperty.Opacity 5 5 1] }

/-- The dab the overdriven opacity mapping resolves to at the origin. -/
def overdriveDab : BrushDab ℚ :=
  { x := 0, y := 0, size := 20, opacity := 1, rotation := 0, hardness := 1 / 2, flow := 1
    scatter := 0, r := 0, g := 0, b := 0 }

/-- Base size 4, spacing fraction 1, and size proportional to pressure. -/
def shrinkSettings : BrushSettings ℚ :=
  { (BrushSettings.default : BrushSettings ℚ) with
    baseSize := 4
    baseSpacing := 1
    mappings := [linearMapping InputSource.Pressure BrushProperty.Size 0 1 1] }

/-- The samples `(3, 4)` and `(6, 8)`, at distances 5 and 10 from the origin along the
direction `(3/5, 4/5)`. -/
def diagonalSamples : List (InputPoint ℚ) := [samplePoint 3 4 1 2, samplePoint 6 8 1 3]

/-- The reference definition of the mapping curve, in the four steps of the spec: invert,
shape by the curve (Custom is the identity), interpolate into the output range, blend
toward the midpoint of the range by `strength`. -/
def applyReference (m : InputMapping K) (x : K) : K :=
  let x' := if m.inverted then 1 - x else x
  let shaped :=
    match m.curve with
    | CurveType.Linear => x'
    | CurveType.Quadratic => x' ^ 2
    | CurveType.Cubic => x' ^ 3
    | CurveType.Custom => x'
  let interpolated := m.minOutput + (m.maxOutput - m.minOutput) * shaped
  let midpoint := (m.minOutput + m.maxOutput) / 2
  midpoint + (interpolated - midpoint) * m.strength

/-- The reference definition of the input normaliser, in the words of the spec; `draw` is
the value drawn for the `Random` source. -/
def normalizeReference (sqrt : K → K) (sample : InputPoint K) (source : InputSource)
    (draw : K) : K :=
  match source with
  | InputSource.Pressure => sample.pressure
  | InputSource.TiltX => (sample.tiltX + 1) / 2
  | InputSource.TiltY => (sample.tiltY + 1) / 2
  | InputSource.TiltMagnitude => min 1 (sqrt (sample.tiltX ^ 2 + sample.tiltY ^ 2))
  | InputSource.Speed => min 1 (sqrt (sample.velocityX ^ 2 + sample.velocityY ^ 2) / 1000)
  | InputSource.Rotation => sample.rotation / 360
  | InputSource.Random => draw
  | InputSource.Constant => 1

/-- A sample with every field set: tilt `(3/5, 4/5)`, rotation 90, velocity `(300, 400)`. -/
def tiltedSample : InputPoint ℚ :=
  { x := 2, y := 5, pressure := 1 / 2, tiltX := 3 / 5, tiltY := 4 / 5, rotation := 90
    velocityX := 300, velocityY := 400, timestamp := 7 }

/-- The clamp to [0, 1]. -/
def clamp01 (v : K) : K := max 0 (min 1 v)

/-- Default settings with two constant mappings onto `Hardness`, with outputs 1/4 and 3. -/
def twoHardnessSettings : BrushSettings ℚ :=
  { (BrushSettings.default : BrushSettings ℚ) with
    mappings := [linearMapping InputSource.Constant BrushProperty.Hardness (1 / 4) (1 / 4) 1,
      linearMapping InputSource.Constant BrushProperty.Hardness 3 3 1] }

/-- The target is one of the three colour properties. -/
def isColorTarget (target : BrushProperty) : Prop :=
  target = BrushProperty.ColorH ∨ target = BrushProperty.ColorS ∨ target = BrushProperty.ColorV

/-- The settings with the list of mappings replaced. -/
def withMappings (settings : BrushSettings K) (ms : List (InputMapping K)) : BrushSettings K :=
  { settings with mappings := ms }

/-- Default settings with base colour `(1/4, 1/2, 3/4)` and one mapping from `Pressure`
onto `ColorH`. -/
def colorSettings : BrushSettings ℚ :=
  { (BrushSettings.default : BrushSettings ℚ) with
    colorR := 1 / 4
    colorG := 1 / 2
    colorB := 3 / 4
    mappings := [linearMapping InputSource.Pressure BrushProperty.ColorH 0 1 1] }

/-! ## WindowsInkInput.cpp, examples/brush_presets.cpp, Application.cpp -/

/-- Method `WindowsInkInput::normalizePressure` of `WindowsInkInput.cpp`; the argument is
the `unsigned int` raw pressure, `static_cast<float>` is the cast into `K`. -/
def normalizePressure (pressure : Nat) : K :=
  if pressure = 0 then 0
  else if pressure ≤ 1024 then (pressure : K) / 1024
  else if pressure ≤ 4096 then (pressure : K) / 4096
  else (pressure : K) / 8192

/-- Function `createSplatter` of `examples/brush_presets.cpp`. -/
def createSplatter : BrushSettings K :=
  { (BrushSettings.default : BrushSettings K) with
    baseSize := 15
    baseOpacity := 6 / 10
    baseHardness := 7 / 10
    baseFlow := 8 / 10
    baseSpacing := 3 / 10
    colorR := 0
    colorG := 0
    colorB := 0
    mappings :=
      [{ (InputMapping.default : InputMapping K) with
          source := InputSource.Pressure, target := BrushProperty.Size
          minOutput := 3 / 10, maxOutput := 18 / 10, strength := 1
          curve := CurveType.Quadratic },
       { (InputMapping.default : InputMapping K) with
          source := InputSource.Random, target := BrushProperty.Scatter
          minOutput := 0, maxOutput := 1, strength := 1
          curve := CurveType.Linear },
       { (InputMapping.default : InputMapping K) with
          source := InputSource.Speed, target := BrushProperty.Spacing
          minOutput := 2 / 10, maxOutput := 5 / 10, strength := 7 / 10
          curve := CurveType.Linear }] }

/-- The settings built by `Application::setupDefaultBrush` of `Application.cpp`. -/
def setupDefaultBrush : BrushSettings K :=
  { (BrushSettings.default : BrushSettings K) with
    baseSize := 30
    baseOpacity := 8 / 10
    baseHardness := 7 / 10
    baseFlow := 9 / 10
    baseSpacing := 15 / 100
    colorR := 0
    colorG := 0
    colorB := 0
    mappings :=
      [{ (InputMapping.default : InputMapping K) with
          source := InputSource.Pressure, target := BrushProperty.Size
          minOutput := 3 / 10, maxOutput := 15 / 10, strength := 1
          curve := CurveType.Quadratic },
       { (InputMapping.default : InputMapping K) with
          source := InputSource.Pressure, target := BrushProperty.Opacity
          minOutput := 2 / 10, maxOutput := 1, strength := 8 / 10
          curve := CurveType.Linear },
       { (InputMapping.default : InputMapping K) with
          source := InputSource.Speed, target := BrushProperty.Spacing
          minOutput := 1 / 10, maxOutput := 3 / 10, strength := 5 / 10
          curve := CurveType.Linear }] }

/-- A sample at the origin with pressure 1 and the given velocity. -/
def movingSample (velocityX velocityY : K) : InputPoint K :=
  { x := 0, y := 0, pressure := 1, tiltX := 0, tiltY := 0, rotation := 0
    velocityX := velocityX, velocityY := velocityY, timestamp := 1 }

/-- Two random sources hold the same upcoming draws: their streams agree from the
position of the next draw on, for the input stream and for the scatter stream. -/
def sameDraws (r1 r2 : RandomSource K) : Prop :=
  (∀ i : Nat, r1.inputDraws (r1.inputPos + i) = r2.inputDraws (r2.inputPos + i)) ∧
  (∀ i : Nat, r1.scatterDraws (r1.scatterPos + i) = r2.scatterDraws (r2.scatterPos + i))

/-- The source `unitDraws` after four input draws and six scatter draws. -/
def unitDrawsLater : RandomSource ℚ :=
  { unitDraws with inputPos := 4, scatterPos := 6 }

/-- The engine states reachable from the constructor through the public member functions
of `BrushEngine`, `processInput` being called with any sample and any random source. -/
inductive Reachable [FloorRing K] (sqrt : K → K) : BrushEngine K → Prop where
  | constructed : Reachable sqrt BrushEngine.new
  | afterSetBrushSettings (e : BrushEngine K) (settings : BrushSettings K) :
      Reachable sqrt e → Reachable sqrt (e.setBrushSettings settings)
  | afterBeginStroke (e : BrushEngine K) : Reachable sqrt e → Reachable sqrt e.beginStroke
  | afterEndStroke (e : BrushEngine K) : Reachable sqrt e → Reachable sqrt e.endStroke
  | afterAddMapping (e : BrushEngine K) (mapping : InputMapping K) :
      Reachable sqrt e → Reachable sqrt (e.addMapping mapping)
  | afterClearMappings (e : BrushEngine K) : Reachable sqrt e → Reachable sqrt e.clearMappings
  | afterProcessInput (e : BrushEngine K) (input : InputPoint K) (rng : RandomSource K) :
      Reachable sqrt e → Reachable sqrt (processInput sqrt e input rng).2.1

end Model

/-! ## Binary32 arithmetic and the engine over binary32 -/

/-- A binary32 value. `fin k` is the finite number `k * 2^-149` (the unit is the least
positive subnormal), `inf negative` an infinity and `nan` the NaN. The two zeros are
identified. Not every `fin k` is a binary32 number (see `IsBinary32`); every rounded
result is. -/
inductive F32 where
  | fin (k : Int)
  | inf (negative : Bool)
  | nan
  deriving DecidableEq

namespace F32

/-- Nearest integer to n / d, ties to even. -/
def rne (n d : Nat) : Nat :=
  if 2 * (n % d) < d then n / d
  else if d < 2 * (n % d) then n / d + 1
  else if (n / d) % 2 = 0 then n / d else n / d + 1

/-- Floor of the base-2 logarithm (0 at 0), by halving at most fuel times. -/
def log2Aux : Nat → Nat → Nat
  | 0, _ => 0
  | fuel + 1, n => if n < 2 then 0 else log2Aux fuel (n / 2) + 1

/-- Bisection over the low `i` bits of the exponent: the largest exponent reached from
`r` by adding powers of two below `2^i` while `2^exponent ≤ n`. -/
def log2Bits (n : Nat) : Nat → Nat → Nat
  | 0, r => r
  | i + 1, r => if 2 ^ (r + 2 ^ i) ≤ n then log2Bits n i (r + 2 ^ i) else log2Bits n i r

/-- Floor of the base-2 logarithm (0 at 0): bisection for magnitudes below `2^4096`,
checked, with the halving loop as the general case. -/
@[irreducible] def log2 (n : Nat) : Nat :=
  if n < 2 ^ (log2Bits n 12 0 + 1) then log2Bits n 12 0 else log2Aux n n

/-- Exponent of the grid spacing (in units) around a magnitude of q units. -/
def gridExp (q : Nat) : Nat := log2 q - 23

/-- The magnitude `n / d` (in units) rounded to the binary32 grid, ties to even: the grid
step is `2^(e - 23)` units for a magnitude in `[2^e, 2^(e+1))` and one unit below `2^24`
units (subnormal and smallest normal numbers). -/
def roundNat (n d : Nat) : Nat :=
  rne n (d * 2 ^ gridExp (n / d)) * 2 ^ gridExp (n / d)

/-- The rational number `n / d` units rounded to binary32, to nearest with ties to even;
a magnitude of at least `2^128 - 2^103` (in units, `(2^25 - 1) * 2^252`) overflows to the
infinity of the same sign. -/
def round (n : Int) (d : Nat) : F32 :=
  if 33554431 * 2 ^ 252 * d ≤ n.natAbs then inf (decide (n < 0))
  else fin (Int.sign n * (roundNat n.natAbs d : Int))

/-- Binary32 addition `a + b`. -/
def add : F32 → F32 → F32
  | fin a, fin b => round (a + b) 1
  | fin _, inf s => inf s
  | inf s, fin _ => inf s
  | inf s, inf t => if s = t then inf s else nan
  | _, _ => nan

/-- Binary32 negation `-a`. -/
def neg : F32 → F32
  | fin a => fin (-a)
  | inf s => inf (!s)
  | nan => nan

/-- Binary32 subtraction `a - b`. -/
def sub (a b : F32) : F32 := add a (neg b)

/-- Binary32 multiplication `a * b`; `0 * inf` is NaN. -/
def mul : F32 → F32 → F32
  | fin a, fin b => round (a * b) (2 ^ 149)
  | fin a, inf s => if a = 0 then nan else inf (xor (decide (a < 0)) s)
  | inf s, fin b => if b = 0 then nan else inf (xor s (decide (b < 0)))
  | inf s, inf t => inf (xor s t)
  | _, _ => nan

/-- Binary32 division `a / b`; a non-zero number divided by zero is an infinity, `0 / 0`
and `inf / inf` are NaN. -/
def div : F32 → F32 → F32
  | fin a, fin b =>
      if b = 0 then (if a = 0 then nan else inf (decide (a < 0)))
      else round (if b < 0 then -(a * 2 ^ 149) else a * 2 ^ 149) b.natAbs
  | fin _, inf _ => fin 0
  | inf s, fin b => inf (xor s (decide (b < 0)))
  | _, _ => nan

/-- The comparison `a < b`; false when an operand is NaN. -/
def lt : F32 → F32 → Bool
  | fin a, fin b => decide (a < b)
  | fin _, inf s => !s
  | inf s, fin _ => s
  | inf s, inf t => s && !t
  | _, _ => false

/-- The comparison `a <= b`; false when an operand is NaN. -/
def le : F32 → F32 → Bool
  | fin a, fin b => decide (a ≤ b)
  | fin _, inf s => !s
  | inf s, fin _ => s
  | inf s, inf t => s || !t
  | _, _ => false

/-- Floor of the square root, by bisection over the bits below 2^fuel. -/
def isqrtAux (n : Nat) : Nat → Nat → Nat
  | 0, r => r
  | i + 1, r => if (r + 2 ^ i) * (r + 2 ^ i) ≤ n then isqrtAux n i (r + 2 ^ i) else isqrtAux n i r

/-- Floor of the square root of a natural number. -/
def isqrt (n : Nat) : Nat := isqrtAux n (log2 n / 2 + 1) 0

/-- Correctly rounded square root of k units, in units. -/
def sqrtNat (k : Nat) : Nat :=
  let n := k * 2 ^ 149
  let sh := gridExp (isqrt n)
  let f := isqrt (n / 4 ^ sh)
  if (2 * f + 1) * (2 * f + 1) * 4 ^ sh < 4 * n then (f + 1) * 2 ^ sh else f * 2 ^ sh

/-- The function `std::sqrt` on binary32: correctly rounded, NaN for a negative
argument. -/
def sqrt : F32 → F32
  | fin a => if a < 0 then nan else fin (sqrtNat a.natAbs)
  | inf s => if s then nan else inf false
  | nan => nan

instance : Add F32 := ⟨add⟩

instance : Sub F32 := ⟨sub⟩

instance : Mul F32 := ⟨mul⟩

instance : Div F32 := ⟨div⟩

instance : Neg F32 := ⟨neg⟩

instance : LT F32 := ⟨fun a b => lt a b = true⟩

instance : LE F32 := ⟨fun a b => le a b = true⟩

instance (a b : F32) : Decidable (a < b) := inferInstanceAs (Decidable (lt a b = true))

instance (a b : F32) : Decidable (a ≤ b) := inferInstanceAs (Decidable (le a b = true))

instance (n : Nat) : OfNat F32 n := ⟨round ((n : Int) * 2 ^ 149) 1⟩

instance : OfScientific F32 :=
  ⟨fun m s e => if s then round ((m : Int) * 2 ^ 149) (10 ^ e) else round ((m : Int) * 10 ^ e * 2 ^ 149) 1⟩

/-- The rational value of a finite number; 0 for the infinities and NaN. -/
def toRat : F32 → ℚ
  | fin k => (k : ℚ) / 2 ^ 149
  | _ => 0

/-- The function `std::max(a, b)` on `float`: `(a < b) ? b : a`. -/
def fmax (a b : F32) : F32 := if a < b then b else a

/-- The function `std::min(a, b)` on `float`: `(b < a) ? b : a`. -/
def fmin (a b : F32) : F32 := if b < a then b else a

/-- Grid membership of a magnitude (in units): a multiple of its own grid step. -/
def onGrid (k : Nat) : Prop := k % 2 ^ gridExp k = 0

instance (k : Nat) : Decidable (onGrid k) := inferInstanceAs (Decidable (_ = _))

/-- The values of the type that are binary32 numbers. -/
def IsBinary32 : F32 → Prop
  | fin k => k.natAbs ≤ 16777215 * 2 ^ 253 ∧ onGrid k.natAbs
  | _ => True

instance (x : F32) : Decidable (IsBinary32 x) :=
  match x with
  | fin _ => inferInstanceAs (Decidable (_ ∧ _))
  | inf _ => isTrue trivial
  | nan => isTrue trivial

/-- The value is finite (neither an infinity nor NaN). -/
def isFinite : F32 → Bool
  | fin _ => true
  | _ => false

end F32

section

open F32

namespace Binary32

/-- The local `curvedValue` of `InputMapping::apply`: the input after the optional
inversion and the curve `switch`. -/
def InputMapping.curvedValue (m : InputMapping F32) (inputValue : F32) : F32 :=
  let inputValue := if m.inverted then 1.0 - inputValue else inputValue
  match m.curve with
  | CurveType.Linear => inputValue
  | CurveType.Quadratic => inputValue * inputValue
  | CurveType.Cubic => inputValue * inputValue * inputValue
  | CurveType.Custom => inputValue

/-- The local `result` of `InputMapping::apply`. -/
def InputMapping.result (m : InputMapping F32) (inputValue : F32) : F32 :=
  m.minOutput + (m.maxOutput - m.minOutput) * InputMapping.curvedValue m inputValue

/-- The local `baseValue` of `InputMapping::apply`. -/
def InputMapping.baseValue (m : InputMapping F32) : F32 :=
  (m.minOutput + m.maxOutput) * 0.5

/-- Method `InputMapping::apply`. -/
def InputMapping.apply (m : InputMapping F32) (inputValue : F32) : F32 :=
  InputMapping.baseValue m +
    (InputMapping.result m inputValue - InputMapping.baseValue m) * m.strength

/-- Default constructor `InputPoint()`. -/
def InputPoint.default : InputPoint F32 :=
  { x := 0.0, y := 0.0, pressure := 1.0, tiltX := 0.0, tiltY := 0.0, rotation := 0.0
    velocityX := 0.0, velocityY := 0.0, timestamp := 0 }

/-- Method `InputPoint::getSpeed`. -/
def InputPoint.getSpeed (p : InputPoint F32) : F32 :=
  F32.sqrt (p.velocityX * p.velocityX + p.velocityY * p.velocityY)

/-- Method `InputPoint::getTiltMagnitude`. -/
def InputPoint.getTiltMagnitude (p : InputPoint F32) : F32 :=
  F32.sqrt (p.tiltX * p.tiltX + p.tiltY * p.tiltY)

/-- Default constructor `BrushDab()`. -/
def BrushDab.default : BrushDab F32 :=
  { x := 0.0, y := 0.0, size := 10.0, opacity := 1.0, rotation := 0.0
    hardness := 0.5, flow := 1.0, scatter := 0.0, r := 0.0, g := 0.0, b := 0.0 }

/-- Default constructor `BrushSettings()`. -/
def BrushSettings.default : BrushSettings F32 :=
  { baseSize := 20.0, baseOpacity := 1.0, baseHardness := 0.5, baseFlow := 1.0
    baseSpacing := 0.15, baseRotation := 0.0
    colorR := 0.0, colorG := 0.0, colorB := 0.0, mappings := [] }

/-- Constructor `BrushEngine::BrushEngine()`. -/
def BrushEngine.new : BrushEngine F32 :=
  { m_settings := BrushSettings.default
    m_strokeActive := false
    m_lastInput := InputPoint.default
    m_distanceSinceLastDab := 0.0 }

/-- Method `BrushEngine::setBrushSettings`. -/
def setBrushSettings (e : BrushEngine F32) (settings : BrushSettings F32) : BrushEngine F32 :=
  { e with m_settings := settings }

/-- Method `BrushEngine::beginStroke`. -/
def beginStroke (e : BrushEngine F32) : BrushEngine F32 :=
  { e with m_strokeActive := true
           m_distanceSinceLastDab := 0.0
           m_lastInput := InputPoint.default }

/-- Method `BrushEngine::endStroke`. -/
def endStroke (e : BrushEngine F32) : BrushEngine F32 :=
  { e with m_strokeActive := false }

/-- Method `BrushEngine::addMapping`. -/
def addMapping (e : BrushEngine F32) (mapping : InputMapping F32) : BrushEngine F32 :=
  { e with m_settings := { e.m_settings with mappings := e.m_settings.mappings ++ [mapping] } }

/-- Method `BrushEngine::clearMappings`. -/
def clearMappings (e : BrushEngine F32) : BrushEngine F32 :=
  { e with m_settings := { e.m_settings with mappings := [] } }

/-- Method `BrushEngine::generateDab`. -/
def generateDab (settings : BrushSettings F32) (input : InputPoint F32) : BrushDab F32 :=
  { BrushDab.default with
    x := input.x
    y := input.y
    size := settings.baseSize
    opacity := settings.baseOpacity
    hardness := settings.baseHardness
    flow := settings.baseFlow
    rotation := settings.baseRotation
    r := settings.colorR
    g := settings.colorG
    b := settings.colorB }

/-- Method `BrushEngine::getInputValue`. -/
def getInputValue (input : InputPoint F32) (source : InputSource)
    (rng : RandomSource F32) : F32 × RandomSource F32 :=
  match source with
  | InputSource.Pressure => (input.pressure, rng)
  | InputSource.TiltX => ((input.tiltX + 1.0) * 0.5, rng)
  | InputSource.TiltY => ((input.tiltY + 1.0) * 0.5, rng)
  | InputSource.TiltMagnitude => (F32.fmin 1.0 (InputPoint.getTiltMagnitude input), rng)
  | InputSource.Speed => (F32.fmin 1.0 (InputPoint.getSpeed input / 1000.0), rng)
  | InputSource.Rotation => (input.rotation / 360.0, rng)
  | InputSource.Random =>
      (rng.inputDraws rng.inputPos, { rng with inputPos := rng.inputPos + 1 })
  | InputSource.Constant => (1.0, rng)

/-- The body of the `for` loop of `BrushEngine::applyMappings`. -/
def applyMapping (input : InputPoint F32)
    (st : BrushDab F32 × RandomSource F32) (mapping : InputMapping F32) :
    BrushDab F32 × RandomSource F32 :=
  let iv := getInputValue input mapping.source st.2
  let outputValue := InputMapping.apply mapping iv.1
  match mapping.target with
  | BrushProperty.Size => ({ st.1 with size := st.1.size * outputValue }, iv.2)
  | BrushProperty.Opacity => ({ st.1 with opacity := st.1.opacity * outputValue }, iv.2)
  | BrushProperty.Hardness => ({ st.1 with hardness := F32.fmax 0.0 (F32.fmin 1.0 outputValue) }, iv.2)
  | BrushProperty.Flow => ({ st.1 with flow := st.1.flow * outputValue }, iv.2)
  | BrushProperty.Rotation => ({ st.1 with rotation := st.1.rotation + outputValue }, iv.2)
  | BrushProperty.Scatter => ({ st.1 with scatter := outputValue }, iv.2)
  | _ => (st.1, iv.2)

/-- The final clamps of `BrushEngine::applyMappings`. -/
def clampDab (dab : BrushDab F32) : BrushDab F32 :=
  { dab with
    size := F32.fmax 0.1 dab.size
    opacity := F32.fmax 0.0 (F32.fmin 1.0 dab.opacity)
    flow := F32.fmax 0.0 (F32.fmin 1.0 dab.flow) }

/-- Method `BrushEngine::applyMappings`. -/
def applyMappings (settings : BrushSettings F32) (input : InputPoint F32)
    (dab : BrushDab F32) (rng : RandomSource F32) : BrushDab F32 × RandomSource F32 :=
  let st := settings.mappings.foldl (applyMapping input) (dab, rng)
  (clampDab st.1, st.2)

/-- Method `BrushEngine::calculateSpacing`. -/
def calculateSpacing (settings : BrushSettings F32) (dab : BrushDab F32) : F32 :=
  dab.size * settings.baseSpacing

/-- Method `BrushEngine::applyScatter`. -/
def applyScatter (dab : BrushDab F32) (rng : RandomSource F32) :
    BrushDab F32 × RandomSource F32 :=
  if dab.scatter > 0.0 then
    let scatterAmount := dab.scatter * dab.size * 0.5
    ({ dab with
       x := dab.x + rng.scatterDraws rng.scatterPos * scatterAmount
       y := dab.y + rng.scatterDraws (rng.scatterPos + 1) * scatterAmount },
     { rng with scatterPos := rng.scatterPos + 2 })
  else (dab, rng)

def emitDab (settings : BrushSettings F32) (input : InputPoint F32)
    (rng : RandomSource F32) : BrushDab F32 × RandomSource F32 :=
  let r := applyMappings settings input (generateDab settings input) rng
  applyScatter r.1 r.2

/-- The interpolated input of one loop iteration. -/
def interpolate (lastInput input : InputPoint F32) (dx dy t : F32) : InputPoint F32 :=
  { input with
    x := lastInput.x + dx * (1.0 - t)
    y := lastInput.y + dy * (1.0 - t)
    pressure := lastInput.pressure + (input.pressure - lastInput.pressure) * (1.0 - t)
    tiltX := lastInput.tiltX + (input.tiltX - lastInput.tiltX) * (1.0 - t)
    tiltY := lastInput.tiltY + (input.tiltY - lastInput.tiltY) * (1.0 - t) }

/-- The `while` loop of `processInput`, cut off after `fuel` iterations. -/
def emitLoop (settings : BrushSettings F32) (lastInput input : InputPoint F32)
    (dx dy distance spacing : F32) :
    Nat → F32 → List (BrushDab F32) → RandomSource F32 →
      Option (List (BrushDab F32) × F32 × RandomSource F32)
  | 0, acc, dabs, rng =>
      if acc ≥ spacing ∧ spacing > 0.0 then none else some (dabs, acc, rng)
  | fuel + 1, acc, dabs, rng =>
      if acc ≥ spacing ∧ spacing > 0.0 then
        let t := (acc - spacing) / distance
        let t := F32.fmax 0.0 (F32.fmin 1.0 t)
        let interpInput := interpolate lastInput input dx dy t
        let r := emitDab settings interpInput rng
        emitLoop settings lastInput input dx dy distance spacing fuel
          (acc - spacing) (dabs ++ [r.1]) r.2
      else some (dabs, acc, rng)

/-- Method `BrushEngine::processInput`. -/
def processInput (fuel : Nat) (e : BrushEngine F32) (input : InputPoint F32)
    (rng : RandomSource F32) : Option (List (BrushDab F32) × BrushEngine F32 × RandomSource F32) :=
  if !e.m_strokeActive then some ([], e, rng)
  else if e.m_lastInput.timestamp = 0 then
    let r := emitDab e.m_settings input rng
    some ([r.1], { e with m_lastInput := input }, r.2)
  else
    let dx := input.x - e.m_lastInput.x
    let dy := input.y - e.m_lastInput.y
    let distance := F32.sqrt (dx * dx + dy * dy)
    let tempDab := applyMappings e.m_settings input (generateDab e.m_settings input) rng
    let spacing := calculateSpacing e.m_settings tempDab.1
    match emitLoop e.m_settings e.m_lastInput input dx dy distance spacing fuel
        (e.m_distanceSinceLastDab + distance) [] tempDab.2 with
    | none => none
    | some r =>
        some (r.1, { e with m_lastInput := input, m_distanceSinceLastDab := r.2.1 }, r.2.2)

/-- The length `distance` that `processInput` computes for the segment from the
recorded last sample to the new one. -/
def segmentLength (lastInput input : InputPoint F32) : F32 :=
  F32.sqrt ((input.x - lastInput.x) * (input.x - lastInput.x) +
    (input.y - lastInput.y) * (input.y - lastInput.y))

/-- The `spacing` that a subsequent-sample call of `processInput` computes. -/
def spacingFor (settings : BrushSettings F32) (input : InputPoint F32)
    (rng : RandomSource F32) : F32 :=
  calculateSpacing settings (applyMappings settings input (generateDab settings input) rng).1

/-- The dabs of a list of samples, resolved one after the other (`generateDab`,
`applyMappings`, `applyScatter`) with the random source threaded through. -/
def emitAll (settings : BrushSettings F32) :
    List (InputPoint F32) → RandomSource F32 → List (BrushDab F32) × RandomSource F32
  | [], rng => ([], rng)
  | p :: ps, rng =>
      let r := emitDab settings p rng
      let rest := emitAll settings ps r.2
      (r.1 :: rest.1, rest.2)

/-- The interpolated inputs of the first `n` loop iterations that start with the
accumulator `acc`. -/
def loopInputs (lastInput input : InputPoint F32) (dx dy distance spacing : F32) :
    Nat → F32 → List (InputPoint F32)
  | 0, _ => []
  | n + 1, acc =>
      interpolate lastInput input dx dy (F32.fmax 0.0 (F32.fmin 1.0 ((acc - spacing) / distance))) ::
        loopInputs lastInput input dx dy distance spacing n (acc - spacing)

/-- The accumulator after `n` executions of `m_distanceSinceLastDab -= spacing`. -/
def subIter (spacing : F32) : Nat → F32 → F32
  | 0, acc => acc
  | n + 1, acc => subIter spacing n (acc - spacing)

/-- The body of the `while` loop is entered by this call: the stroke is active, a
sample is recorded, and the loop condition holds after `distance` has been added. -/
def loopBodyRuns (e : BrushEngine F32) (input : InputPoint F32) (rng : RandomSource F32) :
    Prop :=
  e.m_strokeActive = true ∧ e.m_lastInput.timestamp ≠ 0 ∧
  (e.m_distanceSinceLastDab + segmentLength e.m_lastInput input ≥
      spacingFor e.m_settings input rng ∧
    spacingFor e.m_settings input rng > 0.0)

/-- The engine states reachable from the constructor through the public member
functions of `BrushEngine`; a call of `processInput` counts when it returns. -/
inductive Reachable : BrushEngine F32 → Prop where
  | constructed : Reachable BrushEngine.new
  | afterSetBrushSettings (e : BrushEngine F32) (settings : BrushSettings F32) :
      Reachable e → Reachable (setBrushSettings e settings)
  | afterBeginStroke (e : BrushEngine F32) : Reachable e → Reachable (beginStroke e)
  | afterEndStroke (e : BrushEngine F32) : Reachable e → Reachable (endStroke e)
  | afterAddMapping (e : BrushEngine F32) (mapping : InputMapping F32) :
      Reachable e → Reachable (addMapping e mapping)
  | afterClearMappings (e : BrushEngine F32) : Reachable e → Reachable (clearMappings e)
  | afterProcessInput (fuel : Nat) (e : BrushEngine F32) (input : InputPoint F32)
      (rng : RandomSource F32) (r : List (BrushDab F32) × BrushEngine F32 × RandomSource F32) :
      Reachable e → processInput fuel e input rng = some r → Reachable r.2.1

/-- The curve output of a mapping for a sample: the normalised input run through
`InputMapping::apply`. -/
def mappingOutput (input : InputPoint F32) (rng : RandomSource F32) (m : InputMapping F32) :
    F32 :=
  InputMapping.apply m (getInputValue input m.source rng).1

/-- The curve outputs of the mappings that target `target`, in list order. -/
def targetOutputs (input : InputPoint F32) (rng : RandomSource F32) (target : BrushProperty)
    (ms : List (InputMapping F32)) : List F32 :=
  (ms.filter (fun m => m.target = target)).map (mappingOutput input rng)

/-- The clamp `std::max(0.0f, std::min(1.0f, v))`. -/
def clamp01 (v : F32) : F32 := F32.fmax 0.0 (F32.fmin 1.0 v)

/-- The last mapping of the list that targets `target`, if there is one. -/
def lastMapping (target : BrushProperty) (ms : List (InputMapping F32)) :
    Option (InputMapping F32) :=
  (ms.filter (fun m => m.target = target)).getLast?

/-- A mapping from the `Constant` source whose curve output is `value`
(`minOutput = maxOutput = value`, strength 1). -/
def constantMapping (target : BrushProperty) (value : F32) : InputMapping F32 :=
  { source := InputSource.Constant, target := target, minOutput := value, maxOutput := value
    strength := 1.0, curve := CurveType.Linear, inverted := false }

/-- A random source whose draws are all 0. -/
def zeroDraws : RandomSource F32 :=
  { inputDraws := fun _ => 0.0, inputPos := 0, scatterDraws := fun _ => 0.0, scatterPos := 0 }

/-- Default settings with the given base size, spacing fraction and mappings. -/
def settingsWith (baseSize baseSpacing : F32) (mappings : List (InputMapping F32)) :
    BrushSettings F32 :=
  { BrushSettings.default with
    baseSize := baseSize, baseSpacing := baseSpacing, mappings := mappings }

/-- A sample at `(x, y)` with the given pressure and timestamp, other fields default. -/
def samplePoint (x y pressure : F32) (timestamp : Nat) : InputPoint F32 :=
  { InputPoint.default with x := x, y := y, pressure := pressure, timestamp := timestamp }

/-- Two constant mappings onto `Size`, with outputs 0.3 and 1.4. -/
def twoSizeMappings : List (InputMapping F32) :=
  [constantMapping BrushProperty.Size 0.3, constantMapping BrushProperty.Size 1.4]

/-- Three constant mappings onto `Size`, with outputs 0.1, 0.7 and 3. -/
def threeSizeMappings : List (InputMapping F32) :=
  [constantMapping BrushProperty.Size 0.1, constantMapping BrushProperty.Size 0.7,
   constantMapping BrushProperty.Size 3.0]

/-- Five constant mappings onto `Opacity`, with outputs 2^100, 2^100, 2^-100, 2^-100
and 0.5 (exact product 0.5). -/
def overflowMappings : List (InputMapping F32) :=
  [constantMapping BrushProperty.Opacity (F32.fin (2 ^ 249)),
   constantMapping BrushProperty.Opacity (F32.fin (2 ^ 249)),
   constantMapping BrushProperty.Opacity (F32.fin (2 ^ 49)),
   constantMapping BrushProperty.Opacity (F32.fin (2 ^ 49)),
   constantMapping BrushProperty.Opacity 0.5]

/-- Constant mappings onto several targets, two of them onto `Size`. -/
def mixedMappings : List (InputMapping F32) :=
  [constantMapping BrushProperty.Size 0.3, constantMapping BrushProperty.Opacity 0.5,
   constantMapping BrushProperty.Size 1.4, constantMapping BrushProperty.Hardness 0.7,
   constantMapping BrushProperty.Rotation 10.0]

/-- The mappings of `mixedMappings` in another order that keeps, for each target, the
order of its mappings. -/
def mixedMappingsShuffled : List (InputMapping F32) :=
  [constantMapping BrushProperty.Opacity 0.5, constantMapping BrushProperty.Size 0.3,
   constantMapping BrushProperty.Rotation 10.0, constantMapping BrushProperty.Size 1.4,
   constantMapping BrushProperty.Hardness 0.7]

/-- The state after `setBrushSettings(settings); beginStroke();` and a first sample. -/
def strokeAfterFirst (settings : BrushSettings F32) (first : InputPoint F32) : BrushEngine F32 :=
  { beginStroke (setBrushSettings BrushEngine.new settings) with m_lastInput := first }

/-- A `Pressure → Size` mapping with a linear curve, no inversion and strength 1. -/
def linearMapping (lo hi : F32) : InputMapping F32 :=
  { source := InputSource.Pressure, target := BrushProperty.Size, minOutput := lo
    maxOutput := hi, strength := 1.0, curve := CurveType.Linear, inverted := false }

/-- A dab at `x = 1000` with scatter 0.05 and size 0.1, other fields default. -/
def scatterDab : BrushDab F32 :=
  { BrushDab.default with x := 1000.0, size := 0.1, scatter := 0.05 }

/-- A random source whose draws are all -1. -/
def minusOneDraws : RandomSource F32 :=
  { inputDraws := fun _ => -1.0, inputPos := 0, scatterDraws := fun _ => -1.0, scatterPos := 0 }

/-- The clamped `t` of the loop iteration with index `k` (counted from 0) of a call that
enters the loop with the accumulator `acc0`. -/
def loopT (distance spacing acc0 : F32) (k : Nat) : F32 :=
  F32.fmax 0.0 (F32.fmin 1.0 (subIter spacing (k + 1) acc0 / distance))

/-- The interpolated sample of the loop iteration with index `k` (counted from 0). -/
def loopSample (lastInput input : InputPoint F32) (distance spacing acc0 : F32) (k : Nat) :
    InputPoint F32 :=
  interpolate lastInput input (input.x - lastInput.x) (input.y - lastInput.y)
    (loopT distance spacing acc0 k)

/-- The fraction `u_k = (k * s - a) / d` of the specification for the `k`-th dab of a call,
with `k` counted from 1, as a rational number. -/
def specFraction (a d s : F32) (k : Nat) : ℚ :=
  ((k : ℚ) * toRat s - toRat a) / toRat d

/-- The settings of the end-to-end scenario: base size 20, spacing fraction 0.1 and the
single mapping Pressure → Size, linear, range `[0.5, 1.5]`, strength 1. -/
def scenarioSettings : BrushSettings F32 :=
  settingsWith 20.0 0.1 [linearMapping 0.5 1.5]

/-- The first sample of the scenario, at `(0, 0)` with pressure 1. -/
def scenarioStart : InputPoint F32 := samplePoint 0.0 0.0 1.0 1

/-- The second sample of the scenario, at `(0, 1000)` with pressure 1. -/
def scenarioEnd : InputPoint F32 := samplePoint 0.0 1000.0 1.0 2

/-- The dab of a loop iteration that leaves an accumulator of `m` whole units of distance:
the sample interpolated at `t = m / distance`, resolved. -/
def unitsDab (e : BrushEngine F32) (input : InputPoint F32) (m : Nat) : BrushDab F32 :=
  (emitDab e.m_settings
    (interpolate e.m_lastInput input (input.x - e.m_lastInput.x)
      (input.y - e.m_lastInput.y)
      (F32.fmax 0.0 (F32.fmin 1.0 (F32.fin ((m : Int) * 2 ^ 149) /
        segmentLength e.m_lastInput input)))) zeroDraws).1

/-- The engine of the scenario after its first sample. -/
def scenarioStroke : BrushEngine F32 := strokeAfterFirst scenarioSettings scenarioStart

/-- An engine in mid-stroke: base size 10, spacing fraction 0.1 (spacing 1), no mappings,
one sample recorded at the origin. -/
def unitStroke : BrushEngine F32 :=
  strokeAfterFirst (settingsWith 10.0 0.1 []) (samplePoint 0.0 0.0 1.0 1)

/-- The sample `(3, 0)` with pressure 1. -/
def unitSample : InputPoint F32 := samplePoint 3.0 0.0 1.0 2

/-- A stroke driven sample by sample: `processInput` for each sample in turn, the outputs
collected per call; `none` when one of the calls does not return within `fuel` loop
iterations. -/
def runStroke (fuel : Nat) : BrushEngine F32 → List (InputPoint F32) → RandomSource F32 →
    Option (List (List (BrushDab F32)) × BrushEngine F32 × RandomSource F32)
  | e, [], rng => some ([], e, rng)
  | e, p :: ps, rng =>
      match processInput fuel e p rng with
      | none => none
      | some r =>
          match runStroke fuel r.2.1 ps r.2.2 with
          | none => none
          | some rest => some (r.1 :: rest.1, rest.2)

/-- The segment lengths that `processInput` computes along the samples, starting from the
recorded sample `p`. -/
def segmentLengths : InputPoint F32 → List (InputPoint F32) → List F32
  | _, [] => []
  | p, q :: qs => segmentLength p q :: segmentLengths q qs

/-- The path length of the samples: the sum of the computed segment lengths. -/
def pathLength (p : InputPoint F32) (ps : List (InputPoint F32)) : ℚ :=
  ((segmentLengths p ps).map toRat).sum

/-- The number of dabs of a list of per-call outputs. -/
def dabCount (outs : List (List (BrushDab F32))) : Nat := (outs.map List.length).sum

/-- First sample of the straight-line example: `(0, 0)`. -/
def lineStart : InputPoint F32 := samplePoint 0.0 0.0 1.0 1

/-- The straight line from `(0, 0)` to `(4, 0)` as one sample. -/
def lineWhole : List (InputPoint F32) := [samplePoint 4.0 0.0 1.0 2]

/-- The same line split at `x = 1, 2, 3`. -/
def lineSplit : List (InputPoint F32) :=
  [samplePoint 1.0 0.0 1.0 2, samplePoint 2.0 0.0 1.0 3, samplePoint 3.0 0.0 1.0 4,
   samplePoint 4.0 0.0 1.0 5]

/-- Settings of the straight-line example: base size 5, spacing fraction 0.08, no
mappings. -/
def lineSettings : BrushSettings F32 := settingsWith 5.0 0.08 []

/-- Base size 4, spacing fraction 1, and size proportional to pressure. -/
def shrinkSettings : BrushSettings F32 := settingsWith 4.0 1.0 [linearMapping 0.0 1.0]

/-- The samples `(0, 0)` and `(3, 0)` at pressure 1 and `(4, 0)` at pressure 1/4. -/
def shrinkSamples : List (InputPoint F32) :=
  [samplePoint 0.0 0.0 1.0 1, samplePoint 3.0 0.0 1.0 2, samplePoint 4.0 0.0 0.25 3]

/-- An engine in mid-stroke with `shrinkSettings`: last sample at `(3, 0)`, remainder 3. -/
def carriedStroke : BrushEngine F32 :=
  { m_settings := shrinkSettings
    m_strokeActive := true
    m_lastInput := samplePoint 3.0 0.0 1.0 2
    m_distanceSinceLastDab := 3.0 }

/-- A sample with pressure 2, tiltX 3 and tiltY -3. -/
def outOfRangeSample : InputPoint F32 :=
  { InputPoint.default with pressure := 2.0, tiltX := 3.0, tiltY := -3.0 }

/-- One constant `Scatter` mapping with output -1. -/
def negativeScatterSettings : BrushSettings F32 :=
  settingsWith 20.0 0.1 [constantMapping BrushProperty.Scatter (-1.0)]

end Binary32

/-- A mapping with strength 0: inverted Quadratic curve into [1, 3]. -/
def zeroStrengthMapping : InputMapping F32 :=
  { source := InputSource.Pressure, target := BrushProperty.Size
    minOutput := 1.0, maxOutput := 3.0, strength := 0.0
    curve := CurveType.Quadratic, inverted := true }

/-- The binary32 number 2^100. -/
def twoPow100 : F32 := F32.fin (2 ^ 249)

/-- The least binary32 number above 1, `1 + 2^-23`. -/
def nextAboveOne : F32 := F32.fin (2 ^ 149 + 2 ^ 126)

/-- The second binary32 number above 1, `1 + 2^-22`. -/
def secondAboveOne : F32 := F32.fin (2 ^ 149 + 2 ^ 127)

/-- A sample with the given pressure and tilts, all other fields default. -/
def tiltSample32 (pressure tiltX tiltY : F32) : InputPoint F32 :=
  { Binary32.InputPoint.default with pressure := pressure, tiltX := tiltX, tiltY := tiltY }

end

/-! ## Properties -/

section Model

variable {K : Type} [LinearOrderedField K]

theorem fmax_eq_max (a b : K) : fmax a b = max a b := by
  unfold fmax; split_ifs with h
  · exact (max_eq_right h.le).symm
  · exact (max_eq_left (not_lt.mp h)).symm

theorem fmin_eq_min (a b : K) : fmin a b = min a b := by
  unfold fmin; split_ifs with h
  · exact (min_eq_right h.le).symm
  · exact (min_eq_left (not_lt.mp h)).symm

theorem emitLoop_stop [FloorRing K] (sqrt : K → K) (settings : BrushSettings K)
    (lastInput input : InputPoint K) (dx dy distance spacing acc : K)
    (dabs : List (BrushDab K)) (rng : RandomSource K)
    (h : ¬ (acc ≥ spacing ∧ spacing > 0)) :
    emitLoop sqrt settings lastInput input dx dy distance spacing acc dabs rng
      = (dabs, acc, rng) := by
  rw [emitLoop, dif_neg h]

theorem emitLoop_step [FloorRing K] (sqrt : K → K) (settings : BrushSettings K)
    (lastInput input : InputPoint K) (dx dy distance spacing acc : K)
    (dabs : List (BrushDab K)) (rng : RandomSource K)
    (h : acc ≥ spacing ∧ spacing > 0) :
    emitLoop sqrt settings lastInput input dx dy distance spacing acc dabs rng
      = emitLoop sqrt settings lastInput input dx dy distance spacing (acc - spacing)
          (dabs ++ [(emitDab sqrt settings
            (interpolate lastInput input dx dy (interpFraction acc spacing distance)) rng).1])
          (emitDab sqrt settings
            (interpolate lastInput input dx dy (interpFraction acc spacing distance)) rng).2 := by
  rw [emitLoop, dif_pos h]

theorem floor_step [FloorRing K] (acc spacing : K) (h1 : spacing ≤ acc) (h2 : 0 < spacing) :
    ⌊acc / spacing⌋₊ = ⌊(acc - spacing) / spacing⌋₊ + 1 := by
  have e1 : (acc - spacing) / spacing = acc / spacing - 1 := by
    field_simp
  have h3 : (1 : K) ≤ acc / spacing := by
    rw [le_div_iff₀ h2]; linarith
  rw [e1, Nat.floor_sub_one]
  have h4 : 1 ≤ ⌊acc / spacing⌋₊ := Nat.le_floor (by simpa using h3)
  omega

theorem emitLoop_closed [FloorRing K] (sqrt : K → K) (settings : BrushSettings K)
    (lastInput input : InputPoint K) (dx dy distance spacing : K) (n : Nat) :
    ∀ (acc : K) (dabs : List (BrushDab K)) (rng : RandomSource K),
      dabCount acc spacing = n →
      emitLoop sqrt settings lastInput input dx dy distance spacing acc dabs rng
        = (dabs ++ (emitAll sqrt settings
              (loopInputs lastInput input dx dy distance spacing acc n) rng).1,
           acc - n * spacing,
           (emitAll sqrt settings
              (loopInputs lastInput input dx dy distance spacing acc n) rng).2) := by
  induction n with
  | zero =>
    intro acc dabs rng hn
    have hstop : ¬ (acc ≥ spacing ∧ spacing > 0) := by
      rintro ⟨h1, h2⟩
      have := floor_step acc spacing h1 h2
      simp [dabCount, h2] at hn
      have h3 : (1 : K) ≤ acc / spacing := by
        rw [le_div_iff₀ h2]; linarith
      linarith
    rw [emitLoop_stop _ _ _ _ _ _ _ _ _ _ _ hstop]
    simp [loopInputs, emitAll]
  | succ n ih =>
    intro acc dabs rng hn
    have h2 : 0 < spacing := by
      by_contra h
      simp [dabCount, h] at hn
    have h1 : spacing ≤ acc := by
      by_contra h
      push_neg at h
      have hlt : acc / spacing < 1 := by
        rw [div_lt_one h2]; exact h
      have : ⌊acc / spacing⌋₊ = 0 := by
        rw [Nat.floor_eq_zero]; exact hlt
      simp [dabCount, h2, this] at hn
    have hn' : dabCount (acc - spacing) spacing = n := by
      have := floor_step acc spacing h1 h2
      simp [dabCount, h2] at hn ⊢
      omega
    rw [emitLoop_step _ _ _ _ _ _ _ _ _ _ _ ⟨h1, h2⟩, ih _ _ _ hn']
    simp only [loopInputs, emitAll, List.append_assoc, List.singleton_append, Nat.cast_succ]
    refine Prod.ext rfl (Prod.ext ?_ rfl)
    simp only
    ring

theorem qsqrt_mul_self (z : ℚ) (hz : 0 ≤ z) : qsqrt (z * z) = z := by
  unfold qsqrt
  rw [Rat.mul_self_num, Rat.mul_self_den, Nat.sqrt_eq]
  obtain ⟨m, hm⟩ := Int.eq_ofNat_of_zero_le (Rat.num_nonneg.mpr hz)
  have h1 : (z.num * z.num).toNat = m * m := by
    rw [hm]; exact Int.toNat_natCast (m * m)
  rw [h1, Nat.sqrt_eq]
  have h2 : ((m : ℕ) : ℚ) = (z.num : ℚ) := by
    rw [hm]; simp
  rw [h2]
  exact Rat.num_div_den z

theorem applyMapping_xy (sqrt : K → K) (input : InputPoint K)
    (st : BrushDab K × RandomSource K) (m : InputMapping K) :
    (applyMapping sqrt input st m).1.x = st.1.x ∧ (applyMapping sqrt input st m).1.y = st.1.y := by
  unfold applyMapping
  cases m.target <;> simp

theorem foldl_applyMapping_xy (sqrt : K → K) (input : InputPoint K)
    (ms : List (InputMapping K)) :
    ∀ st : BrushDab K × RandomSource K,
      (ms.foldl (applyMapping sqrt input) st).1.x = st.1.x ∧
      (ms.foldl (applyMapping sqrt input) st).1.y = st.1.y := by
  induction ms with
  | nil => intro st; simp
  | cons m ms ih =>
    intro st
    rw [List.foldl_cons]
    have h1 := ih (applyMapping sqrt input st m)
    have h2 := applyMapping_xy sqrt input st m
    exact ⟨h1.1.trans h2.1, h1.2.trans h2.2⟩

theorem applyMappings_xy (sqrt : K → K) (settings : BrushSettings K) (input : InputPoint K)
    (dab : BrushDab K) (rng : RandomSource K) :
    (applyMappings sqrt settings input dab rng).1.x = dab.x ∧
    (applyMappings sqrt settings input dab rng).1.y = dab.y := by
  unfold applyMappings clampDab
  exact foldl_applyMapping_xy sqrt input settings.mappings (dab, rng)

theorem clampDab_bounds (dab : BrushDab K) :
    1 / 10 ≤ (clampDab dab).size ∧
    0 ≤ (clampDab dab).opacity ∧ (clampDab dab).opacity ≤ 1 ∧
    0 ≤ (clampDab dab).flow ∧ (clampDab dab).flow ≤ 1 := by
  simp only [clampDab, fmax_eq_max, fmin_eq_min]
  refine ⟨le_max_left _ _, le_max_left _ _, ?_, le_max_left _ _, ?_⟩
  · exact max_le zero_le_one (min_le_left _ _)
  · exact max_le zero_le_one (min_le_left _ _)

theorem applyScatter_fields (dab : BrushDab K) (rng : RandomSource K) :
    (applyScatter dab rng).1.size = dab.size ∧
    (applyScatter dab rng).1.opacity = dab.opacity ∧
    (applyScatter dab rng).1.flow = dab.flow ∧
    (applyScatter dab rng).1.scatter = dab.scatter := by
  unfold applyScatter
  split_ifs <;> simp

theorem applyScatter_of_le (dab : BrushDab K) (rng : RandomSource K) (h : dab.scatter ≤ 0) :
    applyScatter dab rng = (dab, rng) := by
  unfold applyScatter
  rw [if_neg (not_lt.mpr h)]

theorem emitDab_bounds (sqrt : K → K) (settings : BrushSettings K) (input : InputPoint K)
    (rng : RandomSource K) :
    1 / 10 ≤ (emitDab sqrt settings input rng).1.size ∧
    0 ≤ (emitDab sqrt settings input rng).1.opacity ∧
    (emitDab sqrt settings input rng).1.opacity ≤ 1 ∧
    0 ≤ (emitDab sqrt settings input rng).1.flow ∧
    (emitDab sqrt settings input rng).1.flow ≤ 1 := by
  unfold emitDab
  simp only
  obtain ⟨h1, h2, h3, _⟩ := applyScatter_fields
    (applyMappings sqrt settings input (generateDab settings input) rng).1
    (applyMappings sqrt settings input (generateDab settings input) rng).2
  rw [h1, h2, h3]
  exact clampDab_bounds _

theorem emitAll_mem (sqrt : K → K) (settings : BrushSettings K) (ps : List (InputPoint K)) :
    ∀ (rng : RandomSource K) (d : BrushDab K), d ∈ (emitAll sqrt settings ps rng).1 →
      ∃ p rng0, p ∈ ps ∧ d = (emitDab sqrt settings p rng0).1 := by
  induction ps with
  | nil => intro rng d hd; simp [emitAll] at hd
  | cons p ps ih =>
    intro rng d hd
    simp only [emitAll, List.mem_cons] at hd
    rcases hd with hd | hd
    · exact ⟨p, rng, List.mem_cons_self _ _, hd⟩
    · obtain ⟨q, rng0, hq, hd⟩ := ih _ d hd
      exact ⟨q, rng0, List.mem_cons_of_mem _ hq, hd⟩

theorem processInput_idle [FloorRing K] (sqrt : K → K) (e : BrushEngine K) (input : InputPoint K)
    (rng : RandomSource K) (h : e.m_strokeActive = false) :
    processInput sqrt e input rng = ([], e, rng) := by
  simp [processInput, h]

theorem processInput_first [FloorRing K] (sqrt : K → K) (e : BrushEngine K) (input : InputPoint K)
    (rng : RandomSource K) (h : e.m_strokeActive = true) (ht : e.m_lastInput.timestamp = 0) :
    processInput sqrt e input rng =
      ([(emitDab sqrt e.m_settings input rng).1], { e with m_lastInput := input },
        (emitDab sqrt e.m_settings input rng).2) := by
  simp [processInput, h, ht]

theorem processInput_next [FloorRing K] (sqrt : K → K) (e : BrushEngine K) (input : InputPoint K)
    (rng : RandomSource K) (h : e.m_strokeActive = true) (ht : e.m_lastInput.timestamp ≠ 0) :
    processInput sqrt e input rng =
      ((emitAll sqrt e.m_settings
          (loopInputs e.m_lastInput input (input.x - e.m_lastInput.x) (input.y - e.m_lastInput.y)
            (segmentLength sqrt e.m_lastInput input) (spacingFor sqrt e.m_settings input rng)
            (e.m_distanceSinceLastDab + segmentLength sqrt e.m_lastInput input)
            (dabCount (e.m_distanceSinceLastDab + segmentLength sqrt e.m_lastInput input)
              (spacingFor sqrt e.m_settings input rng)))
          (applyMappings sqrt e.m_settings input (generateDab e.m_settings input) rng).2).1,
       { e with
         m_lastInput := input
         m_distanceSinceLastDab :=
           e.m_distanceSinceLastDab + segmentLength sqrt e.m_lastInput input -
             (dabCount (e.m_distanceSinceLastDab + segmentLength sqrt e.m_lastInput input)
               (spacingFor sqrt e.m_settings input rng) : Nat) *
               spacingFor sqrt e.m_settings input rng },
       (emitAll sqrt e.m_settings
          (loopInputs e.m_lastInput input (input.x - e.m_lastInput.x) (input.y - e.m_lastInput.y)
            (segmentLength sqrt e.m_lastInput input) (spacingFor sqrt e.m_settings input rng)
            (e.m_distanceSinceLastDab + segmentLength sqrt e.m_lastInput input)
            (dabCount (e.m_distanceSinceLastDab + segmentLength sqrt e.m_lastInput input)
              (spacingFor sqrt e.m_settings input rng)))
          (applyMappings sqrt e.m_settings input (generateDab e.m_settings input) rng).2).2) := by
  simp only [processInput, h, ht, Bool.not_true, Bool.false_eq_true, if_false]
  rw [emitLoop_closed sqrt e.m_settings e.m_lastInput input _ _ _ _ _ _ _ _ rfl]
  simp [segmentLength, spacingFor]

/-- C1: for every configuration (any base values, any list of mappings with any
`minOutput`, `maxOutput`, `strength`) and every sample, the dab left by `applyMappings`
has `size ≥ 0.1`, `0 ≤ opacity ≤ 1` and `0 ≤ flow ≤ 1`, and so has every dab emitted by
`processInput`, from any engine state. -/
theorem applyMappings_invariants [FloorRing K] (sqrt : K → K) :
    (∀ (settings : BrushSettings K) (input : InputPoint K) (dab : BrushDab K)
        (rng : RandomSource K),
        1 / 10 ≤ (applyMappings sqrt settings input dab rng).1.size ∧
        0 ≤ (applyMappings sqrt settings input dab rng).1.opacity ∧
        (applyMappings sqrt settings input dab rng).1.opacity ≤ 1 ∧
        0 ≤ (applyMappings sqrt settings input dab rng).1.flow ∧
        (applyMappings sqrt settings input dab rng).1.flow ≤ 1) ∧
    (∀ (e : BrushEngine K) (input : InputPoint K) (rng : RandomSource K),
        ∀ d ∈ (processInput sqrt e input rng).1,
          1 / 10 ≤ d.size ∧ 0 ≤ d.opacity ∧ d.opacity ≤ 1 ∧ 0 ≤ d.flow ∧ d.flow ≤ 1) := by
  refine ⟨fun settings input dab rng => clampDab_bounds _, ?_⟩
  intro e input rng d hd
  cases hact : e.m_strokeActive with
  | false =>
    rw [processInput_idle sqrt e input rng hact] at hd
    simp at hd
  | true =>
    by_cases ht : e.m_lastInput.timestamp = 0
    · rw [processInput_first sqrt e input rng hact ht] at hd
      simp only [List.mem_singleton] at hd
      rw [hd]
      exact emitDab_bounds sqrt _ _ _
    · rw [processInput_next sqrt e input rng hact ht] at hd
      obtain ⟨p, rng0, _, hd⟩ := emitAll_mem sqrt _ _ _ _ hd
      rw [hd]
      exact emitDab_bounds sqrt _ _ _

/-- C1 at a concrete input: a constant mapping with output 5 onto `Opacity`; the dab the
first call emits has opacity 1. -/
theorem applyMappings_invariants_witness :
    overdriveDab ∈
      (processInput qsqrt ((BrushEngine.new : BrushEngine ℚ).setBrushSettings
        overdriveSettings).beginStroke (samplePoint 0 0 1 1) zeroDraws).1 ∧
    1 / 10 ≤ overdriveDab.size ∧ 0 ≤ overdriveDab.opacity ∧ overdriveDab.opacity ≤ 1 ∧
    0 ≤ overdriveDab.flow ∧ overdriveDab.flow ≤ 1 := by
  have hmem : overdriveDab ∈
      (processInput qsqrt ((BrushEngine.new : BrushEngine ℚ).setBrushSettings
        overdriveSettings).beginStroke (samplePoint 0 0 1 1) zeroDraws).1 := by
    rw [processInput_first _ _ _ _ rfl rfl]
    simp [emitDab, applyMappings, applyMapping, getInputValue, InputMapping.apply, generateDab,
      clampDab, applyScatter, fmax, fmin, overdriveSettings, linearMapping, samplePoint,
      BrushEngine.beginStroke, BrushEngine.setBrushSettings, BrushSettings.default,
      BrushDab.default, overdriveDab]
    norm_num
  exact ⟨hmem, (applyMappings_invariants qsqrt).2 _ _ _ _ hmem⟩

theorem applyMapping_scatter (sqrt : K → K) (input : InputPoint K)
    (st : BrushDab K × RandomSource K) (m : InputMapping K)
    (h : m.target ≠ BrushProperty.Scatter) :
    (applyMapping sqrt input st m).1.scatter = st.1.scatter := by
  unfold applyMapping
  cases hm : m.target <;> simp_all

theorem foldl_applyMapping_scatter (sqrt : K → K) (input : InputPoint K)
    (ms : List (InputMapping K)) (h : ∀ m ∈ ms, m.target ≠ BrushProperty.Scatter) :
    ∀ st : BrushDab K × RandomSource K,
      (ms.foldl (applyMapping sqrt input) st).1.scatter = st.1.scatter := by
  induction ms with
  | nil => intro st; simp
  | cons m ms ih =>
    intro st
    rw [List.foldl_cons, ih (fun m' hm' => h m' (List.mem_cons_of_mem _ hm'))]
    exact applyMapping_scatter sqrt input st m (h m (List.mem_cons_self _ _))

theorem applyMappings_scatter (sqrt : K → K) (settings : BrushSettings K) (input : InputPoint K)
    (dab : BrushDab K) (rng : RandomSource K)
    (h : ∀ m ∈ settings.mappings, m.target ≠ BrushProperty.Scatter) :
    (applyMappings sqrt settings input dab rng).1.scatter = dab.scatter := by
  unfold applyMappings clampDab
  exact foldl_applyMapping_scatter sqrt input settings.mappings h (dab, rng)

theorem emitDab_scatter (sqrt : K → K) (settings : BrushSettings K) (input : InputPoint K)
    (rng : RandomSource K) :
    (emitDab sqrt settings input rng).1.scatter =
      (applyMappings sqrt settings input (generateDab settings input) rng).1.scatter := by
  unfold emitDab
  exact (applyScatter_fields _ _).2.2.2

theorem emitDab_xy_of_scatter_le (sqrt : K → K) (settings : BrushSettings K)
    (input : InputPoint K) (rng : RandomSource K)
    (h : (emitDab sqrt settings input rng).1.scatter ≤ 0) :
    (emitDab sqrt settings input rng).1.x = input.x ∧
    (emitDab sqrt settings input rng).1.y = input.y := by
  rw [emitDab_scatter] at h
  unfold emitDab
  simp only
  rw [applyScatter_of_le _ _ h]
  exact applyMappings_xy sqrt settings input (generateDab settings input) rng

theorem emitDab_scatter_of_no_mapping (sqrt : K → K) (settings : BrushSettings K)
    (input : InputPoint K) (rng : RandomSource K)
    (h : ∀ m ∈ settings.mappings, m.target ≠ BrushProperty.Scatter) :
    (emitDab sqrt settings input rng).1.scatter = 0 := by
  rw [emitDab_scatter, applyMappings_scatter sqrt settings input _ rng h]
  rfl

/-- C4 fails as stated: with a constant `Scatter` mapping of output 1 and scatter draws
equal to 1, the first call after `beginStroke` for the sample at `(0, 0)` returns one dab
at `(10, 10)`. -/
theorem first_dab_displaced_by_scatter :
    ∃ d : BrushDab ℚ,
      (processInput qsqrt ((BrushEngine.new : BrushEngine ℚ).setBrushSettings
        scatterSettings).beginStroke (samplePoint 0 0 1 1) unitDraws).1 = [d] ∧
      d.x = 10 ∧ d.y = 10 ∧ (samplePoint 0 0 1 1 : InputPoint ℚ).x = 0 ∧
      (samplePoint 0 0 1 1 : InputPoint ℚ).y = 0 := by
  rw [processInput_first _ _ _ _ rfl rfl]
  refine ⟨_, rfl, ?_, ?_, rfl, rfl⟩ <;>
  · simp [emitDab, applyMappings, applyMapping, getInputValue, InputMapping.apply, generateDab,
      clampDab, applyScatter, fmax, fmin, scatterSettings, linearMapping, samplePoint,
      BrushEngine.beginStroke, BrushEngine.setBrushSettings, BrushSettings.default,
      BrushDab.default, unitDraws]
    norm_num

/-- C4, amended: for every configuration and every sample, the first `processInput` call
after `beginStroke` returns exactly one dab, and that dab lies at the sample's raw `(x, y)`
whenever its resolved scatter is not positive, in particular whenever no mapping targets
`Scatter`. -/
theorem first_call_single_dab [FloorRing K] (sqrt : K → K) (e : BrushEngine K)
    (input : InputPoint K) (rng : RandomSource K) :
    ∃ d : BrushDab K,
      (processInput sqrt e.beginStroke input rng).1 = [d] ∧
      (d.scatter ≤ 0 → d.x = input.x ∧ d.y = input.y) ∧
      ((∀ m ∈ e.m_settings.mappings, m.target ≠ BrushProperty.Scatter) →
        d.x = input.x ∧ d.y = input.y) := by
  rw [processInput_first sqrt e.beginStroke input rng rfl rfl]
  refine ⟨_, rfl, fun h => emitDab_xy_of_scatter_le sqrt _ input rng h, fun h => ?_⟩
  apply emitDab_xy_of_scatter_le sqrt _ input rng
  exact le_of_eq (emitDab_scatter_of_no_mapping sqrt _ input rng h)

/-- C4 amended, at a concrete input: default settings, sample at `(3, 4)`. -/
theorem first_call_single_dab_witness :
    ∃ d : BrushDab ℚ,
      (processInput qsqrt (BrushEngine.new : BrushEngine ℚ).beginStroke
        (samplePoint 3 4 1 1) zeroDraws).1 = [d] ∧ d.x = 3 ∧ d.y = 4 := by
  obtain ⟨d, h1, _, h3⟩ := first_call_single_dab qsqrt (BrushEngine.new : BrushEngine ℚ)
    (samplePoint 3 4 1 1) zeroDraws
  exact ⟨d, h1, h3 (by simp [BrushEngine.new, BrushSettings.default])⟩

/-- C5, the code at the failing input: after `beginStroke` and a first sample with
timestamp 0 at `(0, 0)`, the second call (sample at `(100, 0)`, default settings, spacing
3) again takes the first-sample path: it returns the single dab at `(100, 0)` and leaves
the accumulator at 0. -/
theorem second_call_after_zero_timestamp :
    (processInput qsqrt
      (processInput qsqrt (BrushEngine.new : BrushEngine ℚ).beginStroke
        (samplePoint 0 0 1 0) zeroDraws).2.1
      (samplePoint 100 0 1 5) zeroDraws).1.map (fun d => (d.x, d.y)) = [(100, 0)] ∧
    (processInput qsqrt
      (processInput qsqrt (BrushEngine.new : BrushEngine ℚ).beginStroke
        (samplePoint 0 0 1 0) zeroDraws).2.1
      (samplePoint 100 0 1 5) zeroDraws).2.1.m_distanceSinceLastDab = 0 := by
  rw [processInput_first qsqrt (BrushEngine.new : BrushEngine ℚ).beginStroke _ _ rfl rfl]
  rw [processInput_first _ _ _ _ rfl rfl]
  simp [emitDab, applyMappings, applyMapping, getInputValue, InputMapping.apply, generateDab,
      clampDab, applyScatter, fmax, fmin, samplePoint, BrushEngine.new,
      BrushEngine.beginStroke, BrushEngine.setBrushSettings, BrushSettings.default,
      BrushDab.default, zeroDraws]

/-- C6: a freshly constructed engine is idle, so is every engine after `endStroke`, and
on an idle engine `processInput` returns the empty sequence and leaves the engine state
(and the random source) unchanged, for every sample. -/
theorem processInput_idle_noop [FloorRing K] (sqrt : K → K) :
    (BrushEngine.new : BrushEngine K).m_strokeActive = false ∧
    (∀ e : BrushEngine K, e.endStroke.m_strokeActive = false) ∧
    (∀ (e : BrushEngine K) (input : InputPoint K) (rng : RandomSource K),
      e.m_strokeActive = false → processInput sqrt e input rng = ([], e, rng)) :=
  ⟨rfl, fun _ => rfl, fun e input rng h => processInput_idle sqrt e input rng h⟩

/-- C6 at a concrete input: the freshly constructed engine. -/
theorem processInput_idle_noop_witness :
    processInput qsqrt (BrushEngine.new : BrushEngine ℚ) (samplePoint 3 4 1 1) zeroDraws
      = ([], BrushEngine.new, zeroDraws) :=
  (processInput_idle_noop qsqrt).2.2 BrushEngine.new (samplePoint 3 4 1 1) zeroDraws rfl

/-- C7: for every engine state, `endStroke` then `beginStroke` gives an active state
with accumulator 0, no last sample (the default `InputPoint`, timestamp 0) and the same
settings; for every sample sequence the run from it equals the run of a freshly
constructed engine with the same settings after `beginStroke`. -/
theorem endStroke_beginStroke_resets [FloorRing K] (sqrt : K → K) (e : BrushEngine K) :
    e.endStroke.beginStroke.m_strokeActive = true ∧
    e.endStroke.beginStroke.m_distanceSinceLastDab = 0 ∧
    e.endStroke.beginStroke.m_lastInput = InputPoint.default ∧
    e.endStroke.beginStroke.m_settings = e.m_settings ∧
    (∀ (samples : List (InputPoint K)) (rng : RandomSource K),
      runStroke sqrt e.endStroke.beginStroke samples rng =
        runStroke sqrt ((BrushEngine.new : BrushEngine K).setBrushSettings
          e.m_settings).beginStroke samples rng) :=
  ⟨rfl, rfl, rfl, rfl, fun _ _ => rfl⟩

theorem getInputValue_det (sqrt : K → K) (input : InputPoint K) (source : InputSource)
    (rng rng' : RandomSource K) (h : source ≠ InputSource.Random) :
    (getInputValue sqrt input source rng).2 = rng ∧
    (getInputValue sqrt input source rng).1 = (getInputValue sqrt input source rng').1 := by
  cases source <;> simp_all [getInputValue]

theorem applyMapping_det (sqrt : K → K) (input : InputPoint K) (dab : BrushDab K)
    (rng rng' : RandomSource K) (m : InputMapping K) (h : m.source ≠ InputSource.Random) :
    (applyMapping sqrt input (dab, rng) m).2 = rng ∧
    (applyMapping sqrt input (dab, rng) m).1 = (applyMapping sqrt input (dab, rng') m).1 := by
  obtain ⟨h1, h2⟩ := getInputValue_det sqrt input m.source rng rng' h
  have h3 := (getInputValue_det sqrt input m.source rng' rng' h).1
  unfold applyMapping
  cases m.target <;> simp_all

theorem foldl_applyMapping_det (sqrt : K → K) (input : InputPoint K)
    (ms : List (InputMapping K)) (h : ∀ m ∈ ms, m.source ≠ InputSource.Random) :
    ∀ (dab : BrushDab K) (rng rng' : RandomSource K),
      (ms.foldl (applyMapping sqrt input) (dab, rng)).2 = rng ∧
      (ms.foldl (applyMapping sqrt input) (dab, rng)).1 =
        (ms.foldl (applyMapping sqrt input) (dab, rng')).1 := by
  induction ms with
  | nil => intro dab rng rng'; simp
  | cons m ms ih =>
    intro dab rng rng'
    have hm := h m (List.mem_cons_self _ _)
    have hms : ∀ m' ∈ ms, m'.source ≠ InputSource.Random :=
      fun m' hm' => h m' (List.mem_cons_of_mem _ hm')
    obtain ⟨a1, a2⟩ := applyMapping_det sqrt input dab rng rng' m hm
    have a3 := (applyMapping_det sqrt input dab rng' rng' m hm).1
    rw [List.foldl_cons, List.foldl_cons]
    have e1 : applyMapping sqrt input (dab, rng) m =
        ((applyMapping sqrt input (dab, rng) m).1, rng) := Prod.ext rfl a1
    have e2 : applyMapping sqrt input (dab, rng') m =
        ((applyMapping sqrt input (dab, rng) m).1, rng') := Prod.ext a2.symm a3
    rw [e1, e2]
    exact ih hms _ rng rng'

theorem applyMappings_det (sqrt : K → K) (settings : BrushSettings K) (input : InputPoint K)
    (dab : BrushDab K) (rng rng' : RandomSource K)
    (h : ∀ m ∈ settings.mappings, m.source ≠ InputSource.Random) :
    (applyMappings sqrt settings input dab rng).2 = rng ∧
    (applyMappings sqrt settings input dab rng).1 =
      (applyMappings sqrt settings input dab rng').1 := by
  obtain ⟨h1, h2⟩ := foldl_applyMapping_det sqrt input settings.mappings h dab rng rng'
  unfold applyMappings
  simp only
  exact ⟨h1, by rw [h2]⟩

theorem emitDab_det (sqrt : K → K) (settings : BrushSettings K) (input : InputPoint K)
    (rng rng' : RandomSource K)
    (hdet : ∀ m ∈ settings.mappings, m.source ≠ InputSource.Random)
    (hsc : ∀ m ∈ settings.mappings, m.target ≠ BrushProperty.Scatter) :
    (emitDab sqrt settings input rng).2 = rng ∧
    (emitDab sqrt settings input rng).1 = (emitDab sqrt settings input rng').1 := by
  obtain ⟨h1, h2⟩ := applyMappings_det sqrt settings input (generateDab settings input)
    rng rng' hdet
  have h3 : ∀ r : RandomSource K,
      (applyMappings sqrt settings input (generateDab settings input) r).1.scatter ≤ 0 :=
    fun r => le_of_eq (applyMappings_scatter sqrt settings input _ r hsc)
  unfold emitDab
  simp only
  rw [applyScatter_of_le _ _ (h3 rng), applyScatter_of_le _ _ (h3 rng')]
  exact ⟨h1, h2⟩

theorem emitAll_det (sqrt : K → K) (settings : BrushSettings K)
    (hdet : ∀ m ∈ settings.mappings, m.source ≠ InputSource.Random)
    (hsc : ∀ m ∈ settings.mappings, m.target ≠ BrushProperty.Scatter)
    (ps : List (InputPoint K)) (rng : RandomSource K) :
    emitAll sqrt settings ps rng =
      (ps.map (fun p => (emitDab sqrt settings p rng).1), rng) := by
  induction ps with
  | nil => rfl
  | cons p ps ih =>
    simp only [emitAll, List.map_cons]
    rw [(emitDab_det sqrt settings p rng rng hdet hsc).1, ih]

theorem processInput_first_det [FloorRing K] (sqrt : K → K) (e : BrushEngine K)
    (input : InputPoint K) (rng : RandomSource K)
    (hdet : ∀ m ∈ e.m_settings.mappings, m.source ≠ InputSource.Random)
    (hsc : ∀ m ∈ e.m_settings.mappings, m.target ≠ BrushProperty.Scatter)
    (hact : e.m_strokeActive = true) (ht : e.m_lastInput.timestamp = 0) :
    processInput sqrt e input rng =
      ([(emitDab sqrt e.m_settings input rng).1], { e with m_lastInput := input }, rng) := by
  rw [processInput_first sqrt e input rng hact ht,
    (emitDab_det sqrt e.m_settings input rng rng hdet hsc).1]

theorem processInput_next_det [FloorRing K] (sqrt : K → K) (e : BrushEngine K)
    (input : InputPoint K) (rng : RandomSource K)
    (hdet : ∀ m ∈ e.m_settings.mappings, m.source ≠ InputSource.Random)
    (hsc : ∀ m ∈ e.m_settings.mappings, m.target ≠ BrushProperty.Scatter)
    (hact : e.m_strokeActive = true) (ht : e.m_lastInput.timestamp ≠ 0) :
    processInput sqrt e input rng =
      ((loopInputs e.m_lastInput input (input.x - e.m_lastInput.x) (input.y - e.m_lastInput.y)
            (segmentLength sqrt e.m_lastInput input) (spacingFor sqrt e.m_settings input rng)
            (e.m_distanceSinceLastDab + segmentLength sqrt e.m_lastInput input)
            (dabCount (e.m_distanceSinceLastDab + segmentLength sqrt e.m_lastInput input)
              (spacingFor sqrt e.m_settings input rng))).map
          (fun p => (emitDab sqrt e.m_settings p rng).1),
       { e with
         m_lastInput := input
         m_distanceSinceLastDab :=
           e.m_distanceSinceLastDab + segmentLength sqrt e.m_lastInput input -
             (dabCount (e.m_distanceSinceLastDab + segmentLength sqrt e.m_lastInput input)
               (spacingFor sqrt e.m_settings input rng) : Nat) *
               spacingFor sqrt e.m_settings input rng },
       rng) := by
  rw [processInput_next sqrt e input rng hact ht,
    (applyMappings_det sqrt e.m_settings input _ rng rng hdet).1,
    emitAll_det sqrt e.m_settings hdet hsc]

/-- C16: `InputMapping.apply` equals the four-step reference definition for every mapping
and every input: invert if `inverted`; shape (`x` for Linear, `x^2` for Quadratic, `x^3`
for Cubic, `x` for Custom); interpolate into `[minOutput, maxOutput]`; blend toward the
midpoint `(minOutput + maxOutput) / 2` by `strength`. -/
theorem apply_eq_reference (m : InputMapping K) (x : K) :
    m.apply x = applyReference m x := by
  unfold InputMapping.apply applyReference
  cases m.curve <;> cases m.inverted <;> simp <;> ring

/-- C20: `getInputValue` equals the reference normaliser for every sample and source
(Pressure: the pressure; TiltX, TiltY: `(tilt + 1) / 2`; TiltMagnitude:
`min 1 (sqrt (tiltX^2 + tiltY^2))`; Speed: `min 1 (sqrt (vx^2 + vy^2) / 1000)`; Rotation:
`rotation / 360`; Constant: 1; Random: the next draw), and for every deterministic source
it takes no draw and does not depend on the random source. -/
theorem getInputValue_eq_reference (sqrt : K → K) (input : InputPoint K)
    (source : InputSource) (rng : RandomSource K) :
    (getInputValue sqrt input source rng).1 =
      normalizeReference sqrt input source (rng.inputDraws rng.inputPos) ∧
    (source ≠ InputSource.Random →
      (getInputValue sqrt input source rng).2 = rng ∧
      ∀ draw : K, (getInputValue sqrt input source rng).1 =
        normalizeReference sqrt input source draw) := by
  cases source <;>
    simp [getInputValue, normalizeReference, fmin_eq_min, InputPoint.getTiltMagnitude,
      InputPoint.getSpeed, pow_two] <;> ring

/-- C20 at a concrete input: the `Speed` source on `tiltedSample`. -/
theorem getInputValue_eq_reference_witness :
    (getInputValue qsqrt tiltedSample InputSource.Speed zeroDraws).2 = zeroDraws ∧
    ∀ draw : ℚ, (getInputValue qsqrt tiltedSample InputSource.Speed zeroDraws).1 =
      normalizeReference qsqrt tiltedSample InputSource.Speed draw :=
  (getInputValue_eq_reference qsqrt tiltedSample InputSource.Speed zeroDraws).2 (by decide)

theorem applyMapping_hardness (sqrt : K → K) (input : InputPoint K)
    (st : BrushDab K × RandomSource K) (m : InputMapping K)
    (h : m.target ≠ BrushProperty.Hardness) :
    (applyMapping sqrt input st m).1.hardness = st.1.hardness := by
  unfold applyMapping
  cases hm : m.target <;> simp_all

theorem foldl_applyMapping_hardness (sqrt : K → K) (input : InputPoint K)
    (ms : List (InputMapping K)) (h : ∀ m ∈ ms, m.target ≠ BrushProperty.Hardness) :
    ∀ st : BrushDab K × RandomSource K,
      (ms.foldl (applyMapping sqrt input) st).1.hardness = st.1.hardness := by
  induction ms with
  | nil => intro st; simp
  | cons m ms ih =>
    intro st
    rw [List.foldl_cons, ih (fun m' hm' => h m' (List.mem_cons_of_mem _ hm'))]
    exact applyMapping_hardness sqrt input st m (h m (List.mem_cons_self _ _))

/-- C12: for every configuration and sample, when the list of mappings splits as
`pre ++ m :: post` with `m` the last mapping targeting Hardness, the hardness of the
resolved dab is the curve output of `m` clamped to [0, 1], whatever `pre` holds, and lies
in [0, 1]; when no mapping targets Hardness it is `baseHardness`. -/
theorem hardness_last_mapping (sqrt : K → K) (settings : BrushSettings K)
    (input : InputPoint K) (rng : RandomSource K) :
    (∀ (pre post : List (InputMapping K)) (m : InputMapping K),
      settings.mappings = pre ++ m :: post → m.target = BrushProperty.Hardness →
      (∀ m' ∈ post, m'.target ≠ BrushProperty.Hardness) →
      (applyMappings sqrt settings input (generateDab settings input) rng).1.hardness =
        clamp01 (m.apply (getInputValue sqrt input m.source
          (pre.foldl (applyMapping sqrt input) (generateDab settings input, rng)).2).1) ∧
      0 ≤ (applyMappings sqrt settings input (generateDab settings input) rng).1.hardness ∧
      (applyMappings sqrt settings input (generateDab settings input) rng).1.hardness ≤ 1) ∧
    ((∀ m ∈ settings.mappings, m.target ≠ BrushProperty.Hardness) →
      (applyMappings sqrt settings input (generateDab settings input) rng).1.hardness =
        settings.baseHardness) := by
  constructor
  · intro pre post m hsplit hm hpost
    have e : (applyMappings sqrt settings input (generateDab settings input) rng).1.hardness =
        clamp01 (m.apply (getInputValue sqrt input m.source
          (pre.foldl (applyMapping sqrt input) (generateDab settings input, rng)).2).1) := by
      simp only [applyMappings, clampDab, hsplit, List.foldl_append, List.foldl_cons]
      rw [foldl_applyMapping_hardness sqrt input post hpost]
      simp only [applyMapping, hm, clamp01, fmax_eq_max, fmin_eq_min]
    rw [e]
    exact ⟨e ▸ rfl, le_max_left _ _, max_le zero_le_one (min_le_left _ _)⟩
  · intro h
    simp only [applyMappings, clampDab]
    rw [foldl_applyMapping_hardness sqrt input settings.mappings h]
    rfl

/-- C12 at a concrete input: of two constant `Hardness` mappings the second decides; with
default settings the hardness is the base value 1/2. -/
theorem hardness_last_mapping_witness :
    (applyMappings qsqrt twoHardnessSettings tiltedSample
        (generateDab twoHardnessSettings tiltedSample) zeroDraws).1.hardness =
      clamp01 ((linearMapping InputSource.Constant BrushProperty.Hardness 3 3 1 :
        InputMapping ℚ).apply (getInputValue qsqrt tiltedSample InputSource.Constant
          ([linearMapping InputSource.Constant BrushProperty.Hardness (1 / 4) (1 / 4) 1].foldl
            (applyMapping qsqrt tiltedSample)
            (generateDab twoHardnessSettings tiltedSample, zeroDraws)).2).1) ∧
    (applyMappings qsqrt (BrushSettings.default : BrushSettings ℚ) tiltedSample
        (generateDab BrushSettings.default tiltedSample) zeroDraws).1.hardness = 1 / 2 :=
  ⟨((hardness_last_mapping qsqrt twoHardnessSettings tiltedSample zeroDraws).1
      [linearMapping InputSource.Constant BrushProperty.Hardness (1 / 4) (1 / 4) 1] []
      (linearMapping InputSource.Constant BrushProperty.Hardness 3 3 1) rfl rfl
      (by simp)).1,
   (hardness_last_mapping qsqrt (BrushSettings.default : BrushSettings ℚ) tiltedSample
      zeroDraws).2 (by simp [BrushSettings.default])⟩

theorem processInput_mem_emitDab [FloorRing K] (sqrt : K → K) (e : BrushEngine K)
    (input : InputPoint K) (rng : RandomSource K) (d : BrushDab K)
    (hd : d ∈ (processInput sqrt e input rng).1) :
    ∃ p rng0, d = (emitDab sqrt e.m_settings p rng0).1 := by
  cases hact : e.m_strokeActive with
  | false =>
    rw [processInput_idle sqrt e input rng hact] at hd
    simp at hd
  | true =>
    by_cases ht : e.m_lastInput.timestamp = 0
    · rw [processInput_first sqrt e input rng hact ht] at hd
      simp only [List.mem_singleton] at hd
      exact ⟨input, rng, hd⟩
    · rw [processInput_next sqrt e input rng hact ht] at hd
      obtain ⟨p, rng0, _, hd⟩ := emitAll_mem sqrt _ _ _ _ hd
      exact ⟨p, rng0, hd⟩

theorem applyMapping_color (sqrt : K → K) (input : InputPoint K)
    (st : BrushDab K × RandomSource K) (m : InputMapping K)
    (hc : isColorTarget m.target) (hs : m.source ≠ InputSource.Random) :
    applyMapping sqrt input st m = st := by
  have h2 := (getInputValue_det sqrt input m.source st.2 st.2 hs).1
  unfold applyMapping
  rcases hc with h | h | h <;> simp [h, h2]

theorem applyMapping_rgb (sqrt : K → K) (input : InputPoint K)
    (st : BrushDab K × RandomSource K) (m : InputMapping K) :
    (applyMapping sqrt input st m).1.r = st.1.r ∧ (applyMapping sqrt input st m).1.g = st.1.g ∧
    (applyMapping sqrt input st m).1.b = st.1.b := by
  unfold applyMapping
  cases m.target <;> simp

theorem foldl_applyMapping_rgb (sqrt : K → K) (input : InputPoint K)
    (ms : List (InputMapping K)) :
    ∀ st : BrushDab K × RandomSource K,
      (ms.foldl (applyMapping sqrt input) st).1.r = st.1.r ∧
      (ms.foldl (applyMapping sqrt input) st).1.g = st.1.g ∧
      (ms.foldl (applyMapping sqrt input) st).1.b = st.1.b := by
  induction ms with
  | nil => intro st; simp
  | cons m ms ih =>
    intro st
    rw [List.foldl_cons]
    obtain ⟨a1, a2, a3⟩ := ih (applyMapping sqrt input st m)
    obtain ⟨b1, b2, b3⟩ := applyMapping_rgb sqrt input st m
    exact ⟨a1.trans b1, a2.trans b2, a3.trans b3⟩

theorem emitDab_rgb (sqrt : K → K) (settings : BrushSettings K) (input : InputPoint K)
    (rng : RandomSource K) :
    (emitDab sqrt settings input rng).1.r = settings.colorR ∧
    (emitDab sqrt settings input rng).1.g = settings.colorG ∧
    (emitDab sqrt settings input rng).1.b = settings.colorB := by
  obtain ⟨a1, a2, a3⟩ := foldl_applyMapping_rgb sqrt input settings.mappings
    (generateDab settings input, rng)
  unfold emitDab applyScatter applyMappings clampDab
  simp only
  split_ifs <;> exact ⟨a1, a2, a3⟩

theorem emitDab_without_color (sqrt : K → K) (settings : BrushSettings K)
    (pre post : List (InputMapping K)) (m : InputMapping K)
    (hc : isColorTarget m.target) (hs : m.source ≠ InputSource.Random)
    (input : InputPoint K) (rng : RandomSource K) :
    emitDab sqrt (withMappings settings (pre ++ m :: post)) input rng =
      emitDab sqrt (withMappings settings (pre ++ post)) input rng := by
  simp only [emitDab, applyMappings, withMappings, generateDab, List.foldl_append,
    List.foldl_cons]
  rw [applyMapping_color sqrt input _ m hc hs]

theorem emitAll_congr (sqrt : K → K) (s1 s2 : BrushSettings K)
    (h : ∀ p rng, emitDab sqrt s1 p rng = emitDab sqrt s2 p rng)
    (ps : List (InputPoint K)) :
    ∀ rng : RandomSource K, emitAll sqrt s1 ps rng = emitAll sqrt s2 ps rng := by
  induction ps with
  | nil => intro rng; rfl
  | cons p ps ih =>
    intro rng
    simp only [emitAll]
    rw [h p rng, ih]

theorem applyMappings_without_color (sqrt : K → K) (settings : BrushSettings K)
    (pre post : List (InputMapping K)) (m : InputMapping K)
    (hc : isColorTarget m.target) (hs : m.source ≠ InputSource.Random)
    (input : InputPoint K) (rng : RandomSource K) :
    applyMappings sqrt (withMappings settings (pre ++ m :: post)) input
        (generateDab (withMappings settings (pre ++ m :: post)) input) rng =
      applyMappings sqrt (withMappings settings (pre ++ post)) input
        (generateDab (withMappings settings (pre ++ post)) input) rng := by
  simp only [applyMappings, withMappings, generateDab, List.foldl_append, List.foldl_cons]
  rw [applyMapping_color sqrt input _ m hc hs]

/-- C14: a mapping with a colour target (ColorH, ColorS, ColorV) and a deterministic
source is a no-op: with or without it, anywhere in the list, `emitDab` resolves the same
dab (and leaves the same random source) and `processInput` returns the same dabs; and every
dab emitted by `processInput` carries the base colour of the configuration. -/
theorem color_mapping_noop [FloorRing K] (sqrt : K → K) :
    (∀ (settings : BrushSettings K) (pre post : List (InputMapping K)) (m : InputMapping K)
        (input : InputPoint K) (rng : RandomSource K),
        isColorTarget m.target → m.source ≠ InputSource.Random →
        emitDab sqrt (withMappings settings (pre ++ m :: post)) input rng =
          emitDab sqrt (withMappings settings (pre ++ post)) input rng) ∧
    (∀ (e : BrushEngine K) (pre post : List (InputMapping K)) (m : InputMapping K)
        (input : InputPoint K) (rng : RandomSource K),
        isColorTarget m.target → m.source ≠ InputSource.Random →
        (processInput sqrt (e.setBrushSettings (withMappings e.m_settings (pre ++ m :: post)))
            input rng).1 =
          (processInput sqrt (e.setBrushSettings (withMappings e.m_settings (pre ++ post)))
            input rng).1) ∧
    (∀ (e : BrushEngine K) (input : InputPoint K) (rng : RandomSource K),
        ∀ d ∈ (processInput sqrt e input rng).1,
          d.r = e.m_settings.colorR ∧ d.g = e.m_settings.colorG ∧ d.b = e.m_settings.colorB) := by
  refine ⟨fun settings pre post m input rng hc hs =>
    emitDab_without_color sqrt settings pre post m hc hs input rng, ?_, ?_⟩
  · intro e pre post m input rng hc hs
    have hE := fun p r => emitDab_without_color sqrt e.m_settings pre post m hc hs p r
    have hA := applyMappings_without_color sqrt e.m_settings pre post m hc hs input rng
    cases hact : e.m_strokeActive with
    | false =>
      rw [processInput_idle sqrt _ input rng (by simpa [BrushEngine.setBrushSettings] using hact),
        processInput_idle sqrt _ input rng (by simpa [BrushEngine.setBrushSettings] using hact)]
    | true =>
      by_cases ht : e.m_lastInput.timestamp = 0
      · rw [processInput_first sqrt _ input rng
            (by simpa [BrushEngine.setBrushSettings] using hact)
            (by simpa [BrushEngine.setBrushSettings] using ht),
          processInput_first sqrt _ input rng
            (by simpa [BrushEngine.setBrushSettings] using hact)
            (by simpa [BrushEngine.setBrushSettings] using ht)]
        simp only [BrushEngine.setBrushSettings, hE]
      · rw [processInput_next sqrt _ input rng
            (by simpa [BrushEngine.setBrushSettings] using hact)
            (by simpa [BrushEngine.setBrushSettings] using ht),
          processInput_next sqrt _ input rng
            (by simpa [BrushEngine.setBrushSettings] using hact)
            (by simpa [BrushEngine.setBrushSettings] using ht)]
        simp only [BrushEngine.setBrushSettings, spacingFor, hA]
        rw [emitAll_congr sqrt _ _ hE]
        rfl
  · intro e input rng d hd
    obtain ⟨p, rng0, rfl⟩ := processInput_mem_emitDab sqrt e input rng d hd
    exact emitDab_rgb sqrt e.m_settings p rng0

/-- C14 at a concrete input: one `Pressure` to `ColorH` mapping in `colorSettings`. -/
theorem color_mapping_noop_witness :
    emitDab qsqrt (withMappings colorSettings
        ([] ++ linearMapping InputSource.Pressure BrushProperty.ColorH 0 1 1 :: []))
        tiltedSample zeroDraws =
      emitDab qsqrt (withMappings colorSettings ([] ++ [])) tiltedSample zeroDraws :=
  (color_mapping_noop qsqrt).1 colorSettings [] []
    (linearMapping InputSource.Pressure BrushProperty.ColorH 0 1 1) tiltedSample zeroDraws
    (Or.inl rfl) (by decide)

theorem qsqrt_nonneg (q : ℚ) : 0 ≤ qsqrt q := by
  unfold qsqrt
  positivity

/-- C26, the code at the failing input: the raw pressure 8193 (an `unsigned int`) takes
the last branch and `normalizePressure` returns `8193 / 8192`, which is above 1. -/
theorem normalizePressure_above_one :
    (normalizePressure 8193 : ℚ) = 8193 / 8192 ∧ (1 : ℚ) < normalizePressure 8193 ∧
    8193 < 2 ^ 32 := by
  norm_num [normalizePressure]

theorem getSpeed_movingSample (sqrt : K → K) (vx vy : K) :
    (movingSample vx vy).getSpeed sqrt = sqrt (vx * vx + vy * vy) := rfl

theorem createSplatter_spacing (sqrt : K → K) (p : InputPoint K) (rng : RandomSource K) :
    spacingFor sqrt createSplatter p rng =
      fmax (1 / 10) (15 * ((3 / 10 + 18 / 10) * (1 / 2) +
        (3 / 10 + (18 / 10 - 3 / 10) * (p.pressure * p.pressure) -
          (3 / 10 + 18 / 10) * (1 / 2)) * 1)) * (3 / 10) := by
  simp only [spacingFor, calculateSpacing, applyMappings, createSplatter, List.foldl_cons,
    List.foldl_nil, applyMapping, clampDab, generateDab, getInputValue, InputMapping.apply,
    InputMapping.default, BrushSettings.default, BrushDab.default, Bool.false_eq_true,
    if_false]

theorem setupDefaultBrush_spacing (sqrt : K → K) (p : InputPoint K) (rng : RandomSource K) :
    spacingFor sqrt setupDefaultBrush p rng =
      fmax (1 / 10) (30 * ((3 / 10 + 15 / 10) * (1 / 2) +
        (3 / 10 + (15 / 10 - 3 / 10) * (p.pressure * p.pressure) -
          (3 / 10 + 15 / 10) * (1 / 2)) * 1)) * (15 / 100) := by
  simp only [spacingFor, calculateSpacing, applyMappings, setupDefaultBrush, List.foldl_cons,
    List.foldl_nil, applyMapping, clampDab, generateDab, getInputValue, InputMapping.apply,
    InputMapping.default, BrushSettings.default, BrushDab.default, Bool.false_eq_true,
    if_false]

/-- C25, the code at the failing input: two samples that differ only in velocity, with
speeds 100 and 500 px/s, get the same spacing from `processInput`, 8.1 in the Splatter
preset and 6.75 in the application's default brush: the Speed to Spacing mapping has no
effect. -/
theorem speed_does_not_change_spacing :
    (movingSample 100 0 : InputPoint ℚ).getSpeed qsqrt = 100 ∧
    (movingSample 300 400 : InputPoint ℚ).getSpeed qsqrt = 500 ∧
    spacingFor qsqrt createSplatter (movingSample 100 0) zeroDraws = 81 / 10 ∧
    spacingFor qsqrt createSplatter (movingSample 300 400) zeroDraws = 81 / 10 ∧
    spacingFor qsqrt setupDefaultBrush (movingSample 100 0) zeroDraws = 27 / 4 ∧
    spacingFor qsqrt setupDefaultBrush (movingSample 300 400) zeroDraws = 27 / 4 := by
  refine ⟨?_, ?_, ?_, ?_, ?_, ?_⟩
  · have h : (100 : ℚ) * 100 + 0 * 0 = 100 * 100 := by norm_num
    rw [getSpeed_movingSample, h]
    exact qsqrt_mul_self 100 (by norm_num)
  · have h : (300 : ℚ) * 300 + 400 * 400 = 500 * 500 := by norm_num
    rw [getSpeed_movingSample, h]
    exact qsqrt_mul_self 500 (by norm_num)
  · rw [createSplatter_spacing]; norm_num [movingSample, fmax]
  · rw [createSplatter_spacing]; norm_num [movingSample, fmax]
  · rw [setupDefaultBrush_spacing]; norm_num [movingSample, fmax]
  · rw [setupDefaultBrush_spacing]; norm_num [movingSample, fmax]

/-- C21: for every sample with pressure in [0, 1], tilts in [-1, 1] and rotation in
[0, 360) (any velocity) and every deterministic source, the value of `getInputValue` lies
in [0, 1]; `sqrt` is taken non-negative on non-negative arguments. -/
theorem getInputValue_in_unit_interval (sqrt : K → K) (hsqrt : ∀ z : K, 0 ≤ z → 0 ≤ sqrt z)
    (input : InputPoint K)
    (hp0 : 0 ≤ input.pressure) (hp1 : input.pressure ≤ 1)
    (hx0 : -1 ≤ input.tiltX) (hx1 : input.tiltX ≤ 1)
    (hy0 : -1 ≤ input.tiltY) (hy1 : input.tiltY ≤ 1)
    (hr0 : 0 ≤ input.rotation) (hr1 : input.rotation < 360)
    (source : InputSource) (hsrc : source ≠ InputSource.Random) (rng : RandomSource K) :
    0 ≤ (getInputValue sqrt input source rng).1 ∧ (getInputValue sqrt input source rng).1 ≤ 1 := by
  have ht : 0 ≤ sqrt (input.tiltX * input.tiltX + input.tiltY * input.tiltY) :=
    hsqrt _ (add_nonneg (mul_self_nonneg _) (mul_self_nonneg _))
  have hv : 0 ≤ sqrt (input.velocityX * input.velocityX + input.velocityY * input.velocityY) :=
    hsqrt _ (add_nonneg (mul_self_nonneg _) (mul_self_nonneg _))
  cases source
  case Random => exact absurd rfl hsrc
  case Pressure => exact ⟨hp0, hp1⟩
  case TiltX => simp only [getInputValue]; constructor <;> linarith
  case TiltY => simp only [getInputValue]; constructor <;> linarith
  case TiltMagnitude =>
    simp only [getInputValue, fmin_eq_min, InputPoint.getTiltMagnitude]
    exact ⟨le_min zero_le_one ht, min_le_left _ _⟩
  case Speed =>
    simp only [getInputValue, fmin_eq_min, InputPoint.getSpeed]
    exact ⟨le_min zero_le_one (div_nonneg hv (by norm_num)), min_le_left _ _⟩
  case Rotation =>
    simp only [getInputValue]
    constructor
    · exact div_nonneg hr0 (by norm_num)
    · rw [div_le_one (by norm_num)]; exact hr1.le
  case Constant => simp [getInputValue]

/-- C21 at a concrete input: the `Speed` source on `tiltedSample`. -/
theorem getInputValue_in_unit_interval_witness :
    0 ≤ (getInputValue qsqrt tiltedSample InputSource.Speed zeroDraws).1 ∧
    (getInputValue qsqrt tiltedSample InputSource.Speed zeroDraws).1 ≤ 1 :=
  getInputValue_in_unit_interval qsqrt (fun z _ => qsqrt_nonneg z) tiltedSample
    (by norm_num [tiltedSample]) (by norm_num [tiltedSample])
    (by norm_num [tiltedSample]) (by norm_num [tiltedSample])
    (by norm_num [tiltedSample]) (by norm_num [tiltedSample])
    (by norm_num [tiltedSample]) (by norm_num [tiltedSample])
    InputSource.Speed (by decide) zeroDraws

theorem processInput_settings [FloorRing K] (sqrt : K → K) (e : BrushEngine K)
    (input : InputPoint K) (rng : RandomSource K) :
    (processInput sqrt e input rng).2.1.m_settings = e.m_settings := by
  unfold processInput
  split_ifs <;> rfl

theorem processInput_indep [FloorRing K] (sqrt : K → K) (e : BrushEngine K)
    (hdet : ∀ m ∈ e.m_settings.mappings, m.source ≠ InputSource.Random)
    (hsc : ∀ m ∈ e.m_settings.mappings, m.target ≠ BrushProperty.Scatter)
    (input : InputPoint K) (rng1 rng2 : RandomSource K) :
    (processInput sqrt e input rng1).1 = (processInput sqrt e input rng2).1 ∧
    (processInput sqrt e input rng1).2.1 = (processInput sqrt e input rng2).2.1 ∧
    (processInput sqrt e input rng1).2.2 = rng1 := by
  cases hact : e.m_strokeActive with
  | false =>
    rw [processInput_idle sqrt e input rng1 hact, processInput_idle sqrt e input rng2 hact]
    exact ⟨rfl, rfl, rfl⟩
  | true =>
    have hsp : spacingFor sqrt e.m_settings input rng1 = spacingFor sqrt e.m_settings input rng2 := by
      unfold spacingFor
      rw [(applyMappings_det sqrt e.m_settings input _ rng1 rng2 hdet).2]
    have hem : (fun p => (emitDab sqrt e.m_settings p rng1).1) =
        (fun p => (emitDab sqrt e.m_settings p rng2).1) :=
      funext fun p => (emitDab_det sqrt e.m_settings p rng1 rng2 hdet hsc).2
    by_cases ht : e.m_lastInput.timestamp = 0
    · rw [processInput_first_det sqrt e input rng1 hdet hsc hact ht,
        processInput_first_det sqrt e input rng2 hdet hsc hact ht]
      exact ⟨by rw [(emitDab_det sqrt e.m_settings input rng1 rng2 hdet hsc).2], rfl, rfl⟩
    · rw [processInput_next_det sqrt e input rng1 hdet hsc hact ht,
        processInput_next_det sqrt e input rng2 hdet hsc hact ht, hsp, hem]
      exact ⟨rfl, rfl, rfl⟩

/-- C30: for every configuration without a mapping of source Random and without a mapping
of target Scatter, every sample sequence and any two random sources, the runs of
`processInput` return the same dabs and leave the same engine state, take no draw, and
every dab has scatter 0 (so `applyScatter` leaves it in place). -/
theorem output_independent_of_draws [FloorRing K] (sqrt : K → K)
    (samples : List (InputPoint K)) :
    ∀ (e : BrushEngine K),
      (∀ m ∈ e.m_settings.mappings, m.source ≠ InputSource.Random) →
      (∀ m ∈ e.m_settings.mappings, m.target ≠ BrushProperty.Scatter) →
      ∀ rng1 rng2 : RandomSource K,
        (runStroke sqrt e samples rng1).1 = (runStroke sqrt e samples rng2).1 ∧
        (runStroke sqrt e samples rng1).2.1 = (runStroke sqrt e samples rng2).2.1 ∧
        (runStroke sqrt e samples rng1).2.2 = rng1 ∧
        (∀ out ∈ (runStroke sqrt e samples rng1).1, ∀ d ∈ out, d.scatter = 0) := by
  induction samples with
  | nil =>
    intro e _ _ rng1 rng2
    simp [runStroke]
  | cons p ps ih =>
    intro e hdet hsc rng1 rng2
    obtain ⟨h1, h2, h3⟩ := processInput_indep sqrt e hdet hsc p rng1 rng2
    have h3' := (processInput_indep sqrt e hdet hsc p rng2 rng2).2.2
    have hs := processInput_settings sqrt e p rng1
    obtain ⟨i1, i2, i3, i4⟩ := ih (processInput sqrt e p rng1).2.1
      (by rw [hs]; exact hdet) (by rw [hs]; exact hsc) rng1 rng2
    simp only [runStroke]
    rw [h3, h3', ← h2, h1]
    refine ⟨by rw [i1], i2, i3, ?_⟩
    intro out hout d hd
    rw [List.mem_cons] at hout
    rcases hout with rfl | hout
    · obtain ⟨q, rng0, rfl⟩ := processInput_mem_emitDab sqrt e p rng2 d hd
      exact emitDab_scatter_of_no_mapping sqrt _ q rng0 hsc
    · exact i4 out hout d hd

/-- C30 at a concrete input: default settings, the stroke `diagonalSamples`, the sources
`zeroDraws` and `unitDraws`. -/
theorem output_independent_of_draws_witness :
    (runStroke qsqrt (BrushEngine.new : BrushEngine ℚ).beginStroke diagonalSamples zeroDraws).1 =
      (runStroke qsqrt (BrushEngine.new : BrushEngine ℚ).beginStroke diagonalSamples unitDraws).1 :=
  (output_independent_of_draws qsqrt diagonalSamples (BrushEngine.new : BrushEngine ℚ).beginStroke
    (by simp [BrushEngine.new, BrushEngine.beginStroke, BrushSettings.default])
    (by simp [BrushEngine.new, BrushEngine.beginStroke, BrushSettings.default])
    zeroDraws unitDraws).1

theorem getInputValue_same (sqrt : K → K) (input : InputPoint K) (source : InputSource)
    (r1 r2 : RandomSource K) (h : sameDraws r1 r2) :
    (getInputValue sqrt input source r1).1 = (getInputValue sqrt input source r2).1 ∧
    sameDraws (getInputValue sqrt input source r1).2 (getInputValue sqrt input source r2).2 := by
  cases source
  case Random =>
    simp only [getInputValue]
    refine ⟨by simpa using h.1 0, fun i => ?_, h.2⟩
    have := h.1 (1 + i)
    simpa [Nat.add_assoc] using this
  all_goals exact ⟨rfl, h⟩

theorem applyMapping_same (sqrt : K → K) (input : InputPoint K) (dab : BrushDab K)
    (r1 r2 : RandomSource K) (h : sameDraws r1 r2) (m : InputMapping K) :
    (applyMapping sqrt input (dab, r1) m).1 = (applyMapping sqrt input (dab, r2) m).1 ∧
    sameDraws (applyMapping sqrt input (dab, r1) m).2 (applyMapping sqrt input (dab, r2) m).2 := by
  obtain ⟨h1, h2⟩ := getInputValue_same sqrt input m.source r1 r2 h
  unfold applyMapping
  simp only
  rw [h1]
  cases m.target <;> exact ⟨rfl, h2⟩

theorem foldl_applyMapping_same (sqrt : K → K) (input : InputPoint K)
    (ms : List (InputMapping K)) :
    ∀ (dab : BrushDab K) (r1 r2 : RandomSource K), sameDraws r1 r2 →
      (ms.foldl (applyMapping sqrt input) (dab, r1)).1 =
        (ms.foldl (applyMapping sqrt input) (dab, r2)).1 ∧
      sameDraws (ms.foldl (applyMapping sqrt input) (dab, r1)).2
        (ms.foldl (applyMapping sqrt input) (dab, r2)).2 := by
  induction ms with
  | nil => intro dab r1 r2 h; exact ⟨rfl, h⟩
  | cons m ms ih =>
    intro dab r1 r2 h
    obtain ⟨a1, a2⟩ := applyMapping_same sqrt input dab r1 r2 h m
    rw [List.foldl_cons, List.foldl_cons]
    have e1 : applyMapping sqrt input (dab, r1) m =
        ((applyMapping sqrt input (dab, r2) m).1, (applyMapping sqrt input (dab, r1) m).2) :=
      Prod.ext a1 rfl
    have e2 : applyMapping sqrt input (dab, r2) m =
        ((applyMapping sqrt input (dab, r2) m).1, (applyMapping sqrt input (dab, r2) m).2) := rfl
    rw [e1, e2]
    exact ih _ _ _ a2

theorem applyMappings_same (sqrt : K → K) (settings : BrushSettings K) (input : InputPoint K)
    (dab : BrushDab K) (r1 r2 : RandomSource K) (h : sameDraws r1 r2) :
    (applyMappings sqrt settings input dab r1).1 = (applyMappings sqrt settings input dab r2).1 ∧
    sameDraws (applyMappings sqrt settings input dab r1).2
      (applyMappings sqrt settings input dab r2).2 := by
  obtain ⟨a1, a2⟩ := foldl_applyMapping_same sqrt input settings.mappings dab r1 r2 h
  unfold applyMappings
  simp only
  exact ⟨by rw [a1], a2⟩

theorem applyScatter_same (dab : BrushDab K) (r1 r2 : RandomSource K) (h : sameDraws r1 r2) :
    (applyScatter dab r1).1 = (applyScatter dab r2).1 ∧
    sameDraws (applyScatter dab r1).2 (applyScatter dab r2).2 := by
  unfold applyScatter
  split_ifs
  · have h0 := h.2 0
    have h1 := h.2 1
    simp only [Nat.add_zero] at h0
    simp only
    rw [h0, h1]
    refine ⟨rfl, h.1, fun i => ?_⟩
    have := h.2 (2 + i)
    simpa [Nat.add_assoc] using this
  · exact ⟨rfl, h⟩

theorem emitDab_same (sqrt : K → K) (settings : BrushSettings K) (input : InputPoint K)
    (r1 r2 : RandomSource K) (h : sameDraws r1 r2) :
    (emitDab sqrt settings input r1).1 = (emitDab sqrt settings input r2).1 ∧
    sameDraws (emitDab sqrt settings input r1).2 (emitDab sqrt settings input r2).2 := by
  obtain ⟨a1, a2⟩ := applyMappings_same sqrt settings input (generateDab settings input) r1 r2 h
  unfold emitDab
  simp only
  rw [a1]
  exact applyScatter_same _ _ _ a2

theorem emitAll_same (sqrt : K → K) (settings : BrushSettings K) (ps : List (InputPoint K)) :
    ∀ (r1 r2 : RandomSource K), sameDraws r1 r2 →
      (emitAll sqrt settings ps r1).1 = (emitAll sqrt settings ps r2).1 ∧
      sameDraws (emitAll sqrt settings ps r1).2 (emitAll sqrt settings ps r2).2 := by
  induction ps with
  | nil => intro r1 r2 h; exact ⟨rfl, h⟩
  | cons p ps ih =>
    intro r1 r2 h
    obtain ⟨a1, a2⟩ := emitDab_same sqrt settings p r1 r2 h
    obtain ⟨b1, b2⟩ := ih _ _ a2
    simp only [emitAll]
    exact ⟨by rw [a1, b1], b2⟩

theorem processInput_same [FloorRing K] (sqrt : K → K) (e : BrushEngine K)
    (input : InputPoint K) (r1 r2 : RandomSource K) (h : sameDraws r1 r2) :
    (processInput sqrt e input r1).1 = (processInput sqrt e input r2).1 ∧
    (processInput sqrt e input r1).2.1 = (processInput sqrt e input r2).2.1 ∧
    sameDraws (processInput sqrt e input r1).2.2 (processInput sqrt e input r2).2.2 := by
  cases hact : e.m_strokeActive with
  | false =>
    rw [processInput_idle sqrt e input r1 hact, processInput_idle sqrt e input r2 hact]
    exact ⟨rfl, rfl, h⟩
  | true =>
    by_cases ht : e.m_lastInput.timestamp = 0
    · obtain ⟨a1, a2⟩ := emitDab_same sqrt e.m_settings input r1 r2 h
      rw [processInput_first sqrt e input r1 hact ht, processInput_first sqrt e input r2 hact ht]
      exact ⟨by rw [a1], rfl, a2⟩
    · obtain ⟨a1, a2⟩ := applyMappings_same sqrt e.m_settings input
        (generateDab e.m_settings input) r1 r2 h
      have hsp : spacingFor sqrt e.m_settings input r1 = spacingFor sqrt e.m_settings input r2 := by
        unfold spacingFor
        rw [a1]
      rw [processInput_next sqrt e input r1 hact ht, processInput_next sqrt e input r2 hact ht, hsp]
      obtain ⟨b1, b2⟩ := emitAll_same sqrt e.m_settings
        (loopInputs e.m_lastInput input (input.x - e.m_lastInput.x) (input.y - e.m_lastInput.y)
            (segmentLength sqrt e.m_lastInput input) (spacingFor sqrt e.m_settings input r2)
            (e.m_distanceSinceLastDab + segmentLength sqrt e.m_lastInput input)
            (dabCount (e.m_distanceSinceLastDab + segmentLength sqrt e.m_lastInput input)
              (spacingFor sqrt e.m_settings input r2))) _ _ a2
      exact ⟨b1, rfl, b2⟩

/-- C24: with the random source as explicit streams of draws, `processInput` is
deterministic: two runs from the same engine state over the same samples, with random
sources that hold the same upcoming draws, return the same dabs, leave the same engine
state, and leave random sources that again hold the same upcoming draws. -/
theorem processInput_deterministic [FloorRing K] (sqrt : K → K)
    (samples : List (InputPoint K)) :
    ∀ (e : BrushEngine K) (r1 r2 : RandomSource K), sameDraws r1 r2 →
      (runStroke sqrt e samples r1).1 = (runStroke sqrt e samples r2).1 ∧
      (runStroke sqrt e samples r1).2.1 = (runStroke sqrt e samples r2).2.1 ∧
      sameDraws (runStroke sqrt e samples r1).2.2 (runStroke sqrt e samples r2).2.2 := by
  induction samples with
  | nil => intro e r1 r2 h; exact ⟨rfl, rfl, h⟩
  | cons p ps ih =>
    intro e r1 r2 h
    obtain ⟨a1, a2, a3⟩ := processInput_same sqrt e p r1 r2 h
    obtain ⟨b1, b2, b3⟩ := ih (processInput sqrt e p r2).2.1 _ _ a3
    simp only [runStroke]
    rw [a1, a2]
    exact ⟨by rw [b1], b2, b3⟩

/-- C24 at a concrete input: the Splatter preset (Random source, Scatter target), the
stroke `diagonalSamples`, and the same constant streams read from different positions. -/
theorem processInput_deterministic_witness :
    (runStroke qsqrt ((BrushEngine.new : BrushEngine ℚ).setBrushSettings createSplatter).beginStroke
        diagonalSamples unitDraws).1 =
      (runStroke qsqrt ((BrushEngine.new : BrushEngine ℚ).setBrushSettings createSplatter).beginStroke
        diagonalSamples unitDrawsLater).1 :=
  (processInput_deterministic qsqrt diagonalSamples
    ((BrushEngine.new : BrushEngine ℚ).setBrushSettings createSplatter).beginStroke
    unitDraws unitDrawsLater ⟨fun _ => rfl, fun _ => rfl⟩).1

end Model

/-! ## Properties of the binary32 model -/

namespace F32

theorem log2Aux_spec : ∀ (fuel n : Nat), n ≤ fuel → 0 < n →
    2 ^ log2Aux fuel n ≤ n ∧ n < 2 ^ (log2Aux fuel n + 1)
  | 0, n, h, hn => by omega
  | fuel + 1, n, h, hn => by
    unfold log2Aux
    by_cases h2 : n < 2
    · rw [if_pos h2]
      constructor
      · simpa using hn
      · simpa using h2
    · rw [if_neg h2]
      obtain ⟨i1, i2⟩ := log2Aux_spec fuel (n / 2) (by omega) (by omega)
      have e1 : 2 ^ (log2Aux fuel (n / 2) + 1) = 2 * 2 ^ log2Aux fuel (n / 2) := by
        rw [pow_succ]; ring
      have e2 : 2 ^ (log2Aux fuel (n / 2) + 1 + 1) = 4 * 2 ^ log2Aux fuel (n / 2) := by
        rw [pow_succ, pow_succ]; ring
      rw [e1] at i2
      rw [e1, e2]
      generalize 2 ^ log2Aux fuel (n / 2) = p at i1 i2 ⊢
      constructor <;> omega

theorem log2Bits_le {n : Nat} : ∀ (i r : Nat), 2 ^ r ≤ n → 2 ^ log2Bits n i r ≤ n
  | 0, _, h => h
  | i + 1, r, h => by
    unfold log2Bits
    by_cases hc : 2 ^ (r + 2 ^ i) ≤ n
    · rw [if_pos hc]; exact log2Bits_le i _ hc
    · rw [if_neg hc]; exact log2Bits_le i r h

theorem log2Bits_zero : ∀ (i : Nat), log2Bits 0 i 0 = 0
  | 0 => rfl
  | i + 1 => by
    unfold log2Bits
    have hc : ¬ 2 ^ (0 + 2 ^ i) ≤ 0 := by
      have : 0 < 2 ^ (0 + 2 ^ i) := pow_pos (by norm_num) _
      omega
    rw [if_neg hc]; exact log2Bits_zero i

theorem log2_eq (n : Nat) : log2 n = Nat.log 2 n := by
  rcases Nat.eq_zero_or_pos n with h | h
  · subst h
    unfold log2
    rw [log2Bits_zero]
    simp
  · unfold log2
    by_cases hc : n < 2 ^ (log2Bits n 12 0 + 1)
    · rw [if_pos hc]
      have h1 : 2 ^ log2Bits n 12 0 ≤ n := log2Bits_le 12 0 (by simpa using h)
      exact (Nat.log_eq_of_pow_le_of_lt_pow h1 hc).symm
    · rw [if_neg hc]
      obtain ⟨h1, h2⟩ := log2Aux_spec n n le_rfl h
      exact (Nat.log_eq_of_pow_le_of_lt_pow h1 h2).symm

theorem gridExp_mono {a b : Nat} (h : a ≤ b) : gridExp a ≤ gridExp b := by
  unfold gridExp
  rw [log2_eq, log2_eq]
  have := Nat.log_mono_right (b := 2) h
  omega

theorem lt_pow_gridExp (q : Nat) : q < 2 ^ (gridExp q + 24) := by
  unfold gridExp
  rw [log2_eq]
  have h := Nat.lt_pow_succ_log_self (b := 2) (by norm_num) q
  refine lt_of_lt_of_le h (Nat.pow_le_pow_right (by norm_num) ?_)
  omega

theorem pow_gridExp_le {q : Nat} (h : 0 < gridExp q) : 2 ^ (gridExp q + 23) ≤ q := by
  unfold gridExp at h ⊢
  rw [log2_eq] at h ⊢
  have hq : q ≠ 0 := by
    rintro rfl
    simp at h
  have := Nat.pow_log_le_self 2 hq
  have e : Nat.log 2 q - 23 + 23 = Nat.log 2 q := by omega
  rw [e]; exact this

theorem gridExp_eq_zero {q : Nat} (h : q < 2 ^ 24) : gridExp q = 0 := by
  unfold gridExp
  rw [log2_eq]
  rcases Nat.eq_zero_or_pos q with h0 | h0
  · subst h0; simp
  · have := Nat.log_lt_of_lt_pow (b := 2) (Nat.pos_iff_ne_zero.mp h0) h
    omega

/-- The rounded quotient is within half a unit of the exact one. -/
theorem rne_bounds (n : Nat) {d : Nat} (hd : 0 < d) :
    2 * (rne n d * d) ≤ 2 * n + d ∧ 2 * n ≤ 2 * (rne n d * d) + d := by
  have h1 := Nat.div_add_mod n d
  have h2 := Nat.mod_lt n hd
  unfold rne
  generalize n / d = f at *
  generalize n % d = r at *
  have h3 : d * f = f * d := Nat.mul_comm _ _
  rw [h3] at h1
  split_ifs
  · generalize f * d = fd at *; omega
  · rw [Nat.add_mul]; generalize f * d = fd at *; omega
  · generalize f * d = fd at *; omega
  · rw [Nat.add_mul]; generalize f * d = fd at *; omega

theorem rne_ge (n d : Nat) : n / d ≤ rne n d := by
  unfold rne; split_ifs <;> omega

theorem rne_le (n d : Nat) : rne n d ≤ n / d + 1 := by
  unfold rne; split_ifs <;> omega

theorem rne_of_dvd {n d : Nat} (hd : 0 < d) (h : d ∣ n) : rne n d = n / d := by
  unfold rne
  have : n % d = 0 := Nat.mod_eq_zero_of_dvd h
  rw [this]; simp [hd]

theorem rne_mono {n n' : Nat} (d : Nat) (h : n ≤ n') : rne n d ≤ rne n' d := by
  rcases Nat.eq_zero_or_pos d with hd | hd
  · subst hd; simp only [rne, Nat.div_zero, Nat.mod_zero]; split_ifs <;> omega
  have hq : n / d ≤ n' / d := Nat.div_le_div_right h
  rcases Nat.lt_or_ge (n / d) (n' / d) with hlt | hge
  · exact le_trans (rne_le n d) (le_trans hlt (rne_ge n' d))
  · have he : n / d = n' / d := le_antisymm hq hge
    have hr : n % d ≤ n' % d := by
      have h1 := Nat.div_add_mod n d
      have h2 := Nat.div_add_mod n' d
      rw [he] at h1
      omega
    unfold rne
    rw [he]
    split_ifs <;> omega

theorem rne_scale (n d c : Nat) (hc : 0 < c) : rne (n * c) (d * c) = rne n d := by
  unfold rne
  rw [Nat.mul_div_mul_right _ _ hc, Nat.mul_mod_mul_right]
  have e1 : (2 * (n % d * c) < d * c) ↔ (2 * (n % d) < d) := by
    rw [← Nat.mul_assoc]; exact Nat.mul_lt_mul_right hc
  have e2 : (d * c < 2 * (n % d * c)) ↔ (d < 2 * (n % d)) := by
    rw [← Nat.mul_assoc]; exact Nat.mul_lt_mul_right hc
  simp only [e1, e2]

theorem roundNat_def (n d : Nat) :
    roundNat n d = rne n (d * 2 ^ gridExp (n / d)) * 2 ^ gridExp (n / d) := rfl

theorem rne_le_pow (n : Nat) {d : Nat} (hd : 0 < d) :
    rne n (d * 2 ^ gridExp (n / d)) ≤ 2 ^ 24 := by
  have h1 := lt_pow_gridExp (n / d)
  rw [Nat.div_lt_iff_lt_mul hd, pow_add] at h1
  have h2 : n / (d * 2 ^ gridExp (n / d)) < 2 ^ 24 := by
    rw [Nat.div_lt_iff_lt_mul (Nat.mul_pos hd (pow_pos (by norm_num) _))]
    calc n < 2 ^ gridExp (n / d) * 2 ^ 24 * d := h1
      _ = 2 ^ 24 * (d * 2 ^ gridExp (n / d)) := by ring
  have h3 := rne_le n (d * 2 ^ gridExp (n / d))
  omega

theorem pow_le_rne (n : Nat) {d : Nat} (hd : 0 < d) (hg : 0 < gridExp (n / d)) :
    2 ^ 23 ≤ rne n (d * 2 ^ gridExp (n / d)) := by
  have h1 := pow_gridExp_le hg
  rw [Nat.le_div_iff_mul_le hd, pow_add] at h1
  have h2 : 2 ^ 23 ≤ n / (d * 2 ^ gridExp (n / d)) := by
    rw [Nat.le_div_iff_mul_le (Nat.mul_pos hd (pow_pos (by norm_num) _))]
    calc 2 ^ 23 * (d * 2 ^ gridExp (n / d)) = 2 ^ gridExp (n / d) * 2 ^ 23 * d := by ring
      _ ≤ n := h1
  exact le_trans h2 (rne_ge _ _)

/-- Rounding error: at most half a grid step. -/
theorem roundNat_bounds (n : Nat) {d : Nat} (hd : 0 < d) :
    2 * (roundNat n d * d) ≤ 2 * n + d * 2 ^ gridExp (n / d) ∧
    2 * n ≤ 2 * (roundNat n d * d) + d * 2 ^ gridExp (n / d) := by
  have h := rne_bounds n (Nat.mul_pos hd (pow_pos (by norm_num : 0 < 2) (gridExp (n / d))))
  rw [roundNat_def]
  have e : rne n (d * 2 ^ gridExp (n / d)) * 2 ^ gridExp (n / d) * d =
      rne n (d * 2 ^ gridExp (n / d)) * (d * 2 ^ gridExp (n / d)) := by ring
  rw [e]; exact h

theorem gridExp_mul_pow_le {m g : Nat} (hm : m < 2 ^ 24) : gridExp (m * 2 ^ g) ≤ g := by
  rcases Nat.eq_zero_or_pos m with h0 | h0
  · subst h0; simp [gridExp, log2_eq]
  · unfold gridExp
    rw [log2_eq]
    have h1 : m * 2 ^ g < 2 ^ (24 + g) := by
      rw [pow_add]; exact Nat.mul_lt_mul_of_pos_right hm (pow_pos (by norm_num) _)
    have h2 : m * 2 ^ g ≠ 0 := Nat.pos_iff_ne_zero.mp (Nat.mul_pos h0 (pow_pos (by norm_num) _))
    have := Nat.log_lt_of_lt_pow (b := 2) h2 h1
    omega

theorem gridExp_pow (g : Nat) : gridExp (2 ^ 24 * 2 ^ g) = g + 1 := by
  unfold gridExp
  rw [log2_eq, ← pow_add, Nat.log_pow (by norm_num)]
  omega

theorem onGrid_mul_pow {m g : Nat} (hm : m ≤ 2 ^ 24) : onGrid (m * 2 ^ g) := by
  unfold onGrid
  rcases Nat.lt_or_ge m (2 ^ 24) with h | h
  · have hg := gridExp_mul_pow_le (g := g) h
    exact Nat.mod_eq_zero_of_dvd (Dvd.dvd.mul_left (pow_dvd_pow 2 hg) m)
  · have hm' : m = 2 ^ 24 := le_antisymm hm h
    subst hm'
    rw [gridExp_pow]
    apply Nat.mod_eq_zero_of_dvd
    refine ⟨2 ^ 23, ?_⟩
    rw [pow_succ]; ring

theorem roundNat_onGrid (n : Nat) {d : Nat} (hd : 0 < d) : onGrid (roundNat n d) := by
  rw [roundNat_def]
  exact onGrid_mul_pow (rne_le_pow n hd)

theorem roundNat_exact {k : Nat} (hk : onGrid k) {d : Nat} (hd : 0 < d) :
    roundNat (k * d) d = k := by
  rw [roundNat_def, Nat.mul_div_cancel _ hd]
  have hdvd : 2 ^ gridExp k ∣ k := Nat.dvd_of_mod_eq_zero hk
  have hp : 0 < 2 ^ gridExp k := pow_pos (by norm_num) _
  generalize 2 ^ gridExp k = p at hdvd hp ⊢
  obtain ⟨c, hc⟩ := hdvd
  subst hc
  have h1 : d * p ∣ p * c * d := ⟨c, by ring⟩
  rw [rne_of_dvd (Nat.mul_pos hd hp) h1]
  have h2 : p * c * d = c * (d * p) := by ring
  rw [h2, Nat.mul_div_cancel _ (Nat.mul_pos hd hp)]
  ring

theorem roundNat_self {k : Nat} (hk : onGrid k) : roundNat k 1 = k := by
  have := roundNat_exact hk (d := 1) (by norm_num)
  simpa using this

theorem roundNat_zero (d : Nat) : roundNat 0 d = 0 := by
  simp [roundNat_def, rne]

/-- Rounding is monotone. -/
theorem roundNat_mono {n n' d d' : Nat} (hd : 0 < d) (hd' : 0 < d') (h : n * d' ≤ n' * d) :
    roundNat n d ≤ roundNat n' d' := by
  have hq : n / d ≤ n' / d' := by
    rw [Nat.le_div_iff_mul_le hd']
    have h1 : n / d * d ≤ n := Nat.div_mul_le_self n d
    have h2 : n / d * d' * d ≤ n' * d := by
      calc n / d * d' * d = n / d * d * d' := by ring
        _ ≤ n * d' := Nat.mul_le_mul_right _ h1
        _ ≤ n' * d := h
    exact Nat.le_of_mul_le_mul_right h2 hd
  have hg := gridExp_mono hq
  rcases Nat.lt_or_ge (gridExp (n / d)) (gridExp (n' / d')) with hlt | hge
  · have h1 := rne_le_pow n hd
    have h2 := pow_le_rne n' hd' (by omega)
    rw [roundNat_def, roundNat_def]
    calc rne n (d * 2 ^ gridExp (n / d)) * 2 ^ gridExp (n / d)
        ≤ 2 ^ 24 * 2 ^ gridExp (n / d) := Nat.mul_le_mul_right _ h1
      _ = 2 ^ 23 * 2 ^ (gridExp (n / d) + 1) := by rw [pow_succ]; ring
      _ ≤ 2 ^ 23 * 2 ^ gridExp (n' / d') :=
          Nat.mul_le_mul_left _ (Nat.pow_le_pow_right (by norm_num) hlt)
      _ ≤ rne n' (d' * 2 ^ gridExp (n' / d')) * 2 ^ gridExp (n' / d') :=
          Nat.mul_le_mul_right _ h2
  · have he : gridExp (n / d) = gridExp (n' / d') := le_antisymm hg hge
    rw [roundNat_def, roundNat_def, he]
    refine Nat.mul_le_mul_right _ ?_
    have hp : 0 < 2 ^ gridExp (n' / d') := pow_pos (by norm_num) _
    generalize 2 ^ gridExp (n' / d') = p at hp ⊢
    rw [← rne_scale n (d * p) (d' * p) (Nat.mul_pos hd' hp),
      ← rne_scale n' (d' * p) (d * p) (Nat.mul_pos hd hp)]
    have e : d' * p * (d * p) = d * p * (d' * p) := by ring
    rw [e]
    refine rne_mono _ ?_
    calc n * (d' * p) = n * d' * p := by ring
      _ ≤ n' * d * p := Nat.mul_le_mul_right _ h
      _ = n' * (d * p) := by ring

theorem roundNat_le_max {n d : Nat} (hd : 0 < d) (h : n < 33554431 * 2 ^ 252 * d) :
    roundNat n d ≤ 16777215 * 2 ^ 253 := by
  have hq : n / d < 33554431 * 2 ^ 252 := by
    rw [Nat.div_lt_iff_lt_mul hd]; exact h
  have hg : gridExp (n / d) ≤ 253 := by
    unfold gridExp
    rw [log2_eq]
    rcases Nat.eq_zero_or_pos (n / d) with h0 | h0
    · rw [h0]; simp
    · have : n / d < 2 ^ 277 := lt_of_lt_of_le hq (by norm_num)
      have := Nat.log_lt_of_lt_pow (b := 2) (Nat.pos_iff_ne_zero.mp h0) this
      omega
  rw [roundNat_def]
  rcases Nat.lt_or_ge (gridExp (n / d)) 253 with hlt | hge
  · calc rne n (d * 2 ^ gridExp (n / d)) * 2 ^ gridExp (n / d)
        ≤ 2 ^ 24 * 2 ^ gridExp (n / d) := Nat.mul_le_mul_right _ (rne_le_pow n hd)
      _ ≤ 2 ^ 24 * 2 ^ 252 :=
          Nat.mul_le_mul_left _ (Nat.pow_le_pow_right (by norm_num) (by omega))
      _ ≤ 16777215 * 2 ^ 253 := by norm_num
  · have he : gridExp (n / d) = 253 := le_antisymm hg hge
    rw [he]
    refine Nat.mul_le_mul_right _ ?_
    have hb := (rne_bounds n (Nat.mul_pos hd (pow_pos (by norm_num : 0 < 2) 253))).1
    have h2 : 2 * n < 33554431 * (d * 2 ^ 253) := by
      have : 33554431 * (d * 2 ^ 253) = 2 * (33554431 * 2 ^ 252 * d) := by ring
      rw [this]; omega
    have hD : 0 < d * 2 ^ 253 := Nat.mul_pos hd (pow_pos (by norm_num) _)
    generalize d * 2 ^ 253 = D at hb h2 hD
    generalize rne n D = m at hb ⊢
    by_contra hc
    have hm : 16777216 ≤ m := by omega
    have : 16777216 * D ≤ m * D := Nat.mul_le_mul_right _ hm
    omega

theorem round_fin_of_lt {n : Int} {d : Nat} (h : ¬ 33554431 * 2 ^ 252 * d ≤ n.natAbs) :
    round n d = fin (Int.sign n * (roundNat n.natAbs d : Int)) := by
  unfold round; rw [if_neg h]

theorem round_inf_of_le {n : Int} {d : Nat} (h : 33554431 * 2 ^ 252 * d ≤ n.natAbs) :
    round n d = inf (decide (n < 0)) := by
  unfold round; rw [if_pos h]

theorem natAbs_sign_mul (n : Int) (r : Nat) (h : n = 0 → r = 0) :
    (Int.sign n * (r : Int)).natAbs = r := by
  rcases lt_trichotomy n 0 with hn | hn | hn
  · rw [Int.sign_eq_neg_one_of_neg hn]; simp
  · subst hn; simp [h rfl]
  · rw [Int.sign_eq_one_of_pos hn]; simp

theorem round_isBinary32 (n : Int) {d : Nat} (hd : 0 < d) : IsBinary32 (round n d) := by
  by_cases h : 33554431 * 2 ^ 252 * d ≤ n.natAbs
  · rw [round_inf_of_le h]; trivial
  · rw [round_fin_of_lt h]
    show _ ∧ _
    have e : (Int.sign n * (roundNat n.natAbs d : Int)).natAbs = roundNat n.natAbs d := by
      apply natAbs_sign_mul
      intro h0; subst h0; simp [roundNat_zero]
    rw [e]
    exact ⟨roundNat_le_max hd (by omega), roundNat_onGrid _ hd⟩

theorem round_zero {d : Nat} (h : 0 < d) : round 0 d = fin 0 := by
  rw [round_fin_of_lt (by simp; positivity)]; simp

/-- A binary32 number is not changed by rounding. -/
theorem round_exact {k : Int} (hk : IsBinary32 (fin k)) {d : Nat} (hd : 0 < d) :
    round (k * d) d = fin k := by
  obtain ⟨h1, h2⟩ := hk
  have e1 : (k * (d : Int)).natAbs = k.natAbs * d := by
    rw [Int.natAbs_mul]; simp
  have hlt : ¬ 33554431 * 2 ^ 252 * d ≤ (k * (d : Int)).natAbs := by
    rw [e1, not_le]
    refine Nat.mul_lt_mul_of_pos_right ?_ hd
    refine lt_of_le_of_lt h1 (by norm_num)
  rw [round_fin_of_lt hlt, e1, roundNat_exact h2 hd]
  have hdz : (0 : Int) < d := by exact_mod_cast hd
  rw [Int.sign_mul, Int.sign_eq_one_of_pos hdz, mul_one, Int.sign_mul_natAbs]

theorem round_neg (n : Int) {d : Nat} (hd : 0 < d) : round (-n) d = neg (round n d) := by
  by_cases h : 33554431 * 2 ^ 252 * d ≤ n.natAbs
  · rw [round_inf_of_le h, round_inf_of_le (by simpa using h)]
    have hn : n ≠ 0 := by
      rintro rfl
      simp at h
      omega
    show inf _ = inf _
    congr 1
    rcases lt_or_gt_of_ne hn with h1 | h1
    · simp [h1, le_of_lt h1]
    · simp [h1, le_of_lt h1, not_lt.mpr (le_of_lt h1)]
  · rw [round_fin_of_lt h, round_fin_of_lt (by simpa using h)]
    show fin _ = fin _
    congr 1
    simp

theorem le_fin (a b : Int) : (fin a ≤ fin b) ↔ a ≤ b := by
  show le (fin a) (fin b) = true ↔ _
  simp [le]

theorem lt_fin (a b : Int) : (fin a < fin b) ↔ a < b := by
  show lt (fin a) (fin b) = true ↔ _
  simp [lt]

theorem add_fin (a b : Int) : fin a + fin b = round (a + b) 1 := rfl

theorem sub_fin (a b : Int) : fin a - fin b = round (a - b) 1 := by
  show add (fin a) (neg (fin b)) = _
  simp only [neg, add]
  rw [sub_eq_add_neg]

theorem mul_fin (a b : Int) : fin a * fin b = round (a * b) (2 ^ 149) := rfl

theorem round_self {k : Int} (hk : IsBinary32 (fin k)) : round k 1 = fin k := by
  have := round_exact hk (d := 1) (by norm_num)
  simpa using this

theorem add_zero_of_isBinary32 {x : F32} (hx : IsBinary32 x) : x + fin 0 = x := by
  cases x with
  | fin k => rw [add_fin, add_zero, round_self hx]
  | inf s => rfl
  | nan => rfl

theorem mul_zero_of_finite {x : F32} (hx : x.isFinite = true) : x * fin 0 = fin 0 := by
  cases x with
  | fin k => rw [mul_fin, mul_zero, round_zero (by positivity)]
  | inf s => simp [isFinite] at hx
  | nan => simp [isFinite] at hx

theorem zero_eq : (0 : F32) = fin 0 := by decide!

theorem zero_lit : (0.0 : F32) = fin 0 := by decide!

theorem one_eq : (1 : F32) = fin (2 ^ 149) := by decide!

theorem one_lit : (1.0 : F32) = fin (2 ^ 149) := by decide!

theorem half_lit : (0.5 : F32) = fin (2 ^ 148) := by decide!

theorem two_eq : (2 : F32) = fin (2 ^ 150) := by decide!

theorem add_isBinary32 (x y : F32) : IsBinary32 (x + y) := by
  cases x <;> cases y <;> first
    | exact round_isBinary32 _ (by norm_num)
    | trivial
    | (show IsBinary32 (add _ _); simp only [add]; split_ifs <;> trivial)

theorem neg_isBinary32 {x : F32} (h : IsBinary32 x) : IsBinary32 (neg x) := by
  cases x with
  | fin k => simpa [neg, IsBinary32] using h
  | inf s => trivial
  | nan => trivial

theorem sub_eq_add_neg32 (x y : F32) : x - y = x + neg y := rfl

theorem sub_isBinary32 (x y : F32) : IsBinary32 (x - y) := by
  rw [sub_eq_add_neg32]; exact add_isBinary32 _ _

theorem mul_isBinary32 (x y : F32) : IsBinary32 (x * y) := by
  cases x <;> cases y <;> first
    | exact round_isBinary32 _ (by positivity)
    | trivial
    | (show IsBinary32 (mul _ _); simp only [mul]; split_ifs <;> trivial)

theorem roundNat_scale (n d : Nat) {c : Nat} (hc : 0 < c) :
    roundNat (n * c) (d * c) = roundNat n d := by
  rw [roundNat_def, roundNat_def, Nat.mul_div_mul_right _ _ hc]
  have e : d * c * 2 ^ gridExp (n / d) = d * 2 ^ gridExp (n / d) * c := by ring
  rw [e, rne_scale _ _ _ hc]

theorem round_scale (n : Int) (d : Nat) {c : Nat} (hc : 0 < c) :
    round (n * c) (d * c) = round n d := by
  have e1 : (n * (c : Int)).natAbs = n.natAbs * c := by rw [Int.natAbs_mul]; simp
  have hcz : (0 : Int) < c := by exact_mod_cast hc
  have e2 : (33554431 * 2 ^ 252 * (d * c) ≤ n.natAbs * c) ↔ (33554431 * 2 ^ 252 * d ≤ n.natAbs) := by
    rw [← Nat.mul_assoc]
    exact ⟨fun h => Nat.le_of_mul_le_mul_right h hc, fun h => Nat.mul_le_mul_right _ h⟩
  have e3 : (n * (c : Int) < 0) ↔ (n < 0) := by
    constructor
    · intro h; by_contra h'; push_neg at h'
      have := mul_nonneg h' (le_of_lt hcz); omega
    · intro h; exact mul_neg_of_neg_of_pos h hcz
  unfold round
  rw [e1]
  simp only [e2, e3, roundNat_scale _ _ hc, Int.sign_mul, Int.sign_eq_one_of_pos hcz, mul_one]

theorem mul_half_eq_div_two (x : F32) : x * 0.5 = x / 2 := by
  rw [half_lit, two_eq]
  cases x with
  | fin s =>
    show round (s * 2 ^ 148) (2 ^ 149) = div (fin s) (fin (2 ^ 150))
    simp only [div]
    rw [if_neg (by norm_num), if_neg (by norm_num)]
    have h := round_scale (s * 2 ^ 148) (2 ^ 149) (c := 2) (by norm_num)
    have e1 : s * 2 ^ 148 * ((2 : Nat) : Int) = s * 2 ^ 149 := by push_cast; ring
    have e2 : (2 : Int) ^ 150 = ((2 ^ 149 * 2 : Nat) : Int) := by norm_num
    rw [e1] at h
    rw [← h, e2, Int.natAbs_ofNat]
  | inf s => 
    show mul (inf s) (fin (2 ^ 148)) = div (inf s) (fin (2 ^ 150))
    simp [mul, div]
  | nan => rfl

theorem le_def (a b : F32) : (a ≤ b) ↔ le a b = true := Iff.rfl

theorem lt_def (a b : F32) : (a < b) ↔ lt a b = true := Iff.rfl

theorem not_le_of_lt32 {a b : F32} (h : a < b) : ¬ b ≤ a := by
  rw [lt_def] at h
  rw [le_def]
  cases a <;> cases b <;> simp_all [lt, le]

theorem le_neg_neg (x y : F32) : le (neg x) (neg y) = le y x := by
  cases x <;> cases y <;> simp [neg, le, Bool.or_comm]

theorem round_ofNat {a d : Nat} (h : ¬ 33554431 * 2 ^ 252 * d ≤ a) :
    round (a : Int) d = fin (roundNat a d : Int) := by
  rw [round_fin_of_lt (by simpa using h)]
  congr 1
  rcases Nat.eq_zero_or_pos a with h0 | h0
  · subst h0; simp [roundNat_zero]
  · have : (0 : Int) < a := by exact_mod_cast h0
    rw [Int.sign_eq_one_of_pos this]; simp

theorem round_mono_nat {a a' d d' : Nat} (hd : 0 < d) (hd' : 0 < d') (h : a * d' ≤ a' * d) :
    round (a : Int) d ≤ round (a' : Int) d' := by
  rw [le_def]
  by_cases ho' : 33554431 * 2 ^ 252 * d' ≤ a'
  · rw [round_inf_of_le (n := (a' : Int)) (by simpa using ho')]
    by_cases ho : 33554431 * 2 ^ 252 * d ≤ a
    · rw [round_inf_of_le (n := (a : Int)) (by simpa using ho)]
      simp [le]
    · rw [round_ofNat ho]; simp [le]
  · have ho : ¬ 33554431 * 2 ^ 252 * d ≤ a := by
      intro hc
      apply ho'
      have h1 : 33554431 * 2 ^ 252 * d * d' ≤ a * d' := Nat.mul_le_mul_right _ hc
      have h2 : 33554431 * 2 ^ 252 * d' * d ≤ a' * d := by
        calc 33554431 * 2 ^ 252 * d' * d = 33554431 * 2 ^ 252 * d * d' := by ring
          _ ≤ a * d' := h1
          _ ≤ a' * d := h
      exact Nat.le_of_mul_le_mul_right h2 hd
    rw [round_ofNat ho, round_ofNat ho']
    simp only [le, decide_eq_true_eq]
    exact_mod_cast roundNat_mono hd hd' h

theorem round_nonneg_cases (a d : Nat) :
    (round (a : Int) d = inf false) ∨ ∃ k : Nat, round (a : Int) d = fin (k : Int) := by
  by_cases ho : 33554431 * 2 ^ 252 * d ≤ a
  · left; rw [round_inf_of_le (n := (a : Int)) (by simpa using ho)]; simp
  · right; exact ⟨_, round_ofNat ho⟩

/-- Rounding is monotone. -/
theorem round_mono {n n' : Int} {d d' : Nat} (hd : 0 < d) (hd' : 0 < d')
    (h : n * d' ≤ n' * d) : round n d ≤ round n' d' := by
  have hdz : (0 : Int) < d := by exact_mod_cast hd
  have hdz' : (0 : Int) < d' := by exact_mod_cast hd'
  rcases le_or_lt 0 n with hn | hn
  · obtain ⟨a, rfl⟩ := Int.eq_ofNat_of_zero_le hn
    rcases le_or_lt 0 n' with hn' | hn'
    · obtain ⟨a', rfl⟩ := Int.eq_ofNat_of_zero_le hn'
      exact round_mono_nat hd hd' (by exact_mod_cast h)
    · exfalso
      have h1 : n' * (d : Int) < 0 := mul_neg_of_neg_of_pos hn' hdz
      have h2 : (0 : Int) ≤ (a : Int) * d' := mul_nonneg hn (le_of_lt hdz')
      omega
  · obtain ⟨a, ha⟩ := Int.eq_ofNat_of_zero_le (a := -n) (by omega)
    have en : n = -(a : Int) := by omega
    subst en
    rw [round_neg _ hd]
    rcases le_or_lt 0 n' with hn' | hn'
    · obtain ⟨a', rfl⟩ := Int.eq_ofNat_of_zero_le hn'
      rw [le_def]
      rcases round_nonneg_cases a d with h1 | ⟨k, h1⟩ <;>
        rcases round_nonneg_cases a' d' with h2 | ⟨k', h2⟩ <;>
        rw [h1, h2] <;> simp [neg, le]
      omega
    · obtain ⟨a', ha'⟩ := Int.eq_ofNat_of_zero_le (a := -n') (by omega)
      have en' : n' = -(a' : Int) := by omega
      subst en'
      rw [round_neg _ hd', le_def, le_neg_neg, ← le_def]
      refine round_mono_nat hd' hd ?_
      have : -(a : Int) * d' ≤ -(a' : Int) * d := h
      have h3 : (a' : Int) * d ≤ (a : Int) * d' := by linarith
      exact_mod_cast h3

theorem fin_add_le_fin_add {a b : Int} (h : a ≤ b) (c : Int) : fin a + fin c ≤ fin b + fin c := by
  rw [add_fin, add_fin]
  exact round_mono (by norm_num) (by norm_num) (by push_cast; linarith)

theorem fin_mul_le_fin_mul {a b : Int} (h : a ≤ b) {c : Int} (hc : 0 ≤ c) :
    fin a * fin c ≤ fin b * fin c := by
  rw [mul_fin, mul_fin]
  refine round_mono (by positivity) (by positivity) ?_
  have : a * c ≤ b * c := mul_le_mul_of_nonneg_right h hc
  exact mul_le_mul_of_nonneg_right this (by positivity)

theorem le_gridExp {e k : Nat} (h : 2 ^ e ≤ k) : e - 23 ≤ gridExp k := by
  unfold gridExp
  rw [log2_eq]
  have := Nat.le_log_of_pow_le (b := 2) (by norm_num) h
  omega

theorem le_trans32 {x y z : F32} (h1 : x ≤ y) (h2 : y ≤ z) : x ≤ z := by
  rw [le_def] at *
  rcases x with a | (_ | _) | _ <;> rcases y with b | (_ | _) | _ <;>
    rcases z with c | (_ | _) | _ <;> simp_all [le]
  omega

theorem lt_of_le_of_lt32 {x y z : F32} (h1 : x ≤ y) (h2 : y < z) : x < z := by
  rw [le_def] at h1
  rw [lt_def] at *
  rcases x with a | (_ | _) | _ <;> rcases y with b | (_ | _) | _ <;>
    rcases z with c | (_ | _) | _ <;> simp_all [le, lt]
  omega

theorem lt_of_lt_of_le32 {x y z : F32} (h1 : x < y) (h2 : y ≤ z) : x < z := by
  rw [le_def] at h2
  rw [lt_def] at *
  rcases x with a | (_ | _) | _ <;> rcases y with b | (_ | _) | _ <;>
    rcases z with c | (_ | _) | _ <;> simp_all [le, lt]
  omega

theorem le_of_lt32 {x y : F32} (h : x < y) : x ≤ y := by
  rw [lt_def] at h
  rw [le_def]
  rcases x with a | (_ | _) | _ <;> rcases y with b | (_ | _) | _ <;>
    simp_all [le, lt]
  omega

theorem le_fin_cases {r : F32} {c : Int} (h : r ≤ fin c) :
    r = inf true ∨ ∃ j, r = fin j ∧ j ≤ c := by
  rw [le_def] at h
  cases r with
  | fin j => right; exact ⟨j, rfl, by simpa [le] using h⟩
  | inf s => left; simp [le] at h; rw [h]
  | nan => simp [le] at h

theorem fin_le_cases {r : F32} {c : Int} (h : fin c ≤ r) :
    r = inf false ∨ ∃ j, r = fin j ∧ c ≤ j := by
  rw [le_def] at h
  cases r with
  | fin j => right; exact ⟨j, rfl, by simpa [le] using h⟩
  | inf s => left; simp [le] at h; rw [h]
  | nan => simp [le] at h

theorem rne_one (n : Nat) : rne n 1 = n := by
  have := rne_of_dvd (n := n) (d := 1) (by norm_num) (one_dvd n)
  simpa using this

/-- Relative rounding error of an integer number of units: at most `2^-24`. -/
theorem roundNat_rel (n : Nat) :
    2 ^ 24 * roundNat n 1 ≤ 2 ^ 24 * n + n ∧ 2 ^ 24 * n ≤ 2 ^ 24 * roundNat n 1 + n := by
  rcases Nat.eq_zero_or_pos (gridExp (n / 1)) with hg | hg
  · have : roundNat n 1 = n := by
      rw [roundNat_def, hg]; simp [rne_one]
    rw [this]; omega
  · have h1 := pow_gridExp_le hg
    have h2 := roundNat_bounds n (d := 1) (by norm_num)
    simp only [Nat.div_one, Nat.mul_one, Nat.one_mul] at h1 h2 hg
    rw [pow_add] at h1
    generalize 2 ^ gridExp n = G at h1 h2
    generalize roundNat n 1 = R at h2 ⊢
    norm_num at h1 ⊢
    omega

/-- Rounding an integer number of units moves it by at most half a grid step. -/
theorem roundNat_one_bounds (n : Nat) :
    2 * roundNat n 1 ≤ 2 * n + 2 ^ gridExp n ∧ 2 * n ≤ 2 * roundNat n 1 + 2 ^ gridExp n := by
  have h2 := roundNat_bounds n (d := 1) (by norm_num)
  simpa using h2

theorem toRat_fin (k : Int) : toRat (fin k) = (k : ℚ) / 2 ^ 149 := rfl

theorem isFinite_iff (x : F32) : x.isFinite = true ↔ ∃ k, x = fin k := by
  cases x <;> simp [isFinite]

/-- Error of rounding a non-negative quotient: relative `2^-24` or absolute half a unit. -/
theorem roundNat_error (n : Nat) {d : Nat} (hd : 0 < d) :
    |(roundNat n d : ℚ) - (n : ℚ) / d| ≤ (n : ℚ) / d / 2 ^ 24 + 1 / 2 := by
  have hdq : (0 : ℚ) < d := by exact_mod_cast hd
  obtain ⟨h1, h2⟩ := roundNat_bounds n hd
  have q1 : (2 : ℚ) * ((roundNat n d : ℚ) * d) ≤ 2 * n + d * 2 ^ gridExp (n / d) := by
    exact_mod_cast h1
  have q2 : (2 : ℚ) * n ≤ 2 * ((roundNat n d : ℚ) * d) + d * 2 ^ gridExp (n / d) := by
    exact_mod_cast h2
  have hG : (2 : ℚ) ^ gridExp (n / d) ≤ (n : ℚ) / d / 2 ^ 23 + 1 := by
    rcases Nat.eq_zero_or_pos (gridExp (n / d)) with hg | hg
    · rw [hg]
      have : (0 : ℚ) ≤ (n : ℚ) / d / 2 ^ 23 := by positivity
      simpa using this
    · have h3 := pow_gridExp_le hg
      rw [Nat.le_div_iff_mul_le hd, pow_add] at h3
      have q3 : (2 : ℚ) ^ gridExp (n / d) * 2 ^ 23 * d ≤ n := by exact_mod_cast h3
      have : (2 : ℚ) ^ gridExp (n / d) ≤ (n : ℚ) / d / 2 ^ 23 := by
        rw [le_div_iff₀ (by positivity), le_div_iff₀ hdq]
        exact q3
      linarith
  generalize (2 : ℚ) ^ gridExp (n / d) = G at q1 q2 hG
  have e : (n : ℚ) / d / 2 ^ 24 + 1 / 2 = ((n : ℚ) / d / 2 ^ 23 + 1) / 2 := by ring
  rw [e, abs_le]
  have hn : (n : ℚ) = (n : ℚ) / d * d := by field_simp
  constructor
  · have : (n : ℚ) / d * 2 ≤ 2 * (roundNat n d : ℚ) + G := by
      have h := q2
      rw [hn] at h
      have h' : (d : ℚ) * ((n : ℚ) / d * 2) ≤ d * (2 * (roundNat n d : ℚ) + G) := by
        nlinarith
      exact le_of_mul_le_mul_left h' hdq
    linarith
  · have : 2 * (roundNat n d : ℚ) ≤ (n : ℚ) / d * 2 + G := by
      have h := q1
      rw [hn] at h
      have h' : (d : ℚ) * (2 * (roundNat n d : ℚ)) ≤ d * ((n : ℚ) / d * 2 + G) := by
        nlinarith
      exact le_of_mul_le_mul_left h' hdq
    linarith

theorem roundNat_error_one (n : Nat) :
    |(roundNat n 1 : ℚ) - (n : ℚ)| ≤ (n : ℚ) / 2 ^ 24 := by
  obtain ⟨h1, h2⟩ := roundNat_rel n
  have q1 : (2 : ℚ) ^ 24 * (roundNat n 1 : ℚ) ≤ 2 ^ 24 * n + n := by exact_mod_cast h1
  have q2 : (2 : ℚ) ^ 24 * n ≤ 2 ^ 24 * (roundNat n 1 : ℚ) + n := by exact_mod_cast h2
  rw [abs_le, le_div_iff₀ (by positivity), neg_le, le_div_iff₀ (by positivity)]
  constructor <;> linarith

theorem sign_mul_cast (n : Int) (r : Nat) :
    ((Int.sign n * (r : Int) : Int) : ℚ) = (Int.sign n : ℚ) * (r : ℚ) := by
  rw [Int.cast_mul, Int.cast_natCast]

theorem cast_eq_sign_mul_natAbs (n : Int) : (n : ℚ) = (Int.sign n : ℚ) * (n.natAbs : ℚ) := by
  have h := Int.sign_mul_natAbs n
  have : ((Int.sign n * (n.natAbs : Int) : Int) : ℚ) = (n : ℚ) := by rw [h]
  rw [Int.cast_mul, Int.cast_natCast] at this
  exact this.symm

theorem abs_sign_le_one (n : Int) : |(Int.sign n : ℚ)| ≤ 1 := by
  rcases lt_trichotomy n 0 with h | h | h
  · rw [Int.sign_eq_neg_one_of_neg h]; norm_num
  · subst h; norm_num
  · rw [Int.sign_eq_one_of_pos h]; norm_num

/-- Error of a rounded quotient, in units. -/
theorem round_error {n : Int} {d : Nat} (hd : 0 < d) {k : Int} (h : round n d = fin k) :
    |(k : ℚ) - (n : ℚ) / d| ≤ |(n : ℚ) / d| / 2 ^ 24 + 1 / 2 := by
  by_cases ho : 33554431 * 2 ^ 252 * d ≤ n.natAbs
  · rw [round_inf_of_le ho] at h; cases h
  · rw [round_fin_of_lt ho] at h
    injection h with h
    rw [← h, sign_mul_cast, cast_eq_sign_mul_natAbs n]
    have hdq : (0 : ℚ) < d := by exact_mod_cast hd
    have e1 : (Int.sign n : ℚ) * (roundNat n.natAbs d : ℚ) -
        (Int.sign n : ℚ) * (n.natAbs : ℚ) / d =
        (Int.sign n : ℚ) * ((roundNat n.natAbs d : ℚ) - (n.natAbs : ℚ) / d) := by ring
    have hs : |(Int.sign n : ℚ)| = 1 ∨ n = 0 := by
      rcases lt_trichotomy n 0 with h1 | h1 | h1
      · left; rw [Int.sign_eq_neg_one_of_neg h1]; norm_num
      · right; exact h1
      · left; rw [Int.sign_eq_one_of_pos h1]; norm_num
    rcases hs with hs | hs
    · rw [e1, abs_mul, hs, one_mul, abs_div, abs_mul, hs, one_mul, Nat.abs_cast,
        abs_of_pos hdq]
      exact roundNat_error _ hd
    · subst hs
      simp [roundNat_zero]

/-- Error of a rounded integer number of units (no absolute term). -/
theorem round_error_one {n k : Int} (h : round n 1 = fin k) :
    |(k : ℚ) - (n : ℚ)| ≤ |(n : ℚ)| / 2 ^ 24 := by
  by_cases ho : 33554431 * 2 ^ 252 * 1 ≤ n.natAbs
  · rw [round_inf_of_le ho] at h; cases h
  · rw [round_fin_of_lt ho] at h
    injection h with h
    rw [← h, sign_mul_cast, cast_eq_sign_mul_natAbs n]
    have e1 : (Int.sign n : ℚ) * (roundNat n.natAbs 1 : ℚ) -
        (Int.sign n : ℚ) * (n.natAbs : ℚ) =
        (Int.sign n : ℚ) * ((roundNat n.natAbs 1 : ℚ) - (n.natAbs : ℚ)) := by ring
    have hs : |(Int.sign n : ℚ)| = 1 ∨ n = 0 := by
      rcases lt_trichotomy n 0 with h1 | h1 | h1
      · left; rw [Int.sign_eq_neg_one_of_neg h1]; norm_num
      · right; exact h1
      · left; rw [Int.sign_eq_one_of_pos h1]; norm_num
    rcases hs with hs | hs
    · rw [e1, abs_mul, hs, one_mul, abs_mul, hs, one_mul, Nat.abs_cast]
      exact roundNat_error_one _
    · subst hs
      simp [roundNat_zero]

theorem add_eq_fin {x y : F32} {r : Int} (h : x + y = fin r) :
    ∃ a b, x = fin a ∧ y = fin b ∧ round (a + b) 1 = fin r := by
  have h' : add x y = fin r := h
  rcases x with a | s | _ <;> rcases y with b | t | _ <;>
    first
    | exact ⟨_, _, rfl, rfl, h⟩
    | (exfalso; simp only [add] at h'; first | cases h' | split_ifs at h')

theorem neg_eq_fin {y : F32} {b : Int} (h : neg y = fin b) : y = fin (-b) := by
  rcases y with c | t | _
  · injection h with h; rw [← h]; simp
  · cases h
  · cases h

theorem sub_eq_fin {x y : F32} {r : Int} (h : x - y = fin r) :
    ∃ a b, x = fin a ∧ y = fin b ∧ round (a - b) 1 = fin r := by
  rw [sub_eq_add_neg32] at h
  obtain ⟨a, b, h1, h2, h3⟩ := add_eq_fin h
  refine ⟨a, -b, h1, neg_eq_fin h2, ?_⟩
  rw [← h3]; congr 1; ring

theorem mul_eq_fin {x y : F32} {r : Int} (h : x * y = fin r) :
    ∃ a b, x = fin a ∧ y = fin b ∧ round (a * b) (2 ^ 149) = fin r := by
  have h' : mul x y = fin r := h
  rcases x with a | s | _ <;> rcases y with b | t | _ <;>
    first
    | exact ⟨_, _, rfl, rfl, h⟩
    | (exfalso; simp only [mul] at h'; first | cases h' | split_ifs at h')

/-- Standard model of a binary32 addition with a finite result. -/
theorem add_error {x y : F32} (h : (x + y).isFinite = true) :
    x.isFinite = true ∧ y.isFinite = true ∧
    |toRat (x + y) - (toRat x + toRat y)| ≤ |toRat x + toRat y| / 2 ^ 24 := by
  obtain ⟨r, hr⟩ := (isFinite_iff _).mp h
  obtain ⟨a, b, rfl, rfl, h3⟩ := add_eq_fin hr
  refine ⟨rfl, rfl, ?_⟩
  rw [hr, toRat_fin, toRat_fin, toRat_fin]
  have he := round_error_one h3
  have hp : (0 : ℚ) < 2 ^ 149 := by positivity
  have e1 : (r : ℚ) / 2 ^ 149 - ((a : ℚ) / 2 ^ 149 + (b : ℚ) / 2 ^ 149) =
      ((r : ℚ) - ((a + b : Int) : ℚ)) / 2 ^ 149 := by push_cast; ring
  have e2 : (a : ℚ) / 2 ^ 149 + (b : ℚ) / 2 ^ 149 = ((a + b : Int) : ℚ) / 2 ^ 149 := by
    push_cast; ring
  rw [e1, e2, abs_div, abs_div, abs_of_pos hp, div_div, mul_comm ((2 : ℚ) ^ 149), ← div_div]
  exact (div_le_div_iff_of_pos_right hp).mpr he

/-- Standard model of a binary32 subtraction with a finite result. -/
theorem sub_error {x y : F32} (h : (x - y).isFinite = true) :
    x.isFinite = true ∧ y.isFinite = true ∧
    |toRat (x - y) - (toRat x - toRat y)| ≤ |toRat x - toRat y| / 2 ^ 24 := by
  obtain ⟨r, hr⟩ := (isFinite_iff _).mp h
  obtain ⟨a, b, rfl, rfl, h3⟩ := sub_eq_fin hr
  refine ⟨rfl, rfl, ?_⟩
  rw [hr, toRat_fin, toRat_fin, toRat_fin]
  have he := round_error_one h3
  have hp : (0 : ℚ) < 2 ^ 149 := by positivity
  have e1 : (r : ℚ) / 2 ^ 149 - ((a : ℚ) / 2 ^ 149 - (b : ℚ) / 2 ^ 149) =
      ((r : ℚ) - ((a - b : Int) : ℚ)) / 2 ^ 149 := by push_cast; ring
  have e2 : (a : ℚ) / 2 ^ 149 - (b : ℚ) / 2 ^ 149 = ((a - b : Int) : ℚ) / 2 ^ 149 := by
    push_cast; ring
  rw [e1, e2, abs_div, abs_div, abs_of_pos hp, div_div, mul_comm ((2 : ℚ) ^ 149), ← div_div]
  exact (div_le_div_iff_of_pos_right hp).mpr he

/-- Standard model of a binary32 multiplication with a finite result. -/
theorem mul_error {x y : F32} (h : (x * y).isFinite = true) :
    x.isFinite = true ∧ y.isFinite = true ∧
    |toRat (x * y) - toRat x * toRat y| ≤ |toRat x * toRat y| / 2 ^ 24 + 1 / 2 ^ 150 := by
  obtain ⟨r, hr⟩ := (isFinite_iff _).mp h
  obtain ⟨a, b, rfl, rfl, h3⟩ := mul_eq_fin hr
  refine ⟨rfl, rfl, ?_⟩
  rw [hr, toRat_fin, toRat_fin, toRat_fin]
  have he := round_error (d := 2 ^ 149) (by positivity) h3
  have hp : (0 : ℚ) < 2 ^ 149 := by positivity
  have e1 : (r : ℚ) / 2 ^ 149 - (a : ℚ) / 2 ^ 149 * ((b : ℚ) / 2 ^ 149) =
      ((r : ℚ) - ((a * b : Int) : ℚ) / ((2 ^ 149 : Nat) : ℚ)) / 2 ^ 149 := by
    push_cast; ring
  have e2 : (a : ℚ) / 2 ^ 149 * ((b : ℚ) / 2 ^ 149) =
      (((a * b : Int) : ℚ) / ((2 ^ 149 : Nat) : ℚ)) / 2 ^ 149 := by
    push_cast; ring
  have e3 : |((a * b : Int) : ℚ) / ((2 ^ 149 : Nat) : ℚ) / 2 ^ 149| / 2 ^ 24 + 1 / 2 ^ 150 =
      (|((a * b : Int) : ℚ) / ((2 ^ 149 : Nat) : ℚ)| / 2 ^ 24 + 1 / 2) / 2 ^ 149 := by
    rw [abs_div _ ((2 : ℚ) ^ 149), abs_of_pos hp]; ring
  rw [e1, e2, e3, abs_div, abs_of_pos hp]
  exact (div_le_div_iff_of_pos_right hp).mpr he

/-- Error propagation through a rounded sum (or difference). -/
theorem add_step {X Y Z xs ys ex ey mx my u : ℚ} (hX : |X - xs| ≤ ex) (hY : |Y - ys| ≤ ey)
    (hxs : |xs| ≤ mx) (hys : |ys| ≤ my) (hu : 0 ≤ u)
    (hZ : |Z - (X + Y)| ≤ |X + Y| * u) :
    |Z - (xs + ys)| ≤ (mx + my + ex + ey) * u + ex + ey := by
  have h1 : |X + Y| ≤ mx + my + ex + ey := by
    have e : X + Y = (X - xs) + (Y - ys) + xs + ys := by ring
    rw [e]
    calc |X - xs + (Y - ys) + xs + ys| ≤ |X - xs + (Y - ys) + xs| + |ys| := abs_add _ _
      _ ≤ |X - xs + (Y - ys)| + |xs| + |ys| := by linarith [abs_add (X - xs + (Y - ys)) xs]
      _ ≤ |X - xs| + |Y - ys| + |xs| + |ys| := by linarith [abs_add (X - xs) (Y - ys)]
      _ ≤ mx + my + ex + ey := by linarith
  have h2 : |Z - (xs + ys)| ≤ |Z - (X + Y)| + |X - xs| + |Y - ys| := by
    have e : Z - (xs + ys) = (Z - (X + Y)) + (X - xs) + (Y - ys) := by ring
    rw [e]
    calc |Z - (X + Y) + (X - xs) + (Y - ys)| ≤ |Z - (X + Y) + (X - xs)| + |Y - ys| := abs_add _ _
      _ ≤ |Z - (X + Y)| + |X - xs| + |Y - ys| := by
          linarith [abs_add (Z - (X + Y)) (X - xs)]
  have h3 : |X + Y| * u ≤ (mx + my + ex + ey) * u := mul_le_mul_of_nonneg_right h1 hu
  linarith

theorem sub_step {X Y Z xs ys ex ey mx my u : ℚ} (hX : |X - xs| ≤ ex) (hY : |Y - ys| ≤ ey)
    (hxs : |xs| ≤ mx) (hys : |ys| ≤ my) (hu : 0 ≤ u)
    (hZ : |Z - (X - Y)| ≤ |X - Y| * u) :
    |Z - (xs - ys)| ≤ (mx + my + ex + ey) * u + ex + ey := by
  have hY' : |(-Y) - (-ys)| ≤ ey := by
    have e : -Y - -ys = -(Y - ys) := by ring
    rw [e, abs_neg]; exact hY
  have hys' : |(-ys)| ≤ my := by rw [abs_neg]; exact hys
  have hZ' : |Z - (X + -Y)| ≤ |X + -Y| * u := by
    have e : X + -Y = X - Y := by ring
    rw [e]; exact hZ
  have := add_step hX hY' hxs hys' hu hZ'
  have e : xs + -ys = xs - ys := by ring
  rw [e] at this; exact this

/-- Error propagation through a rounded product. -/
theorem mul_step {X Y Z xs ys ex ey mx my u η : ℚ} (hX : |X - xs| ≤ ex) (hY : |Y - ys| ≤ ey)
    (hxs : |xs| ≤ mx) (hys : |ys| ≤ my) (hu : 0 ≤ u)
    (hZ : |Z - X * Y| ≤ |X * Y| * u + η) :
    |Z - xs * ys| ≤ (mx + ex) * (my + ey) * u + η + (mx + ex) * ey + my * ex := by
  have hex : 0 ≤ ex := le_trans (abs_nonneg _) hX
  have hey : 0 ≤ ey := le_trans (abs_nonneg _) hY
  have hmx : 0 ≤ mx := le_trans (abs_nonneg _) hxs
  have hmy : 0 ≤ my := le_trans (abs_nonneg _) hys
  have hXa : |X| ≤ mx + ex := by
    have e : X = (X - xs) + xs := by ring
    rw [e]; linarith [abs_add (X - xs) xs]
  have hYa : |Y| ≤ my + ey := by
    have e : Y = (Y - ys) + ys := by ring
    rw [e]; linarith [abs_add (Y - ys) ys]
  have h1 : |X * Y| ≤ (mx + ex) * (my + ey) := by
    rw [abs_mul]
    exact mul_le_mul hXa hYa (abs_nonneg _) (by linarith)
  have h2 : |X * Y - xs * ys| ≤ (mx + ex) * ey + my * ex := by
    have e : X * Y - xs * ys = X * (Y - ys) + ys * (X - xs) := by ring
    rw [e]
    calc |X * (Y - ys) + ys * (X - xs)| ≤ |X * (Y - ys)| + |ys * (X - xs)| := abs_add _ _
      _ = |X| * |Y - ys| + |ys| * |X - xs| := by rw [abs_mul, abs_mul]
      _ ≤ (mx + ex) * ey + my * ex := by
          have a1 : |X| * |Y - ys| ≤ (mx + ex) * ey :=
            mul_le_mul hXa hY (abs_nonneg _) (by linarith)
          have a2 : |ys| * |X - xs| ≤ my * ex := mul_le_mul hys hX (abs_nonneg _) hmy
          linarith
  have h3 : |Z - xs * ys| ≤ |Z - X * Y| + |X * Y - xs * ys| := by
    have e : Z - xs * ys = (Z - X * Y) + (X * Y - xs * ys) := by ring
    rw [e]; exact abs_add _ _
  have h4 : |X * Y| * u ≤ (mx + ex) * (my + ey) * u := mul_le_mul_of_nonneg_right h1 hu
  linarith

theorem isqrtAux_sq_le (n : Nat) : ∀ (i r : Nat), r * r ≤ n →
    isqrtAux n i r * isqrtAux n i r ≤ n
  | 0, _, h => h
  | i + 1, r, h => by
    unfold isqrtAux
    by_cases hc : (r + 2 ^ i) * (r + 2 ^ i) ≤ n
    · rw [if_pos hc]; exact isqrtAux_sq_le n i _ hc
    · rw [if_neg hc]; exact isqrtAux_sq_le n i r h

theorem isqrt_sq_le (n : Nat) : isqrt n * isqrt n ≤ n :=
  isqrtAux_sq_le n _ 0 (by simp)

/-- The rounded square root is at most `(1 + 2^-24)` times the real one: in units,
`(2^24 * sqrtNat k)^2 ≤ (2^24 + 1)^2 * (k * 2^149)`. -/
theorem sqrtNat_sq_le (k : Nat) :
    (2 ^ 24 * sqrtNat k) * (2 ^ 24 * sqrtNat k) ≤ (2 ^ 24 + 1) * (2 ^ 24 + 1) * (k * 2 ^ 149) := by
  unfold sqrtNat
  simp only
  generalize hn : k * 2 ^ 149 = n
  generalize hsh : gridExp (isqrt n) = sh
  have hf := isqrt_sq_le (n / 4 ^ sh)
  generalize hfd : isqrt (n / 4 ^ sh) = f at hf
  have h4 : (4 : Nat) ^ sh = 2 ^ sh * 2 ^ sh := by
    rw [← mul_pow]
    norm_num
  have hp : 0 < 2 ^ sh := pow_pos (by norm_num) _
  have hdiv : n / 4 ^ sh * 4 ^ sh ≤ n := Nat.div_mul_le_self n _
  -- the rounded-down value is below the root
  have hlow : (f * 2 ^ sh) * (f * 2 ^ sh) ≤ n := by
    calc (f * 2 ^ sh) * (f * 2 ^ sh) = f * f * 4 ^ sh := by rw [h4]; ring
      _ ≤ n / 4 ^ sh * 4 ^ sh := Nat.mul_le_mul_right _ hf
      _ ≤ n := hdiv
  by_cases hc : (2 * f + 1) * (2 * f + 1) * 4 ^ sh < 4 * n
  · rw [if_pos hc]
    -- one grid step is at most `2^-23` of the root
    have hgrid : (2 ^ 23 * 2 ^ sh) * (2 ^ 23 * 2 ^ sh) ≤ n := by
      rcases Nat.eq_zero_or_pos sh with h0 | h0
      · have hk : 0 < k := by
          rcases Nat.eq_zero_or_pos k with hk0 | hk0
          · exfalso
            rw [hk0, Nat.zero_mul] at hn
            rw [← hn] at hc
            omega
          · exact hk0
        have h1 : 1 * 2 ^ 149 ≤ k * 2 ^ 149 := Nat.mul_le_mul_right _ hk
        rw [h0, ← hn]
        have h2 : 2 ^ 23 * 2 ^ 0 * (2 ^ 23 * 2 ^ 0) ≤ 1 * 2 ^ 149 := by norm_num
        exact le_trans h2 h1
      · rw [← hsh] at h0 ⊢
        have h1 := pow_gridExp_le h0
        have h2 := isqrt_sq_le n
        have e : 2 ^ 23 * 2 ^ gridExp (isqrt n) = 2 ^ (gridExp (isqrt n) + 23) := by
          rw [pow_add]; ring
        rw [e]
        calc 2 ^ (gridExp (isqrt n) + 23) * 2 ^ (gridExp (isqrt n) + 23)
            ≤ isqrt n * isqrt n := Nat.mul_le_mul h1 h1
          _ ≤ n := h2
    generalize 2 ^ sh = g at hp hgrid hc h4 ⊢
    rw [h4] at hc
    generalize ha : (2 * f + 1) * g = a
    have hc' : a * a < 4 * n := by
      have e : (2 * f + 1) * (2 * f + 1) * (g * g) = a * a := by rw [← ha]; ring
      rw [e] at hc; exact hc
    have hR : 2 * ((f + 1) * g) = a + g := by rw [← ha]; ring
    have hn0 : 0 < n := by
      rcases Nat.eq_zero_or_pos n with h | h
      · rw [h] at hc'; omega
      · exact h
    -- the cross term
    have hx : a * (2 ^ 23 * g) < 2 * n := by
      apply lt_of_mul_self_lt_mul_self₀ (Nat.zero_le _)
      calc a * (2 ^ 23 * g) * (a * (2 ^ 23 * g))
          = a * a * ((2 ^ 23 * g) * (2 ^ 23 * g)) := by ring
        _ ≤ a * a * n := Nat.mul_le_mul_left _ hgrid
        _ < 4 * n * n := Nat.mul_lt_mul_of_pos_right hc' hn0
        _ = 2 * n * (2 * n) := by ring
    have e1 : 4 * (2 ^ 24 * ((f + 1) * g) * (2 ^ 24 * ((f + 1) * g))) =
        2 ^ 48 * ((a + g) * (a + g)) := by
      rw [← hR]; ring
    have e2 : 2 ^ 48 * ((a + g) * (a + g)) =
        2 ^ 48 * (a * a) + 2 ^ 26 * (a * (2 ^ 23 * g)) + 4 * ((2 ^ 23 * g) * (2 ^ 23 * g)) := by
      ring
    have e3 : 4 * ((2 ^ 24 + 1) * (2 ^ 24 + 1) * n) =
        2 ^ 48 * (4 * n) + 2 ^ 26 * (2 * n) + 4 * n := by ring
    have t1 : 2 ^ 48 * (a * a) ≤ 2 ^ 48 * (4 * n) := Nat.mul_le_mul_left _ (le_of_lt hc')
    have t2 : 2 ^ 26 * (a * (2 ^ 23 * g)) ≤ 2 ^ 26 * (2 * n) :=
      Nat.mul_le_mul_left _ (le_of_lt hx)
    have t3 : 4 * ((2 ^ 23 * g) * (2 ^ 23 * g)) ≤ 4 * n := Nat.mul_le_mul_left _ hgrid
    have : 4 * (2 ^ 24 * ((f + 1) * g) * (2 ^ 24 * ((f + 1) * g))) ≤
        4 * ((2 ^ 24 + 1) * (2 ^ 24 + 1) * n) := by
      rw [e1, e2, e3]
      exact Nat.add_le_add (Nat.add_le_add t1 t2) t3
    exact Nat.le_of_mul_le_mul_left this (by norm_num)
  · rw [if_neg hc]
    have : (2 ^ 24 * (f * 2 ^ sh)) * (2 ^ 24 * (f * 2 ^ sh)) =
        2 ^ 24 * 2 ^ 24 * ((f * 2 ^ sh) * (f * 2 ^ sh)) := by ring
    rw [this]
    calc 2 ^ 24 * 2 ^ 24 * ((f * 2 ^ sh) * (f * 2 ^ sh)) ≤ 2 ^ 24 * 2 ^ 24 * n :=
          Nat.mul_le_mul_left _ hlow
      _ ≤ (2 ^ 24 + 1) * (2 ^ 24 + 1) * n := Nat.mul_le_mul_right _ (by norm_num)

end F32

namespace Binary32

open F32 (IsBinary32)

theorem processInput_next32 (fuel : Nat) (e : BrushEngine F32) (input : InputPoint F32)
    (rng : RandomSource F32) (hact : e.m_strokeActive = true)
    (hts : e.m_lastInput.timestamp ≠ 0) :
    processInput fuel e input rng =
      (emitLoop e.m_settings e.m_lastInput input (input.x - e.m_lastInput.x)
        (input.y - e.m_lastInput.y) (segmentLength e.m_lastInput input)
        (spacingFor e.m_settings input rng) fuel
        (e.m_distanceSinceLastDab + segmentLength e.m_lastInput input) []
        (applyMappings e.m_settings input (generateDab e.m_settings input) rng).2).map
        (fun r => (r.1, { e with m_lastInput := input, m_distanceSinceLastDab := r.2.1 },
          r.2.2)) := by
  unfold processInput
  simp only [hact, Bool.not_true, Bool.false_eq_true, if_false, if_neg hts]
  unfold segmentLength spacingFor
  cases emitLoop e.m_settings e.m_lastInput input (input.x - e.m_lastInput.x)
        (input.y - e.m_lastInput.y)
        (F32.sqrt ((input.x - e.m_lastInput.x) * (input.x - e.m_lastInput.x) +
          (input.y - e.m_lastInput.y) * (input.y - e.m_lastInput.y)))
        (calculateSpacing e.m_settings
          (applyMappings e.m_settings input (generateDab e.m_settings input) rng).1) fuel
        (e.m_distanceSinceLastDab +
          F32.sqrt ((input.x - e.m_lastInput.x) * (input.x - e.m_lastInput.x) +
            (input.y - e.m_lastInput.y) * (input.y - e.m_lastInput.y))) []
        (applyMappings e.m_settings input (generateDab e.m_settings input) rng).2 <;> rfl

theorem processInput_first32 (fuel : Nat) (e : BrushEngine F32) (input : InputPoint F32)
    (rng : RandomSource F32) (hact : e.m_strokeActive = true)
    (hts : e.m_lastInput.timestamp = 0) :
    processInput fuel e input rng =
      some ([(emitDab e.m_settings input rng).1], { e with m_lastInput := input },
        (emitDab e.m_settings input rng).2) := by
  unfold processInput
  simp [hact, hts]

theorem processInput_idle32 (fuel : Nat) (e : BrushEngine F32) (input : InputPoint F32)
    (rng : RandomSource F32) (hact : e.m_strokeActive = false) :
    processInput fuel e input rng = some ([], e, rng) := by
  unfold processInput
  simp [hact]

theorem emitLoop_stop32 (settings : BrushSettings F32) (lastInput input : InputPoint F32)
    (dx dy distance spacing : F32) (fuel : Nat) (acc : F32) (dabs : List (BrushDab F32))
    (rng : RandomSource F32) (h : ¬ (acc ≥ spacing ∧ spacing > 0.0)) :
    emitLoop settings lastInput input dx dy distance spacing fuel acc dabs rng =
      some (dabs, acc, rng) := by
  cases fuel <;> simp only [emitLoop, if_neg h]

theorem emitLoop_step32 (settings : BrushSettings F32) (lastInput input : InputPoint F32)
    (dx dy distance spacing : F32) (fuel : Nat) (acc : F32) (dabs : List (BrushDab F32))
    (rng : RandomSource F32) (h : acc ≥ spacing ∧ spacing > 0.0) :
    emitLoop settings lastInput input dx dy distance spacing (fuel + 1) acc dabs rng =
      emitLoop settings lastInput input dx dy distance spacing fuel (acc - spacing)
        (dabs ++ [(emitDab settings (interpolate lastInput input dx dy
          (F32.fmax 0.0 (F32.fmin 1.0 ((acc - spacing) / distance)))) rng).1])
        (emitDab settings (interpolate lastInput input dx dy
          (F32.fmax 0.0 (F32.fmin 1.0 ((acc - spacing) / distance)))) rng).2 := by
  simp only [emitLoop, if_pos h]

/-- Closed form of the loop: when the loop condition holds for the first `n` accumulators
and fails for the next one, the loop returns after `n` iterations. -/
theorem emitLoop_run (settings : BrushSettings F32) (lastInput input : InputPoint F32)
    (dx dy distance spacing : F32) :
    ∀ (n fuel : Nat) (acc : F32) (dabs : List (BrushDab F32)) (rng : RandomSource F32),
      n ≤ fuel →
      (∀ j, j < n → (subIter spacing j acc ≥ spacing ∧ spacing > 0.0)) →
      ¬ (subIter spacing n acc ≥ spacing ∧ spacing > 0.0) →
      emitLoop settings lastInput input dx dy distance spacing fuel acc dabs rng =
        some (dabs ++ (emitAll settings
            (loopInputs lastInput input dx dy distance spacing n acc) rng).1,
          subIter spacing n acc,
          (emitAll settings (loopInputs lastInput input dx dy distance spacing n acc) rng).2)
  | 0, fuel, acc, dabs, rng, _, _, hstop => by
    have hstop0 : ¬ (acc ≥ spacing ∧ spacing > 0.0) := hstop
    rw [emitLoop_stop32 _ _ _ _ _ _ _ _ _ _ _ hstop0]
    simp [loopInputs, emitAll, subIter]
  | n + 1, 0, acc, dabs, rng, hle, _, _ => by omega
  | n + 1, fuel + 1, acc, dabs, rng, hle, hrun, hstop => by
    have h0 : acc ≥ spacing ∧ spacing > 0.0 := hrun 0 (by omega)
    rw [emitLoop_step32 _ _ _ _ _ _ _ _ _ _ _ h0]
    rw [emitLoop_run settings lastInput input dx dy distance spacing n fuel (acc - spacing) _ _
      (by omega) (fun j hj => hrun (j + 1) (by omega)) hstop]
    simp [loopInputs, emitAll, subIter]

/-- Conversely, a returning loop has run some number of iterations `n`. -/
theorem emitLoop_some (settings : BrushSettings F32) (lastInput input : InputPoint F32)
    (dx dy distance spacing : F32) :
    ∀ (fuel : Nat) (acc : F32) (dabs : List (BrushDab F32)) (rng : RandomSource F32)
      (out : List (BrushDab F32) × F32 × RandomSource F32),
      emitLoop settings lastInput input dx dy distance spacing fuel acc dabs rng = some out →
      ∃ n, n ≤ fuel ∧
        (∀ j, j < n → (subIter spacing j acc ≥ spacing ∧ spacing > 0.0)) ∧
        ¬ (subIter spacing n acc ≥ spacing ∧ spacing > 0.0) ∧
        out = (dabs ++ (emitAll settings
            (loopInputs lastInput input dx dy distance spacing n acc) rng).1,
          subIter spacing n acc,
          (emitAll settings (loopInputs lastInput input dx dy distance spacing n acc) rng).2)
  | 0, acc, dabs, rng, out, h => by
    by_cases hc : acc ≥ spacing ∧ spacing > 0.0
    · simp [emitLoop, hc] at h
    · rw [emitLoop_stop32 _ _ _ _ _ _ _ _ _ _ _ hc] at h
      refine ⟨0, le_rfl, fun j hj => by omega, hc, ?_⟩
      simp only [Option.some.injEq] at h
      rw [← h]; simp [loopInputs, emitAll, subIter]
  | fuel + 1, acc, dabs, rng, out, h => by
    by_cases hc : acc ≥ spacing ∧ spacing > 0.0
    · rw [emitLoop_step32 _ _ _ _ _ _ _ _ _ _ _ hc] at h
      obtain ⟨n, hn, hrun, hstop, hout⟩ :=
        emitLoop_some settings lastInput input dx dy distance spacing fuel _ _ _ out h
      refine ⟨n + 1, by omega, ?_, hstop, ?_⟩
      · intro j hj
        cases j with
        | zero => exact hc
        | succ j => exact hrun j (by omega)
      · rw [hout]; simp [loopInputs, emitAll, subIter]
    · rw [emitLoop_stop32 _ _ _ _ _ _ _ _ _ _ _ hc] at h
      refine ⟨0, by omega, fun j hj => by omega, hc, ?_⟩
      simp only [Option.some.injEq] at h
      rw [← h]; simp [loopInputs, emitAll, subIter]

theorem emitAll_length (settings : BrushSettings F32) :
    ∀ (ps : List (InputPoint F32)) (rng : RandomSource F32),
      (emitAll settings ps rng).1.length = ps.length
  | [], _ => rfl
  | p :: ps, rng => by simp [emitAll, emitAll_length settings ps]

theorem loopInputs_length (lastInput input : InputPoint F32) (dx dy distance spacing : F32) :
    ∀ (n : Nat) (acc : F32),
      (loopInputs lastInput input dx dy distance spacing n acc).length = n
  | 0, _ => rfl
  | n + 1, acc => by simp [loopInputs, loopInputs_length lastInput input dx dy distance spacing n]

theorem notNeg_iff (x : F32) :
    ¬ x < 0 ↔ (x = F32.nan ∨ x = F32.inf false ∨ ∃ k : Nat, x = F32.fin (k : Int)) := by
  rw [F32.zero_eq]
  cases x with
  | fin a =>
    rw [F32.lt_fin]
    constructor
    · intro h
      right; right
      obtain ⟨k, hk⟩ := Int.eq_ofNat_of_zero_le (by omega : 0 ≤ a)
      exact ⟨k, by rw [hk]⟩
    · rintro (h | h | ⟨k, h⟩)
      · cases h
      · cases h
      · injection h with h; omega
  | inf s =>
    rw [F32.lt_def]
    cases s <;> simp [F32.lt]
  | nan =>
    rw [F32.lt_def]
    simp [F32.lt]

theorem sqrt_notNeg (x : F32) : ¬ F32.sqrt x < 0 := by
  rw [notNeg_iff]
  cases x with
  | fin a =>
    simp only [F32.sqrt]
    split_ifs
    · left; rfl
    · right; right; exact ⟨_, rfl⟩
  | inf s =>
    cases s
    · right; left; rfl
    · left; rfl
  | nan => left; rfl

theorem add_notNeg {x y : F32} (hx : ¬ x < 0) (hy : ¬ y < 0) : ¬ x + y < 0 := by
  rw [notNeg_iff] at hx hy ⊢
  rcases hx with rfl | rfl | ⟨a, rfl⟩ <;> rcases hy with rfl | rfl | ⟨b, rfl⟩
  · left; rfl
  · left; rfl
  · left; rfl
  · left; rfl
  · right; left; rfl
  · right; left; rfl
  · left; rfl
  · right; left; rfl
  · rw [F32.add_fin]
    have e : ((a : Int) + (b : Int)) = ((a + b : Nat) : Int) := by push_cast; ring
    rw [e]
    rcases F32.round_nonneg_cases (a + b) 1 with h | ⟨k, h⟩
    · right; left; exact h
    · right; right; exact ⟨k, h⟩

theorem sub_notNeg {acc s : F32} (hc : acc ≥ s ∧ s > 0.0) : ¬ acc - s < 0 := by
  obtain ⟨h1, h2⟩ := hc
  rw [notNeg_iff]
  have h1' : F32.le s acc = true := h1
  have h2' : F32.lt (0.0 : F32) s = true := h2
  rw [F32.zero_lit] at h2'
  rcases s with b | (_ | _) | _
  · rcases acc with a | (_ | _) | _
    · simp only [F32.le, F32.lt, decide_eq_true_eq] at h1' h2'
      rw [F32.sub_fin]
      obtain ⟨k, hk⟩ := Int.eq_ofNat_of_zero_le (by omega : 0 ≤ a - b)
      rw [hk]
      rcases F32.round_nonneg_cases k 1 with h | ⟨j, h⟩
      · right; left; exact h
      · right; right; exact ⟨j, h⟩
    · right; left; rfl
    · simp [F32.le] at h1'
    · simp [F32.le] at h1'
  · rcases acc with a | (_ | _) | _
    · simp [F32.le] at h1'
    · left; rfl
    · simp [F32.le] at h1'
    · simp [F32.le] at h1'
  · simp [F32.lt] at h2'
  · simp [F32.lt] at h2'

theorem subIter_inv (s : F32) :
    ∀ (n : Nat) (acc : F32), IsBinary32 acc → ¬ acc < 0 →
      (∀ j, j < n → (subIter s j acc ≥ s ∧ s > 0.0)) →
      IsBinary32 (subIter s n acc) ∧ ¬ subIter s n acc < 0
  | 0, acc, h1, h2, _ => ⟨h1, h2⟩
  | n + 1, acc, h1, h2, hrun => by
    have h0 : acc ≥ s ∧ s > 0.0 := hrun 0 (by omega)
    exact subIter_inv s n (acc - s) (F32.sub_isBinary32 _ _) (sub_notNeg h0)
      (fun j hj => hrun (j + 1) (by omega))

/-- In every reachable state the accumulator is a binary32 number that is not negative. -/
theorem reachable_acc (e : BrushEngine F32) (h : Reachable e) :
    IsBinary32 e.m_distanceSinceLastDab ∧ ¬ e.m_distanceSinceLastDab < 0 := by
  induction h with
  | constructed => exact ⟨by decide!, by decide!⟩
  | afterSetBrushSettings e settings _ ih => exact ih
  | afterBeginStroke e _ _ =>
    exact ⟨(by decide! : IsBinary32 (0.0 : F32)), (by decide! : ¬ (0.0 : F32) < 0)⟩
  | afterEndStroke e _ ih => exact ih
  | afterAddMapping e m _ ih => exact ih
  | afterClearMappings e _ ih => exact ih
  | afterProcessInput fuel e input rng r _ hr ih =>
    by_cases hact : e.m_strokeActive = true
    · by_cases hts : e.m_lastInput.timestamp = 0
      · rw [processInput_first32 fuel e input rng hact hts] at hr
        simp only [Option.some.injEq] at hr
        rw [← hr]; exact ih
      · rw [processInput_next32 fuel e input rng hact hts] at hr
        rcases hl : emitLoop e.m_settings e.m_lastInput input (input.x - e.m_lastInput.x)
          (input.y - e.m_lastInput.y) (segmentLength e.m_lastInput input)
          (spacingFor e.m_settings input rng) fuel
          (e.m_distanceSinceLastDab + segmentLength e.m_lastInput input) []
          (applyMappings e.m_settings input (generateDab e.m_settings input) rng).2 with _ | out
        · rw [hl] at hr; simp at hr
        · rw [hl] at hr
          simp only [Option.map_some', Option.some.injEq] at hr
          obtain ⟨n, _, hrun, _, hout⟩ := emitLoop_some _ _ _ _ _ _ _ _ _ _ _ _ hl
          rw [← hr, hout]
          exact subIter_inv _ n _ (F32.add_isBinary32 _ _)
            (add_notNeg ih.2 (sqrt_notNeg _)) hrun
    · have hact' : e.m_strokeActive = false := by simpa using hact
      rw [processInput_idle32 fuel e input rng hact'] at hr
      simp only [Option.some.injEq] at hr
      rw [← hr]; exact ih

theorem fin_sub_fin_nat {A B : Nat} (hB : B ≤ A) (hA : A < 33554431 * 2 ^ 252) :
    F32.fin (A : Int) - F32.fin (B : Int) = F32.fin ((F32.roundNat (A - B) 1 : Nat) : Int) := by
  rw [F32.sub_fin]
  have e : (A : Int) - (B : Int) = ((A - B : Nat) : Int) := by omega
  rw [e, F32.round_ofNat (by omega)]

/-- One rounded subtraction of a spacing that is at least one grid step of the
accumulator strictly decreases the accumulator. -/
theorem roundNat_sub_lt {A B : Nat} (hB : B ≤ A) (hB0 : 0 < B)
    (hg : 2 ^ F32.gridExp A ≤ B) : F32.roundNat (A - B) 1 < A := by
  have h1 := (F32.roundNat_one_bounds (A - B)).1
  have h2 : 2 ^ F32.gridExp (A - B) ≤ 2 ^ F32.gridExp A :=
    Nat.pow_le_pow_right (by norm_num) (F32.gridExp_mono (by omega))
  generalize 2 ^ F32.gridExp (A - B) = G' at h1 h2
  generalize 2 ^ F32.gridExp A = G at hg h2
  omega

/-- The subtraction loop on the accumulator ends: for a finite accumulator `A` and a
spacing `B > 0` of at least one grid step of `A` (all in units of `2^-149`), some number
`n` of rounded subtractions leaves `C < B`, and `A - n * B - C` is at most `n * A / 2^24`
in absolute value. -/
theorem subIter_terminates (B : Nat) (hB0 : 0 < B) :
    ∀ (A : Nat), A < 33554431 * 2 ^ 252 → 2 ^ F32.gridExp A ≤ B →
      ∃ (n C : Nat), subIter (F32.fin (B : Int)) n (F32.fin (A : Int)) = F32.fin (C : Int) ∧
        C < B ∧
        (∀ j, j < n → ∃ Aj : Nat, subIter (F32.fin (B : Int)) j (F32.fin (A : Int)) =
          F32.fin (Aj : Int) ∧ B ≤ Aj) ∧
        2 ^ 24 * (C + n * B) ≤ 2 ^ 24 * A + n * A ∧
        2 ^ 24 * A ≤ 2 ^ 24 * (C + n * B) + n * A := by
  intro A
  induction A using Nat.strong_induction_on with
  | _ A ih =>
    intro hA hg
    rcases Nat.lt_or_ge A B with hlt | hge
    · exact ⟨0, A, rfl, hlt, fun j hj => by omega, by omega, by omega⟩
    · have hdec := roundNat_sub_lt hge hB0 hg
      have hg' : 2 ^ F32.gridExp (F32.roundNat (A - B) 1) ≤ B :=
        le_trans (Nat.pow_le_pow_right (by norm_num) (F32.gridExp_mono (le_of_lt hdec))) hg
      obtain ⟨n, C, h1, h2, h3, h4, h5⟩ :=
        ih (F32.roundNat (A - B) 1) hdec (lt_trans hdec hA) hg'
      have hrel := F32.roundNat_rel (A - B)
      refine ⟨n + 1, C, ?_, h2, ?_, ?_, ?_⟩
      · show subIter _ n (F32.fin (A : Int) - F32.fin (B : Int)) = _
        rw [fin_sub_fin_nat hge hA]; exact h1
      · intro j hj
        cases j with
        | zero => exact ⟨A, rfl, hge⟩
        | succ j =>
          obtain ⟨Aj, e1, e2⟩ := h3 j (by omega)
          refine ⟨Aj, ?_, e2⟩
          show subIter _ j (F32.fin (A : Int) - F32.fin (B : Int)) = _
          rw [fin_sub_fin_nat hge hA]; exact e1
      · generalize F32.roundNat (A - B) 1 = R at *
        have hnR : n * R ≤ n * A := Nat.mul_le_mul_left _ (le_of_lt hdec)
        have e : (n + 1) * B = n * B + B := by ring
        have e2 : (n + 1) * A = n * A + A := by ring
        rw [e, e2]
        generalize n * B = nB at *
        generalize n * R = nR at *
        generalize n * A = nA at *
        omega
      · generalize F32.roundNat (A - B) 1 = R at *
        have hnR : n * R ≤ n * A := Nat.mul_le_mul_left _ (le_of_lt hdec)
        have e : (n + 1) * B = n * B + B := by ring
        have e2 : (n + 1) * A = n * A + A := by ring
        rw [e, e2]
        generalize n * B = nB at *
        generalize n * R = nR at *
        generalize n * A = nA at *
        omega

end Binary32

namespace Binary32

theorem getInputValue_det32 (input : InputPoint F32) (source : InputSource)
    (rng rng' : RandomSource F32) (h : source ≠ InputSource.Random) :
    (getInputValue input source rng).2 = rng ∧
    (getInputValue input source rng).1 = (getInputValue input source rng').1 := by
  cases source <;> simp_all [getInputValue]

theorem applyMapping_det32 (input : InputPoint F32) (dab : BrushDab F32)
    (rng : RandomSource F32) (m : InputMapping F32) (h : m.source ≠ InputSource.Random) :
    applyMapping input (dab, rng) m = ((applyMapping input (dab, rng) m).1, rng) := by
  have h1 := (getInputValue_det32 input m.source rng rng h).1
  refine Prod.ext rfl ?_
  unfold applyMapping
  cases m.target <;> simp_all

theorem foldl_applyMapping_det32 (input : InputPoint F32) (rng : RandomSource F32)
    (ms : List (InputMapping F32)) (h : ∀ m ∈ ms, m.source ≠ InputSource.Random) :
    ∀ dab : BrushDab F32,
      (ms.foldl (applyMapping input) (dab, rng)).2 = rng := by
  induction ms with
  | nil => intro dab; rfl
  | cons m ms ih =>
    intro dab
    rw [List.foldl_cons, applyMapping_det32 input dab rng m (h m (List.mem_cons_self _ _))]
    exact ih (fun m' hm' => h m' (List.mem_cons_of_mem _ hm')) _

theorem applyMapping_fields32 (input : InputPoint F32) (dab : BrushDab F32)
    (rng : RandomSource F32) (m : InputMapping F32) :
    (applyMapping input (dab, rng) m).1.size =
      (if m.target = BrushProperty.Size then dab.size * mappingOutput input rng m
        else dab.size) ∧
    (applyMapping input (dab, rng) m).1.opacity =
      (if m.target = BrushProperty.Opacity then dab.opacity * mappingOutput input rng m
        else dab.opacity) ∧
    (applyMapping input (dab, rng) m).1.flow =
      (if m.target = BrushProperty.Flow then dab.flow * mappingOutput input rng m
        else dab.flow) ∧
    (applyMapping input (dab, rng) m).1.rotation =
      (if m.target = BrushProperty.Rotation then dab.rotation + mappingOutput input rng m
        else dab.rotation) ∧
    (applyMapping input (dab, rng) m).1.hardness =
      (if m.target = BrushProperty.Hardness then clamp01 (mappingOutput input rng m)
        else dab.hardness) ∧
    (applyMapping input (dab, rng) m).1.scatter =
      (if m.target = BrushProperty.Scatter then mappingOutput input rng m
        else dab.scatter) ∧
    (applyMapping input (dab, rng) m).1.x = dab.x ∧
    (applyMapping input (dab, rng) m).1.y = dab.y ∧
    (applyMapping input (dab, rng) m).1.r = dab.r ∧
    (applyMapping input (dab, rng) m).1.g = dab.g ∧
    (applyMapping input (dab, rng) m).1.b = dab.b := by
  unfold applyMapping mappingOutput clamp01
  cases m.target <;> simp

theorem targetOutputs_cons (input : InputPoint F32) (rng : RandomSource F32)
    (target : BrushProperty) (m : InputMapping F32) (ms : List (InputMapping F32)) :
    targetOutputs input rng target (m :: ms) =
      if m.target = target then mappingOutput input rng m :: targetOutputs input rng target ms
      else targetOutputs input rng target ms := by
  unfold targetOutputs
  by_cases h : m.target = target <;> simp [List.filter_cons, h]

/-- Closed form of the mapping loop for deterministic sources. -/
theorem foldl_applyMapping_fields32 (input : InputPoint F32) (rng : RandomSource F32)
    (ms : List (InputMapping F32)) (h : ∀ m ∈ ms, m.source ≠ InputSource.Random) :
    ∀ dab : BrushDab F32,
      (ms.foldl (applyMapping input) (dab, rng)).1.size =
        (targetOutputs input rng BrushProperty.Size ms).foldl (fun a o => a * o) dab.size ∧
      (ms.foldl (applyMapping input) (dab, rng)).1.opacity =
        (targetOutputs input rng BrushProperty.Opacity ms).foldl (fun a o => a * o) dab.opacity ∧
      (ms.foldl (applyMapping input) (dab, rng)).1.flow =
        (targetOutputs input rng BrushProperty.Flow ms).foldl (fun a o => a * o) dab.flow ∧
      (ms.foldl (applyMapping input) (dab, rng)).1.rotation =
        (targetOutputs input rng BrushProperty.Rotation ms).foldl (fun a o => a + o)
          dab.rotation ∧
      (ms.foldl (applyMapping input) (dab, rng)).1.x = dab.x ∧
      (ms.foldl (applyMapping input) (dab, rng)).1.y = dab.y ∧
      (ms.foldl (applyMapping input) (dab, rng)).1.r = dab.r ∧
      (ms.foldl (applyMapping input) (dab, rng)).1.g = dab.g ∧
      (ms.foldl (applyMapping input) (dab, rng)).1.b = dab.b := by
  induction ms with
  | nil => intro dab; simp [targetOutputs]
  | cons m ms ih =>
    intro dab
    have hm := h m (List.mem_cons_self _ _)
    have hms : ∀ m' ∈ ms, m'.source ≠ InputSource.Random :=
      fun m' hm' => h m' (List.mem_cons_of_mem _ hm')
    obtain ⟨f1, f2, f3, f4, _, _, f7, f8, f9, f10, f11⟩ := applyMapping_fields32 input dab rng m
    obtain ⟨g1, g2, g3, g4, g5, g6, g7, g8, g9⟩ := ih hms (applyMapping input (dab, rng) m).1
    rw [List.foldl_cons, applyMapping_det32 input dab rng m hm, g1, g2, g3, g4, g5, g6, g7, g8,
      g9, f1, f2, f3, f4, f7, f8, f9, f10, f11]
    simp only [targetOutputs_cons]
    refine ⟨?_, ?_, ?_, ?_, trivial, trivial, trivial, trivial, trivial⟩ <;> split_ifs <;> rfl

theorem lastMapping_concat32 (target : BrushProperty) (ms : List (InputMapping F32))
    (m : InputMapping F32) :
    lastMapping target (ms ++ [m]) =
      if m.target = target then some m else lastMapping target ms := by
  unfold lastMapping
  by_cases h : m.target = target
  · simp [List.filter_append, h, List.getLast?_append]
  · simp [List.filter_append, h]

theorem foldl_applyMapping_last32 (input : InputPoint F32) (rng : RandomSource F32)
    (dab : BrushDab F32) (ms : List (InputMapping F32)) :
    (∀ m ∈ ms, m.source ≠ InputSource.Random) →
    (ms.foldl (applyMapping input) (dab, rng)).1.hardness =
      ((lastMapping BrushProperty.Hardness ms).elim dab.hardness
        (fun m => clamp01 (mappingOutput input rng m))) ∧
    (ms.foldl (applyMapping input) (dab, rng)).1.scatter =
      ((lastMapping BrushProperty.Scatter ms).elim dab.scatter
        (fun m => mappingOutput input rng m)) := by
  induction ms using List.reverseRecOn with
  | nil => intro _; simp [lastMapping]
  | append_singleton ms m ih =>
    intro h
    have hms : ∀ m' ∈ ms, m'.source ≠ InputSource.Random :=
      fun m' hm' => h m' (List.mem_append_left _ hm')
    obtain ⟨i1, i2⟩ := ih hms
    have hr := foldl_applyMapping_det32 input rng ms hms dab
    have e1 : ms.foldl (applyMapping input) (dab, rng) =
        ((ms.foldl (applyMapping input) (dab, rng)).1, rng) := Prod.ext rfl hr
    obtain ⟨_, _, _, _, f5, f6, _⟩ :=
      applyMapping_fields32 input (ms.foldl (applyMapping input) (dab, rng)).1 rng m
    rw [List.foldl_append, List.foldl_cons, List.foldl_nil, e1, lastMapping_concat32,
      lastMapping_concat32, f5, f6, i1, i2]
    constructor <;> split_ifs <;> simp only [Option.elim]

theorem eq_of_fields32 (d1 d2 : BrushDab F32)
    (hx : d1.x = d2.x) (hy : d1.y = d2.y) (hsize : d1.size = d2.size)
    (hop : d1.opacity = d2.opacity) (hrot : d1.rotation = d2.rotation)
    (hh : d1.hardness = d2.hardness) (hf : d1.flow = d2.flow)
    (hs : d1.scatter = d2.scatter) (hr : d1.r = d2.r) (hg : d1.g = d2.g)
    (hb : d1.b = d2.b) : d1 = d2 := by
  cases d1
  cases d2
  simp_all

end Binary32

/-- C11 (amended): for every configuration whose mappings use deterministic sources, every
sample and every random source, `applyMappings` in binary32 yields
`size = max(0.1, (...((baseSize * o_1) * o_2)...) * o_n)`, the binary32 product taken from
`baseSize` through the curve outputs of the `Size` mappings left to right in list order,
`opacity` and `flow` the clamp to `[0, 1]` of the same left-to-right product from
`baseOpacity` and `baseFlow`, and `rotation` the left-to-right binary32 sum from
`baseRotation` through the outputs of the `Rotation` mappings. The clamps are applied once,
after all mappings. -/
theorem applyMappings_composition (settings : BrushSettings F32)
    (input : InputPoint F32) (rng : RandomSource F32)
    (hdet : ∀ m ∈ settings.mappings, m.source ≠ InputSource.Random) :
    (Binary32.applyMappings settings input (Binary32.generateDab settings input) rng).1.size =
      F32.fmax 0.1
        ((Binary32.targetOutputs input rng BrushProperty.Size settings.mappings).foldl
          (fun a o => a * o) settings.baseSize) ∧
    (Binary32.applyMappings settings input (Binary32.generateDab settings input) rng).1.opacity =
      Binary32.clamp01
        ((Binary32.targetOutputs input rng BrushProperty.Opacity settings.mappings).foldl
          (fun a o => a * o) settings.baseOpacity) ∧
    (Binary32.applyMappings settings input (Binary32.generateDab settings input) rng).1.flow =
      Binary32.clamp01
        ((Binary32.targetOutputs input rng BrushProperty.Flow settings.mappings).foldl
          (fun a o => a * o) settings.baseFlow) ∧
    (Binary32.applyMappings settings input (Binary32.generateDab settings input) rng).1.rotation =
      (Binary32.targetOutputs input rng BrushProperty.Rotation settings.mappings).foldl
        (fun a o => a + o) settings.baseRotation := by
  obtain ⟨g1, g2, g3, g4, _⟩ := Binary32.foldl_applyMapping_fields32 input rng settings.mappings
    hdet (Binary32.generateDab settings input)
  simp only [Binary32.applyMappings, Binary32.clampDab, Binary32.clamp01, g1, g2, g3, g4]
  exact ⟨rfl, rfl, rfl, rfl⟩

/-- C28 (amended): for every sample, dab and random source, and every two mapping lists with
deterministic sources that list the `Size` mappings in the same order, the `Opacity`
mappings in the same order, the `Flow` mappings in the same order and the `Rotation`
mappings in the same order, and that have the same last `Hardness` mapping and the same
last `Scatter` mapping, `applyMappings` in binary32 produces the same dab and leaves the
same random source. -/
theorem applyMappings_reorder (settings : BrushSettings F32)
    (ms1 ms2 : List (InputMapping F32)) (input : InputPoint F32) (dab : BrushDab F32)
    (rng : RandomSource F32)
    (hdet1 : ∀ m ∈ ms1, m.source ≠ InputSource.Random)
    (hdet2 : ∀ m ∈ ms2, m.source ≠ InputSource.Random)
    (hsize : ms1.filter (fun m => m.target = BrushProperty.Size) =
      ms2.filter (fun m => m.target = BrushProperty.Size))
    (hopacity : ms1.filter (fun m => m.target = BrushProperty.Opacity) =
      ms2.filter (fun m => m.target = BrushProperty.Opacity))
    (hflow : ms1.filter (fun m => m.target = BrushProperty.Flow) =
      ms2.filter (fun m => m.target = BrushProperty.Flow))
    (hrot : ms1.filter (fun m => m.target = BrushProperty.Rotation) =
      ms2.filter (fun m => m.target = BrushProperty.Rotation))
    (hhard : Binary32.lastMapping BrushProperty.Hardness ms1 =
      Binary32.lastMapping BrushProperty.Hardness ms2)
    (hscat : Binary32.lastMapping BrushProperty.Scatter ms1 =
      Binary32.lastMapping BrushProperty.Scatter ms2) :
    Binary32.applyMappings { settings with mappings := ms1 } input dab rng =
      Binary32.applyMappings { settings with mappings := ms2 } input dab rng := by
  obtain ⟨a1, a2, a3, a4, a5, a6, a7, a8, a9⟩ :=
    Binary32.foldl_applyMapping_fields32 input rng ms1 hdet1 dab
  obtain ⟨b1, b2, b3, b4, b5, b6, b7, b8, b9⟩ :=
    Binary32.foldl_applyMapping_fields32 input rng ms2 hdet2 dab
  obtain ⟨c1, c2⟩ := Binary32.foldl_applyMapping_last32 input rng dab ms1 hdet1
  obtain ⟨d1, d2⟩ := Binary32.foldl_applyMapping_last32 input rng dab ms2 hdet2
  have hdab : (ms1.foldl (Binary32.applyMapping input) (dab, rng)).1 =
      (ms2.foldl (Binary32.applyMapping input) (dab, rng)).1 := by
    apply Binary32.eq_of_fields32
    · rw [a5, b5]
    · rw [a6, b6]
    · rw [a1, b1]; unfold Binary32.targetOutputs; rw [hsize]
    · rw [a2, b2]; unfold Binary32.targetOutputs; rw [hopacity]
    · rw [a4, b4]; unfold Binary32.targetOutputs; rw [hrot]
    · rw [c1, d1, hhard]
    · rw [a3, b3]; unfold Binary32.targetOutputs; rw [hflow]
    · rw [c2, d2, hscat]
    · rw [a7, b7]
    · rw [a8, b8]
    · rw [a9, b9]
  have hrng1 := Binary32.foldl_applyMapping_det32 input rng ms1 hdet1 dab
  have hrng2 := Binary32.foldl_applyMapping_det32 input rng ms2 hdet2 dab
  simp only [Binary32.applyMappings]
  rw [hdab, hrng1, hrng2]

/-- C11 (counterexample): in binary32 the product cannot be regrouped. With base size 20
and two constant `Size` mappings with outputs `0.3f` and `1.4f`, `applyMappings` gives size
`8808038 * 2^-20 = 8.3999996`, whereas `max(0.1, baseSize * P_size)` with the product
`P_size = 1 * 0.3f * 1.4f` computed first gives `8808039 * 2^-20 = 8.4000006`. With five
`Opacity` mappings with outputs `2^100, 2^100, 2^-100, 2^-100, 0.5` the intermediate product
overflows and `applyMappings` gives opacity 1, whereas `baseOpacity` times the real product
of the outputs is `1/2`. -/
theorem size_product_regrouped :
    (Binary32.applyMappings (Binary32.settingsWith 20.0 0.1 Binary32.twoSizeMappings)
        (Binary32.samplePoint 0.0 0.0 1.0 1)
        (Binary32.generateDab (Binary32.settingsWith 20.0 0.1 Binary32.twoSizeMappings)
          (Binary32.samplePoint 0.0 0.0 1.0 1)) Binary32.zeroDraws).1.size =
      F32.fin (8808038 * 2 ^ 129) ∧
    F32.fmax 0.1 (20.0 * (Binary32.targetOutputs (Binary32.samplePoint 0.0 0.0 1.0 1)
        Binary32.zeroDraws BrushProperty.Size Binary32.twoSizeMappings).foldl
        (fun a o => a * o) 1.0) = F32.fin (8808039 * 2 ^ 129) ∧
    (Binary32.applyMappings (Binary32.settingsWith 20.0 0.1 Binary32.overflowMappings)
        (Binary32.samplePoint 0.0 0.0 1.0 1)
        (Binary32.generateDab (Binary32.settingsWith 20.0 0.1 Binary32.overflowMappings)
          (Binary32.samplePoint 0.0 0.0 1.0 1)) Binary32.zeroDraws).1.opacity = 1.0 ∧
    F32.toRat (Binary32.settingsWith 20.0 0.1 Binary32.overflowMappings).baseOpacity *
      ((Binary32.targetOutputs (Binary32.samplePoint 0.0 0.0 1.0 1) Binary32.zeroDraws
        BrushProperty.Opacity Binary32.overflowMappings).map F32.toRat).prod = 1 / 2 := by
  decide!

/-- C11 at a concrete input: base size 20 and the two constant `Size` mappings with outputs
`0.3f` and `1.4f`. -/
theorem applyMappings_composition_witness :
    (Binary32.applyMappings (Binary32.settingsWith 20.0 0.1 Binary32.twoSizeMappings)
        (Binary32.samplePoint 0.0 0.0 1.0 1)
        (Binary32.generateDab (Binary32.settingsWith 20.0 0.1 Binary32.twoSizeMappings)
          (Binary32.samplePoint 0.0 0.0 1.0 1)) Binary32.zeroDraws).1.size =
      F32.fmax 0.1
        ((Binary32.targetOutputs (Binary32.samplePoint 0.0 0.0 1.0 1) Binary32.zeroDraws
          BrushProperty.Size
          (Binary32.settingsWith 20.0 0.1 Binary32.twoSizeMappings).mappings).foldl
          (fun a o => a * o) (Binary32.settingsWith 20.0 0.1 Binary32.twoSizeMappings).baseSize) :=
  (applyMappings_composition (Binary32.settingsWith 20.0 0.1 Binary32.twoSizeMappings)
    (Binary32.samplePoint 0.0 0.0 1.0 1) Binary32.zeroDraws (by decide!)).1

/-- C28 (counterexample): three constant `Size` mappings with outputs `0.1f`, `0.7f` and 3
on base size 20. The reversed list is a permutation with the same last `Hardness` and
`Scatter` mapping (none), yet `applyMappings` gives size `8808038 * 2^-21 = 4.19999981` for
the list and `8808039 * 2^-21 = 4.20000029` for its reverse. -/
theorem size_depends_on_order :
    Binary32.threeSizeMappings.reverse.Perm Binary32.threeSizeMappings ∧
    Binary32.lastMapping BrushProperty.Hardness Binary32.threeSizeMappings.reverse =
      Binary32.lastMapping BrushProperty.Hardness Binary32.threeSizeMappings ∧
    Binary32.lastMapping BrushProperty.Scatter Binary32.threeSizeMappings.reverse =
      Binary32.lastMapping BrushProperty.Scatter Binary32.threeSizeMappings ∧
    (Binary32.applyMappings (Binary32.settingsWith 20.0 0.1 Binary32.threeSizeMappings)
        (Binary32.samplePoint 0.0 0.0 1.0 1)
        (Binary32.generateDab (Binary32.settingsWith 20.0 0.1 [])
          (Binary32.samplePoint 0.0 0.0 1.0 1)) Binary32.zeroDraws).1.size =
      F32.fin (8808038 * 2 ^ 128) ∧
    (Binary32.applyMappings (Binary32.settingsWith 20.0 0.1 Binary32.threeSizeMappings.reverse)
        (Binary32.samplePoint 0.0 0.0 1.0 1)
        (Binary32.generateDab (Binary32.settingsWith 20.0 0.1 [])
          (Binary32.samplePoint 0.0 0.0 1.0 1)) Binary32.zeroDraws).1.size =
      F32.fin (8808039 * 2 ^ 128) :=
  ⟨List.reverse_perm _, by decide!, by decide!, by decide!, by decide!⟩

/-- C28 at a concrete input: the lists `mixedMappings` and `mixedMappingsShuffled`, which
interleave the targets differently and keep the order within each target. -/
theorem applyMappings_reorder_witness :
    Binary32.applyMappings
        { Binary32.settingsWith 20.0 0.1 [] with mappings := Binary32.mixedMappings }
        (Binary32.samplePoint 0.0 0.0 1.0 1)
        (Binary32.generateDab (Binary32.settingsWith 20.0 0.1 [])
          (Binary32.samplePoint 0.0 0.0 1.0 1)) Binary32.zeroDraws =
      Binary32.applyMappings
        { Binary32.settingsWith 20.0 0.1 [] with mappings := Binary32.mixedMappingsShuffled }
        (Binary32.samplePoint 0.0 0.0 1.0 1)
        (Binary32.generateDab (Binary32.settingsWith 20.0 0.1 [])
          (Binary32.samplePoint 0.0 0.0 1.0 1)) Binary32.zeroDraws :=
  applyMappings_reorder (Binary32.settingsWith 20.0 0.1 []) Binary32.mixedMappings
    Binary32.mixedMappingsShuffled (Binary32.samplePoint 0.0 0.0 1.0 1)
    (Binary32.generateDab (Binary32.settingsWith 20.0 0.1 [])
      (Binary32.samplePoint 0.0 0.0 1.0 1)) Binary32.zeroDraws
    (by decide!) (by decide!) (by decide!) (by decide!) (by decide!) (by decide!)
    (by decide!) (by decide!)

section

open F32

namespace Binary32

theorem toRat_half : toRat (0.5 : F32) = 1 / 2 := by
  rw [half_lit, toRat_fin]
  have : ((2 ^ 148 : Int) : ℚ) = 2 ^ 148 := by norm_cast
  rw [this]
  have e : (2 : ℚ) ^ 149 = 2 ^ 148 * 2 := by norm_num
  rw [e]; field_simp

/-- Forward error of `InputMapping::apply` in binary32 against its real-number formula. -/
theorem apply_error (m : InputMapping F32) (x : F32)
    (h : (InputMapping.apply m x).isFinite = true) :
    |toRat (InputMapping.apply m x) -
        ((toRat m.minOutput + toRat m.maxOutput) / 2 +
          (toRat m.minOutput + (toRat m.maxOutput - toRat m.minOutput) *
              toRat (InputMapping.curvedValue m x) -
            (toRat m.minOutput + toRat m.maxOutput) / 2) * toRat m.strength)| ≤
      (|toRat m.minOutput| + |toRat m.maxOutput|) *
          (1 + |toRat (InputMapping.curvedValue m x)|) * (1 + |toRat m.strength|) / 2 ^ 20 +
        (1 + |toRat m.strength|) / 2 ^ 145 := by
  unfold InputMapping.apply at h ⊢
  unfold InputMapping.result InputMapping.baseValue at h ⊢
  generalize InputMapping.curvedValue m x = cv at h ⊢
  obtain ⟨hB, hF, eO⟩ := add_error h
  obtain ⟨hE, _, eF⟩ := mul_error hF
  obtain ⟨hR, _, eE⟩ := sub_error hE
  obtain ⟨_, hP, eR⟩ := add_error hR
  obtain ⟨hD, _, eP⟩ := mul_error hP
  obtain ⟨_, _, eD⟩ := sub_error hD
  obtain ⟨hS, _, eB⟩ := mul_error hB
  obtain ⟨_, _, eS⟩ := add_error hS
  rw [toRat_half] at eB
  generalize toRat (m.minOutput + (m.maxOutput - m.minOutput) * cv) = R at eO eF eE eR ⊢
  generalize toRat ((m.minOutput + m.maxOutput) * 0.5 +
    (m.minOutput + (m.maxOutput - m.minOutput) * cv - (m.minOutput + m.maxOutput) * 0.5) *
      m.strength) = O at eO ⊢
  generalize toRat ((m.minOutput + (m.maxOutput - m.minOutput) * cv -
    (m.minOutput + m.maxOutput) * 0.5) * m.strength) = F at eO eF
  generalize toRat (m.minOutput + (m.maxOutput - m.minOutput) * cv -
    (m.minOutput + m.maxOutput) * 0.5) = E at eF eE
  generalize toRat ((m.minOutput + m.maxOutput) * 0.5) = B at eO eE eB
  generalize toRat ((m.maxOutput - m.minOutput) * cv) = P at eR eP
  generalize toRat (m.maxOutput - m.minOutput) = D at eP eD
  generalize toRat (m.minOutput + m.maxOutput) = S0 at eB eS
  generalize toRat m.minOutput = a at *
  generalize toRat m.maxOutput = b at *
  generalize toRat cv = c at *
  generalize toRat m.strength = s at *
  have hu : (0 : ℚ) ≤ 1 / 2 ^ 24 := by positivity
  rw [div_eq_mul_one_div] at eO eE eR eD eS
  rw [div_eq_mul_one_div (|D * c|)] at eP
  rw [div_eq_mul_one_div (|S0 * (1 / 2)|)] at eB
  rw [div_eq_mul_one_div (|E * s|)] at eF
  have hA : |a| ≤ |a| + |b| := by linarith [abs_nonneg b]
  have hBb : |b| ≤ |a| + |b| := by linarith [abs_nonneg a]
  have z : ∀ t : ℚ, |t - t| ≤ 0 := fun t => by simp
  have hM : 0 ≤ |a| + |b| := by positivity
  have hC : 0 ≤ |c| := abs_nonneg c
  have hSg : 0 ≤ |s| := abs_nonneg s
  generalize |a| + |b| = M at *
  -- exact-value magnitudes
  have mD : |b - a| ≤ M + M := by
    have := abs_sub b a; linarith
  have sD := sub_step (z b) (z a) hBb hA hu eD
  have mP : |(b - a) * c| ≤ (M + M) * |c| := by
    rw [abs_mul]; exact mul_le_mul_of_nonneg_right mD hC
  have sP := mul_step sD (z c) mD (le_refl |c|) hu eP
  have mR : |a + (b - a) * c| ≤ M + (M + M) * |c| := by
    linarith [abs_add a ((b - a) * c)]
  have sR := add_step (z a) sP hA mP hu eR
  have mS : |a + b| ≤ M + M := by linarith [abs_add a b]
  have sS := add_step (z a) (z b) hA hBb hu eS
  have mB : |(a + b) * (1 / 2)| ≤ (M + M) * (1 / 2) := by
    rw [abs_mul, abs_of_pos (by norm_num : (0 : ℚ) < 1 / 2)]
    exact mul_le_mul_of_nonneg_right mS (by norm_num)
  have sB := mul_step sS (z (1 / 2 : ℚ)) mS
    (le_of_eq (abs_of_pos (by norm_num : (0 : ℚ) < 1 / 2))) hu eB
  have mE : |a + (b - a) * c - (a + b) * (1 / 2)| ≤
      M + (M + M) * |c| + (M + M) * (1 / 2) := by
    have := abs_sub (a + (b - a) * c) ((a + b) * (1 / 2)); linarith
  have sE := sub_step sR sB mR mB hu eE
  have mF : |(a + (b - a) * c - (a + b) * (1 / 2)) * s| ≤
      (M + (M + M) * |c| + (M + M) * (1 / 2)) * |s| := by
    rw [abs_mul]; exact mul_le_mul_of_nonneg_right mE hSg
  have sF := mul_step sE (z s) mE (le_refl |s|) hu eF
  have sO := add_step sB sF mB mF hu eO
  have e : (a + b) / 2 + (a + (b - a) * c - (a + b) / 2) * s =
      (a + b) * (1 / 2) + (a + (b - a) * c - (a + b) * (1 / 2)) * s := by ring
  rw [e]
  refine le_trans sO ?_
  generalize |c| = C at *
  generalize |s| = Sg at *
  have h1 : 0 ≤ M * C := mul_nonneg hM hC
  have h2 : 0 ≤ M * Sg := mul_nonneg hM hSg
  have h3 : 0 ≤ M * C * Sg := mul_nonneg h1 hSg
  clear sO sF sE sB sS sR sP sD mF mE mB mS mR mP mD eO eF eE eR eP eD eB eS z e hA hBb
  ring_nf
  linarith only [hM, h1, h2, h3, hSg, hC]

theorem toRat_one : toRat (1.0 : F32) = 1 := by
  rw [one_lit, toRat_fin]
  have : ((2 ^ 149 : Int) : ℚ) = 2 ^ 149 := by norm_cast
  rw [this]; field_simp

theorem toRat_zero : toRat (0.0 : F32) = 0 := by
  rw [zero_lit, toRat_fin]; simp

/-- A binary32 value between 0 and 1 is finite with a rational value between 0 and 1. -/
theorem unit_cases {x : F32} (h0 : (0.0 : F32) ≤ x) (h1 : x ≤ (1.0 : F32)) :
    ∃ k : Int, x = fin k ∧ 0 ≤ k ∧ k ≤ 2 ^ 149 := by
  rw [zero_lit] at h0
  rw [one_lit] at h1
  rcases fin_le_cases h0 with e | ⟨j, e, hj⟩
  · subst e; exact absurd h1 (by decide)
  · subst e; exact ⟨j, rfl, hj, (le_fin _ _).mp h1⟩

theorem toRat_unit {k : Int} (h0 : 0 ≤ k) (h1 : k ≤ 2 ^ 149) :
    0 ≤ toRat (fin k) ∧ toRat (fin k) ≤ 1 := by
  rw [toRat_fin]
  have hp : (0 : ℚ) < 2 ^ 149 := by positivity
  have a0 : (0 : ℚ) ≤ (k : ℚ) := by exact_mod_cast h0
  have a1 : (k : ℚ) ≤ 2 ^ 149 := by exact_mod_cast h1
  exact ⟨div_nonneg a0 (le_of_lt hp), (div_le_one hp).mpr a1⟩

theorem isBinary32_one : IsBinary32 (fin (2 ^ 149)) := by decide!

theorem round_unit {n : Int} {d : Nat} (hd : 0 < d) (h0 : 0 ≤ n) (h1 : n ≤ 2 ^ 149 * d) :
    ∃ k : Int, round n d = fin k ∧ 0 ≤ k ∧ k ≤ 2 ^ 149 := by
  have l0 : round 0 1 ≤ round n d := round_mono (by norm_num) hd (by simpa using h0)
  have l1 : round n d ≤ round (2 ^ 149) 1 := round_mono hd (by norm_num) (by simpa using h1)
  rw [round_zero (by norm_num)] at l0
  rw [round_self isBinary32_one] at l1
  rcases fin_le_cases l0 with e | ⟨j, e, hj⟩
  · rw [e] at l1; exact absurd l1 (by decide)
  · rw [e] at l1; exact ⟨j, e, hj, (le_fin _ _).mp l1⟩

theorem one_sub_unit {k : Int} (h0 : 0 ≤ k) (h1 : k ≤ 2 ^ 149) :
    ∃ j : Int, (1.0 : F32) - fin k = fin j ∧ 0 ≤ j ∧ j ≤ 2 ^ 149 := by
  rw [one_lit, sub_fin]
  exact round_unit (by norm_num) (by linarith) (by push_cast; linarith)

theorem unit_mul_unit {a b : Int} (ha0 : 0 ≤ a) (ha1 : a ≤ 2 ^ 149) (hb0 : 0 ≤ b)
    (hb1 : b ≤ 2 ^ 149) : ∃ j : Int, fin a * fin b = fin j ∧ 0 ≤ j ∧ j ≤ 2 ^ 149 := by
  rw [mul_fin]
  refine round_unit (by positivity) (mul_nonneg ha0 hb0) ?_
  have : a * b ≤ 2 ^ 149 * 2 ^ 149 := mul_le_mul ha1 hb1 hb0 (by positivity)
  exact_mod_cast this

/-- The curve and the inversion keep an input of `[0, 1]` inside `[0, 1]`. -/
theorem curvedValue_unit (m : InputMapping F32) {x : F32} (h0 : (0.0 : F32) ≤ x)
    (h1 : x ≤ (1.0 : F32)) :
    0 ≤ toRat (InputMapping.curvedValue m x) ∧ toRat (InputMapping.curvedValue m x) ≤ 1 := by
  obtain ⟨k, rfl, k0, k1⟩ := unit_cases h0 h1
  have hy : ∃ j : Int, (if m.inverted then (1.0 : F32) - fin k else fin k) = fin j ∧
      0 ≤ j ∧ j ≤ 2 ^ 149 := by
    split_ifs
    · exact one_sub_unit k0 k1
    · exact ⟨k, rfl, k0, k1⟩
  obtain ⟨j, ej, j0, j1⟩ := hy
  unfold InputMapping.curvedValue
  simp only [ej]
  cases m.curve
  · exact toRat_unit j0 j1
  · obtain ⟨i, ei, i0, i1⟩ := unit_mul_unit j0 j1 j0 j1
    simp only [ei]; exact toRat_unit i0 i1
  · obtain ⟨i, ei, i0, i1⟩ := unit_mul_unit j0 j1 j0 j1
    obtain ⟨l, el, l0, l1⟩ := unit_mul_unit i0 i1 j0 j1
    simp only [ei, el]; exact toRat_unit l0 l1
  · exact toRat_unit j0 j1

/-- C17 (counterexample): in binary32 the linear, strength-1 mapping with range
`[0.2, 2.0]` does not return `minOutput` at input 0: the result is one unit in the last
place below `0.2f`. -/
theorem linear_endpoint_rounded :
    InputMapping.apply (linearMapping 0.2 2.0) 0.0 = F32.fin (13421772 * 2 ^ 123) ∧
      (linearMapping 0.2 2.0).minOutput = F32.fin (13421773 * 2 ^ 123) ∧
      InputMapping.apply (linearMapping 0.2 2.0) 0.0 ≠ (linearMapping 0.2 2.0).minOutput := by
  decide!

/-- C17 (amended): for a mapping with a linear curve, no inversion and strength 1, whenever
the binary32 result of `apply` is finite it differs from the affine value
`minOutput + (maxOutput - minOutput) * x` by at most
`(|minOutput| + |maxOutput|) * (1 + |x|) / 2^19 + 2^-144`; in particular `apply(0)` is within
`(|minOutput| + |maxOutput|) / 2^19 + 2^-144` of `minOutput` and `apply(1)` within
`(|minOutput| + |maxOutput|) / 2^18 + 2^-144` of `maxOutput`. -/
theorem apply_linear_affine (m : InputMapping F32) (hc : m.curve = CurveType.Linear)
    (hi : m.inverted = false) (hs : m.strength = 1.0) :
    (∀ x : F32, (InputMapping.apply m x).isFinite = true →
      |toRat (InputMapping.apply m x) -
          (toRat m.minOutput + (toRat m.maxOutput - toRat m.minOutput) * toRat x)| ≤
        (|toRat m.minOutput| + |toRat m.maxOutput|) * (1 + |toRat x|) / 2 ^ 19 +
          1 / 2 ^ 144) ∧
    ((InputMapping.apply m 0.0).isFinite = true →
      |toRat (InputMapping.apply m 0.0) - toRat m.minOutput| ≤
        (|toRat m.minOutput| + |toRat m.maxOutput|) / 2 ^ 19 + 1 / 2 ^ 144) ∧
    ((InputMapping.apply m 1.0).isFinite = true →
      |toRat (InputMapping.apply m 1.0) - toRat m.maxOutput| ≤
        (|toRat m.minOutput| + |toRat m.maxOutput|) / 2 ^ 18 + 1 / 2 ^ 144) := by
  have hcv : ∀ x : F32, InputMapping.curvedValue m x = x := by
    intro x; unfold InputMapping.curvedValue; rw [hc, hi]; rfl
  have main : ∀ x : F32, (InputMapping.apply m x).isFinite = true →
      |toRat (InputMapping.apply m x) -
          (toRat m.minOutput + (toRat m.maxOutput - toRat m.minOutput) * toRat x)| ≤
        (|toRat m.minOutput| + |toRat m.maxOutput|) * (1 + |toRat x|) / 2 ^ 19 +
          1 / 2 ^ 144 := by
    intro x hx
    have h := apply_error m x hx
    rw [hcv x, hs, toRat_one] at h
    have e : (toRat m.minOutput + toRat m.maxOutput) / 2 +
        (toRat m.minOutput + (toRat m.maxOutput - toRat m.minOutput) * toRat x -
          (toRat m.minOutput + toRat m.maxOutput) / 2) * 1 =
        toRat m.minOutput + (toRat m.maxOutput - toRat m.minOutput) * toRat x := by ring
    rw [e] at h
    refine le_trans h (le_of_eq ?_)
    rw [abs_one]; ring
  refine ⟨main, ?_, ?_⟩
  · intro hx
    have h := main 0.0 hx
    rw [toRat_zero] at h
    have e : toRat m.minOutput + (toRat m.maxOutput - toRat m.minOutput) * 0 =
        toRat m.minOutput := by ring
    rw [e] at h
    refine le_trans h (le_of_eq ?_)
    rw [abs_zero]; ring
  · intro hx
    have h := main 1.0 hx
    rw [toRat_one] at h
    have e : toRat m.minOutput + (toRat m.maxOutput - toRat m.minOutput) * 1 =
        toRat m.maxOutput := by ring
    rw [e] at h
    refine le_trans h (le_of_eq ?_)
    rw [abs_one]; ring

/-- C17 at a concrete input. -/
theorem apply_linear_affine_witness :
    (linearMapping 0.2 2.0).curve = CurveType.Linear ∧
    |toRat (InputMapping.apply (linearMapping 0.2 2.0) 0.0) -
        toRat (linearMapping 0.2 2.0).minOutput| ≤
      (|toRat (linearMapping 0.2 2.0).minOutput| + |toRat (linearMapping 0.2 2.0).maxOutput|) /
        2 ^ 19 + 1 / 2 ^ 144 :=
  ⟨rfl, (apply_linear_affine (linearMapping 0.2 2.0) rfl rfl rfl).2.1 (by decide!)⟩

/-- C19 (counterexample): in binary32 the linear, strength-1 mapping with range `[1.0, 0.4]`
leaves the output range at input 1: the result is one unit in the last place below `0.4f`,
the smaller of the two bounds. -/
theorem apply_leaves_range :
    (0.0 : F32) ≤ (linearMapping 1.0 0.4).strength ∧
      (linearMapping 1.0 0.4).strength ≤ (1.0 : F32) ∧
      InputMapping.apply (linearMapping 1.0 0.4) 1.0 = F32.fin (13421772 * 2 ^ 124) ∧
      F32.fmin (linearMapping 1.0 0.4).minOutput (linearMapping 1.0 0.4).maxOutput =
        F32.fin (13421773 * 2 ^ 124) ∧
      InputMapping.apply (linearMapping 1.0 0.4) 1.0 <
        F32.fmin (linearMapping 1.0 0.4).minOutput (linearMapping 1.0 0.4).maxOutput := by
  decide!

/-- C19 (amended): for every mapping with strength in `[0, 1]` (any curve, any inversion
flag) and every input in `[0, 1]`, a finite binary32 result of `apply` lies between
`min(minOutput, maxOutput)` and `max(minOutput, maxOutput)` up to the tolerance
`(|minOutput| + |maxOutput|) / 2^18 + 2^-144`. -/
theorem apply_in_range (m : InputMapping F32) (x : F32)
    (hs0 : (0.0 : F32) ≤ m.strength) (hs1 : m.strength ≤ (1.0 : F32))
    (hx0 : (0.0 : F32) ≤ x) (hx1 : x ≤ (1.0 : F32))
    (hfin : (InputMapping.apply m x).isFinite = true) :
    min (toRat m.minOutput) (toRat m.maxOutput) -
        ((|toRat m.minOutput| + |toRat m.maxOutput|) / 2 ^ 18 + 1 / 2 ^ 144) ≤
      toRat (InputMapping.apply m x) ∧
    toRat (InputMapping.apply m x) ≤
      max (toRat m.minOutput) (toRat m.maxOutput) +
        ((|toRat m.minOutput| + |toRat m.maxOutput|) / 2 ^ 18 + 1 / 2 ^ 144) := by
  have h := apply_error m x hfin
  obtain ⟨c0, c1⟩ := curvedValue_unit m hx0 hx1
  obtain ⟨k, ek, k0, k1⟩ := unit_cases hs0 hs1
  obtain ⟨s0, s1⟩ := toRat_unit k0 k1
  rw [← ek] at s0 s1
  generalize toRat (InputMapping.apply m x) = O at h ⊢
  generalize toRat (InputMapping.curvedValue m x) = c at h c0 c1
  generalize toRat m.strength = s at h s0 s1
  generalize toRat m.minOutput = a at h ⊢
  generalize toRat m.maxOutput = b at h ⊢
  rw [abs_of_nonneg c0, abs_of_nonneg s0] at h
  have hM : 0 ≤ |a| + |b| := by positivity
  generalize |a| + |b| = M at h hM ⊢
  have tol : M * (1 + c) * (1 + s) / 2 ^ 20 + (1 + s) / 2 ^ 145 ≤ M / 2 ^ 18 + 1 / 2 ^ 144 := by
    have p1 : M * (1 + c) * (1 + s) ≤ M * 2 * 2 := by
      have q1 : M * (1 + c) ≤ M * 2 := mul_le_mul_of_nonneg_left (by linarith) hM
      exact mul_le_mul q1 (by linarith) (by linarith) (by linarith)
    have p2 : M * (1 + c) * (1 + s) / 2 ^ 20 ≤ M * 2 * 2 / 2 ^ 20 :=
      (div_le_div_iff_of_pos_right (by positivity)).mpr p1
    have p3 : (1 + s) / 2 ^ 145 ≤ 2 / 2 ^ 145 :=
      (div_le_div_iff_of_pos_right (by positivity)).mpr (by linarith)
    have e1 : M * 2 * 2 / 2 ^ 20 = M / 2 ^ 18 := by ring
    have e2 : (2 : ℚ) / 2 ^ 145 = 1 / 2 ^ 144 := by norm_num
    linarith
  have hI := abs_le.mp (le_trans h tol)
  -- the real-number formula is a convex combination of the two bounds
  have lo_a : min a b ≤ a := min_le_left _ _
  have lo_b : min a b ≤ b := min_le_right _ _
  have hi_a : a ≤ max a b := le_max_left _ _
  have hi_b : b ≤ max a b := le_max_right _ _
  generalize min a b = lo at *
  generalize max a b = hi at *
  have eR : a + (b - a) * c = (1 - c) * a + c * b := by ring
  have r0 : lo ≤ a + (b - a) * c := by
    rw [eR]
    nlinarith [mul_nonneg (sub_nonneg.mpr c1) (sub_nonneg.mpr lo_a),
      mul_nonneg c0 (sub_nonneg.mpr lo_b)]
  have r1 : a + (b - a) * c ≤ hi := by
    rw [eR]
    nlinarith [mul_nonneg (sub_nonneg.mpr c1) (sub_nonneg.mpr hi_a),
      mul_nonneg c0 (sub_nonneg.mpr hi_b)]
  have b0 : lo ≤ (a + b) / 2 := by linarith
  have b1 : (a + b) / 2 ≤ hi := by linarith
  generalize a + (b - a) * c = R at *
  generalize (a + b) / 2 = B at *
  have eI : B + (R - B) * s = (1 - s) * B + s * R := by ring
  have i0 : lo ≤ B + (R - B) * s := by
    rw [eI]
    nlinarith [mul_nonneg (sub_nonneg.mpr s1) (sub_nonneg.mpr b0),
      mul_nonneg s0 (sub_nonneg.mpr r0)]
  have i1 : B + (R - B) * s ≤ hi := by
    rw [eI]
    nlinarith [mul_nonneg (sub_nonneg.mpr s1) (sub_nonneg.mpr b1),
      mul_nonneg s0 (sub_nonneg.mpr r1)]
  constructor
  · linarith [hI.1]
  · linarith [hI.2]

/-- C19 at a concrete input. -/
theorem apply_in_range_witness :
    (0.0 : F32) ≤ (linearMapping 1.0 0.4).strength ∧
    toRat (InputMapping.apply (linearMapping 1.0 0.4) 1.0) ≤
      max (toRat (linearMapping 1.0 0.4).minOutput) (toRat (linearMapping 1.0 0.4).maxOutput) +
        ((|toRat (linearMapping 1.0 0.4).minOutput| +
          |toRat (linearMapping 1.0 0.4).maxOutput|) / 2 ^ 18 + 1 / 2 ^ 144) :=
  ⟨by decide!, (apply_in_range (linearMapping 1.0 0.4) 1.0 (by decide!) (by decide!)
    (by decide!) (by decide!) (by decide!)).2⟩

theorem neg_one_lit : (-1.0 : F32) = fin (-(2 ^ 149)) := by decide!

theorem isBinary32_natAbs {k : Int} (h : IsBinary32 (fin k)) :
    IsBinary32 (fin (k.natAbs : Int)) ∧ IsBinary32 (fin (-(k.natAbs : Int))) := by
  have e1 : ((k.natAbs : Int)).natAbs = k.natAbs := Int.natAbs_ofNat _
  have e2 : (-(k.natAbs : Int)).natAbs = k.natAbs := by rw [Int.natAbs_neg, Int.natAbs_ofNat]
  have h' : k.natAbs ≤ 16777215 * 2 ^ 253 ∧ onGrid k.natAbs := h
  constructor
  · show ((k.natAbs : Int)).natAbs ≤ 16777215 * 2 ^ 253 ∧ onGrid ((k.natAbs : Int)).natAbs
    rw [e1]; exact h'
  · show (-(k.natAbs : Int)).natAbs ≤ 16777215 * 2 ^ 253 ∧ onGrid (-(k.natAbs : Int)).natAbs
    rw [e2]; exact h'

/-- A draw of `[-1, 1]` times a binary32 value is no larger in magnitude than the value. -/
theorem unit_mul_le {u : F32} {ka : Int} (h0 : (-1.0 : F32) ≤ u) (h1 : u ≤ (1.0 : F32))
    (ha : IsBinary32 (fin ka)) :
    ∃ j : Int, u * fin ka = fin j ∧ |(j : ℚ)| ≤ |(ka : ℚ)| := by
  rw [neg_one_lit] at h0
  rw [one_lit] at h1
  rcases fin_le_cases h0 with e | ⟨ku, e, l0⟩
  · subst e; exact absurd h1 (by decide)
  subst e
  have l1 : ku ≤ 2 ^ 149 := (le_fin _ _).mp h1
  obtain ⟨b1, b2⟩ := isBinary32_natAbs ha
  have hA : (0 : Int) ≤ (ka.natAbs : Int) := Int.natCast_nonneg _
  have habs : |ka| = (ka.natAbs : Int) := Int.abs_eq_natAbs ka
  have hprod : |ku * ka| ≤ 2 ^ 149 * (ka.natAbs : Int) := by
    rw [abs_mul, habs]
    exact mul_le_mul_of_nonneg_right (abs_le.mpr ⟨by linarith, l1⟩) hA
  obtain ⟨p0, p1⟩ := abs_le.mp hprod
  have m0 : round (-(ka.natAbs : Int)) 1 ≤ round (ku * ka) (2 ^ 149) :=
    round_mono (by norm_num) (by positivity) (by push_cast; linarith)
  have m1 : round (ku * ka) (2 ^ 149) ≤ round (ka.natAbs : Int) 1 :=
    round_mono (by positivity) (by norm_num) (by push_cast; linarith)
  rw [round_self b2] at m0
  rw [round_self b1] at m1
  rw [mul_fin]
  rcases fin_le_cases m0 with e | ⟨j, e, hj⟩
  · rw [e] at m1; exact absurd ((le_def _ _).mp m1) (by simp [le])
  · rw [e] at m1
    have hj1 : j ≤ (ka.natAbs : Int) := (le_fin _ _).mp m1
    refine ⟨j, e, ?_⟩
    have : |j| ≤ |ka| := by rw [habs]; exact abs_le.mpr ⟨hj, hj1⟩
    exact_mod_cast this

/-- The displacement `x + u * amount` of one axis, for a draw `u` of `[-1, 1]`. -/
theorem scatter_axis {x u amt : F32} (h0 : (-1.0 : F32) ≤ u) (h1 : u ≤ (1.0 : F32))
    (hamt : IsBinary32 amt) (hfin : (x + u * amt).isFinite = true) :
    |toRat (x + u * amt) - toRat x| ≤ |toRat amt| + (|toRat x| + |toRat amt|) / 2 ^ 24 := by
  obtain ⟨_, hP, eA⟩ := add_error hfin
  obtain ⟨_, hA, _⟩ := mul_error hP
  obtain ⟨ka, rfl⟩ := (isFinite_iff _).mp hA
  obtain ⟨j, ej, hj⟩ := unit_mul_le h0 h1 hamt
  rw [ej] at eA ⊢
  have hP' : |toRat (fin j)| ≤ |toRat (fin ka)| := by
    rw [toRat_fin, toRat_fin, abs_div, abs_div]
    exact (div_le_div_iff_of_pos_right (by positivity)).mpr hj
  generalize toRat (x + fin j) = X' at eA ⊢
  generalize toRat (fin j) = P at eA hP'
  generalize toRat (fin ka) = A at hP' ⊢
  generalize toRat x = X at eA ⊢
  have h2 : |X + P| ≤ |X| + |A| := le_trans (abs_add _ _) (by linarith)
  have h3 : |X + P| / 2 ^ 24 ≤ (|X| + |A|) / 2 ^ 24 :=
    (div_le_div_iff_of_pos_right (by positivity)).mpr h2
  have e : X' - X = (X' - (X + P)) + P := by ring
  rw [e]
  linarith [abs_add (X' - (X + P)) P]

/-- The computed `scatterAmount` against the real number `scatter * size / 2`. -/
theorem scatterAmount_error {sc sz : F32} (hfin : (sc * sz * 0.5).isFinite = true) :
    |toRat (sc * sz * 0.5) - toRat sc * toRat sz / 2| ≤
      |toRat sc * toRat sz| / 2 ^ 23 + 1 / 2 ^ 149 := by
  obtain ⟨hP, _, eA⟩ := mul_error hfin
  obtain ⟨_, _, eP⟩ := mul_error hP
  rw [toRat_half] at eA
  generalize toRat (sc * sz * 0.5) = A at eA ⊢
  generalize toRat (sc * sz) = P at eA eP
  generalize toRat sc = a at eP ⊢
  generalize toRat sz = b at eP ⊢
  rw [abs_mul, abs_of_pos (by norm_num : (0 : ℚ) < 1 / 2)] at eA
  generalize a * b = q at eP ⊢
  have h1 : |P| ≤ |q| + (|q| / 2 ^ 24 + 1 / 2 ^ 150) := by
    have e : P = (P - q) + q := by ring
    have := abs_add (P - q) q
    rw [← e] at this; linarith
  have h2 : |A - q / 2| ≤ |A - P * (1 / 2)| + |P - q| / 2 := by
    have e : A - q / 2 = (A - P * (1 / 2)) + (P - q) * (1 / 2) := by ring
    rw [e]
    have := abs_add (A - P * (1 / 2)) ((P - q) * (1 / 2))
    rw [abs_mul (P - q), abs_of_pos (by norm_num : (0 : ℚ) < 1 / 2)] at this
    linarith
  have hq : 0 ≤ |q| := abs_nonneg q
  generalize |q| = Q at *
  generalize |P| = Pa at *
  generalize |A - P * (1 / 2)| = e1 at *
  generalize |P - q| = e2 at *
  generalize |A - q / 2| = e3 at *
  linarith

/-- C15 (counterexample): a dab at `x = 1000` with scatter 0.05 and size 0.1 and the draw
`-1` moves in binary32 to `999.997498`, a distance `0.00250244` that exceeds both the computed
`scatter * size * 0.5 = 0.0025000002` and the real number `scatter * size / 2`. -/
theorem scatter_exceeds_amount :
    (-1.0 : F32) ≤ minusOneDraws.scatterDraws 0 ∧ minusOneDraws.scatterDraws 0 ≤ (1.0 : F32) ∧
      (applyScatter scatterDab minusOneDraws).1.x = F32.fin (16383959 * 2 ^ 135) ∧
      scatterDab.x = F32.fin (16384000 * 2 ^ 135) ∧
      scatterDab.scatter * scatterDab.size * 0.5 = F32.fin (10737419 * 2 ^ 117) ∧
      toRat (scatterDab.scatter * scatterDab.size * 0.5) <
        toRat scatterDab.x - toRat (applyScatter scatterDab minusOneDraws).1.x ∧
      toRat scatterDab.scatter * toRat scatterDab.size / 2 <
        toRat scatterDab.x - toRat (applyScatter scatterDab minusOneDraws).1.x := by
  decide!

/-- C15 (amended): `applyScatter` in binary32. When the dab's scatter is not `> 0` the dab
and the random source are returned unchanged. When it is `> 0`, only `x` and `y` change, to
the rounded `x + u * scatterAmount` and `y + v * scatterAmount` with
`scatterAmount = scatter * size * 0.5` and `u`, `v` the next two draws, and the source advances
by two draws. For draws in `[-1, 1]` and finite results each axis moves by at most
`|scatterAmount| + (|coordinate| + |scatterAmount|) / 2^24`, and a finite `scatterAmount` is
within `|scatter * size| / 2^23 + 2^-149` of the real number `scatter * size / 2`. -/
theorem applyScatter_spec (dab : BrushDab F32) (rng : RandomSource F32) :
    (¬ dab.scatter > 0.0 → applyScatter dab rng = (dab, rng)) ∧
    (dab.scatter > 0.0 →
      applyScatter dab rng =
        ({ dab with
           x := dab.x + rng.scatterDraws rng.scatterPos * (dab.scatter * dab.size * 0.5)
           y := dab.y + rng.scatterDraws (rng.scatterPos + 1) *
             (dab.scatter * dab.size * 0.5) },
         { rng with scatterPos := rng.scatterPos + 2 }) ∧
      ((-1.0 : F32) ≤ rng.scatterDraws rng.scatterPos →
        rng.scatterDraws rng.scatterPos ≤ (1.0 : F32) →
        (applyScatter dab rng).1.x.isFinite = true →
        |toRat (applyScatter dab rng).1.x - toRat dab.x| ≤
          |toRat (dab.scatter * dab.size * 0.5)| +
            (|toRat dab.x| + |toRat (dab.scatter * dab.size * 0.5)|) / 2 ^ 24) ∧
      ((-1.0 : F32) ≤ rng.scatterDraws (rng.scatterPos + 1) →
        rng.scatterDraws (rng.scatterPos + 1) ≤ (1.0 : F32) →
        (applyScatter dab rng).1.y.isFinite = true →
        |toRat (applyScatter dab rng).1.y - toRat dab.y| ≤
          |toRat (dab.scatter * dab.size * 0.5)| +
            (|toRat dab.y| + |toRat (dab.scatter * dab.size * 0.5)|) / 2 ^ 24) ∧
      ((dab.scatter * dab.size * 0.5).isFinite = true →
        |toRat (dab.scatter * dab.size * 0.5) - toRat dab.scatter * toRat dab.size / 2| ≤
          |toRat dab.scatter * toRat dab.size| / 2 ^ 23 + 1 / 2 ^ 149)) := by
  constructor
  · intro h
    unfold applyScatter
    rw [if_neg h]
  · intro h
    have e : applyScatter dab rng =
        ({ dab with
           x := dab.x + rng.scatterDraws rng.scatterPos * (dab.scatter * dab.size * 0.5)
           y := dab.y + rng.scatterDraws (rng.scatterPos + 1) *
             (dab.scatter * dab.size * 0.5) },
         { rng with scatterPos := rng.scatterPos + 2 }) := by
      unfold applyScatter
      rw [if_pos h]
    refine ⟨e, ?_, ?_, scatterAmount_error⟩
    · intro h0 h1 hf
      rw [e] at hf ⊢
      exact scatter_axis h0 h1 (mul_isBinary32 _ _) hf
    · intro h0 h1 hf
      rw [e] at hf ⊢
      exact scatter_axis h0 h1 (mul_isBinary32 _ _) hf

/-- C15 at a concrete input. -/
theorem applyScatter_spec_witness :
    scatterDab.scatter > 0.0 ∧
    |toRat (applyScatter scatterDab minusOneDraws).1.x - toRat scatterDab.x| ≤
      |toRat (scatterDab.scatter * scatterDab.size * 0.5)| +
        (|toRat scatterDab.x| + |toRat (scatterDab.scatter * scatterDab.size * 0.5)|) / 2 ^ 24 :=
  ⟨by decide!, ((applyScatter_spec scatterDab minusOneDraws).2 (by decide!)).2.1
    (by decide!) (by decide!) (by decide!)⟩

theorem div_fin_pos (C : Int) {D : Nat} (hD : 0 < D) :
    F32.fin C / F32.fin (D : Int) = round (C * 2 ^ 149) D := by
  show F32.div _ _ = _
  have h1 : ¬ ((D : Int) = 0) := by omega
  have h2 : ¬ ((D : Int) < 0) := by omega
  simp only [F32.div, if_neg h1, if_neg h2, Int.natAbs_ofNat]

/-- The clamped quotient `t` of the loop: for a non-negative numerator and a positive
denominator it is a number of `[0, 1]`, within one rounding of `min 1 (C / D)`. -/
theorem clampDiv (C : Nat) {D : Nat} (hD : 0 < D) :
    ∃ T : Int, F32.fmax 0.0 (F32.fmin 1.0 (F32.fin (C : Int) / F32.fin (D : Int))) = F32.fin T ∧
      0 ≤ T ∧ T ≤ 2 ^ 149 ∧
      |toRat (F32.fin T) - min 1 ((C : ℚ) / (D : ℚ))| ≤
        min 1 ((C : ℚ) / (D : ℚ)) / 2 ^ 24 + 1 / 2 ^ 150 := by
  have hDq : (0 : ℚ) < (D : ℚ) := by exact_mod_cast hD
  rw [div_fin_pos _ hD]
  rcases Nat.lt_or_ge C D with hlt | hge
  · obtain ⟨j, ej, j0, j1⟩ := round_unit (n := (C : Int) * 2 ^ 149) hD
      (by positivity) (by
        have : (C : Int) ≤ (D : Int) := by exact_mod_cast (le_of_lt hlt)
        rw [mul_comm (2 ^ 149 : Int)]
        exact mul_le_mul_of_nonneg_right this (by positivity))
    have hmin : F32.fmin 1.0 (F32.fin j) = F32.fin j := by
      unfold F32.fmin
      by_cases h : F32.fin j < 1.0
      · rw [if_pos h]
      · rw [if_neg h]
        rw [one_lit, lt_fin] at h
        rw [one_lit]; exact congrArg F32.fin (le_antisymm (not_lt.mp h) j1)
    have hmax : F32.fmax 0.0 (F32.fin j) = F32.fin j := by
      unfold F32.fmax
      by_cases h : (0.0 : F32) < F32.fin j
      · rw [if_pos h]
      · rw [if_neg h]
        rw [zero_lit, lt_fin] at h
        rw [zero_lit]; exact congrArg F32.fin (le_antisymm j0 (not_lt.mp h))
    refine ⟨j, by rw [ej, hmin, hmax], j0, j1, ?_⟩
    have hq : (C : ℚ) / (D : ℚ) ≤ 1 := by
      rw [div_le_one hDq]; exact_mod_cast (le_of_lt hlt)
    rw [min_eq_right hq, toRat_fin]
    have he := round_error hD ej
    have hp : (0 : ℚ) < 2 ^ 149 := by positivity
    have ec : (((C : Int) * 2 ^ 149 : Int) : ℚ) = (C : ℚ) * 2 ^ 149 := by push_cast; ring
    have e150 : (2 : ℚ) ^ 150 = 2 * 2 ^ 149 := by rw [pow_succ]; ring
    rw [ec] at he
    rw [e150]
    generalize (2 : ℚ) ^ 149 = P at hp he ⊢
    have e1 : (j : ℚ) / P - (C : ℚ) / (D : ℚ) =
        ((j : ℚ) - (C : ℚ) * P / (D : ℚ)) / P := by
      field_simp; ring
    have e2 : (C : ℚ) / (D : ℚ) / 2 ^ 24 + 1 / (2 * P) =
        (|(C : ℚ) * P / (D : ℚ)| / 2 ^ 24 + 1 / 2) / P := by
      have hnn : (0 : ℚ) ≤ (C : ℚ) * P / (D : ℚ) :=
        div_nonneg (mul_nonneg (Nat.cast_nonneg C) hp.le) hDq.le
      rw [abs_of_nonneg hnn]
      field_simp; ring
    rw [e1, e2, abs_div, abs_of_pos hp]
    exact (div_le_div_iff_of_pos_right hp).mpr he
  · have l1 : round (2 ^ 149) 1 ≤ round ((C : Int) * 2 ^ 149) D :=
      round_mono (by norm_num) hD (by
        have : (D : Int) ≤ (C : Int) := by exact_mod_cast hge
        rw [mul_comm (2 ^ 149 : Int), Nat.cast_one, mul_one]
        exact mul_le_mul_of_nonneg_right this (by positivity))
    rw [round_self isBinary32_one] at l1
    have hq : ¬ round ((C : Int) * 2 ^ 149) D < 1.0 := by
      rw [one_lit]; exact fun h => not_le_of_lt32 h l1
    have hmin : F32.fmin 1.0 (round ((C : Int) * 2 ^ 149) D) = 1.0 := by
      unfold F32.fmin; rw [if_neg hq]
    have hmax : F32.fmax 0.0 (1.0 : F32) = 1.0 := by decide!
    refine ⟨2 ^ 149, by rw [hmin, hmax, one_lit], by positivity, le_refl _, ?_⟩
    have hq1 : 1 ≤ (C : ℚ) / (D : ℚ) := by
      rw [le_div_iff₀ hDq]; simpa using (by exact_mod_cast hge : (D : ℚ) ≤ (C : ℚ))
    rw [min_eq_left hq1, ← one_lit, toRat_one]
    norm_num

theorem subIter_succ (s : F32) : ∀ (n : Nat) (acc : F32),
    subIter s (n + 1) acc = subIter s n acc - s
  | 0, _ => rfl
  | n + 1, acc => by
    show subIter s (n + 1) (acc - s) = subIter s (n + 1) acc - s
    rw [subIter_succ s n (acc - s)]; rfl

/-- The accumulator while the loop runs: after `n` rounded subtractions of the spacing it
is a non-negative number no larger than at the start, and `A - n * B - C` is at most
`n * A / 2^24` in absolute value (all in units of `2^-149`). -/
theorem subIter_prefix (B : Nat) :
    ∀ (n A : Nat), IsBinary32 (F32.fin (A : Int)) →
      (∀ j, j < n → (subIter (F32.fin (B : Int)) j (F32.fin (A : Int)) ≥ F32.fin (B : Int) ∧
        F32.fin (B : Int) > 0.0)) →
      ∃ C : Nat, subIter (F32.fin (B : Int)) n (F32.fin (A : Int)) = F32.fin (C : Int) ∧
        C ≤ A ∧ IsBinary32 (F32.fin (C : Int)) ∧
        2 ^ 24 * (C + n * B) ≤ 2 ^ 24 * A + n * A ∧
        2 ^ 24 * A ≤ 2 ^ 24 * (C + n * B) + n * A
  | 0, A, hA, _ => ⟨A, rfl, le_refl _, hA, by omega, by omega⟩
  | n + 1, A, hA, hrun => by
    have h0 := (hrun 0 (by omega)).1
    have hge : B ≤ A := by
      have := (le_fin _ _).mp h0
      exact_mod_cast this
    have hAlt : A < 33554431 * 2 ^ 252 := by
      have := hA.1
      simp only [Int.natAbs_ofNat] at this
      exact lt_of_le_of_lt this (by norm_num)
    have hstep := fin_sub_fin_nat hge hAlt
    have hR : F32.roundNat (A - B) 1 ≤ A := by
      have h1 := @F32.roundNat_mono (A - B) A 1 1 (by norm_num) (by norm_num) (by omega)
      have h2 : F32.roundNat A 1 = A := by
        have := hA.2
        simp only [Int.natAbs_ofNat] at this
        exact F32.roundNat_self this
      omega
    have hRb : IsBinary32 (F32.fin ((F32.roundNat (A - B) 1 : Nat) : Int)) := by
      rw [← hstep]; exact F32.sub_isBinary32 _ _
    have hrun' : ∀ j, j < n →
        (subIter (F32.fin (B : Int)) j (F32.fin ((F32.roundNat (A - B) 1 : Nat) : Int)) ≥
          F32.fin (B : Int) ∧ F32.fin (B : Int) > 0.0) := by
      intro j hj
      have := hrun (j + 1) (by omega)
      rw [← hstep]; exact this
    obtain ⟨C, h1, h2, h3, h4, h5⟩ :=
      subIter_prefix B n (F32.roundNat (A - B) 1) hRb hrun'
    have hrel := F32.roundNat_rel (A - B)
    refine ⟨C, ?_, le_trans h2 hR, h3, ?_, ?_⟩
    · show subIter _ n (F32.fin (A : Int) - F32.fin (B : Int)) = _
      rw [hstep]; exact h1
    · generalize F32.roundNat (A - B) 1 = R at *
      have hnR : n * R ≤ n * A := Nat.mul_le_mul_left _ hR
      have e : (n + 1) * B = n * B + B := by ring
      have e2 : (n + 1) * A = n * A + A := by ring
      rw [e, e2]
      generalize n * B = nB at *
      generalize n * R = nR at *
      generalize n * A = nA at *
      omega
    · generalize F32.roundNat (A - B) 1 = R at *
      have hnR : n * R ≤ n * A := Nat.mul_le_mul_left _ hR
      have e : (n + 1) * B = n * B + B := by ring
      have e2 : (n + 1) * A = n * A + A := by ring
      rw [e, e2]
      generalize n * B = nB at *
      generalize n * R = nR at *
      generalize n * A = nA at *
      omega

/-- The interpolated inputs of the loop, one per iteration, in closed form. -/
theorem loopInputs_eq_map32 (lastInput input : InputPoint F32) (dx dy distance spacing : F32) :
    ∀ (n : Nat) (acc : F32),
      loopInputs lastInput input dx dy distance spacing n acc =
        (List.range n).map (fun k => interpolate lastInput input dx dy
          (F32.fmax 0.0 (F32.fmin 1.0 (subIter spacing (k + 1) acc / distance))))
  | 0, _ => rfl
  | n + 1, acc => by
    rw [List.range_succ_eq_map, List.map_cons, List.map_map]
    show _ :: loopInputs lastInput input dx dy distance spacing n (acc - spacing) = _
    rw [loopInputs_eq_map32 lastInput input dx dy distance spacing n (acc - spacing)]
    rfl

/-- Rational core of the fraction bound. -/
theorem fraction_core {rA ρ rC rσ K Tq Uq u η : ℚ}
    (hρ : 1 ≤ ρ) (hK : 1 ≤ K) (hu0 : 0 ≤ u) (hu1 : u ≤ 1) (hη : η ≤ u)
    (hσ : ρ - 1 ≤ rσ) (hC0 : 0 ≤ rC)
    (h1 : |rA - ρ| ≤ ρ * u)
    (h2 : |rA - K * rσ - rC| ≤ K * rA * u)
    (h3 : |Tq - min 1 rC| ≤ min 1 rC * u + η)
    (h4 : |Uq - (1 - Tq)| ≤ u) :
    |Uq - (K * rσ - (ρ - 1))| ≤ (K + 3) * ρ * (2 * u) := by
  have hm1 : min 1 rC ≤ 1 := min_le_left _ _
  have hm0 : 0 ≤ min 1 rC := le_min (by norm_num) hC0
  have hKσ : rσ ≤ K * rσ := by
    have : 0 ≤ rσ := by linarith
    have := mul_le_mul_of_nonneg_right hK this
    linarith
  -- the ideal t is at most 1
  have ht1 : ρ - K * rσ ≤ 1 := by linarith
  have hproj : |min 1 rC - (ρ - K * rσ)| ≤ |rC - (ρ - K * rσ)| := by
    rcases le_total rC 1 with h | h
    · rw [min_eq_right h]
    · rw [min_eq_left h, abs_of_nonneg (by linarith), abs_of_nonneg (by linarith)]
      linarith
  obtain ⟨a1, a2⟩ := abs_le.mp h1
  obtain ⟨b1, b2⟩ := abs_le.mp h2
  obtain ⟨c1, c2⟩ := abs_le.mp h3
  obtain ⟨d1, d2⟩ := abs_le.mp h4
  have hKA : K * rA ≤ K * (ρ * (1 + u)) :=
    mul_le_mul_of_nonneg_left (by linarith) (by linarith)
  have hKAu : K * rA * u ≤ K * (ρ * (1 + u)) * u := mul_le_mul_of_nonneg_right hKA hu0
  have hE : |rC - (ρ - K * rσ)| ≤ K * (ρ * (1 + u)) * u + ρ * u := by
    rw [abs_le]; constructor <;> linarith
  obtain ⟨e1, e2⟩ := abs_le.mp (le_trans hproj hE)
  have hmu : min 1 rC * u ≤ u := by
    have := mul_le_mul_of_nonneg_right hm1 hu0
    linarith
  have hKρ : 0 ≤ K * ρ := mul_nonneg (by linarith) (by linarith)
  have hKρu : 0 ≤ K * ρ * u := mul_nonneg hKρ hu0
  have hKρuu : K * ρ * u * u ≤ K * ρ * u := by
    have := mul_le_mul_of_nonneg_left hu1 hKρu
    linarith
  have hρu : u ≤ ρ * u := by
    have := mul_le_mul_of_nonneg_right hρ hu0
    linarith
  rw [abs_le]
  constructor
  · linarith only [d1, d2, c1, c2, e1, e2, hmu, hKρuu, hρu, hη, hKρu]
  · linarith only [d1, d2, c1, c2, e1, e2, hmu, hKρuu, hρu, hη, hKρu]

theorem nonneg_cases {x : F32} (h0 : (0.0 : F32) ≤ x) (hf : x.isFinite = true) :
    ∃ n : Nat, x = F32.fin (n : Int) := by
  obtain ⟨k, rfl⟩ := (isFinite_iff _).mp hf
  rw [zero_lit, le_fin] at h0
  obtain ⟨n, rfl⟩ := Int.eq_ofNat_of_zero_le h0
  exact ⟨n, rfl⟩

theorem toRat_nat_div (X Y : Nat) (hY : 0 < Y) :
    toRat (F32.fin (X : Int)) / toRat (F32.fin (Y : Int)) = (X : ℚ) / (Y : ℚ) := by
  rw [toRat_fin, toRat_fin]
  have hp : (0 : ℚ) < 2 ^ 149 := by positivity
  have hYq : (0 : ℚ) < (Y : ℚ) := by exact_mod_cast hY
  generalize (2 : ℚ) ^ 149 = P at hp
  push_cast
  field_simp

/-- The fraction `1 - t` of the loop iteration with index `k` against the real number
`((k + 1) * s - a) / d`. -/
theorem loop_fraction_error {a d s : F32} (k : Nat) (ha : (0.0 : F32) ≤ a) (has : a < s)
    (hd : (0.0 : F32) < d) (hfin : (a + d).isFinite = true)
    (hrun : ∀ j, j < k + 1 → (subIter s j (a + d) ≥ s ∧ s > 0.0)) :
    ∃ U : Int, (1.0 : F32) - loopT d s (a + d) k = F32.fin U ∧ 0 ≤ U ∧ U ≤ 2 ^ 149 ∧
      |toRat (F32.fin U) - (((k : ℚ) + 1) * toRat s - toRat a) / toRat d| ≤
        ((k : ℚ) + 4) * ((toRat a + toRat d) / toRat d) / 2 ^ 23 := by
  obtain ⟨haf, hdf, _⟩ := add_error hfin
  obtain ⟨Aa, rfl⟩ := nonneg_cases ha haf
  obtain ⟨Dn, rfl⟩ := nonneg_cases (le_of_lt32 hd) hdf
  have hD : 0 < Dn := by
    rw [zero_lit, lt_fin] at hd; exact_mod_cast hd
  obtain ⟨A0i, hA0⟩ := (isFinite_iff _).mp hfin
  have hA0nn : 0 ≤ A0i := by
    have h := add_notNeg (x := F32.fin (Aa : Int)) (y := F32.fin (Dn : Int))
      (by rw [zero_eq, lt_fin]; omega) (by rw [zero_eq, lt_fin]; omega)
    rw [hA0, zero_eq, lt_fin] at h; omega
  obtain ⟨A0, rfl⟩ := Int.eq_ofNat_of_zero_le hA0nn
  have hb32 : IsBinary32 (F32.fin (A0 : Int)) := by rw [← hA0]; exact add_isBinary32 _ _
  have h0 := hrun 0 (by omega)
  have hs0 : (0.0 : F32) < s := h0.2
  have hsle : s ≤ F32.fin (Aa : Int) + F32.fin (Dn : Int) := h0.1
  rw [hA0] at hsle hrun
  have hsf : s.isFinite = true := by
    rcases le_fin_cases hsle with e | ⟨j, e, _⟩
    · rw [e] at hs0; exact absurd hs0 (by decide!)
    · rw [e]; rfl
  obtain ⟨B, rfl⟩ := nonneg_cases (le_of_lt32 hs0) hsf
  have hAB : Aa < B := by
    rw [lt_fin] at has; exact_mod_cast has
  obtain ⟨C, hC, hCA, _, p1, p2⟩ := subIter_prefix B (k + 1) A0 hb32 hrun
  obtain ⟨T, hT, T0, T1, h3⟩ := clampDiv C hD
  obtain ⟨U, hU, U0, U1⟩ := one_sub_unit T0 T1
  have hloop : loopT (F32.fin (Dn : Int)) (F32.fin (B : Int)) (F32.fin (A0 : Int)) k =
      F32.fin T := by
    unfold loopT; rw [hC, hT]
  rw [hA0, hloop, hU]
  refine ⟨U, rfl, U0, U1, ?_⟩
  -- the four rounding facts
  have hUf : ((1.0 : F32) - F32.fin T).isFinite = true := by rw [hU]; rfl
  obtain ⟨_, _, h4⟩ := sub_error hUf
  rw [hU, toRat_one] at h4
  obtain ⟨tq0, tq1⟩ := toRat_unit T0 T1
  have h4' : |toRat (F32.fin U) - (1 - toRat (F32.fin T))| ≤ 1 / 2 ^ 24 := by
    refine le_trans h4 ?_
    rw [abs_of_nonneg (by linarith)]
    exact (div_le_div_iff_of_pos_right (by positivity)).mpr (by linarith)
  have hround : F32.round ((Aa : Int) + (Dn : Int)) 1 = F32.fin (A0 : Int) := by
    rw [← add_fin]; exact hA0
  have h1 := round_error_one hround
  have hDq : (0 : ℚ) < (Dn : ℚ) := by exact_mod_cast hD
  have h1' : |(A0 : ℚ) / Dn - ((Aa : ℚ) + Dn) / Dn| ≤ ((Aa : ℚ) + Dn) / Dn * (1 / 2 ^ 24) := by
    have e : (A0 : ℚ) / Dn - ((Aa : ℚ) + Dn) / Dn = ((A0 : ℚ) - ((Aa : ℚ) + Dn)) / Dn := by ring
    have e2 : ((Aa : ℚ) + Dn) / Dn * (1 / 2 ^ 24) = (((Aa : ℚ) + Dn) / 2 ^ 24) / Dn := by ring
    rw [e, e2, abs_div, abs_of_pos hDq]
    refine (div_le_div_iff_of_pos_right hDq).mpr ?_
    have h1q : |((A0 : Int) : ℚ) - (((Aa : Int) + (Dn : Int) : Int) : ℚ)| ≤
        |(((Aa : Int) + (Dn : Int) : Int) : ℚ)| / 2 ^ 24 := h1
    push_cast at h1q
    rw [abs_of_nonneg (by positivity : (0 : ℚ) ≤ (Aa : ℚ) + Dn)] at h1q
    exact h1q
  have q1 : (2 : ℚ) ^ 24 * ((C : ℚ) + ((k : ℚ) + 1) * (B : ℚ)) ≤
      2 ^ 24 * (A0 : ℚ) + ((k : ℚ) + 1) * (A0 : ℚ) := by exact_mod_cast p1
  have q2 : (2 : ℚ) ^ 24 * (A0 : ℚ) ≤
      2 ^ 24 * ((C : ℚ) + ((k : ℚ) + 1) * (B : ℚ)) + ((k : ℚ) + 1) * (A0 : ℚ) := by
    exact_mod_cast p2
  have h2' : |(A0 : ℚ) / Dn - ((k : ℚ) + 1) * ((B : ℚ) / Dn) - (C : ℚ) / Dn| ≤
      ((k : ℚ) + 1) * ((A0 : ℚ) / Dn) * (1 / 2 ^ 24) := by
    have e : (A0 : ℚ) / Dn - ((k : ℚ) + 1) * ((B : ℚ) / Dn) - (C : ℚ) / Dn =
        ((A0 : ℚ) - ((k : ℚ) + 1) * (B : ℚ) - (C : ℚ)) / Dn := by ring
    have e2 : ((k : ℚ) + 1) * ((A0 : ℚ) / Dn) * (1 / 2 ^ 24) =
        (((k : ℚ) + 1) * (A0 : ℚ) / 2 ^ 24) / Dn := by ring
    have h24 : (0 : ℚ) < 2 ^ 24 := by positivity
    rw [e, e2, abs_div, abs_of_pos hDq]
    refine (div_le_div_iff_of_pos_right hDq).mpr ?_
    rw [abs_le]
    constructor
    · rw [neg_le, le_div_iff₀ h24]; linarith only [q1, q2]
    · rw [le_div_iff₀ h24]; linarith only [q1, q2]
  have hρ : (1 : ℚ) ≤ ((Aa : ℚ) + Dn) / Dn := by
    rw [le_div_iff₀ hDq]
    have : (0 : ℚ) ≤ (Aa : ℚ) := Nat.cast_nonneg _
    linarith
  have hσ : ((Aa : ℚ) + Dn) / Dn - 1 ≤ (B : ℚ) / Dn := by
    have e : ((Aa : ℚ) + Dn) / Dn - 1 = (Aa : ℚ) / Dn := by field_simp
    rw [e]
    exact (div_le_div_iff_of_pos_right hDq).mpr (by exact_mod_cast (le_of_lt hAB))
  have hK : (1 : ℚ) ≤ (k : ℚ) + 1 := by
    have : (0 : ℚ) ≤ (k : ℚ) := Nat.cast_nonneg _
    linarith
  have hC0 : (0 : ℚ) ≤ (C : ℚ) / Dn := by positivity
  have h3' : |toRat (F32.fin T) - min 1 ((C : ℚ) / (Dn : ℚ))| ≤
      min 1 ((C : ℚ) / (Dn : ℚ)) * (1 / 2 ^ 24) + 1 / 2 ^ 150 := by
    refine le_trans h3 (le_of_eq ?_); ring
  have core := fraction_core hρ hK (by positivity) (by norm_num) (by norm_num)
    hσ hC0 h1' h2' h3' h4'
  have ea : toRat (F32.fin (Aa : Int)) / toRat (F32.fin (Dn : Int)) = (Aa : ℚ) / Dn :=
    toRat_nat_div Aa Dn hD
  have eb : toRat (F32.fin (B : Int)) / toRat (F32.fin (Dn : Int)) = (B : ℚ) / Dn :=
    toRat_nat_div B Dn hD
  have hdne : toRat (F32.fin (Dn : Int)) ≠ 0 := by
    rw [toRat_fin]
    have : (0 : ℚ) < ((Dn : Int) : ℚ) / 2 ^ 149 := by
      have : (0 : ℚ) < ((Dn : Int) : ℚ) := by exact_mod_cast hD
      positivity
    exact ne_of_gt this
  have el : (((k : ℚ) + 1) * toRat (F32.fin (B : Int)) - toRat (F32.fin (Aa : Int))) /
      toRat (F32.fin (Dn : Int)) =
      ((k : ℚ) + 1) * ((B : ℚ) / Dn) - (((Aa : ℚ) + Dn) / Dn - 1) := by
    rw [sub_div, mul_div_assoc, ea, eb]
    field_simp
  have er : ((k : ℚ) + 4) * ((toRat (F32.fin (Aa : Int)) + toRat (F32.fin (Dn : Int))) /
      toRat (F32.fin (Dn : Int))) / 2 ^ 23 =
      ((k : ℚ) + 1 + 3) * (((Aa : ℚ) + Dn) / Dn) * (2 * (1 / 2 ^ 24)) := by
    rw [add_div, ea, div_self hdne]
    have : ((Aa : ℚ) + Dn) / Dn = (Aa : ℚ) / Dn + 1 := by field_simp
    rw [this]; ring
  rw [el, er]
  exact core

/-- Forward error of the interpolation `l + (n - l) * U` for a binary32 fraction `U` of
`[0, 1]` that is within `ε` of a real fraction `w`. -/
theorem lerp_error {l nw : F32} {U : Int} {w ε : ℚ} (U0 : 0 ≤ U) (U1 : U ≤ 2 ^ 149)
    (hw : |toRat (F32.fin U) - w| ≤ ε)
    (hfin : (l + (nw - l) * F32.fin U).isFinite = true) :
    |toRat (l + (nw - l) * F32.fin U) - (toRat l + (toRat nw - toRat l) * w)| ≤
      (|toRat l| + |toRat nw|) / 2 ^ 21 + 1 / 2 ^ 149 + |toRat nw - toRat l| * ε := by
  obtain ⟨_, hP, eR⟩ := add_error hfin
  obtain ⟨hD, _, eP⟩ := mul_error hP
  obtain ⟨_, _, eD⟩ := sub_error hD
  obtain ⟨u0, u1⟩ := toRat_unit U0 U1
  generalize toRat (l + (nw - l) * F32.fin U) = R at eR ⊢
  generalize toRat ((nw - l) * F32.fin U) = P at eR eP
  generalize toRat (nw - l) = D at eP eD
  generalize toRat (F32.fin U) = Uq at *
  generalize toRat l = a at *
  generalize toRat nw = b at *
  have hu : (0 : ℚ) ≤ 1 / 2 ^ 24 := by positivity
  rw [div_eq_mul_one_div] at eR eD
  rw [div_eq_mul_one_div (|D * Uq|)] at eP
  have z : ∀ t : ℚ, |t - t| ≤ 0 := fun t => by simp
  have hA : |a| ≤ |a| + |b| := by linarith [abs_nonneg b]
  have hM : 0 ≤ |a| + |b| := by positivity
  have mD : |b - a| ≤ |a| + |b| := by
    have := abs_sub b a; linarith
  have hUa : |Uq| ≤ 1 := by rw [abs_of_nonneg u0]; exact u1
  have sD := sub_step (z b) (z a) (le_refl |b|) (le_refl |a|) hu eD
  have sP := mul_step sD (z Uq) mD hUa hu eP
  have mP : |(b - a) * Uq| ≤ |a| + |b| := by
    rw [abs_mul]
    calc |b - a| * |Uq| ≤ (|a| + |b|) * 1 := mul_le_mul mD hUa (abs_nonneg _) hM
      _ = |a| + |b| := mul_one _
  have sR := add_step (z a) sP hA mP hu eR
  have hsplit : |R - (a + (b - a) * w)| ≤ |R - (a + (b - a) * Uq)| + |b - a| * ε := by
    have e : R - (a + (b - a) * w) = (R - (a + (b - a) * Uq)) + (b - a) * (Uq - w) := by ring
    rw [e]
    have h1 := abs_add (R - (a + (b - a) * Uq)) ((b - a) * (Uq - w))
    have h2 : |(b - a) * (Uq - w)| ≤ |b - a| * ε := by
      rw [abs_mul]; exact mul_le_mul_of_nonneg_left hw (abs_nonneg _)
    linarith
  refine le_trans hsplit ?_
  have hfinal : |R - (a + (b - a) * Uq)| ≤ (|a| + |b|) / 2 ^ 21 + 1 / 2 ^ 149 := by
    refine le_trans sR ?_
    have ha0 : 0 ≤ |a| := abs_nonneg a
    have hb0 : 0 ≤ |b| := abs_nonneg b
    generalize |a| = A at *
    generalize |b| = B at *
    clear sR sP sD mP mD eR eP eD hsplit hA z
    ring_nf
    linarith only [ha0, hb0]
  linarith

end Binary32

end

section

open F32 (IsBinary32)

namespace Binary32

theorem gridStep_le_of_lt {A B : Nat} (hB : 0 < B) (h : A < 8388608 * B) :
    2 ^ F32.gridExp A ≤ B := by
  rcases Nat.eq_zero_or_pos (F32.gridExp A) with hg | hg
  · rw [hg]; simpa using hB
  · have h1 := F32.pow_gridExp_le hg
    rw [pow_add] at h1
    generalize 2 ^ F32.gridExp A = G at h1 ⊢
    norm_num at h1
    omega

/-- A subsequent-sample call returns when the accumulator it starts the loop with is
finite and below `2^23` spacings: the remainder is then in `[0, spacing)` and the consumed
distance is `n * spacing` up to `n` roundings. -/
theorem processInput_returns (e : BrushEngine F32) (input : InputPoint F32)
    (rng : RandomSource F32) (hnneg : ¬ e.m_distanceSinceLastDab < 0)
    (hact : e.m_strokeActive = true) (hts : e.m_lastInput.timestamp ≠ 0)
    (hfa : (e.m_distanceSinceLastDab + segmentLength e.m_lastInput input).isFinite = true)
    (hfs : (spacingFor e.m_settings input rng).isFinite = true)
    (hs : spacingFor e.m_settings input rng > 0.0)
    (hlt : F32.toRat (e.m_distanceSinceLastDab + segmentLength e.m_lastInput input) <
        8388608 * F32.toRat (spacingFor e.m_settings input rng)) :
    ∃ (fuel : Nat) (r : List (BrushDab F32) × BrushEngine F32 × RandomSource F32),
      processInput fuel e input rng = some r ∧
      r.2.1.m_lastInput = input ∧
      r.2.1.m_distanceSinceLastDab.isFinite = true ∧
      ¬ r.2.1.m_distanceSinceLastDab < 0 ∧
      r.2.1.m_distanceSinceLastDab < spacingFor e.m_settings input rng ∧
      |F32.toRat (e.m_distanceSinceLastDab + segmentLength e.m_lastInput input) -
          (r.1.length : ℚ) * F32.toRat (spacingFor e.m_settings input rng) -
          F32.toRat r.2.1.m_distanceSinceLastDab| ≤
        (r.1.length : ℚ) *
          F32.toRat (e.m_distanceSinceLastDab + segmentLength e.m_lastInput input) /
          2 ^ 24 := by
  have hacc0 : IsBinary32 (e.m_distanceSinceLastDab + segmentLength e.m_lastInput input) :=
    F32.add_isBinary32 _ _
  have hnn : ¬ e.m_distanceSinceLastDab + segmentLength e.m_lastInput input < 0 :=
    add_notNeg hnneg (sqrt_notNeg _)
  obtain ⟨a, hea⟩ := (F32.isFinite_iff _).mp hfa
  obtain ⟨b, heb⟩ := (F32.isFinite_iff _).mp hfs
  rw [hea] at hacc0 hnn hlt
  rw [heb] at hs hlt
  have ha : 0 ≤ a := by
    rw [F32.zero_eq, F32.lt_fin] at hnn; omega
  have hb : 0 < b := by
    have : (0.0 : F32) < F32.fin b := hs
    rw [F32.zero_lit, F32.lt_fin] at this; exact this
  obtain ⟨A, rfl⟩ := Int.eq_ofNat_of_zero_le ha
  obtain ⟨B, rfl⟩ := Int.eq_ofNat_of_zero_le (le_of_lt hb)
  have hB : 0 < B := by exact_mod_cast hb
  have hAB : A < 8388608 * B := by
    rw [F32.toRat_fin, F32.toRat_fin] at hlt
    have h2 : ((A : Int) : ℚ) < 8388608 * ((B : Int) : ℚ) := by
      have hp : (0 : ℚ) < 2 ^ 149 := by positivity
      rw [div_lt_iff₀ hp] at hlt
      have e : 8388608 * (((B : Int) : ℚ) / 2 ^ 149) * 2 ^ 149 = 8388608 * ((B : Int) : ℚ) := by
        field_simp
      rw [e] at hlt; exact hlt
    exact_mod_cast h2
  have hA : A < 33554431 * 2 ^ 252 := by
    have := hacc0.1
    simp only [Int.natAbs_ofNat] at this
    exact lt_of_le_of_lt this (by norm_num)
  obtain ⟨n, C, h1, h2, h3, h4, h5⟩ :=
    subIter_terminates B hB A hA (gridStep_le_of_lt hB hAB)
  have hrun : ∀ j, j < n →
      (subIter (F32.fin (B : Int)) j (F32.fin (A : Int)) ≥ F32.fin (B : Int) ∧
        F32.fin (B : Int) > 0.0) := by
    intro j hj
    obtain ⟨Aj, e1, e2⟩ := h3 j hj
    rw [e1]
    exact ⟨(F32.le_fin _ _).mpr (by exact_mod_cast e2), hs⟩
  have hstop : ¬ (subIter (F32.fin (B : Int)) n (F32.fin (A : Int)) ≥
      F32.fin (B : Int) ∧ F32.fin (B : Int) > 0.0) := by
    rw [h1]
    intro hc
    have := (F32.le_fin _ _).mp hc.1
    omega
  have hproc := processInput_next32 n e input rng hact hts
  rw [hea, heb, emitLoop_run _ _ _ _ _ _ (F32.fin (B : Int)) n n (F32.fin (A : Int))
    [] _ le_rfl hrun hstop] at hproc
  refine ⟨n, _, hproc, rfl, ?_, ?_, ?_, ?_⟩
  · show (subIter _ n _).isFinite = true
    rw [h1]; rfl
  · show ¬ subIter _ n _ < 0
    rw [h1, F32.zero_eq, F32.lt_fin]; omega
  · show subIter _ n _ < _
    rw [h1, heb, F32.lt_fin]; exact_mod_cast h2
  · show |_ - ((([] : List (BrushDab F32)) ++ _).length : ℚ) * _ -
        F32.toRat (subIter _ n _)| ≤ _
    rw [h1, hea, heb, List.nil_append, emitAll_length, loopInputs_length]
    rw [F32.toRat_fin, F32.toRat_fin, F32.toRat_fin]
    have q4 : (2 : ℚ) ^ 24 * ((C : ℚ) + (n : ℚ) * (B : ℚ)) ≤
        2 ^ 24 * (A : ℚ) + (n : ℚ) * (A : ℚ) := by exact_mod_cast h4
    have q5 : (2 : ℚ) ^ 24 * (A : ℚ) ≤
        2 ^ 24 * ((C : ℚ) + (n : ℚ) * (B : ℚ)) + (n : ℚ) * (A : ℚ) := by exact_mod_cast h5
    have hp : (0 : ℚ) < 2 ^ 149 := by positivity
    have e : (((A : Int) : ℚ) / 2 ^ 149 - (n : ℚ) * (((B : Int) : ℚ) / 2 ^ 149) -
        ((C : Int) : ℚ) / 2 ^ 149) = ((A : ℚ) - (n : ℚ) * (B : ℚ) - (C : ℚ)) / 2 ^ 149 := by
      push_cast; ring
    have e2 : (n : ℚ) * (((A : Int) : ℚ) / 2 ^ 149) / 2 ^ 24 =
        ((n : ℚ) * (A : ℚ) / 2 ^ 24) / 2 ^ 149 := by
      push_cast; ring
    have h24 : (0 : ℚ) < 2 ^ 24 := by positivity
    rw [e, e2, abs_div, abs_of_pos hp, div_le_div_iff_of_pos_right hp, abs_le]
    constructor
    · rw [neg_le, le_div_iff₀ h24]
      linarith only [q4, q5]
    · rw [le_div_iff₀ h24]
      linarith only [q4, q5]

end Binary32

theorem reachable_strokeAfterFirst (settings : BrushSettings F32) (first : InputPoint F32) :
    Binary32.Reachable (Binary32.strokeAfterFirst settings first) := by
  have h := Binary32.Reachable.afterProcessInput 0
    (Binary32.beginStroke (Binary32.setBrushSettings Binary32.BrushEngine.new settings))
    first Binary32.zeroDraws _
    (Binary32.Reachable.afterBeginStroke _
      (Binary32.Reachable.afterSetBrushSettings _ settings Binary32.Reachable.constructed))
    (Binary32.processInput_first32 0 _ first Binary32.zeroDraws rfl rfl)
  exact h

theorem clamp_div_zero {r : F32} (hr : ¬ r < 0) :
    F32.fmax 0.0 (F32.fmin 1.0 (r / 0.0)) = 1.0 := by
  have h : r / 0.0 = F32.nan ∨ r / 0.0 = F32.inf false := by
    rw [F32.zero_lit]
    rw [Binary32.notNeg_iff] at hr
    rcases hr with rfl | rfl | ⟨k, rfl⟩
    · left; rfl
    · right; decide!
    · show F32.div _ _ = _ ∨ F32.div _ _ = _
      simp only [F32.div, if_true]
      by_cases hk : (k : Int) = 0
      · left; rw [if_pos hk]
      · right; rw [if_neg hk]
        congr 1
  rcases h with h | h <;> rw [h] <;> decide!

/-- C23 (amended): in a reachable state, when the body of the dab-emission loop is entered
by a call (the stroke is active, a sample is recorded and the loop condition
`a + d ≥ s ∧ s > 0` holds in binary32): if the carried accumulator `a` is below the spacing
`s` of the call, the segment length `d` is greater than 0, so the quotient
`(accumulator - spacing) / distance` is not a division by zero; and if `d` is 0 the
quotient is `+inf` or NaN and the clamped fraction
`max(0, min(1, (a + d - s) / d))` of the first iteration is exactly 1. -/
theorem loop_distance_nonzero (e : BrushEngine F32) (input : InputPoint F32)
    (rng : RandomSource F32) (hreach : Binary32.Reachable e)
    (hrun : Binary32.loopBodyRuns e input rng) :
    (e.m_distanceSinceLastDab < Binary32.spacingFor e.m_settings input rng →
      0 < Binary32.segmentLength e.m_lastInput input) ∧
    (Binary32.segmentLength e.m_lastInput input = 0.0 →
      F32.fmax 0.0 (F32.fmin 1.0
        ((e.m_distanceSinceLastDab + Binary32.segmentLength e.m_lastInput input -
          Binary32.spacingFor e.m_settings input rng) /
          Binary32.segmentLength e.m_lastInput input)) = 1.0) := by
  obtain ⟨hacc, _⟩ := Binary32.reachable_acc e hreach
  obtain ⟨_, _, hc⟩ := hrun
  have hd : ¬ Binary32.segmentLength e.m_lastInput input < 0 := Binary32.sqrt_notNeg _
  constructor
  · intro hlt
    rw [Binary32.notNeg_iff] at hd
    rcases hd with hd | hd | ⟨k, hd⟩
    · rw [hd] at hc
      have h1 : F32.le (Binary32.spacingFor e.m_settings input rng)
          (e.m_distanceSinceLastDab + F32.nan) = true := hc.1
      have h2 : e.m_distanceSinceLastDab + F32.nan = F32.nan := by
        cases e.m_distanceSinceLastDab <;> rfl
      rw [h2] at h1
      cases hs : Binary32.spacingFor e.m_settings input rng <;> rw [hs] at h1 <;>
        simp [F32.le] at h1
    · rw [hd]; decide!
    · rw [hd]
      rcases Nat.eq_zero_or_pos k with hk | hk
      · exfalso
        subst hk
        rw [hd] at hc
        have h1 := hc.1
        rw [Nat.cast_zero, F32.add_zero_of_isBinary32 hacc] at h1
        exact F32.not_le_of_lt32 hlt h1
      · rw [F32.zero_eq, F32.lt_fin]
        exact_mod_cast hk
  · intro hz
    have e0 : e.m_distanceSinceLastDab + (0.0 : F32) = e.m_distanceSinceLastDab := by
      rw [F32.zero_lit]; exact F32.add_zero_of_isBinary32 hacc
    rw [hz, e0] at hc
    rw [hz, e0]
    exact clamp_div_zero (Binary32.sub_notNeg hc)

/-- C23 at a concrete input: base size 10, spacing fraction `0.1f`, the segment from
`(0, 0)` to `(3, 0)` with carried accumulator 0. -/
theorem loop_distance_nonzero_witness :
    0 < Binary32.segmentLength
      (Binary32.strokeAfterFirst (Binary32.settingsWith 10.0 0.1 [])
        (Binary32.samplePoint 0.0 0.0 1.0 1)).m_lastInput
      (Binary32.samplePoint 3.0 0.0 1.0 2) :=
  (loop_distance_nonzero
    (Binary32.strokeAfterFirst (Binary32.settingsWith 10.0 0.1 [])
      (Binary32.samplePoint 0.0 0.0 1.0 1))
    (Binary32.samplePoint 3.0 0.0 1.0 2) Binary32.zeroDraws
    (reachable_strokeAfterFirst (Binary32.settingsWith 10.0 0.1 [])
      (Binary32.samplePoint 0.0 0.0 1.0 1))
    (And.intro rfl (And.intro (by decide) (by decide!)))).1 (by decide!)

end

section

open F32

namespace Binary32

/-- A returning subsequent-sample call has run the loop body once per dab, on the samples
`loopSample`. -/
theorem processInput_loopSamples (fuel : Nat) (e : BrushEngine F32) (input : InputPoint F32)
    (rng : RandomSource F32) (r : List (BrushDab F32) × BrushEngine F32 × RandomSource F32)
    (hact : e.m_strokeActive = true) (hts : e.m_lastInput.timestamp ≠ 0)
    (hret : processInput fuel e input rng = some r) :
    (∀ j, j < r.1.length →
      (subIter (spacingFor e.m_settings input rng) j
          (e.m_distanceSinceLastDab + segmentLength e.m_lastInput input) ≥
        spacingFor e.m_settings input rng ∧ spacingFor e.m_settings input rng > 0.0)) ∧
    ¬ (subIter (spacingFor e.m_settings input rng) r.1.length
          (e.m_distanceSinceLastDab + segmentLength e.m_lastInput input) ≥
        spacingFor e.m_settings input rng ∧ spacingFor e.m_settings input rng > 0.0) ∧
    r.1 = (emitAll e.m_settings
      ((List.range r.1.length).map (loopSample e.m_lastInput input
        (segmentLength e.m_lastInput input) (spacingFor e.m_settings input rng)
        (e.m_distanceSinceLastDab + segmentLength e.m_lastInput input)))
      (applyMappings e.m_settings input (generateDab e.m_settings input) rng).2).1 ∧
    r.2.1 = { e with
      m_lastInput := input
      m_distanceSinceLastDab := subIter (spacingFor e.m_settings input rng) r.1.length
        (e.m_distanceSinceLastDab + segmentLength e.m_lastInput input) } := by
  rw [processInput_next32 fuel e input rng hact hts] at hret
  rcases hl : emitLoop e.m_settings e.m_lastInput input (input.x - e.m_lastInput.x)
    (input.y - e.m_lastInput.y) (segmentLength e.m_lastInput input)
    (spacingFor e.m_settings input rng) fuel
    (e.m_distanceSinceLastDab + segmentLength e.m_lastInput input) []
    (applyMappings e.m_settings input (generateDab e.m_settings input) rng).2 with _ | out
  · rw [hl] at hret; simp at hret
  · rw [hl] at hret
    simp only [Option.map_some', Option.some.injEq] at hret
    obtain ⟨n, _, hrun, hstop, hout⟩ := emitLoop_some _ _ _ _ _ _ _ _ _ _ _ _ hl
    have hlen : r.1.length = n := by
      rw [← hret, hout]
      simp [emitAll_length, loopInputs_length]
    rw [hlen]
    refine ⟨hrun, hstop, ?_, ?_⟩
    · rw [← hret, hout, List.nil_append, loopInputs_eq_map32]
      rfl
    · rw [← hret, hout]

/-- C9 (counterexample): base size 10, spacing fraction `0.1f` (spacing exactly 1), the last
sample at `(0, 0)`, the new one at `(3, 0)`, carried accumulator 0. The three dabs lie at
`x = 0.99999994`, `1.99999988` and `3`, whereas `u_1 = 1/3` and `last + (new - last) * u_1`
is 1, both as a real number and when evaluated in binary32. -/
theorem interpolated_dab_rounded :
    (processInput 3 (strokeAfterFirst (settingsWith 10.0 0.1 []) (samplePoint 0.0 0.0 1.0 1))
        (samplePoint 3.0 0.0 1.0 2) zeroDraws).map (fun r => r.1.map (fun d => d.x)) =
      some [F32.fin (16777215 * 2 ^ 125), F32.fin (16777215 * 2 ^ 126),
        F32.fin (12582912 * 2 ^ 127)] ∧
    spacingFor (settingsWith 10.0 0.1 []) (samplePoint 3.0 0.0 1.0 2) zeroDraws = 1.0 ∧
    segmentLength (samplePoint 0.0 0.0 1.0 1) (samplePoint 3.0 0.0 1.0 2) = 3.0 ∧
    specFraction 0.0 3.0 1.0 1 = 1 / 3 ∧
    toRat (0.0 : F32) + (toRat (3.0 : F32) - toRat (0.0 : F32)) * specFraction 0.0 3.0 1.0 1 =
      1 ∧
    (0.0 : F32) + ((3.0 : F32) - 0.0) * (((1.0 : F32) * 1.0 - 0.0) / 3.0) = 1.0 ∧
    toRat (F32.fin (16777215 * 2 ^ 125)) < 1 := by
  decide!

/-- C9 (amended): a subsequent-sample call of `processInput` with carried accumulator `a`,
segment length `d > 0` and spacing `s`, `0 ≤ a < s`, `a + d` finite. The call returns when
`a + d < 2^23 * s`. Whenever it returns, its dabs are resolved, in order, from the samples
`loopSample k` (`k` counted from 0): rotation, velocity and timestamp are those of the new
sample, and `x`, `y`, `pressure`, `tiltX`, `tiltY` are the binary32 values
`last + (new - last) * (1 - t_k)`. The binary32 fraction `1 - t_k` lies in `[0, 1]` and
differs from `u_(k+1) = ((k + 1) * s - a) / d` by at most `(k + 4) * ((a + d) / d) / 2^23`,
and every finite interpolated field `l + (n - l) * (1 - t_k)` differs from the real number
`l + (n - l) * u_(k+1)` by at most
`(|l| + |n|) / 2^21 + 2^-149 + |n - l| * (k + 4) * ((a + d) / d) / 2^23`. -/
theorem loop_dabs_interpolated (e : BrushEngine F32) (input : InputPoint F32)
    (rng : RandomSource F32)
    (hact : e.m_strokeActive = true) (hts : e.m_lastInput.timestamp ≠ 0)
    (hd : (0.0 : F32) < segmentLength e.m_lastInput input)
    (ha : (0.0 : F32) ≤ e.m_distanceSinceLastDab)
    (has : e.m_distanceSinceLastDab < spacingFor e.m_settings input rng)
    (hfin : (e.m_distanceSinceLastDab + segmentLength e.m_lastInput input).isFinite = true) :
    (toRat (e.m_distanceSinceLastDab + segmentLength e.m_lastInput input) <
        8388608 * toRat (spacingFor e.m_settings input rng) →
      ∃ (fuel : Nat) (r : List (BrushDab F32) × BrushEngine F32 × RandomSource F32),
        processInput fuel e input rng = some r) ∧
    (∀ (fuel : Nat) (r : List (BrushDab F32) × BrushEngine F32 × RandomSource F32),
      processInput fuel e input rng = some r →
      r.1 = (emitAll e.m_settings
        ((List.range r.1.length).map (loopSample e.m_lastInput input
          (segmentLength e.m_lastInput input) (spacingFor e.m_settings input rng)
          (e.m_distanceSinceLastDab + segmentLength e.m_lastInput input)))
        (applyMappings e.m_settings input (generateDab e.m_settings input) rng).2).1 ∧
      ∀ k, k < r.1.length →
        ∃ U : Int,
          (1.0 : F32) - loopT (segmentLength e.m_lastInput input)
            (spacingFor e.m_settings input rng)
            (e.m_distanceSinceLastDab + segmentLength e.m_lastInput input) k = F32.fin U ∧
          0 ≤ U ∧ U ≤ 2 ^ 149 ∧
          |toRat (F32.fin U) - specFraction e.m_distanceSinceLastDab
              (segmentLength e.m_lastInput input) (spacingFor e.m_settings input rng) (k + 1)| ≤
            ((k : ℚ) + 4) * ((toRat e.m_distanceSinceLastDab +
              toRat (segmentLength e.m_lastInput input)) /
              toRat (segmentLength e.m_lastInput input)) / 2 ^ 23 ∧
          ∀ l nw : F32, (l + (nw - l) * F32.fin U).isFinite = true →
            |toRat (l + (nw - l) * F32.fin U) -
                (toRat l + (toRat nw - toRat l) * specFraction e.m_distanceSinceLastDab
                  (segmentLength e.m_lastInput input) (spacingFor e.m_settings input rng)
                  (k + 1))| ≤
              (|toRat l| + |toRat nw|) / 2 ^ 21 + 1 / 2 ^ 149 +
                |toRat nw - toRat l| * (((k : ℚ) + 4) * ((toRat e.m_distanceSinceLastDab +
                  toRat (segmentLength e.m_lastInput input)) /
                  toRat (segmentLength e.m_lastInput input)) / 2 ^ 23)) ∧
    (∀ k : Nat,
      let p := loopSample e.m_lastInput input (segmentLength e.m_lastInput input)
        (spacingFor e.m_settings input rng)
        (e.m_distanceSinceLastDab + segmentLength e.m_lastInput input) k
      let w := (1.0 : F32) - loopT (segmentLength e.m_lastInput input)
        (spacingFor e.m_settings input rng)
        (e.m_distanceSinceLastDab + segmentLength e.m_lastInput input) k
      p.x = e.m_lastInput.x + (input.x - e.m_lastInput.x) * w ∧
      p.y = e.m_lastInput.y + (input.y - e.m_lastInput.y) * w ∧
      p.pressure = e.m_lastInput.pressure + (input.pressure - e.m_lastInput.pressure) * w ∧
      p.tiltX = e.m_lastInput.tiltX + (input.tiltX - e.m_lastInput.tiltX) * w ∧
      p.tiltY = e.m_lastInput.tiltY + (input.tiltY - e.m_lastInput.tiltY) * w ∧
      p.rotation = input.rotation ∧ p.velocityX = input.velocityX ∧
      p.velocityY = input.velocityY ∧ p.timestamp = input.timestamp) := by
  refine ⟨?_, ?_, ?_⟩
  · intro hlt
    obtain ⟨haf, _, _⟩ := add_error hfin
    obtain ⟨Aa, hAa⟩ := nonneg_cases ha haf
    have hnneg : ¬ e.m_distanceSinceLastDab < 0 := by
      rw [hAa, zero_eq, lt_fin]; omega
    have hs : spacingFor e.m_settings input rng > 0.0 := lt_of_le_of_lt32 ha has
    have hnn : ¬ e.m_distanceSinceLastDab + segmentLength e.m_lastInput input < 0 :=
      add_notNeg hnneg (sqrt_notNeg _)
    have hfs : (spacingFor e.m_settings input rng).isFinite = true := by
      obtain ⟨A0, hA0⟩ := (isFinite_iff _).mp hfin
      rw [hA0] at hlt hnn
      rw [zero_eq, lt_fin] at hnn
      have h0 : (0 : ℚ) ≤ toRat (F32.fin A0) := by
        rw [toRat_fin]
        have : (0 : ℚ) ≤ (A0 : ℚ) := by exact_mod_cast (not_lt.mp hnn)
        positivity
      cases hsp : spacingFor e.m_settings input rng with
      | fin b => rfl
      | inf t =>
        exfalso; rw [hsp] at hlt; simp only [toRat] at hlt h0; linarith only [hlt, h0]
      | nan =>
        exfalso; rw [hsp] at hlt; simp only [toRat] at hlt h0; linarith only [hlt, h0]
    obtain ⟨fuel, r, hr, _⟩ :=
      processInput_returns e input rng hnneg hact hts hfin hfs hs hlt
    exact ⟨fuel, r, hr⟩
  · intro fuel r hret
    obtain ⟨hrun, _, hlist, _⟩ := processInput_loopSamples fuel e input rng r hact hts hret
    refine ⟨hlist, ?_⟩
    intro k hk
    obtain ⟨U, hU, U0, U1, hw⟩ := loop_fraction_error k ha has hd hfin
      (fun j hj => hrun j (by omega))
    have hw' : |toRat (F32.fin U) - specFraction e.m_distanceSinceLastDab
        (segmentLength e.m_lastInput input) (spacingFor e.m_settings input rng) (k + 1)| ≤
        ((k : ℚ) + 4) * ((toRat e.m_distanceSinceLastDab +
          toRat (segmentLength e.m_lastInput input)) /
          toRat (segmentLength e.m_lastInput input)) / 2 ^ 23 := by
      unfold specFraction
      push_cast
      exact hw
    exact ⟨U, hU, U0, U1, hw', fun l nw hf => lerp_error U0 U1 hw' hf⟩
  · intro k
    exact ⟨rfl, rfl, rfl, rfl, rfl, rfl, rfl, rfl, rfl⟩

/-- C9 at a concrete input: base size 10, spacing fraction `0.1f`, the segment from `(0, 0)`
to `(3, 0)` with carried accumulator 0. -/
theorem loop_dabs_interpolated_witness :
    (0.0 : F32) < segmentLength (samplePoint 0.0 0.0 1.0 1) (samplePoint 3.0 0.0 1.0 2) ∧
    ∃ (fuel : Nat) (r : List (BrushDab F32) × BrushEngine F32 × RandomSource F32),
      processInput fuel (strokeAfterFirst (settingsWith 10.0 0.1 []) (samplePoint 0.0 0.0 1.0 1))
        (samplePoint 3.0 0.0 1.0 2) zeroDraws = some r :=
  ⟨by decide!,
    (loop_dabs_interpolated (strokeAfterFirst (settingsWith 10.0 0.1 [])
      (samplePoint 0.0 0.0 1.0 1)) (samplePoint 3.0 0.0 1.0 2) zeroDraws rfl (by decide)
      (by decide!) (by decide!) (by decide!) (by decide!)).1 (by decide!)⟩

theorem applyMapping_indep32 (input : InputPoint F32) (dab : BrushDab F32)
    (rng rng' : RandomSource F32) (m : InputMapping F32) (h : m.source ≠ InputSource.Random) :
    (applyMapping input (dab, rng) m).1 = (applyMapping input (dab, rng') m).1 := by
  have h1 := (getInputValue_det32 input m.source rng rng' h).2
  unfold applyMapping
  cases m.target <;> simp only [h1]

theorem foldl_applyMapping_indep32 (input : InputPoint F32) (rng rng' : RandomSource F32)
    (ms : List (InputMapping F32)) (h : ∀ m ∈ ms, m.source ≠ InputSource.Random) :
    ∀ dab : BrushDab F32,
      (ms.foldl (applyMapping input) (dab, rng)).1 =
        (ms.foldl (applyMapping input) (dab, rng')).1 := by
  induction ms with
  | nil => intro dab; rfl
  | cons m ms ih =>
    intro dab
    have hm := h m (List.mem_cons_self _ _)
    rw [List.foldl_cons, List.foldl_cons, applyMapping_det32 input dab rng m hm,
      applyMapping_det32 input dab rng' m hm, applyMapping_indep32 input dab rng rng' m hm]
    exact ih (fun m' hm' => h m' (List.mem_cons_of_mem _ hm')) _

theorem applyMappings_det32 (settings : BrushSettings F32)
    (hdet : ∀ m ∈ settings.mappings, m.source ≠ InputSource.Random)
    (input : InputPoint F32) (dab : BrushDab F32) (rng rng' : RandomSource F32) :
    applyMappings settings input dab rng = ((applyMappings settings input dab rng').1, rng) := by
  unfold applyMappings
  simp only
  rw [foldl_applyMapping_det32 input rng settings.mappings hdet dab,
    foldl_applyMapping_indep32 input rng rng' settings.mappings hdet dab]

theorem applyMapping_scatter32 (input : InputPoint F32) (st : BrushDab F32 × RandomSource F32)
    (m : InputMapping F32) (h : m.target ≠ BrushProperty.Scatter) :
    (applyMapping input st m).1.scatter = st.1.scatter := by
  unfold applyMapping
  cases ht : m.target <;> simp_all

theorem foldl_applyMapping_scatter32 (input : InputPoint F32) (ms : List (InputMapping F32))
    (h : ∀ m ∈ ms, m.target ≠ BrushProperty.Scatter) :
    ∀ st : BrushDab F32 × RandomSource F32,
      (ms.foldl (applyMapping input) st).1.scatter = st.1.scatter := by
  induction ms with
  | nil => intro st; rfl
  | cons m ms ih =>
    intro st
    rw [List.foldl_cons, ih (fun m' hm' => h m' (List.mem_cons_of_mem _ hm')),
      applyMapping_scatter32 input st m (h m (List.mem_cons_self _ _))]

theorem clampDab_scatter32 (dab : BrushDab F32) : (clampDab dab).scatter = dab.scatter := by
  delta clampDab
  exact Eq.refl _

theorem generateDab_scatter32 (settings : BrushSettings F32) (input : InputPoint F32) :
    (generateDab settings input).scatter = (BrushDab.default : BrushDab F32).scatter := by
  delta generateDab
  exact Eq.refl _

/-- Without a `Random` source and without a `Scatter` target the resolved dab does not
depend on the random source, and the source is left as it was. -/
theorem emitDab_det32 (settings : BrushSettings F32)
    (hdet : ∀ m ∈ settings.mappings, m.source ≠ InputSource.Random)
    (hsc : ∀ m ∈ settings.mappings, m.target ≠ BrushProperty.Scatter)
    (input : InputPoint F32) (rng rng' : RandomSource F32) :
    emitDab settings input rng = ((emitDab settings input rng').1, rng) := by
  have hs : ∀ r : RandomSource F32,
      ¬ (applyMappings settings input (generateDab settings input) r).1.scatter > 0.0 := by
    intro r
    have e : (applyMappings settings input (generateDab settings input) r).1.scatter =
        (BrushDab.default : BrushDab F32).scatter := by
      unfold applyMappings
      simp only
      rw [clampDab_scatter32, foldl_applyMapping_scatter32 input settings.mappings hsc]
      exact generateDab_scatter32 settings input
    rw [e]
    exact (by decide! : ¬ (BrushDab.default : BrushDab F32).scatter > 0.0)
  unfold emitDab
  simp only
  unfold applyScatter
  rw [if_neg (hs rng), if_neg (hs rng'),
    applyMappings_det32 settings hdet input (generateDab settings input) rng rng']

theorem emitAll_det32 (settings : BrushSettings F32)
    (hdet : ∀ m ∈ settings.mappings, m.source ≠ InputSource.Random)
    (hsc : ∀ m ∈ settings.mappings, m.target ≠ BrushProperty.Scatter)
    (rng rng' : RandomSource F32) :
    ∀ ps : List (InputPoint F32),
      emitAll settings ps rng = (ps.map (fun p => (emitDab settings p rng').1), rng)
  | [] => rfl
  | p :: ps => by
    unfold emitAll
    simp only
    rw [emitDab_det32 settings hdet hsc p rng rng',
      emitAll_det32 settings hdet hsc rng rng' ps]
    simp only [List.map_cons]

theorem isBinary32_units {m : Nat} (hm : m < 2 ^ 24) :
    IsBinary32 (F32.fin ((m : Int) * 2 ^ 149)) := by
  have e : ((m : Int) * 2 ^ 149).natAbs = m * 2 ^ 149 := by
    rw [Int.natAbs_mul, Int.natAbs_ofNat, Int.natAbs_pow]; rfl
  have h1 : m * 2 ^ 149 ≤ 2 ^ 24 * 2 ^ 149 := Nat.mul_le_mul_right _ (le_of_lt hm)
  have h2 : 2 ^ 24 * 2 ^ 149 ≤ 16777215 * 2 ^ 253 := by norm_num
  have key : ((m : Int) * 2 ^ 149).natAbs ≤ 16777215 * 2 ^ 253 ∧
      onGrid ((m : Int) * 2 ^ 149).natAbs := by
    rw [e]
    exact ⟨le_trans h1 h2, onGrid_mul_pow (le_of_lt hm)⟩
  exact key

/-- Whole numbers below `2^24` subtract exactly. -/
theorem sub_units_exact {m b : Nat} (hb : b ≤ m) (hm : m < 2 ^ 24) :
    F32.fin ((m : Int) * 2 ^ 149) - F32.fin ((b : Int) * 2 ^ 149) =
      F32.fin (((m - b : Nat) : Int) * 2 ^ 149) := by
  rw [sub_fin]
  have e : (m : Int) * 2 ^ 149 - (b : Int) * 2 ^ 149 = ((m - b : Nat) : Int) * 2 ^ 149 := by
    rw [Nat.cast_sub hb]; ring
  rw [e]
  exact round_self (isBinary32_units (by omega))

theorem subIter_units (b : Nat) : ∀ (j m : Nat), j * b ≤ m → m < 2 ^ 24 →
    subIter (F32.fin ((b : Int) * 2 ^ 149)) j (F32.fin ((m : Int) * 2 ^ 149)) =
      F32.fin (((m - j * b : Nat) : Int) * 2 ^ 149)
  | 0, m, _, _ => by simp [subIter]
  | j + 1, m, h, hm => by
    have hb : b ≤ m := by
      have : b ≤ (j + 1) * b := Nat.le_mul_of_pos_left b (by omega)
      omega
    have e1 : (j + 1) * b = j * b + b := by ring
    show subIter _ j (F32.fin ((m : Int) * 2 ^ 149) - F32.fin ((b : Int) * 2 ^ 149)) = _
    rw [sub_units_exact hb hm, subIter_units b j (m - b) (by omega) (by omega)]
    congr 3
    omega

theorem spacingFor_det32 (settings : BrushSettings F32)
    (hdet : ∀ m ∈ settings.mappings, m.source ≠ InputSource.Random)
    (input : InputPoint F32) (rng rng' : RandomSource F32) :
    spacingFor settings input rng = spacingFor settings input rng' := by
  unfold spacingFor
  rw [applyMappings_det32 settings hdet input _ rng rng']

/-- A subsequent-sample call whose spacing is `b` and whose accumulator, after the segment
length is added, is `m`, both whole numbers of distance units with `0 < b` and `m < 2^24`,
and whose settings use no random source and no scatter: all subtractions are exact, the
call returns `m / b` dabs and leaves the remainder `m % b`. -/
theorem processInput_units (fuel : Nat) (e : BrushEngine F32) (input : InputPoint F32)
    (rng : RandomSource F32) (b m : Nat)
    (hact : e.m_strokeActive = true) (hts : e.m_lastInput.timestamp ≠ 0)
    (hdet : ∀ mp ∈ e.m_settings.mappings, mp.source ≠ InputSource.Random)
    (hsc : ∀ mp ∈ e.m_settings.mappings, mp.target ≠ BrushProperty.Scatter)
    (hS : spacingFor e.m_settings input zeroDraws = F32.fin ((b : Int) * 2 ^ 149))
    (hA : e.m_distanceSinceLastDab + segmentLength e.m_lastInput input =
      F32.fin ((m : Int) * 2 ^ 149))
    (hb : 0 < b) (hm : m < 2 ^ 24) (hfuel : m / b ≤ fuel) :
    processInput fuel e input rng =
      some ((List.range (m / b)).map (fun k => unitsDab e input (m - (k + 1) * b)),
        { e with
          m_lastInput := input
          m_distanceSinceLastDab := F32.fin (((m % b : Nat) : Int) * 2 ^ 149) },
        rng) := by
  have hpos : F32.fin ((b : Int) * 2 ^ 149) > 0.0 := by
    show (0.0 : F32) < _
    rw [zero_lit, lt_fin]
    have : (0 : Int) < (b : Int) := by exact_mod_cast hb
    positivity
  have hdiv : m / b * b ≤ m := Nat.div_mul_le_self m b
  have hrun : ∀ j, j < m / b →
      (subIter (F32.fin ((b : Int) * 2 ^ 149)) j (F32.fin ((m : Int) * 2 ^ 149)) ≥
        F32.fin ((b : Int) * 2 ^ 149) ∧ F32.fin ((b : Int) * 2 ^ 149) > 0.0) := by
    intro j hj
    have hjb : (j + 1) * b ≤ m := le_trans (Nat.mul_le_mul_right b hj) hdiv
    have e1 : (j + 1) * b = j * b + b := by ring
    rw [subIter_units b j m (by omega) hm]
    refine ⟨?_, hpos⟩
    show F32.fin ((b : Int) * 2 ^ 149) ≤ _
    rw [le_fin]
    have : (b : Int) ≤ ((m - j * b : Nat) : Int) := by exact_mod_cast (by omega : b ≤ m - j * b)
    exact mul_le_mul_of_nonneg_right this (by positivity)
  have hrem : m - m / b * b = m % b := by
    have := Nat.div_add_mod m b
    have e2 : b * (m / b) = m / b * b := Nat.mul_comm _ _
    omega
  have hstop : ¬ (subIter (F32.fin ((b : Int) * 2 ^ 149)) (m / b)
      (F32.fin ((m : Int) * 2 ^ 149)) ≥ F32.fin ((b : Int) * 2 ^ 149) ∧
      F32.fin ((b : Int) * 2 ^ 149) > 0.0) := by
    rw [subIter_units b (m / b) m hdiv hm, hrem]
    intro hc
    have h1 : F32.fin ((b : Int) * 2 ^ 149) ≤ F32.fin (((m % b : Nat) : Int) * 2 ^ 149) := hc.1
    rw [le_fin] at h1
    have h2 : ((m % b : Nat) : Int) < (b : Int) := by exact_mod_cast Nat.mod_lt m hb
    have h3 : ((m % b : Nat) : Int) * 2 ^ 149 < (b : Int) * 2 ^ 149 :=
      mul_lt_mul_of_pos_right h2 (by positivity)
    omega
  have hproc := processInput_next32 fuel e input rng hact hts
  rw [spacingFor_det32 e.m_settings hdet input rng zeroDraws, hS, hA,
    applyMappings_det32 e.m_settings hdet input _ rng zeroDraws,
    emitLoop_run _ _ _ _ _ _ _ (m / b) fuel _ [] _ hfuel hrun hstop,
    Option.map_some', loopInputs_eq_map32, emitAll_det32 e.m_settings hdet hsc rng zeroDraws,
    subIter_units b (m / b) m hdiv hm, hrem] at hproc
  have hmap : (List.range (m / b)).map (fun k => (emitDab e.m_settings
      (interpolate e.m_lastInput input (input.x - e.m_lastInput.x) (input.y - e.m_lastInput.y)
        (F32.fmax 0.0 (F32.fmin 1.0 (subIter (F32.fin ((b : Int) * 2 ^ 149)) (k + 1)
          (F32.fin ((m : Int) * 2 ^ 149)) / segmentLength e.m_lastInput input))))
      zeroDraws).1) =
      (List.range (m / b)).map (fun k => unitsDab e input (m - (k + 1) * b)) := by
    apply List.map_congr_left
    intro k hk
    have hk' : k < m / b := List.mem_range.mp hk
    have hkb : (k + 1) * b ≤ m := le_trans (Nat.mul_le_mul_right b hk') hdiv
    simp only [unitsDab]
    rw [subIter_units b (k + 1) m hkb hm]
  simp only [List.nil_append, List.map_map, Function.comp_def] at hproc
  rw [hmap] at hproc
  rw [hproc]

theorem scenario_dabs : ∀ k, k < 333 →
    (unitsDab scenarioStroke scenarioEnd (1000 - (k + 1) * 3)).x = 0.0 ∧
    (unitsDab scenarioStroke scenarioEnd (1000 - (k + 1) * 3)).size = 30.0 ∧
    |toRat (unitsDab scenarioStroke scenarioEnd (1000 - (k + 1) * 3)).y - 3 * ((k : ℚ) + 1)| ≤
      1 / 2 ^ 14 := by
  decide!

/-- C3 (counterexample): in binary32 the first dab of the scenario's second call does not
lie at `(0, 3)`: its `y` is `12583000 * 2^-22 = 3.00002098`, where `3 = 12582912 * 2^-22`. -/
theorem scenario_first_dab_off :
    (processInput 1 (beginStroke (setBrushSettings BrushEngine.new scenarioSettings))
      scenarioStart zeroDraws).map (fun r => r.2.1) = some scenarioStroke ∧
    (processInput 333 scenarioStroke scenarioEnd zeroDraws).map (fun r => r.1.head?) =
      some (some (unitsDab scenarioStroke scenarioEnd 997)) ∧
    (unitsDab scenarioStroke scenarioEnd 997).y = F32.fin (12583000 * 2 ^ 127) ∧
    (3.0 : F32) = F32.fin (12582912 * 2 ^ 127) ∧
    toRat (unitsDab scenarioStroke scenarioEnd 997).y ≠ 3 := by
  refine ⟨by decide!, ?_, by decide!, by decide!, by decide!⟩
  rw [processInput_units 333 scenarioStroke scenarioEnd zeroDraws 3 1000 rfl (by decide)
    (by decide) (by decide) (by decide!) (by decide!) (by norm_num) (by norm_num)
    (by norm_num)]
  rfl

/-- C3 (amended): the end-to-end scenario in binary32 (base size 20, spacing fraction 0.1,
one linear Pressure → Size mapping with range `[0.5, 1.5]` and strength 1; `beginStroke`,
a sample at `(0, 0)`, a sample at `(0, 1000)`, both with pressure 1 and non-zero
timestamps), for every random source. The first call returns one dab at `(0, 0)` of size
30. The second call returns exactly 333 dabs, each of size 30 with `x = 0`, the `k`-th
(`k = 1..333`) with `|y - 3k| ≤ 2^-14`, and leaves an accumulator remainder of exactly 1;
the random source is not consumed. -/
theorem pressure_size_scenario (rng : RandomSource F32) (fuel : Nat) (hfuel : 333 ≤ fuel) :
    (∃ d : BrushDab F32,
      processInput fuel (beginStroke (setBrushSettings BrushEngine.new scenarioSettings))
        scenarioStart rng = some ([d], scenarioStroke, rng) ∧
      d.x = 0.0 ∧ d.y = 0.0 ∧ d.size = 30.0) ∧
    (∃ r : List (BrushDab F32) × BrushEngine F32 × RandomSource F32,
      processInput fuel scenarioStroke scenarioEnd rng = some r ∧
      r.1.length = 333 ∧ r.2.1.m_distanceSinceLastDab = 1.0 ∧ r.2.1.m_lastInput = scenarioEnd ∧
      r.2.2 = rng ∧
      ∀ k : Nat, k < 333 → ∀ d : BrushDab F32, r.1[k]? = some d →
        d.x = 0.0 ∧ d.size = 30.0 ∧ |toRat d.y - 3 * ((k : ℚ) + 1)| ≤ 1 / 2 ^ 14) := by
  constructor
  · have h1 := processInput_first32 fuel
      (beginStroke (setBrushSettings BrushEngine.new scenarioSettings)) scenarioStart rng
      rfl (by decide)
    rw [emitDab_det32 _ (by decide) (by decide) scenarioStart rng zeroDraws] at h1
    have hx : (emitDab (beginStroke (setBrushSettings BrushEngine.new
        scenarioSettings)).m_settings scenarioStart zeroDraws).1.x = 0.0 := by decide!
    have hy : (emitDab (beginStroke (setBrushSettings BrushEngine.new
        scenarioSettings)).m_settings scenarioStart zeroDraws).1.y = 0.0 := by decide!
    have hsz : (emitDab (beginStroke (setBrushSettings BrushEngine.new
        scenarioSettings)).m_settings scenarioStart zeroDraws).1.size = 30.0 := by decide!
    dsimp only at h1
    refine ⟨(emitDab (beginStroke (setBrushSettings BrushEngine.new
      scenarioSettings)).m_settings scenarioStart zeroDraws).1, ?_, hx, hy, hsz⟩
    rw [h1]
    delta scenarioStroke strokeAfterFirst
    exact Eq.refl _
  · have h2 := processInput_units fuel scenarioStroke scenarioEnd rng 3 1000 rfl (by decide)
      (by decide) (by decide) (by decide!) (by decide!) (by norm_num) (by norm_num)
      (by norm_num; omega)
    have e333 : 1000 / 3 = 333 := by norm_num
    rw [e333] at h2
    refine ⟨_, h2, ?_,
      (by decide! : F32.fin (((1000 % 3 : Nat) : Int) * 2 ^ 149) = 1.0), rfl, rfl, ?_⟩
    · simp
    · intro k hk d hd
      simp only [List.getElem?_map, List.getElem?_range hk, Option.map_some',
        Option.some.injEq] at hd
      rw [← hd]
      exact scenario_dabs k hk

/-- C3 at a concrete input: the second call of the scenario with fuel 333 and the random
source whose draws are all 0. -/
theorem pressure_size_scenario_witness :
    (333 ≤ 333) ∧
    ∃ r : List (BrushDab F32) × BrushEngine F32 × RandomSource F32,
      processInput 333 scenarioStroke scenarioEnd zeroDraws = some r ∧
      r.1.length = 333 ∧ r.2.1.m_distanceSinceLastDab = 1.0 ∧ r.2.1.m_lastInput = scenarioEnd ∧
      r.2.2 = zeroDraws ∧
      ∀ k : Nat, k < 333 → ∀ d : BrushDab F32, r.1[k]? = some d →
        d.x = 0.0 ∧ d.size = 30.0 ∧ |toRat d.y - 3 * ((k : ℚ) + 1)| ≤ 1 / 2 ^ 14 :=
  ⟨le_refl _, (pressure_size_scenario zeroDraws 333 (le_refl _)).2⟩

/-- Rational core of the gap between two consecutive loop fractions. -/
theorem gap_core {rB rC1 rC2 T1 T2 W1 W2 u η E : ℚ}
    (hu0 : 0 ≤ u) (hE0 : 0 ≤ E) (hB0 : 0 ≤ rB) (hC2 : 0 ≤ rC2)
    (h1 : |T1 - min 1 rC1| ≤ min 1 rC1 * u + η)
    (h2 : |T2 - min 1 rC2| ≤ min 1 rC2 * u + η)
    (h3 : |W1 - (1 - T1)| ≤ u)
    (h4 : |W2 - (1 - T2)| ≤ u)
    (h5 : rC2 ≤ (rC1 - rB) * (1 + u))
    (h6 : rC1 ≤ 1 + E) :
    rB - (E + 5 * u + E * u + 2 * η) ≤ W2 - W1 := by
  have hm1 : min 1 rC1 ≤ 1 := min_le_left _ _
  have hm2 : min 1 rC2 ≤ 1 := min_le_left _ _
  have hm2' : min 1 rC2 ≤ rC2 := min_le_right _ _
  have hm20 : 0 ≤ min 1 rC2 := le_min (by norm_num) hC2
  have hm1' : rC1 - E ≤ min 1 rC1 := by
    rcases le_total rC1 1 with h | h
    · rw [min_eq_right h]; linarith
    · rw [min_eq_left h]; linarith
  obtain ⟨a1, a2⟩ := abs_le.mp h1
  obtain ⟨b1, b2⟩ := abs_le.mp h2
  obtain ⟨c1, c2⟩ := abs_le.mp h3
  obtain ⟨d1, d2⟩ := abs_le.mp h4
  have hm1u : min 1 rC1 * u ≤ u := by
    have := mul_le_mul_of_nonneg_right hm1 hu0; linarith
  have hm2u : min 1 rC2 * u ≤ u := by
    have := mul_le_mul_of_nonneg_right hm2 hu0; linarith
  have hCu : (rC1 - rB) * u ≤ (1 + E) * u :=
    mul_le_mul_of_nonneg_right (by linarith) hu0
  linarith

theorem roundNat_le_rel (n : Nat) : (F32.roundNat n 1 : ℚ) ≤ (n : ℚ) * (1 + 1 / 2 ^ 24) := by
  have h := (F32.roundNat_rel n).1
  have q : (2 : ℚ) ^ 24 * (F32.roundNat n 1 : ℚ) ≤ 2 ^ 24 * (n : ℚ) + (n : ℚ) := by
    exact_mod_cast h
  have h24 : (0 : ℚ) < 2 ^ 24 := by positivity
  have e : (n : ℚ) * (1 + 1 / 2 ^ 24) = (2 ^ 24 * (n : ℚ) + (n : ℚ)) / 2 ^ 24 := by
    field_simp; ring
  rw [e, le_div_iff₀ h24]
  linarith

/-- The fractions `1 - t` of two consecutive loop iterations differ by at least the
spacing over the segment length, up to rounding, when the carried accumulator does not
exceed the spacing. -/
theorem loop_fraction_gap {a d s : F32} (k : Nat) (ha : (0.0 : F32) ≤ a) (has : a ≤ s)
    (hd : (0.0 : F32) < d) (hfin : (a + d).isFinite = true)
    (hrun : ∀ j, j < k + 2 → (subIter s j (a + d) ≥ s ∧ s > 0.0)) :
    ∃ U V : Int, (1.0 : F32) - loopT d s (a + d) k = F32.fin U ∧
      (1.0 : F32) - loopT d s (a + d) (k + 1) = F32.fin V ∧
      0 ≤ U ∧ U ≤ 2 ^ 149 ∧ 0 ≤ V ∧ V ≤ 2 ^ 149 ∧
      toRat s / toRat d - (8 + 2 * (toRat s / toRat d)) / 2 ^ 24 ≤
        toRat (F32.fin V) - toRat (F32.fin U) := by
  obtain ⟨haf, hdf, _⟩ := add_error hfin
  obtain ⟨Aa, rfl⟩ := nonneg_cases ha haf
  obtain ⟨Dn, rfl⟩ := nonneg_cases (le_of_lt32 hd) hdf
  have hD : 0 < Dn := by
    rw [zero_lit, lt_fin] at hd; exact_mod_cast hd
  have hb32 : IsBinary32 (F32.fin (Aa : Int) + F32.fin (Dn : Int)) := add_isBinary32 _ _
  have hsum : F32.fin (Aa : Int) + F32.fin (Dn : Int) =
      F32.fin ((F32.roundNat (Aa + Dn) 1 : Nat) : Int) := by
    rw [add_fin]
    have e : (Aa : Int) + (Dn : Int) = ((Aa + Dn : Nat) : Int) := by push_cast; ring
    rw [e]
    by_cases ho : 33554431 * 2 ^ 252 * 1 ≤ Aa + Dn
    · exfalso
      rw [add_fin, e, round_inf_of_le (by simpa using ho)] at hfin
      exact absurd hfin (by simp [F32.isFinite])
    · exact round_ofNat ho
  generalize hA0 : F32.roundNat (Aa + Dn) 1 = A0 at hsum
  rw [hsum] at hrun hb32 ⊢
  have h0 := hrun 0 (by omega)
  have hs0 : (0.0 : F32) < s := h0.2
  have hsle : s ≤ F32.fin (A0 : Int) := h0.1
  have hsf : s.isFinite = true := by
    rcases le_fin_cases hsle with e | ⟨j, e, _⟩
    · rw [e] at hs0; exact absurd hs0 (by decide!)
    · rw [e]; rfl
  obtain ⟨B, rfl⟩ := nonneg_cases (le_of_lt32 hs0) hsf
  have hAB : Aa ≤ B := by
    rw [le_fin] at has; exact_mod_cast has
  have hBA : B ≤ A0 := by
    rw [le_fin] at hsle; exact_mod_cast hsle
  have hA0lt : A0 < 33554431 * 2 ^ 252 := by
    have := hb32.1
    simp only [Int.natAbs_ofNat] at this
    exact lt_of_le_of_lt this (by norm_num)
  -- the accumulator after the first subtraction
  have hstep := fin_sub_fin_nat hBA hA0lt
  generalize hR1 : F32.roundNat (A0 - B) 1 = R1 at hstep
  have hR1b : IsBinary32 (F32.fin (R1 : Int)) := by
    rw [← hstep]; exact sub_isBinary32 _ _
  have hrun1 : ∀ j, j < k + 1 →
      (subIter (F32.fin (B : Int)) j (F32.fin (R1 : Int)) ≥ F32.fin (B : Int) ∧
        F32.fin (B : Int) > 0.0) := by
    intro j hj
    have := hrun (j + 1) (by omega)
    rw [← hstep]; exact this
  obtain ⟨C1, hC1, hC1R, hC1b, _, _⟩ :=
    subIter_prefix B k R1 hR1b (fun j hj => hrun1 j (by omega))
  have hsub1 : subIter (F32.fin (B : Int)) (k + 1) (F32.fin (A0 : Int)) = F32.fin (C1 : Int) := by
    show subIter _ k (F32.fin (A0 : Int) - F32.fin (B : Int)) = _
    rw [hstep]; exact hC1
  have hBC1 : B ≤ C1 := by
    have := (hrun1 k (by omega)).1
    rw [hC1] at this
    have h' : F32.fin (B : Int) ≤ F32.fin (C1 : Int) := this
    rw [le_fin] at h'; exact_mod_cast h'
  have hC1lt : C1 < 33554431 * 2 ^ 252 := by
    have := hC1b.1
    simp only [Int.natAbs_ofNat] at this
    exact lt_of_le_of_lt this (by norm_num)
  have hsub2 : subIter (F32.fin (B : Int)) (k + 1 + 1) (F32.fin (A0 : Int)) =
      F32.fin ((F32.roundNat (C1 - B) 1 : Nat) : Int) := by
    rw [subIter_succ, hsub1, fin_sub_fin_nat hBC1 hC1lt]
  generalize hC2 : F32.roundNat (C1 - B) 1 = C2 at hsub2
  obtain ⟨T1, hT1, T10, T11, g1⟩ := clampDiv C1 hD
  obtain ⟨T2, hT2, T20, T21, g2⟩ := clampDiv C2 hD
  obtain ⟨U, hU, U0, U1⟩ := one_sub_unit T10 T11
  obtain ⟨V, hV, V0, V1⟩ := one_sub_unit T20 T21
  have hl1 : loopT (F32.fin (Dn : Int)) (F32.fin (B : Int)) (F32.fin (A0 : Int)) k =
      F32.fin T1 := by
    unfold loopT; rw [hsub1, hT1]
  have hl2 : loopT (F32.fin (Dn : Int)) (F32.fin (B : Int)) (F32.fin (A0 : Int)) (k + 1) =
      F32.fin T2 := by
    unfold loopT; rw [hsub2, hT2]
  rw [hl1, hl2, hU, hV]
  refine ⟨U, V, rfl, rfl, U0, U1, V0, V1, ?_⟩
  -- rounding facts
  have unitErr : ∀ (T W : Int), 0 ≤ T → T ≤ 2 ^ 149 → (1.0 : F32) - F32.fin T = F32.fin W →
      |toRat (F32.fin W) - (1 - toRat (F32.fin T))| ≤ 1 / 2 ^ 24 := by
    intro T W T0 T1' hW
    have hWf : ((1.0 : F32) - F32.fin T).isFinite = true := by rw [hW]; rfl
    obtain ⟨_, _, h4⟩ := sub_error hWf
    rw [hW, toRat_one] at h4
    obtain ⟨tq0, tq1⟩ := toRat_unit T0 T1'
    refine le_trans h4 ?_
    rw [abs_of_nonneg (by linarith)]
    exact (div_le_div_iff_of_pos_right (by positivity)).mpr (by linarith)
  have h3 := unitErr T1 U T10 T11 hU
  have h4 := unitErr T2 V T20 T21 hV
  have hDq : (0 : ℚ) < (Dn : ℚ) := by exact_mod_cast hD
  have g1' : |toRat (F32.fin T1) - min 1 ((C1 : ℚ) / (Dn : ℚ))| ≤
      min 1 ((C1 : ℚ) / (Dn : ℚ)) * (1 / 2 ^ 24) + 1 / 2 ^ 150 := by
    refine le_trans g1 (le_of_eq ?_); ring
  have g2' : |toRat (F32.fin T2) - min 1 ((C2 : ℚ) / (Dn : ℚ))| ≤
      min 1 ((C2 : ℚ) / (Dn : ℚ)) * (1 / 2 ^ 24) + 1 / 2 ^ 150 := by
    refine le_trans g2 (le_of_eq ?_); ring
  have hBCq : (B : ℚ) ≤ (C1 : ℚ) := by exact_mod_cast hBC1
  have h5 : (C2 : ℚ) / Dn ≤ ((C1 : ℚ) / Dn - (B : ℚ) / Dn) * (1 + 1 / 2 ^ 24) := by
    have := roundNat_le_rel (C1 - B)
    rw [hC2, Nat.cast_sub hBC1] at this
    have e : ((C1 : ℚ) / Dn - (B : ℚ) / Dn) * (1 + 1 / 2 ^ 24) =
        (((C1 : ℚ) - (B : ℚ)) * (1 + 1 / 2 ^ 24)) / Dn := by ring
    rw [e]
    exact (div_le_div_iff_of_pos_right hDq).mpr this
  -- the excess of the first accumulator over the segment length
  have hA0q : (A0 : ℚ) ≤ ((Aa : ℚ) + Dn) * (1 + 1 / 2 ^ 24) := by
    have := roundNat_le_rel (Aa + Dn)
    rw [hA0] at this
    push_cast at this
    exact this
  have hR1q : (R1 : ℚ) ≤ ((A0 : ℚ) - B) * (1 + 1 / 2 ^ 24) := by
    have := roundNat_le_rel (A0 - B)
    rw [hR1, Nat.cast_sub hBA] at this
    exact this
  have hC1q : (C1 : ℚ) ≤ (R1 : ℚ) := by exact_mod_cast hC1R
  have hABq : (Aa : ℚ) ≤ (B : ℚ) := by exact_mod_cast hAB
  have hAa0 : (0 : ℚ) ≤ (Aa : ℚ) := Nat.cast_nonneg _
  have hB0 : (0 : ℚ) ≤ (B : ℚ) := Nat.cast_nonneg _
  have h6 : (C1 : ℚ) / Dn ≤
      1 + (1 / 2 ^ 24 + ((Aa : ℚ) + Dn) / Dn * (1 / 2 ^ 24) * (1 + 1 / 2 ^ 24)) := by
    have e : 1 + (1 / 2 ^ 24 + ((Aa : ℚ) + Dn) / Dn * (1 / 2 ^ 24) * (1 + 1 / 2 ^ 24)) =
        (((Dn : ℚ) + ((Aa : ℚ) + Dn) * (1 / 2 ^ 24)) * (1 + 1 / 2 ^ 24)) / Dn := by
      field_simp; ring
    rw [e]
    refine (div_le_div_iff_of_pos_right hDq).mpr ?_
    have h7 : (A0 : ℚ) - B ≤ (Dn : ℚ) + ((Aa : ℚ) + Dn) * (1 / 2 ^ 24) := by linarith
    have h8 : ((A0 : ℚ) - B) * (1 + 1 / 2 ^ 24) ≤
        ((Dn : ℚ) + ((Aa : ℚ) + Dn) * (1 / 2 ^ 24)) * (1 + 1 / 2 ^ 24) :=
      mul_le_mul_of_nonneg_right h7 (by positivity)
    linarith
  have hρ0 : (0 : ℚ) ≤ ((Aa : ℚ) + Dn) / Dn := by positivity
  have hρ : ((Aa : ℚ) + Dn) / Dn ≤ (B : ℚ) / Dn + 1 := by
    have e : (B : ℚ) / Dn + 1 = ((B : ℚ) + Dn) / Dn := by field_simp
    rw [e]
    exact (div_le_div_iff_of_pos_right hDq).mpr (by linarith)
  have hrB0 : (0 : ℚ) ≤ (B : ℚ) / Dn := by positivity
  have hrC2 : (0 : ℚ) ≤ (C2 : ℚ) / Dn := by positivity
  have core := gap_core (u := 1 / 2 ^ 24) (η := 1 / 2 ^ 150) (by positivity)
    (by positivity) hrB0 hrC2 g1' g2' h3 h4 h5 h6
  rw [toRat_nat_div B Dn hD]
  generalize (B : ℚ) / Dn = rB at *
  generalize ((Aa : ℚ) + Dn) / Dn = ρ at *
  refine le_trans ?_ core
  clear core h6 h5 g1' g2' g1 g2 h3 h4 unitErr
  norm_num
  linarith only [hρ, hρ0, hrB0]

/-- The rounded square root against its argument: `sqrt(x)^2 ≤ x * (1 + 2^-24)^2`. -/
theorem sqrt_sq_le {x : F32} (h : (F32.sqrt x).isFinite = true) :
    x.isFinite = true ∧ 0 ≤ toRat x ∧
      toRat (F32.sqrt x) ^ 2 ≤ toRat x * (1 + 1 / 2 ^ 24) ^ 2 := by
  cases x with
  | fin s =>
    by_cases hs : s < 0
    · simp [F32.sqrt, hs, F32.isFinite] at h
    · have hs0 : 0 ≤ s := not_lt.mp hs
      obtain ⟨k, rfl⟩ := Int.eq_ofNat_of_zero_le hs0
      have hsq : F32.sqrt (F32.fin (k : Int)) = F32.fin ((sqrtNat k : Nat) : Int) := by
        simp [F32.sqrt]
      refine ⟨rfl, ?_, ?_⟩
      · rw [toRat_fin]; positivity
      · rw [hsq, toRat_fin, toRat_fin]
        have hb := sqrtNat_sq_le k
        have q : ((2 : ℚ) ^ 24 * (sqrtNat k : ℚ)) * (2 ^ 24 * (sqrtNat k : ℚ)) ≤
            (2 ^ 24 + 1) * (2 ^ 24 + 1) * ((k : ℚ) * 2 ^ 149) := by exact_mod_cast hb
        have hp : (0 : ℚ) < 2 ^ 149 := by positivity
        generalize (2 : ℚ) ^ 149 = P at hp q ⊢
        push_cast
        have e1 : ((sqrtNat k : ℚ) / P) ^ 2 =
            ((2 ^ 24 * (sqrtNat k : ℚ)) * (2 ^ 24 * (sqrtNat k : ℚ))) / (2 ^ 48 * P ^ 2) := by
          field_simp; ring
        have e2 : (k : ℚ) / P * (1 + 1 / 2 ^ 24) ^ 2 =
            ((2 ^ 24 + 1) * (2 ^ 24 + 1) * ((k : ℚ) * P)) / (2 ^ 48 * P ^ 2) := by
          field_simp; ring
        rw [e1, e2]
        exact (div_le_div_iff_of_pos_right (by positivity)).mpr q
  | inf t =>
    cases t <;> simp [F32.sqrt, F32.isFinite] at h
  | nan => simp [F32.sqrt, F32.isFinite] at h

/-- The computed segment length against the real length of the segment, squared. -/
theorem segmentLength_sq_le (last input : InputPoint F32)
    (hfin : (segmentLength last input).isFinite = true) :
    input.x.isFinite = true ∧ last.x.isFinite = true ∧ input.y.isFinite = true ∧
    last.y.isFinite = true ∧
    toRat (segmentLength last input) ^ 2 ≤
      ((toRat input.x - toRat last.x) ^ 2 + (toRat input.y - toRat last.y) ^ 2) *
        (1 + 1 / 2 ^ 21) + 1 / 2 ^ 148 := by
  unfold segmentLength at hfin ⊢
  obtain ⟨hS, hS0, hsq⟩ := sqrt_sq_le hfin
  obtain ⟨hP1, hP2, eS⟩ := add_error hS
  obtain ⟨hdx, _, eP1⟩ := mul_error hP1
  obtain ⟨hdy, _, eP2⟩ := mul_error hP2
  obtain ⟨hnx, hlx, edx⟩ := sub_error hdx
  obtain ⟨hny, hly, edy⟩ := sub_error hdy
  refine ⟨hnx, hlx, hny, hly, ?_⟩
  generalize toRat (F32.sqrt ((input.x - last.x) * (input.x - last.x) +
    (input.y - last.y) * (input.y - last.y))) = δ at hsq ⊢
  generalize toRat ((input.x - last.x) * (input.x - last.x) +
    (input.y - last.y) * (input.y - last.y)) = S at hsq eS hS0
  generalize toRat ((input.x - last.x) * (input.x - last.x)) = p1 at eS eP1
  generalize toRat ((input.y - last.y) * (input.y - last.y)) = p2 at eS eP2
  generalize toRat (input.x - last.x) = X at eP1 edx
  generalize toRat (input.y - last.y) = Y at eP2 edy
  generalize toRat input.x - toRat last.x = Dx at edx ⊢
  generalize toRat input.y - toRat last.y = Dy at edy ⊢
  -- bounds on the squares
  have hX : X ^ 2 ≤ Dx ^ 2 * (1 + 1 / 2 ^ 24) ^ 2 := by
    have h1 : |X| ≤ |Dx| * (1 + 1 / 2 ^ 24) := by
      have e : X = (X - Dx) + Dx := by ring
      have := abs_add (X - Dx) Dx
      rw [← e] at this
      linarith
    have h2 : |X| ^ 2 ≤ (|Dx| * (1 + 1 / 2 ^ 24)) ^ 2 :=
      pow_le_pow_left₀ (abs_nonneg _) h1 2
    rw [sq_abs, mul_pow, sq_abs] at h2
    exact h2
  have hY : Y ^ 2 ≤ Dy ^ 2 * (1 + 1 / 2 ^ 24) ^ 2 := by
    have h1 : |Y| ≤ |Dy| * (1 + 1 / 2 ^ 24) := by
      have e : Y = (Y - Dy) + Dy := by ring
      have := abs_add (Y - Dy) Dy
      rw [← e] at this
      linarith
    have h2 : |Y| ^ 2 ≤ (|Dy| * (1 + 1 / 2 ^ 24)) ^ 2 :=
      pow_le_pow_left₀ (abs_nonneg _) h1 2
    rw [sq_abs, mul_pow, sq_abs] at h2
    exact h2
  have hp1 : p1 ≤ X ^ 2 * (1 + 1 / 2 ^ 24) + 1 / 2 ^ 150 := by
    have h := (abs_le.mp eP1).2
    have e : |X * X| = X ^ 2 := by rw [← sq, abs_of_nonneg (sq_nonneg X)]
    rw [e] at h
    have e2 : X * X = X ^ 2 := by ring
    rw [e2] at h
    linarith
  have hp2 : p2 ≤ Y ^ 2 * (1 + 1 / 2 ^ 24) + 1 / 2 ^ 150 := by
    have h := (abs_le.mp eP2).2
    have e : |Y * Y| = Y ^ 2 := by rw [← sq, abs_of_nonneg (sq_nonneg Y)]
    rw [e] at h
    have e2 : Y * Y = Y ^ 2 := by ring
    rw [e2] at h
    linarith
  have hSab : S ≤ |p1 + p2| * (1 + 1 / 2 ^ 24) := by
    have h := (abs_le.mp eS).2
    have : p1 + p2 ≤ |p1 + p2| := le_abs_self _
    linarith
  have hX0 : 0 ≤ X ^ 2 := sq_nonneg X
  have hY0 : 0 ≤ Y ^ 2 := sq_nonneg Y
  have hDx0 : 0 ≤ Dx ^ 2 := sq_nonneg Dx
  have hDy0 : 0 ≤ Dy ^ 2 := sq_nonneg Dy
  -- the products are not negative: a rounded square is within its error of a square
  have hp1lo : -(X ^ 2 * (1 / 2 ^ 24) + 1 / 2 ^ 150) ≤ p1 - X ^ 2 := by
    have h := (abs_le.mp eP1).1
    have e : |X * X| = X ^ 2 := by rw [← sq, abs_of_nonneg (sq_nonneg X)]
    rw [e] at h
    have e2 : X * X = X ^ 2 := by ring
    rw [e2] at h
    linarith
  have hp2lo : -(Y ^ 2 * (1 / 2 ^ 24) + 1 / 2 ^ 150) ≤ p2 - Y ^ 2 := by
    have h := (abs_le.mp eP2).1
    have e : |Y * Y| = Y ^ 2 := by rw [← sq, abs_of_nonneg (sq_nonneg Y)]
    rw [e] at h
    have e2 : Y * Y = Y ^ 2 := by ring
    rw [e2] at h
    linarith
  have habs : |p1 + p2| ≤ (X ^ 2 + Y ^ 2) * (1 + 1 / 2 ^ 24) + 2 / 2 ^ 150 := by
    rw [abs_le]
    constructor
    · linarith
    · linarith
  generalize X ^ 2 = X2 at *
  generalize Y ^ 2 = Y2 at *
  generalize Dx ^ 2 = A at *
  generalize Dy ^ 2 = B at *
  generalize |p1 + p2| = Q at *
  have hu4 : ((1 : ℚ) + 1 / 2 ^ 24) ^ 2 = 1 + 1 / 2 ^ 23 + 1 / 2 ^ 48 := by norm_num
  rw [hu4] at hsq hX hY
  have k1 : S ≤ ((A + B) * (1 + 1 / 2 ^ 23 + 1 / 2 ^ 48) * (1 + 1 / 2 ^ 24) + 2 / 2 ^ 150) *
      (1 + 1 / 2 ^ 24) := by
    have : Q ≤ (A + B) * (1 + 1 / 2 ^ 23 + 1 / 2 ^ 48) * (1 + 1 / 2 ^ 24) + 2 / 2 ^ 150 := by
      have h1 : (X2 + Y2) * (1 + 1 / 2 ^ 24) ≤
          (A + B) * (1 + 1 / 2 ^ 23 + 1 / 2 ^ 48) * (1 + 1 / 2 ^ 24) :=
        mul_le_mul_of_nonneg_right (by linarith) (by norm_num)
      linarith
    have h2 := mul_le_mul_of_nonneg_right this (by norm_num : (0 : ℚ) ≤ 1 + 1 / 2 ^ 24)
    linarith
  have k2 : S * (1 + 1 / 2 ^ 23 + 1 / 2 ^ 48) ≤
      ((A + B) * (1 + 1 / 2 ^ 23 + 1 / 2 ^ 48) * (1 + 1 / 2 ^ 24) + 2 / 2 ^ 150) *
        (1 + 1 / 2 ^ 24) * (1 + 1 / 2 ^ 23 + 1 / 2 ^ 48) :=
    mul_le_mul_of_nonneg_right k1 (by norm_num)
  refine le_trans hsq (le_trans k2 ?_)
  have hAB : 0 ≤ A + B := by linarith
  generalize A + B = L2 at *
  clear k1 k2 habs hSab hp1 hp2 hp1lo hp2lo hX hY hsq eS eP1 eP2 edx edy
  ring_nf
  linarith only [hAB]

theorem applyMapping_xy32 (input : InputPoint F32) (st : BrushDab F32 × RandomSource F32)
    (m : InputMapping F32) :
    (applyMapping input st m).1.x = st.1.x ∧ (applyMapping input st m).1.y = st.1.y := by
  unfold applyMapping
  cases m.target <;> exact ⟨rfl, rfl⟩

theorem foldl_applyMapping_xy32 (input : InputPoint F32) (ms : List (InputMapping F32)) :
    ∀ st : BrushDab F32 × RandomSource F32,
      (ms.foldl (applyMapping input) st).1.x = st.1.x ∧
      (ms.foldl (applyMapping input) st).1.y = st.1.y := by
  induction ms with
  | nil => intro st; exact ⟨rfl, rfl⟩
  | cons m ms ih =>
    intro st
    rw [List.foldl_cons]
    obtain ⟨h1, h2⟩ := ih (applyMapping input st m)
    obtain ⟨h3, h4⟩ := applyMapping_xy32 input st m
    exact ⟨h1.trans h3, h2.trans h4⟩

theorem clampDab_xy32 (dab : BrushDab F32) :
    (clampDab dab).x = dab.x ∧ (clampDab dab).y = dab.y := by
  delta clampDab
  exact ⟨Eq.refl _, Eq.refl _⟩

theorem generateDab_xy32 (settings : BrushSettings F32) (input : InputPoint F32) :
    (generateDab settings input).x = input.x ∧ (generateDab settings input).y = input.y := by
  delta generateDab
  exact ⟨Eq.refl _, Eq.refl _⟩

/-- Without a `Scatter` target the resolved dab lies at the position of its sample. -/
theorem emitDab_xy32 (settings : BrushSettings F32)
    (hsc : ∀ m ∈ settings.mappings, m.target ≠ BrushProperty.Scatter)
    (input : InputPoint F32) (rng : RandomSource F32) :
    (emitDab settings input rng).1.x = input.x ∧ (emitDab settings input rng).1.y = input.y := by
  have e : (applyMappings settings input (generateDab settings input) rng).1.scatter =
      (BrushDab.default : BrushDab F32).scatter := by
    unfold applyMappings
    simp only
    rw [clampDab_scatter32, foldl_applyMapping_scatter32 input settings.mappings hsc]
    exact generateDab_scatter32 settings input
  have hs : ¬ (applyMappings settings input (generateDab settings input) rng).1.scatter >
      0.0 := by
    rw [e]
    exact (by decide! : ¬ (BrushDab.default : BrushDab F32).scatter > 0.0)
  unfold emitDab
  simp only
  unfold applyScatter
  rw [if_neg hs]
  unfold applyMappings
  simp only
  obtain ⟨c1, c2⟩ := clampDab_xy32
    (settings.mappings.foldl (applyMapping input) (generateDab settings input, rng)).1
  obtain ⟨f1, f2⟩ := foldl_applyMapping_xy32 input settings.mappings
    (generateDab settings input, rng)
  obtain ⟨g1, g2⟩ := generateDab_xy32 settings input
  exact ⟨c1.trans (f1.trans g1), c2.trans (f2.trans g2)⟩

theorem emitAll_getElem_xy32 (settings : BrushSettings F32)
    (hsc : ∀ m ∈ settings.mappings, m.target ≠ BrushProperty.Scatter) :
    ∀ (ps : List (InputPoint F32)) (rng : RandomSource F32) (k : Nat) (d : BrushDab F32),
      (emitAll settings ps rng).1[k]? = some d →
      ∃ p, ps[k]? = some p ∧ d.x = p.x ∧ d.y = p.y
  | [], rng, k, d, h => by simp [emitAll] at h
  | p :: ps, rng, 0, d, h => by
    simp only [emitAll, List.getElem?_cons_zero, Option.some.injEq] at h
    refine ⟨p, by simp, ?_⟩
    rw [← h]
    exact emitDab_xy32 settings hsc p rng
  | p :: ps, rng, k + 1, d, h => by
    simp only [emitAll, List.getElem?_cons_succ] at h
    obtain ⟨q, hq, hx, hy⟩ := emitAll_getElem_xy32 settings hsc ps _ k d h
    exact ⟨q, by simpa using hq, hx, hy⟩

/-- Reverse triangle inequality for the Euclidean length in the plane. -/
theorem sqrt_sq_add_le (a b c d : ℝ) :
    Real.sqrt (a ^ 2 + b ^ 2) ≤ Real.sqrt ((a + c) ^ 2 + (b + d) ^ 2) + Real.sqrt (c ^ 2 + d ^ 2) := by
  have key : ∀ x y : ℝ, Complex.abs ⟨x, y⟩ = Real.sqrt (x ^ 2 + y ^ 2) := by
    intro x y
    rw [Complex.abs_apply, Complex.normSq_mk]
    congr 1; ring
  have h3 : Complex.abs ⟨a, b⟩ ≤ Complex.abs ⟨a + c, b + d⟩ + Complex.abs ⟨c, d⟩ := by
    have := Complex.abs.add_le (⟨a + c, b + d⟩ : ℂ) (-⟨c, d⟩)
    have e3 : (⟨a + c, b + d⟩ : ℂ) + -⟨c, d⟩ = ⟨a, b⟩ := by
      apply Complex.ext <;> simp
    rw [e3, map_neg_eq_map] at this
    exact this
  rw [key, key, key] at h3
  exact h3

/-- Geometric core of the spacing bound: two points interpolated on a segment at
fractions that differ by about `σ / δ` are about `σ` apart. -/
theorem gap_geometry {σ δ Dx Dy w1 w2 lx ly px py qx qy Ex Ey : ℝ}
    (hδ : 0 < δ) (hσ : 0 ≤ σ)
    (hw : σ / δ - (8 + 2 * (σ / δ)) / 2 ^ 24 ≤ w2 - w1) (hw1 : w2 - w1 ≤ 1)
    (hL : δ ^ 2 ≤ (Dx ^ 2 + Dy ^ 2) * (1 + 1 / 2 ^ 21) + 1 / 2 ^ 148)
    (hpx : |px - (lx + Dx * w1)| ≤ Ex) (hqx : |qx - (lx + Dx * w2)| ≤ Ex)
    (hpy : |py - (ly + Dy * w1)| ≤ Ey) (hqy : |qy - (ly + Dy * w2)| ≤ Ey) :
    σ - ((σ + δ) / 2 ^ 20 + 2 * (Ex + Ey) + 1 / 2 ^ 74) ≤
      Real.sqrt ((qx - px) ^ 2 + (qy - py) ^ 2) := by
  have hdist0 : 0 ≤ Real.sqrt ((qx - px) ^ 2 + (qy - py) ^ 2) := Real.sqrt_nonneg _
  have hEx : 0 ≤ Ex := le_trans (abs_nonneg _) hpx
  have hEy : 0 ≤ Ey := le_trans (abs_nonneg _) hpy
  -- the gap of the fractions, times the computed length
  have hwδ : σ - (8 * δ + 2 * σ) / 2 ^ 24 ≤ (w2 - w1) * δ := by
    have h := mul_le_mul_of_nonneg_right hw hδ.le
    have e : (σ / δ - (8 + 2 * (σ / δ)) / 2 ^ 24) * δ = σ - (8 * δ + 2 * σ) / 2 ^ 24 := by
      field_simp; ring
    rw [e] at h; exact h
  rcases le_or_lt (w2 - w1) 0 with hneg | hpos
  · have : (w2 - w1) * δ ≤ 0 := mul_nonpos_of_nonpos_of_nonneg hneg hδ.le
    have h1 : (8 * δ + 2 * σ) / 2 ^ 24 ≤ (σ + δ) / 2 ^ 20 := by
      have e' : (σ + δ) / 2 ^ 20 = (16 * δ + 16 * σ) / 2 ^ 24 := by ring
      rw [e']
      exact (div_le_div_iff_of_pos_right (by positivity)).mpr (by linarith)
    linarith
  · -- the real length of the segment against the computed one
    set L := Real.sqrt (Dx ^ 2 + Dy ^ 2) with hLdef
    have hL0 : 0 ≤ L := Real.sqrt_nonneg _
    have hLsq : L ^ 2 = Dx ^ 2 + Dy ^ 2 := Real.sq_sqrt (by positivity)
    have hδle : δ ≤ L * (1 + 1 / 2 ^ 21) + 1 / 2 ^ 74 := by
      have hr0 : 0 ≤ L * (1 + 1 / 2 ^ 21) + 1 / 2 ^ 74 := by positivity
      have hsq : δ ^ 2 ≤ (L * (1 + 1 / 2 ^ 21) + 1 / 2 ^ 74) ^ 2 := by
        rw [← hLsq] at hL
        have e : ((1 : ℝ) / 2 ^ 74) ^ 2 = 1 / 2 ^ 148 := by norm_num
        have h2 : (L * (1 + 1 / 2 ^ 21) + 1 / 2 ^ 74) ^ 2 =
            L ^ 2 * (1 + 1 / 2 ^ 21) ^ 2 + 2 * (L * (1 + 1 / 2 ^ 21)) * (1 / 2 ^ 74) +
              1 / 2 ^ 148 := by
          rw [← e]; ring
        rw [h2]
        have h3 : L ^ 2 * (1 + 1 / 2 ^ 21) ≤ L ^ 2 * (1 + 1 / 2 ^ 21) ^ 2 := by
          apply mul_le_mul_of_nonneg_left _ (sq_nonneg L)
          norm_num
        have h4 : 0 ≤ 2 * (L * (1 + 1 / 2 ^ 21)) * (1 / 2 ^ 74) := by positivity
        linarith
      have := Real.sqrt_le_sqrt hsq
      rw [Real.sqrt_sq hδ.le, Real.sqrt_sq hr0] at this
      exact this
    have hLlow : δ - 1 / 2 ^ 74 - δ / 2 ^ 21 ≤ L := by
      have h1 : δ - 1 / 2 ^ 74 ≤ L * (1 + 1 / 2 ^ 21) := by linarith
      rcases le_or_lt (1 / 2 ^ 74) δ with hc | hc
      · have h2 : (δ - 1 / 2 ^ 74) * (1 - 1 / 2 ^ 21) ≤ L := by
          have h3 : (δ - 1 / 2 ^ 74) * (1 - 1 / 2 ^ 21) ≤
              L * (1 + 1 / 2 ^ 21) * (1 - 1 / 2 ^ 21) :=
            mul_le_mul_of_nonneg_right h1 (by norm_num)
          have h4 : L * (1 + 1 / 2 ^ 21) * (1 - 1 / 2 ^ 21) ≤ L := by
            have : L * (1 + 1 / 2 ^ 21) * (1 - 1 / 2 ^ 21) = L - L * (1 / 2 ^ 21) ^ 2 := by ring
            rw [this]
            have : 0 ≤ L * (1 / 2 ^ 21) ^ 2 := by positivity
            linarith
          linarith
        have h5 : δ - 1 / 2 ^ 74 - δ / 2 ^ 21 ≤ (δ - 1 / 2 ^ 74) * (1 - 1 / 2 ^ 21) := by
          have : (δ - 1 / 2 ^ 74) * (1 - 1 / 2 ^ 21) =
              δ - 1 / 2 ^ 74 - δ / 2 ^ 21 + 1 / 2 ^ 74 * (1 / 2 ^ 21) := by ring
          rw [this]
          have : (0 : ℝ) ≤ 1 / 2 ^ 74 * (1 / 2 ^ 21) := by positivity
          linarith
        linarith
      · have : 0 ≤ δ / 2 ^ 21 := by positivity
        linarith
    -- the interpolated points
    have hvec : (w2 - w1) * L ≤ Real.sqrt ((Dx * (w2 - w1)) ^ 2 + (Dy * (w2 - w1)) ^ 2) := by
      have h0 : 0 ≤ (w2 - w1) * L := mul_nonneg hpos.le hL0
      have e : (Dx * (w2 - w1)) ^ 2 + (Dy * (w2 - w1)) ^ 2 = ((w2 - w1) * L) ^ 2 := by
        rw [mul_pow (w2 - w1) L, hLsq]; ring
      rw [e, Real.sqrt_sq h0]
    have herr : Real.sqrt (((qx - px) - Dx * (w2 - w1)) ^ 2 + ((qy - py) - Dy * (w2 - w1)) ^ 2) ≤
        2 * (Ex + Ey) := by
      have hx : |(qx - px) - Dx * (w2 - w1)| ≤ 2 * Ex := by
        have e : (qx - px) - Dx * (w2 - w1) =
            (qx - (lx + Dx * w2)) - (px - (lx + Dx * w1)) := by ring
        rw [e]
        have := abs_sub (qx - (lx + Dx * w2)) (px - (lx + Dx * w1))
        linarith
      have hy : |(qy - py) - Dy * (w2 - w1)| ≤ 2 * Ey := by
        have e : (qy - py) - Dy * (w2 - w1) =
            (qy - (ly + Dy * w2)) - (py - (ly + Dy * w1)) := by ring
        rw [e]
        have := abs_sub (qy - (ly + Dy * w2)) (py - (ly + Dy * w1))
        linarith
      have hr0 : 0 ≤ 2 * (Ex + Ey) := by positivity
      have hsq : ((qx - px) - Dx * (w2 - w1)) ^ 2 + ((qy - py) - Dy * (w2 - w1)) ^ 2 ≤
          (2 * (Ex + Ey)) ^ 2 := by
        have a1 : ((qx - px) - Dx * (w2 - w1)) ^ 2 ≤ (2 * Ex) ^ 2 :=
          sq_le_sq' (abs_le.mp hx).1 (abs_le.mp hx).2
        have a2 : ((qy - py) - Dy * (w2 - w1)) ^ 2 ≤ (2 * Ey) ^ 2 :=
          sq_le_sq' (abs_le.mp hy).1 (abs_le.mp hy).2
        have a3 : (2 * Ex) ^ 2 + (2 * Ey) ^ 2 ≤ (2 * (Ex + Ey)) ^ 2 := by
          have : 0 ≤ Ex * Ey := mul_nonneg hEx hEy
          have e3 : (2 * (Ex + Ey)) ^ 2 = (2 * Ex) ^ 2 + (2 * Ey) ^ 2 + 8 * (Ex * Ey) := by ring
          rw [e3]; linarith
        linarith
      have := Real.sqrt_le_sqrt hsq
      rw [Real.sqrt_sq hr0] at this
      exact this
    have htri := sqrt_sq_add_le (Dx * (w2 - w1)) (Dy * (w2 - w1))
      ((qx - px) - Dx * (w2 - w1)) ((qy - py) - Dy * (w2 - w1))
    have e1 : Dx * (w2 - w1) + ((qx - px) - Dx * (w2 - w1)) = qx - px := by ring
    have e2 : Dy * (w2 - w1) + ((qy - py) - Dy * (w2 - w1)) = qy - py := by ring
    rw [e1, e2] at htri
    -- lower bound of the main term
    have hmain : σ - (8 * δ + 2 * σ) / 2 ^ 24 - (1 / 2 ^ 74 + δ / 2 ^ 21) ≤ (w2 - w1) * L := by
      have h1 : (w2 - w1) * (δ - 1 / 2 ^ 74 - δ / 2 ^ 21) ≤ (w2 - w1) * L :=
        mul_le_mul_of_nonneg_left hLlow hpos.le
      have h2 : (w2 - w1) * (1 / 2 ^ 74 + δ / 2 ^ 21) ≤ 1 * (1 / 2 ^ 74 + δ / 2 ^ 21) :=
        mul_le_mul_of_nonneg_right hw1 (by positivity)
      have e : (w2 - w1) * (δ - 1 / 2 ^ 74 - δ / 2 ^ 21) =
          (w2 - w1) * δ - (w2 - w1) * (1 / 2 ^ 74 + δ / 2 ^ 21) := by ring
      linarith
    have hconst : (8 * δ + 2 * σ) / 2 ^ 24 + δ / 2 ^ 21 ≤ (σ + δ) / 2 ^ 20 := by
      have e : (8 * δ + 2 * σ) / 2 ^ 24 + δ / 2 ^ 21 = (16 * δ + 2 * σ) / 2 ^ 24 := by ring
      have e' : (σ + δ) / 2 ^ 20 = (16 * δ + 16 * σ) / 2 ^ 24 := by ring
      rw [e, e']
      exact (div_le_div_iff_of_pos_right (by positivity)).mpr (by linarith)
    linarith

theorem loopSample_getElem (lastInput input : InputPoint F32) (distance spacing acc0 : F32)
    (n k : Nat) (p : InputPoint F32)
    (h : ((List.range n).map (loopSample lastInput input distance spacing acc0))[k]? = some p) :
    k < n ∧ p = loopSample lastInput input distance spacing acc0 k := by
  have hk : k < n := by
    by_contra hk
    rw [List.getElem?_eq_none (by simpa using hk)] at h
    simp at h
  rw [List.getElem?_map, List.getElem?_range hk] at h
  simp only [Option.map_some', Option.some.injEq] at h
  exact ⟨hk, h.symm⟩

/-- C8 (amended): a subsequent-sample call of `processInput` from a reachable active state,
with no `Scatter` mapping, a carried accumulator that does not exceed the spacing `s`,
segment length `d > 0` and `a + d` finite. The call returns when `a + d < 2^23 * s`, and
whenever it returns, any two consecutive dabs with finite coordinates are at Euclidean
distance at least `s - tol`, where
`tol = (s + d + |last.x| + |new.x| + |last.y| + |new.y|) / 2^20 + 2^-73`. -/
theorem consecutive_dabs_spaced (e : BrushEngine F32) (input : InputPoint F32)
    (rng : RandomSource F32) (hreach : Reachable e)
    (hact : e.m_strokeActive = true) (hts : e.m_lastInput.timestamp ≠ 0)
    (hsc : ∀ m ∈ e.m_settings.mappings, m.target ≠ BrushProperty.Scatter)
    (has : e.m_distanceSinceLastDab ≤ spacingFor e.m_settings input rng)
    (hd : (0.0 : F32) < segmentLength e.m_lastInput input)
    (hfin : (e.m_distanceSinceLastDab + segmentLength e.m_lastInput input).isFinite = true) :
    (toRat (e.m_distanceSinceLastDab + segmentLength e.m_lastInput input) <
        8388608 * toRat (spacingFor e.m_settings input rng) →
      ∃ (fuel : Nat) (r : List (BrushDab F32) × BrushEngine F32 × RandomSource F32),
        processInput fuel e input rng = some r) ∧
    (∀ (fuel : Nat) (r : List (BrushDab F32) × BrushEngine F32 × RandomSource F32),
      processInput fuel e input rng = some r →
      ∀ (k : Nat) (p q : BrushDab F32), r.1[k]? = some p → r.1[k + 1]? = some q →
        p.x.isFinite = true → p.y.isFinite = true →
        q.x.isFinite = true → q.y.isFinite = true →
        ((toRat (spacingFor e.m_settings input rng) : ℚ) : ℝ) -
            ((((toRat (spacingFor e.m_settings input rng) +
                toRat (segmentLength e.m_lastInput input) +
                |toRat e.m_lastInput.x| + |toRat input.x| +
                |toRat e.m_lastInput.y| + |toRat input.y|) / 2 ^ 20 + 1 / 2 ^ 73 : ℚ) : ℝ)) ≤
          Real.sqrt ((((toRat q.x - toRat p.x : ℚ) : ℝ)) ^ 2 +
            (((toRat q.y - toRat p.y : ℚ) : ℝ)) ^ 2)) := by
  obtain ⟨_, hnneg⟩ := reachable_acc e hreach
  obtain ⟨haf, hdf, _⟩ := add_error hfin
  have ha : (0.0 : F32) ≤ e.m_distanceSinceLastDab := by
    obtain ⟨a, ea⟩ := (isFinite_iff _).mp haf
    rw [ea] at hnneg ⊢
    rw [zero_eq, lt_fin] at hnneg
    rw [zero_lit, le_fin]; omega
  have hnn : ¬ e.m_distanceSinceLastDab + segmentLength e.m_lastInput input < 0 :=
    add_notNeg hnneg (sqrt_notNeg _)
  refine ⟨?_, ?_⟩
  · intro hlt
    obtain ⟨A0, hA0⟩ := (isFinite_iff _).mp hfin
    have h0 : (0 : ℚ) ≤ toRat (e.m_distanceSinceLastDab + segmentLength e.m_lastInput input) := by
      rw [hA0] at hnn ⊢
      rw [zero_eq, lt_fin] at hnn
      rw [toRat_fin]
      have : (0 : ℚ) ≤ (A0 : ℚ) := by exact_mod_cast (not_lt.mp hnn)
      exact div_nonneg this (le_of_lt (pow_pos (by norm_num) _))
    have hspos : (0 : ℚ) < toRat (spacingFor e.m_settings input rng) := by linarith only [hlt, h0]
    have hsfin : (spacingFor e.m_settings input rng).isFinite = true ∧
        spacingFor e.m_settings input rng > 0.0 := by
      cases hsp : spacingFor e.m_settings input rng with
      | fin b =>
        rw [hsp, toRat_fin] at hspos
        refine ⟨rfl, ?_⟩
        show (0.0 : F32) < F32.fin b
        rw [zero_lit, lt_fin]
        by_contra hb
        have hb' : (b : ℚ) ≤ 0 := by exact_mod_cast (not_lt.mp hb)
        have : (b : ℚ) / 2 ^ 149 ≤ 0 := div_nonpos_of_nonpos_of_nonneg hb' (by positivity)
        linarith only [this, hspos]
      | inf t => exfalso; rw [hsp] at hspos; simp only [toRat] at hspos; linarith only [hspos]
      | nan => exfalso; rw [hsp] at hspos; simp only [toRat] at hspos; linarith only [hspos]
    obtain ⟨fuel, r, hr, _⟩ :=
      processInput_returns e input rng hnneg hact hts hfin hsfin.1 hsfin.2 hlt
    exact ⟨fuel, r, hr⟩
  · intro fuel r hret k p q hp hq hpx hpy hqx hqy
    obtain ⟨hrun, _, hlist, _⟩ := processInput_loopSamples fuel e input rng r hact hts hret
    rw [hlist] at hp hq
    obtain ⟨sp, hsp, hpxe, hpye⟩ := emitAll_getElem_xy32 e.m_settings hsc _ _ k p hp
    obtain ⟨sq, hsq, hqxe, hqye⟩ := emitAll_getElem_xy32 e.m_settings hsc _ _ (k + 1) q hq
    obtain ⟨_, rfl⟩ := loopSample_getElem _ _ _ _ _ _ _ _ hsp
    obtain ⟨hk1, rfl⟩ := loopSample_getElem _ _ _ _ _ _ _ _ hsq
    obtain ⟨U, V, hU, hV, U0, U1, V0, V1, hgap⟩ := loop_fraction_gap k ha has hd hfin
      (fun j hj => hrun j (by omega))
    -- the coordinates of the two dabs
    have epx : p.x = e.m_lastInput.x + (input.x - e.m_lastInput.x) * F32.fin U := by
      rw [hpxe, ← hU]; rfl
    have epy : p.y = e.m_lastInput.y + (input.y - e.m_lastInput.y) * F32.fin U := by
      rw [hpye, ← hU]; rfl
    have eqx : q.x = e.m_lastInput.x + (input.x - e.m_lastInput.x) * F32.fin V := by
      rw [hqxe, ← hV]; rfl
    have eqy : q.y = e.m_lastInput.y + (input.y - e.m_lastInput.y) * F32.fin V := by
      rw [hqye, ← hV]; rfl
    rw [epx] at hpx
    rw [epy] at hpy
    rw [eqx] at hqx
    rw [eqy] at hqy
    have z : ∀ W : Int, |toRat (F32.fin W) - toRat (F32.fin W)| ≤ (0 : ℚ) := fun W => by simp
    have lpx := lerp_error U0 U1 (z U) hpx
    have lpy := lerp_error U0 U1 (z U) hpy
    have lqx := lerp_error V0 V1 (z V) hqx
    have lqy := lerp_error V0 V1 (z V) hqy
    rw [← epx] at lpx
    rw [← epy] at lpy
    rw [← eqx] at lqx
    rw [← eqy] at lqy
    obtain ⟨_, _, _, _, hL⟩ := segmentLength_sq_le e.m_lastInput input hdf
    obtain ⟨u0, u1⟩ := toRat_unit U0 U1
    obtain ⟨v0, v1⟩ := toRat_unit V0 V1
    -- the spacing is not negative and the segment length is positive
    have hδ : (0 : ℚ) < toRat (segmentLength e.m_lastInput input) := by
      obtain ⟨Dn, hDn⟩ := (isFinite_iff _).mp hdf
      rw [hDn] at hd ⊢
      rw [zero_lit, lt_fin] at hd
      rw [toRat_fin]
      have : (0 : ℚ) < (Dn : ℚ) := by exact_mod_cast hd
      exact div_pos this (pow_pos (by norm_num) _)
    have hσ : (0 : ℚ) ≤ toRat (spacingFor e.m_settings input rng) := by
      have h0 := (hrun 0 (by omega)).2
      cases hsp : spacingFor e.m_settings input rng with
      | fin b =>
        rw [hsp] at h0
        have h0' : (0.0 : F32) < F32.fin b := h0
        rw [zero_lit, lt_fin] at h0'
        rw [toRat_fin]
        have : (0 : ℚ) ≤ (b : ℚ) := by exact_mod_cast (le_of_lt h0')
        exact div_nonneg this (le_of_lt (pow_pos (by norm_num) _))
      | inf t => simp [toRat]
      | nan => simp [toRat]
    generalize toRat (spacingFor e.m_settings input rng) = σ at hgap hσ ⊢
    generalize toRat (segmentLength e.m_lastInput input) = δ at hgap hδ hL ⊢
    generalize toRat (F32.fin U) = w1 at *
    generalize toRat (F32.fin V) = w2 at *
    generalize toRat p.x = px at *
    generalize toRat p.y = py at *
    generalize toRat q.x = qx at *
    generalize toRat q.y = qy at *
    generalize toRat e.m_lastInput.x = lx at *
    generalize toRat e.m_lastInput.y = ly at *
    generalize toRat input.x = nx at *
    generalize toRat input.y = ny at *
    simp only [mul_zero, add_zero] at lpx lpy lqx lqy
    have geo := @gap_geometry (σ : ℝ) (δ : ℝ) ((nx - lx : ℚ) : ℝ) ((ny - ly : ℚ) : ℝ)
      (w1 : ℝ) (w2 : ℝ) (lx : ℝ) (ly : ℝ) (px : ℝ) (py : ℝ) (qx : ℝ) (qy : ℝ)
      (((|lx| + |nx|) / 2 ^ 21 + 1 / 2 ^ 149 : ℚ) : ℝ)
      (((|ly| + |ny|) / 2 ^ 21 + 1 / 2 ^ 149 : ℚ) : ℝ)
      (by exact_mod_cast hδ) (by exact_mod_cast hσ)
      (by
        have : ((σ / δ - (8 + 2 * (σ / δ)) / 2 ^ 24 : ℚ) : ℝ) ≤ ((w2 - w1 : ℚ) : ℝ) := by
          exact_mod_cast hgap
        push_cast at this
        exact this)
      (by
        have : ((w2 - w1 : ℚ) : ℝ) ≤ ((1 : ℚ) : ℝ) := by
          exact_mod_cast (by linarith only [u0, v1] : w2 - w1 ≤ 1)
        push_cast at this
        exact this)
      (by
        have : ((δ ^ 2 : ℚ) : ℝ) ≤
            ((((nx - lx) ^ 2 + (ny - ly) ^ 2) * (1 + 1 / 2 ^ 21) + 1 / 2 ^ 148 : ℚ) : ℝ) := by
          exact_mod_cast hL
        push_cast at this ⊢
        exact this)
      (by
        have : ((|px - (lx + (nx - lx) * w1)| : ℚ) : ℝ) ≤
            (((|lx| + |nx|) / 2 ^ 21 + 1 / 2 ^ 149 : ℚ) : ℝ) := by exact_mod_cast lpx
        push_cast at this ⊢
        exact this)
      (by
        have : ((|qx - (lx + (nx - lx) * w2)| : ℚ) : ℝ) ≤
            (((|lx| + |nx|) / 2 ^ 21 + 1 / 2 ^ 149 : ℚ) : ℝ) := by exact_mod_cast lqx
        push_cast at this ⊢
        exact this)
      (by
        have : ((|py - (ly + (ny - ly) * w1)| : ℚ) : ℝ) ≤
            (((|ly| + |ny|) / 2 ^ 21 + 1 / 2 ^ 149 : ℚ) : ℝ) := by exact_mod_cast lpy
        push_cast at this ⊢
        exact this)
      (by
        have : ((|qy - (ly + (ny - ly) * w2)| : ℚ) : ℝ) ≤
            (((|ly| + |ny|) / 2 ^ 21 + 1 / 2 ^ 149 : ℚ) : ℝ) := by exact_mod_cast lqy
        push_cast at this ⊢
        exact this)
    refine le_trans ?_ (le_of_le_of_eq geo ?_)
    · push_cast
      have hc : (1 : ℝ) / 2 ^ 74 + 4 / 2 ^ 149 ≤ 1 / 2 ^ 73 := by norm_num
      linarith only [hc]
    · push_cast
      rfl

/-- C8 at a concrete input: base size 10, spacing fraction `0.1f`, the segment from
`(0, 0)` to `(3, 0)`; the first two dabs lie at `x = 0.99999994` and `x = 1.99999988`. -/
theorem consecutive_dabs_spaced_witness :
    ∃ (r : List (BrushDab F32) × BrushEngine F32 × RandomSource F32) (p q : BrushDab F32),
      processInput 3 unitStroke unitSample zeroDraws = some r ∧
      r.1[0]? = some p ∧ r.1[0 + 1]? = some q ∧
      p.x = F32.fin (16777215 * 2 ^ 125) ∧ q.x = F32.fin (16777215 * 2 ^ 126) ∧
      ((toRat (spacingFor unitStroke.m_settings unitSample zeroDraws) : ℚ) : ℝ) -
          ((((toRat (spacingFor unitStroke.m_settings unitSample zeroDraws) +
              toRat (segmentLength unitStroke.m_lastInput unitSample) +
              |toRat unitStroke.m_lastInput.x| + |toRat unitSample.x| +
              |toRat unitStroke.m_lastInput.y| + |toRat unitSample.y|) / 2 ^ 20 +
                1 / 2 ^ 73 : ℚ) : ℝ)) ≤
        Real.sqrt ((((toRat q.x - toRat p.x : ℚ) : ℝ)) ^ 2 +
          (((toRat q.y - toRat p.y : ℚ) : ℝ)) ^ 2) := by
  have h := processInput_units 3 unitStroke unitSample zeroDraws 1 3 rfl (by decide)
    (by decide) (by decide) (by decide!) (by decide!) (by norm_num) (by norm_num)
    (by norm_num)
  have hp : ((List.range (3 / 1)).map
      (fun k => unitsDab unitStroke unitSample (3 - (k + 1) * 1)))[0]? =
      some (unitsDab unitStroke unitSample 2) := by
    simp
  have hq : ((List.range (3 / 1)).map
      (fun k => unitsDab unitStroke unitSample (3 - (k + 1) * 1)))[0 + 1]? =
      some (unitsDab unitStroke unitSample 1) := by
    simp
  exact ⟨_, _, _, h, hp, hq, by decide!, by decide!,
    (consecutive_dabs_spaced unitStroke unitSample zeroDraws
      (reachable_strokeAfterFirst _ _) rfl (by decide) (by decide) (by decide!) (by decide!)
      (by decide!)).2 3 _ h 0 _ _ hp hq (by decide!) (by decide!) (by decide!)
      (by decide!)⟩

theorem applyMappings_nil (settings : BrushSettings F32) (hmap : settings.mappings = [])
    (input : InputPoint F32) (dab : BrushDab F32) (rng : RandomSource F32) :
    applyMappings settings input dab rng = (clampDab dab, rng) := by
  unfold applyMappings
  rw [hmap]
  rfl

theorem clampDab_size32 (dab : BrushDab F32) : (clampDab dab).size = F32.fmax 0.1 dab.size := by
  simp only [clampDab]

theorem generateDab_size32 (settings : BrushSettings F32) (input : InputPoint F32) :
    (generateDab settings input).size = settings.baseSize := by
  delta generateDab
  exact Eq.refl _

/-- Without mappings the spacing is the clamped base size times the spacing fraction. -/
theorem spacingFor_nil (settings : BrushSettings F32) (hmap : settings.mappings = [])
    (input : InputPoint F32) (rng : RandomSource F32) :
    spacingFor settings input rng = F32.fmax 0.1 settings.baseSize * settings.baseSpacing := by
  unfold spacingFor calculateSpacing
  rw [applyMappings_nil settings hmap]
  simp only
  rw [clampDab_size32, generateDab_size32]

/-- A returning call returns the same result with more fuel. -/
theorem processInput_mono (fuel fuel' : Nat) (hle : fuel ≤ fuel') (e : BrushEngine F32)
    (input : InputPoint F32) (rng : RandomSource F32)
    (r : List (BrushDab F32) × BrushEngine F32 × RandomSource F32)
    (h : processInput fuel e input rng = some r) :
    processInput fuel' e input rng = some r := by
  by_cases hact : e.m_strokeActive = true
  · by_cases hts : e.m_lastInput.timestamp = 0
    · rw [processInput_first32 fuel e input rng hact hts] at h
      rw [processInput_first32 fuel' e input rng hact hts]
      exact h
    · rw [processInput_next32 fuel e input rng hact hts] at h
      rw [processInput_next32 fuel' e input rng hact hts]
      rcases hl : emitLoop e.m_settings e.m_lastInput input (input.x - e.m_lastInput.x)
        (input.y - e.m_lastInput.y) (segmentLength e.m_lastInput input)
        (spacingFor e.m_settings input rng) fuel
        (e.m_distanceSinceLastDab + segmentLength e.m_lastInput input) []
        (applyMappings e.m_settings input (generateDab e.m_settings input) rng).2 with _ | out
      · rw [hl] at h; simp at h
      · rw [hl] at h
        obtain ⟨n, hn, hrun, hstop, hout⟩ := emitLoop_some _ _ _ _ _ _ _ _ _ _ _ _ hl
        rw [emitLoop_run _ _ _ _ _ _ _ n fuel' _ [] _ (le_trans hn hle) hrun hstop, ← hout]
        exact h
  · have hact' : e.m_strokeActive = false := by simpa using hact
    rw [processInput_idle32 fuel e input rng hact'] at h
    rw [processInput_idle32 fuel' e input rng hact']
    exact h

theorem runStroke_mono (fuel fuel' : Nat) (hle : fuel ≤ fuel') :
    ∀ (ps : List (InputPoint F32)) (e : BrushEngine F32) (rng : RandomSource F32)
      (out : List (List (BrushDab F32)) × BrushEngine F32 × RandomSource F32),
      runStroke fuel e ps rng = some out → runStroke fuel' e ps rng = some out
  | [], e, rng, out, h => h
  | p :: ps, e, rng, out, h => by
    unfold runStroke at h ⊢
    rcases h1 : processInput fuel e p rng with _ | r
    · rw [h1] at h; simp at h
    · rw [h1] at h
      rw [processInput_mono fuel fuel' hle e p rng r h1]
      simp only at h ⊢
      rcases h2 : runStroke fuel r.2.1 ps r.2.2 with _ | rest
      · rw [h2] at h; simp at h
      · rw [h2] at h
        rw [runStroke_mono fuel fuel' hle ps r.2.1 r.2.2 rest h2]
        exact h

theorem toRat_nonneg_of_nat (n : Nat) : (0 : ℚ) ≤ toRat (F32.fin (n : Int)) := by
  rw [toRat_fin]
  exact div_nonneg (by exact_mod_cast Nat.zero_le n) (le_of_lt (pow_pos (by norm_num) _))

/-- A sum of non-negative numbers is finite when a sum with a larger first term is. -/
theorem add_finite_of_le {A B Dn : Nat} (hAB : A ≤ B)
    (h : (F32.fin (B : Int) + F32.fin (Dn : Int)).isFinite = true) :
    (F32.fin (A : Int) + F32.fin (Dn : Int)).isFinite = true := by
  obtain ⟨X, hX⟩ := (isFinite_iff _).mp h
  have h1 : F32.fin (A : Int) + F32.fin (Dn : Int) ≤ F32.fin (B : Int) + F32.fin (Dn : Int) :=
    fin_add_le_fin_add (by exact_mod_cast hAB) _
  rw [hX] at h1
  have h2 : ¬ F32.fin (A : Int) + F32.fin (Dn : Int) < 0 :=
    add_notNeg (by rw [zero_eq, lt_fin]; omega) (by rw [zero_eq, lt_fin]; omega)
  rcases le_fin_cases h1 with e | ⟨j, e, _⟩
  · rw [e] at h2; exact absurd (by decide! : F32.inf true < 0) h2
  · rw [e]; rfl

/-- One returning subsequent-sample call with a carried accumulator `0 ≤ a < s`: the new
state, the remainder in `[0, s)` and the distance balance `a + d = n * s + a'` up to
rounding. -/
theorem call_conservation (fuel : Nat) (e : BrushEngine F32) (input : InputPoint F32)
    (rng : RandomSource F32) (r : List (BrushDab F32) × BrushEngine F32 × RandomSource F32)
    (hact : e.m_strokeActive = true) (hts : e.m_lastInput.timestamp ≠ 0)
    (ha : (0.0 : F32) ≤ e.m_distanceSinceLastDab)
    (has : e.m_distanceSinceLastDab < spacingFor e.m_settings input rng)
    (hsd : (spacingFor e.m_settings input rng + segmentLength e.m_lastInput input).isFinite =
      true)
    (hret : processInput fuel e input rng = some r) :
    r.2.1.m_settings = e.m_settings ∧ r.2.1.m_strokeActive = true ∧ r.2.1.m_lastInput = input ∧
    (0.0 : F32) ≤ r.2.1.m_distanceSinceLastDab ∧
    r.2.1.m_distanceSinceLastDab < spacingFor e.m_settings input rng ∧
    (e.m_distanceSinceLastDab + segmentLength e.m_lastInput input).isFinite = true ∧
    0 ≤ toRat (segmentLength e.m_lastInput input) ∧
    IsBinary32 r.2.1.m_distanceSinceLastDab ∧
    |toRat e.m_distanceSinceLastDab + toRat (segmentLength e.m_lastInput input) -
        (r.1.length : ℚ) * toRat (spacingFor e.m_settings input rng) -
        toRat r.2.1.m_distanceSinceLastDab| ≤
      ((r.1.length : ℚ) + 1) * (toRat (spacingFor e.m_settings input rng) +
        toRat (segmentLength e.m_lastInput input)) / 2 ^ 23 := by
  obtain ⟨hrun, hstop, _, hstate⟩ := processInput_loopSamples fuel e input rng r hact hts hret
  obtain ⟨hsf, hdf, _⟩ := add_error hsd
  have hs0 : (0.0 : F32) < spacingFor e.m_settings input rng := lt_of_le_of_lt32 ha has
  have hdnn : ¬ segmentLength e.m_lastInput input < 0 := sqrt_notNeg _
  rw [hstate]
  generalize spacingFor e.m_settings input rng = s at *
  generalize e.m_distanceSinceLastDab = a at *
  generalize segmentLength e.m_lastInput input = d at *
  generalize r.1.length = n at *
  obtain ⟨B, rfl⟩ := nonneg_cases (le_of_lt32 hs0) hsf
  have haf : a.isFinite = true := by
    rcases le_fin_cases (le_of_lt32 has) with h | ⟨j, h, _⟩
    · rw [h] at ha; exact absurd ha (by decide!)
    · rw [h]; rfl
  obtain ⟨Aa, rfl⟩ := nonneg_cases ha haf
  obtain ⟨Dn, rfl⟩ : ∃ Dn : Nat, d = F32.fin (Dn : Int) := by
    obtain ⟨j, hj⟩ := (isFinite_iff _).mp hdf
    rw [hj, zero_eq, lt_fin] at hdnn
    obtain ⟨m, hm⟩ := Int.eq_ofNat_of_zero_le (not_lt.mp hdnn)
    exact ⟨m, by rw [hj, hm]⟩
  have hAB : Aa < B := by
    rw [lt_fin] at has; exact_mod_cast has
  have hB0 : 0 < B := by
    rw [zero_lit, lt_fin] at hs0; exact_mod_cast hs0
  have hfin : (F32.fin (Aa : Int) + F32.fin (Dn : Int)).isFinite = true :=
    add_finite_of_le (le_of_lt hAB) hsd
  have hsum : F32.fin (Aa : Int) + F32.fin (Dn : Int) =
      F32.fin ((F32.roundNat (Aa + Dn) 1 : Nat) : Int) := by
    rw [add_fin]
    have e1 : (Aa : Int) + (Dn : Int) = ((Aa + Dn : Nat) : Int) := by push_cast; ring
    rw [e1]
    by_cases ho : 33554431 * 2 ^ 252 * 1 ≤ Aa + Dn
    · exfalso
      rw [add_fin, e1, round_inf_of_le (by simpa using ho)] at hfin
      exact absurd hfin (by simp [F32.isFinite])
    · exact round_ofNat ho
  have hrel := F32.roundNat_rel (Aa + Dn)
  generalize hA0 : F32.roundNat (Aa + Dn) 1 = A0 at hsum hrel
  rw [hsum] at hrun hstop ⊢
  have hb32 : IsBinary32 (F32.fin (A0 : Int)) := by rw [← hsum]; exact add_isBinary32 _ _
  obtain ⟨C, hC, _, hCb, p1, p2⟩ := subIter_prefix B n A0 hb32 hrun
  rw [hC] at hstop ⊢
  have hCB : C < B := by
    by_contra hcb
    apply hstop
    refine ⟨?_, hs0⟩
    show F32.fin (B : Int) ≤ F32.fin (C : Int)
    rw [le_fin]; exact_mod_cast (not_lt.mp hcb)
  refine ⟨rfl, hact, rfl, ?_, ?_, rfl, toRat_nonneg_of_nat Dn, hCb, ?_⟩
  · show (0.0 : F32) ≤ F32.fin (C : Int)
    rw [zero_lit, le_fin]; omega
  · show F32.fin (C : Int) < F32.fin (B : Int)
    rw [lt_fin]; exact_mod_cast hCB
  · show |toRat (F32.fin (Aa : Int)) + toRat (F32.fin (Dn : Int)) -
        (n : ℚ) * toRat (F32.fin (B : Int)) - toRat (F32.fin (C : Int))| ≤ _
    rw [toRat_fin, toRat_fin, toRat_fin, toRat_fin]
    have q1 : (2 : ℚ) ^ 24 * ((C : ℚ) + (n : ℚ) * (B : ℚ)) ≤
        2 ^ 24 * (A0 : ℚ) + (n : ℚ) * (A0 : ℚ) := by exact_mod_cast p1
    have q2 : (2 : ℚ) ^ 24 * (A0 : ℚ) ≤
        2 ^ 24 * ((C : ℚ) + (n : ℚ) * (B : ℚ)) + (n : ℚ) * (A0 : ℚ) := by exact_mod_cast p2
    have r1 : (2 : ℚ) ^ 24 * (A0 : ℚ) ≤ 2 ^ 24 * ((Aa : ℚ) + (Dn : ℚ)) + ((Aa : ℚ) + (Dn : ℚ)) := by
      exact_mod_cast hrel.1
    have r2 : (2 : ℚ) ^ 24 * ((Aa : ℚ) + (Dn : ℚ)) ≤ 2 ^ 24 * (A0 : ℚ) + ((Aa : ℚ) + (Dn : ℚ)) := by
      exact_mod_cast hrel.2
    have hABq : (Aa : ℚ) ≤ (B : ℚ) := by exact_mod_cast (le_of_lt hAB)
    have hn0 : (0 : ℚ) ≤ (n : ℚ) := Nat.cast_nonneg _
    have hAa0 : (0 : ℚ) ≤ (Aa : ℚ) := Nat.cast_nonneg _
    have hDn0 : (0 : ℚ) ≤ (Dn : ℚ) := Nat.cast_nonneg _
    have hA00 : (0 : ℚ) ≤ (A0 : ℚ) := Nat.cast_nonneg _
    have hp : (0 : ℚ) < 2 ^ 149 := by positivity
    have e1 : ((Aa : Int) : ℚ) / 2 ^ 149 + ((Dn : Int) : ℚ) / 2 ^ 149 -
        (n : ℚ) * (((B : Int) : ℚ) / 2 ^ 149) - ((C : Int) : ℚ) / 2 ^ 149 =
        ((Aa : ℚ) + (Dn : ℚ) - (n : ℚ) * (B : ℚ) - (C : ℚ)) / 2 ^ 149 := by
      push_cast; ring
    have e2 : ((n : ℚ) + 1) * (((B : Int) : ℚ) / 2 ^ 149 + ((Dn : Int) : ℚ) / 2 ^ 149) / 2 ^ 23 =
        (((n : ℚ) + 1) * ((B : ℚ) + (Dn : ℚ)) / 2 ^ 23) / 2 ^ 149 := by
      push_cast; ring
    rw [e1, e2, abs_div, abs_of_pos hp, div_le_div_iff_of_pos_right hp]
    -- products treated as atoms
    have hnA : (n : ℚ) * (A0 : ℚ) ≤ (n : ℚ) * (((Aa : ℚ) + (Dn : ℚ)) * (1 + 1 / 2 ^ 24)) := by
      apply mul_le_mul_of_nonneg_left _ hn0
      have h24 : (0 : ℚ) < 2 ^ 24 := by positivity
      have e3 : ((Aa : ℚ) + (Dn : ℚ)) * (1 + 1 / 2 ^ 24) =
          (2 ^ 24 * ((Aa : ℚ) + (Dn : ℚ)) + ((Aa : ℚ) + (Dn : ℚ))) / 2 ^ 24 := by
        field_simp; ring
      rw [e3, le_div_iff₀ h24]; linarith only [r1]
    have hnAB : (n : ℚ) * ((Aa : ℚ) + (Dn : ℚ)) ≤ (n : ℚ) * ((B : ℚ) + (Dn : ℚ)) :=
      mul_le_mul_of_nonneg_left (by linarith only [hABq]) hn0
    have hnBD : 0 ≤ (n : ℚ) * ((B : ℚ) + (Dn : ℚ)) :=
      mul_nonneg hn0 (by linarith only [hABq, hAa0, hDn0])
    have h24 : (0 : ℚ) < 2 ^ 24 := by positivity
    have h23 : (0 : ℚ) < 2 ^ 23 := by positivity
    rw [abs_le]
    constructor
    · rw [neg_le, le_div_iff₀ h23]
      linarith only [q1, q2, r1, r2, hnA, hnAB, hnBD, hABq, hAa0, hDn0, hn0]
    · rw [le_div_iff₀ h23]
      linarith only [q1, q2, r1, r2, hnA, hnAB, hnBD, hABq, hAa0, hDn0, hn0]

theorem fmax_of_le {a b : F32} (h : a ≤ b) : F32.fmax a b = b := by
  unfold F32.fmax
  by_cases hlt : a < b
  · rw [if_pos hlt]
  · rw [if_neg hlt]
    rw [le_def] at h
    rw [lt_def] at hlt
    rcases a with x | (_ | _) | _ <;> rcases b with y | (_ | _) | _ <;>
      simp_all [F32.le, F32.lt]
    omega

/-- Without mappings and with a base size of at least 0.1, the spacing of every call is
`baseSize * baseSpacing`. -/
theorem spacingFor_plain (settings : BrushSettings F32) (hmap : settings.mappings = [])
    (hsize : (0.1 : F32) ≤ settings.baseSize) (input : InputPoint F32)
    (rng : RandomSource F32) :
    spacingFor settings input rng = settings.baseSize * settings.baseSpacing := by
  rw [spacingFor_nil settings hmap, fmax_of_le hsize]

theorem pathLength_cons (p q : InputPoint F32) (qs : List (InputPoint F32)) :
    pathLength p (q :: qs) = toRat (segmentLength p q) + pathLength q qs := by
  simp [pathLength, segmentLengths]

theorem dabCount_cons (l : List (BrushDab F32)) (ls : List (List (BrushDab F32))) :
    dabCount (l :: ls) = l.length + dabCount ls := by
  simp [dabCount]

/-- Distance balance of a stroke without mappings: over any number of returning calls the
carried accumulator plus the path length is the number of dabs times the spacing plus the
remainder, up to rounding. -/
theorem stroke_conservation (fuel : Nat) (M : ℚ) :
    ∀ (ps : List (InputPoint F32)) (e : BrushEngine F32) (rng : RandomSource F32)
      (out : List (List (BrushDab F32)) × BrushEngine F32 × RandomSource F32),
      e.m_settings.mappings = [] → (0.1 : F32) ≤ e.m_settings.baseSize →
      e.m_strokeActive = true → e.m_lastInput.timestamp ≠ 0 →
      (∀ p ∈ ps, p.timestamp ≠ 0) →
      (0.0 : F32) ≤ e.m_distanceSinceLastDab →
      e.m_distanceSinceLastDab < e.m_settings.baseSize * e.m_settings.baseSpacing →
      IsBinary32 e.m_distanceSinceLastDab →
      (∀ d ∈ segmentLengths e.m_lastInput ps,
        (e.m_settings.baseSize * e.m_settings.baseSpacing + d).isFinite = true ∧ toRat d ≤ M) →
      runStroke fuel e ps rng = some out →
      out.2.1.m_settings = e.m_settings ∧ out.2.1.m_strokeActive = true ∧
      out.2.1.m_lastInput.timestamp ≠ 0 ∧ IsBinary32 out.2.1.m_distanceSinceLastDab ∧
      (0.0 : F32) ≤ out.2.1.m_distanceSinceLastDab ∧
      out.2.1.m_distanceSinceLastDab < e.m_settings.baseSize * e.m_settings.baseSpacing ∧
      0 ≤ pathLength e.m_lastInput ps ∧
      |toRat e.m_distanceSinceLastDab + pathLength e.m_lastInput ps -
          (dabCount out.1 : ℚ) * toRat (e.m_settings.baseSize * e.m_settings.baseSpacing) -
          toRat out.2.1.m_distanceSinceLastDab| ≤
        ((dabCount out.1 : ℚ) + (ps.length : ℚ)) *
          (toRat (e.m_settings.baseSize * e.m_settings.baseSpacing) + M) / 2 ^ 23
  | [], e, rng, out, _, _, hact, hts, _, ha, has, hab, _, hret => by
    simp only [runStroke, Option.some.injEq] at hret
    rw [← hret]
    refine ⟨rfl, hact, hts, hab, ha, has, by simp [pathLength, segmentLengths], ?_⟩
    simp [pathLength, segmentLengths, dabCount]
  | p :: ps, e, rng, out, hmap, hsize, hact, hts, htsps, ha, has, _, hseg, hret => by
    unfold runStroke at hret
    rcases h1 : processInput fuel e p rng with _ | r
    · rw [h1] at hret; simp at hret
    · rw [h1] at hret
      simp only at hret
      rcases h2 : runStroke fuel r.2.1 ps r.2.2 with _ | rest
      · rw [h2] at hret; simp at hret
      · rw [h2] at hret
        simp only [Option.some.injEq] at hret
        have hsp := spacingFor_plain e.m_settings hmap hsize p rng
        have hd1 := hseg (segmentLength e.m_lastInput p) (by simp [segmentLengths])
        obtain ⟨c1, c2, c3, c4, c5, _, c7, c9, c8⟩ := call_conservation fuel e p rng r hact hts ha
          (by rw [hsp]; exact has) (by rw [hsp]; exact hd1.1) h1
        rw [hsp] at c5 c8
        have hseg' : ∀ d ∈ segmentLengths r.2.1.m_lastInput ps,
            (r.2.1.m_settings.baseSize * r.2.1.m_settings.baseSpacing + d).isFinite = true ∧
              toRat d ≤ M := by
          intro d hd
          rw [c1]
          rw [c3] at hd
          exact hseg d (by simp [segmentLengths, hd])
        obtain ⟨i1, i2, i3, i8, i4, i5, i6, i7⟩ := stroke_conservation fuel M ps r.2.1 r.2.2 rest
          (by rw [c1]; exact hmap) (by rw [c1]; exact hsize) c2
          (by rw [c3]; exact htsps p (List.mem_cons_self _ _))
          (fun q hq => htsps q (List.mem_cons_of_mem _ hq)) c4 (by rw [c1]; exact c5) c9
          hseg' h2
        rw [c1] at i5 i7
        rw [c3] at i6 i7
        rw [← hret]
        refine ⟨i1.trans c1, i2, i3, i8, i4, i5, ?_, ?_⟩
        · rw [pathLength_cons]; linarith only [c7, i6]
        · show |_ + _ - (dabCount (r.1 :: rest.1) : ℚ) * _ - toRat rest.2.1.m_distanceSinceLastDab| ≤
            ((dabCount (r.1 :: rest.1) : ℚ) + ((p :: ps).length : ℚ)) * _ / 2 ^ 23
          rw [pathLength_cons, dabCount_cons, List.length_cons]
          push_cast
          have hσ0 : 0 ≤ toRat (e.m_settings.baseSize * e.m_settings.baseSpacing) := by
            have h0 : (0.0 : F32) < e.m_settings.baseSize * e.m_settings.baseSpacing :=
              lt_of_le_of_lt32 ha has
            cases hx : e.m_settings.baseSize * e.m_settings.baseSpacing with
            | fin b =>
              rw [hx, zero_lit, lt_fin] at h0
              rw [toRat_fin]
              exact div_nonneg (by exact_mod_cast (le_of_lt h0))
                (le_of_lt (pow_pos (by norm_num) _))
            | inf t => simp [toRat]
            | nan => simp [toRat]
          have hn1 : (0 : ℚ) ≤ (r.1.length : ℚ) := Nat.cast_nonneg _
          generalize toRat (e.m_settings.baseSize * e.m_settings.baseSpacing) = σ at *
          generalize toRat e.m_distanceSinceLastDab = a at *
          generalize toRat (segmentLength e.m_lastInput p) = δ at *
          generalize toRat r.2.1.m_distanceSinceLastDab = a1 at *
          generalize toRat rest.2.1.m_distanceSinceLastDab = a2 at *
          generalize pathLength p ps = D at *
          generalize (r.1.length : ℚ) = n1 at *
          generalize (dabCount rest.1 : ℚ) = N at *
          generalize (ps.length : ℚ) = m at *
          have hδM : δ ≤ M := hd1.2
          have hprod : (n1 + 1) * (σ + δ) ≤ (n1 + 1) * (σ + M) :=
            mul_le_mul_of_nonneg_left (by linarith only [hδM]) (by linarith only [hn1])
          have h23 : (0 : ℚ) < 2 ^ 23 := by positivity
          obtain ⟨x1, x2⟩ := abs_le.mp c8
          obtain ⟨y1, y2⟩ := abs_le.mp i7
          rw [le_div_iff₀ h23] at x2 y2
          rw [neg_le, le_div_iff₀ h23] at x1 y1
          rw [abs_le]
          constructor
          · rw [neg_le, le_div_iff₀ h23]
            linarith only [x1, y1, hprod]
          · rw [le_div_iff₀ h23]
            linarith only [x2, y2, hprod]

theorem toRat_sqrt_nonneg (x : F32) : 0 ≤ toRat (F32.sqrt x) := by
  have h := sqrt_notNeg x
  rw [notNeg_iff] at h
  rcases h with h | h | ⟨k, h⟩
  · rw [h]; simp [toRat]
  · rw [h]; simp [toRat]
  · rw [h]; exact toRat_nonneg_of_nat k

theorem segmentLengths_nonneg : ∀ (ps : List (InputPoint F32)) (p : InputPoint F32),
    ∀ d ∈ segmentLengths p ps, 0 ≤ toRat d
  | [], _, d, h => by simp [segmentLengths] at h
  | q :: qs, p, d, h => by
    simp only [segmentLengths, List.mem_cons] at h
    rcases h with h | h
    · rw [h]; exact toRat_sqrt_nonneg _
    · exact segmentLengths_nonneg qs q d h

theorem pathLength_nonneg : ∀ (ps : List (InputPoint F32)) (p : InputPoint F32),
    0 ≤ pathLength p ps
  | [], _ => by simp [pathLength, segmentLengths]
  | q :: qs, p => by
    rw [pathLength_cons]
    have h1 := toRat_sqrt_nonneg ((q.x - p.x) * (q.x - p.x) + (q.y - p.y) * (q.y - p.y))
    have h2 := pathLength_nonneg qs q
    have e : toRat (segmentLength p q) =
        toRat (F32.sqrt ((q.x - p.x) * (q.x - p.x) + (q.y - p.y) * (q.y - p.y))) := rfl
    rw [e]
    linarith only [h1, h2]

/-- Every segment is at most as long as the whole path. -/
theorem segment_le_pathLength : ∀ (ps : List (InputPoint F32)) (p : InputPoint F32),
    ∀ d ∈ segmentLengths p ps, toRat d ≤ pathLength p ps
  | [], _, d, h => by simp [segmentLengths] at h
  | q :: qs, p, d, h => by
    simp only [segmentLengths, List.mem_cons] at h
    rw [pathLength_cons]
    rcases h with h | h
    · rw [h]
      have := pathLength_nonneg qs q
      linarith only [this]
    · have h1 := segment_le_pathLength qs q d h
      have h2 : 0 ≤ toRat (segmentLength p q) := toRat_sqrt_nonneg _
      linarith only [h1, h2]

theorem segmentLengths_append : ∀ (pre : List (InputPoint F32)) (p0 p : InputPoint F32)
    (post : List (InputPoint F32)),
    segmentLengths p0 (pre ++ p :: post) =
      segmentLengths p0 pre ++ segmentLength (pre.getLastD p0) p :: segmentLengths p post
  | [], p0, p, post => by simp [segmentLengths]
  | q :: qs, p0, p, post => by
    have ih := segmentLengths_append qs q p post
    rw [List.cons_append, List.getLastD_cons]
    show segmentLength p0 q :: segmentLengths q (qs ++ p :: post) =
      (segmentLength p0 q :: segmentLengths q qs) ++ _
    rw [ih, List.cons_append]

theorem pathLength_append (pre : List (InputPoint F32)) (p0 p : InputPoint F32)
    (post : List (InputPoint F32)) :
    pathLength p0 (pre ++ p :: post) =
      pathLength p0 pre + toRat (segmentLength (pre.getLastD p0) p) + pathLength p post := by
  unfold pathLength
  rw [segmentLengths_append]
  simp [add_assoc]

/-- After a returning run the recorded sample is the last sample of the run. -/
theorem runStroke_lastInput (fuel : Nat) :
    ∀ (ps : List (InputPoint F32)) (e : BrushEngine F32) (rng : RandomSource F32)
      (out : List (List (BrushDab F32)) × BrushEngine F32 × RandomSource F32),
      e.m_strokeActive = true → e.m_lastInput.timestamp ≠ 0 → (∀ p ∈ ps, p.timestamp ≠ 0) →
      runStroke fuel e ps rng = some out →
      out.2.1.m_lastInput = ps.getLastD e.m_lastInput ∧ out.1.length = ps.length
  | [], e, rng, out, _, _, _, hret => by
    simp only [runStroke, Option.some.injEq] at hret
    rw [← hret]; exact ⟨rfl, rfl⟩
  | p :: ps, e, rng, out, hact, hts, htsps, hret => by
    unfold runStroke at hret
    rcases h1 : processInput fuel e p rng with _ | r
    · rw [h1] at hret; simp at hret
    · rw [h1] at hret
      simp only at hret
      rcases h2 : runStroke fuel r.2.1 ps r.2.2 with _ | rest
      · rw [h2] at hret; simp at hret
      · rw [h2] at hret
        simp only [Option.some.injEq] at hret
        obtain ⟨_, _, _, hstate⟩ := processInput_loopSamples fuel e p rng r hact hts h1
        have c2 : r.2.1.m_strokeActive = true := by rw [hstate]; exact hact
        have c3 : r.2.1.m_lastInput = p := by rw [hstate]
        obtain ⟨i1, i2⟩ := runStroke_lastInput fuel ps r.2.1 r.2.2 rest c2
          (by rw [c3]; exact htsps p (List.mem_cons_self _ _))
          (fun q hq => htsps q (List.mem_cons_of_mem _ hq)) h2
        rw [← hret]
        refine ⟨?_, by simp [i2]⟩
        show rest.2.1.m_lastInput = _
        rw [i1, c3, List.getLastD_cons]

/-- The accumulator a call enters the loop with, for a carried accumulator `0 ≤ a < s`. -/
theorem acc_add_bound {a s d : F32} (ha : (0.0 : F32) ≤ a) (has : a < s) (hd : ¬ d < 0)
    (hsd : (s + d).isFinite = true) :
    ¬ a < 0 ∧ s.isFinite = true ∧ (a + d).isFinite = true ∧
    toRat (a + d) ≤ (toRat s + toRat d) * (1 + 1 / 2 ^ 24) := by
  obtain ⟨hsf, hdf, _⟩ := add_error hsd
  have hs0 : (0.0 : F32) < s := lt_of_le_of_lt32 ha has
  obtain ⟨B, rfl⟩ := nonneg_cases (le_of_lt32 hs0) hsf
  have haf : a.isFinite = true := by
    rcases le_fin_cases (le_of_lt32 has) with h | ⟨j, h, _⟩
    · rw [h] at ha; exact absurd ha (by decide!)
    · rw [h]; rfl
  obtain ⟨Aa, rfl⟩ := nonneg_cases ha haf
  obtain ⟨Dn, rfl⟩ : ∃ Dn : Nat, d = F32.fin (Dn : Int) := by
    obtain ⟨j, hj⟩ := (isFinite_iff _).mp hdf
    rw [hj, zero_eq, lt_fin] at hd
    obtain ⟨m, hm⟩ := Int.eq_ofNat_of_zero_le (not_lt.mp hd)
    exact ⟨m, by rw [hj, hm]⟩
  have hAB : Aa < B := by
    rw [lt_fin] at has; exact_mod_cast has
  have hfin : (F32.fin (Aa : Int) + F32.fin (Dn : Int)).isFinite = true :=
    add_finite_of_le (le_of_lt hAB) hsd
  refine ⟨by rw [zero_eq, lt_fin]; omega, rfl, hfin, ?_⟩
  obtain ⟨_, _, herr⟩ := add_error hfin
  have h1 := (abs_le.mp herr).2
  have hA0 := toRat_nonneg_of_nat Aa
  have hD0 := toRat_nonneg_of_nat Dn
  have hABq : toRat (F32.fin (Aa : Int)) ≤ toRat (F32.fin (B : Int)) := by
    rw [toRat_fin, toRat_fin]
    exact (div_le_div_iff_of_pos_right (pow_pos (by norm_num) _)).mpr
      (by exact_mod_cast (le_of_lt hAB))
  rw [abs_of_nonneg (by linarith only [hA0, hD0])] at h1
  generalize toRat (F32.fin (Aa : Int) + F32.fin (Dn : Int)) = X at h1 ⊢
  generalize toRat (F32.fin (Aa : Int)) = a at *
  generalize toRat (F32.fin (B : Int)) = s at *
  generalize toRat (F32.fin (Dn : Int)) = d at *
  have h2 : (a + d) * (1 + 1 / 2 ^ 24) ≤ (s + d) * (1 + 1 / 2 ^ 24) :=
    mul_le_mul_of_nonneg_right (by linarith only [hABq]) (by norm_num)
  linarith only [h1, h2]

/-- A stroke without mappings returns when every segment is finite and shorter than
`8388000` spacings. -/
theorem stroke_returns :
    ∀ (ps : List (InputPoint F32)) (e : BrushEngine F32) (rng : RandomSource F32),
      e.m_settings.mappings = [] → (0.1 : F32) ≤ e.m_settings.baseSize →
      e.m_strokeActive = true → e.m_lastInput.timestamp ≠ 0 →
      (∀ p ∈ ps, p.timestamp ≠ 0) →
      (0.0 : F32) ≤ e.m_distanceSinceLastDab →
      e.m_distanceSinceLastDab < e.m_settings.baseSize * e.m_settings.baseSpacing →
      (∀ d ∈ segmentLengths e.m_lastInput ps,
        (e.m_settings.baseSize * e.m_settings.baseSpacing + d).isFinite = true ∧
          toRat d ≤ 8388000 * toRat (e.m_settings.baseSize * e.m_settings.baseSpacing)) →
      ∃ (fuel : Nat) (out : List (List (BrushDab F32)) × BrushEngine F32 × RandomSource F32),
        runStroke fuel e ps rng = some out
  | [], e, rng, _, _, _, _, _, _, _, _ => ⟨0, _, rfl⟩
  | p :: ps, e, rng, hmap, hsize, hact, hts, htsps, ha, has, hseg => by
    have hsp := spacingFor_plain e.m_settings hmap hsize p rng
    have hd1 := hseg (segmentLength e.m_lastInput p) (by simp [segmentLengths])
    obtain ⟨hnneg, hsf, hfa, hle⟩ :=
      acc_add_bound (d := segmentLength e.m_lastInput p) ha has (sqrt_notNeg _) hd1.1
    have hs0 : (0.0 : F32) < e.m_settings.baseSize * e.m_settings.baseSpacing :=
      lt_of_le_of_lt32 ha has
    have hσ : (0 : ℚ) < toRat (e.m_settings.baseSize * e.m_settings.baseSpacing) := by
      obtain ⟨b, hb⟩ := (isFinite_iff _).mp hsf
      rw [hb, zero_lit, lt_fin] at hs0
      rw [hb, toRat_fin]
      exact div_pos (by exact_mod_cast hs0) (pow_pos (by norm_num) _)
    have hlt : toRat (e.m_distanceSinceLastDab + segmentLength e.m_lastInput p) <
        8388608 * toRat (spacingFor e.m_settings p rng) := by
      rw [hsp]
      have h2 := hd1.2
      have h0 : 0 ≤ toRat (segmentLength e.m_lastInput p) := toRat_sqrt_nonneg _
      generalize toRat (e.m_distanceSinceLastDab + segmentLength e.m_lastInput p) = X at hle ⊢
      generalize toRat (e.m_settings.baseSize * e.m_settings.baseSpacing) = σ at *
      generalize toRat (segmentLength e.m_lastInput p) = δ at *
      have h3 : (σ + δ) * (1 + 1 / 2 ^ 24) ≤ (σ + 8388000 * σ) * (1 + 1 / 2 ^ 24) :=
        mul_le_mul_of_nonneg_right (by linarith only [h2]) (by norm_num)
      have h4 : (σ + 8388000 * σ) * (1 + 1 / 2 ^ 24) < 8388608 * σ := by
        have e : (σ + 8388000 * σ) * (1 + 1 / 2 ^ 24) = σ * (8388001 * (1 + 1 / 2 ^ 24)) := by
          ring
        rw [e, mul_comm (8388608 : ℚ) σ]
        exact mul_lt_mul_of_pos_left (by norm_num) hσ
      linarith only [hle, h3, h4]
    obtain ⟨fuel1, r, h1, _⟩ := processInput_returns e p rng hnneg hact hts hfa
      (by rw [hsp]; exact hsf) (by rw [hsp]; exact hs0) hlt
    obtain ⟨c1, c2, c3, c4, c5, _, _, _, _⟩ := call_conservation fuel1 e p rng r hact hts ha
      (by rw [hsp]; exact has) (by rw [hsp]; exact hd1.1) h1
    rw [hsp] at c5
    obtain ⟨fuel2, rest, h2⟩ := stroke_returns ps r.2.1 r.2.2
      (by rw [c1]; exact hmap) (by rw [c1]; exact hsize) c2
      (by rw [c3]; exact htsps p (List.mem_cons_self _ _))
      (fun q hq => htsps q (List.mem_cons_of_mem _ hq)) c4 (by rw [c1]; exact c5)
      (by
        intro d hd
        rw [c1]
        rw [c3] at hd
        exact hseg d (by simp [segmentLengths, hd]))
    refine ⟨max fuel1 fuel2, (r.1 :: rest.1, rest.2), ?_⟩
    unfold runStroke
    rw [processInput_mono fuel1 _ (le_max_left _ _) e p rng r h1]
    simp only
    rw [runStroke_mono fuel2 _ (le_max_right _ _) ps r.2.1 r.2.2 rest h2]

theorem strokeAfterFirst_fields (settings : BrushSettings F32) (p0 : InputPoint F32) :
    (strokeAfterFirst settings p0).m_settings = settings ∧
    (strokeAfterFirst settings p0).m_strokeActive = true ∧
    (strokeAfterFirst settings p0).m_lastInput = p0 ∧
    (strokeAfterFirst settings p0).m_distanceSinceLastDab = 0.0 := by
  delta strokeAfterFirst beginStroke setBrushSettings
  exact ⟨Eq.refl _, Eq.refl _, Eq.refl _, Eq.refl _⟩

theorem isBinary32_zero : IsBinary32 (F32.fin 0) := by decide!

theorem isBinary32_of_eq_zero {x : F32} (h : x = 0.0) : IsBinary32 x := by
  have h2 : x = F32.fin 0 := h.trans zero_lit
  subst h2
  exact isBinary32_zero

/-- The first call after `beginStroke` returns one dab and leaves the state
`strokeAfterFirst`. -/
theorem beginStroke_first (fuel : Nat) (e0 : BrushEngine F32) (p0 : InputPoint F32)
    (rng : RandomSource F32) :
    processInput fuel (beginStroke e0) p0 rng =
      some ([(emitDab e0.m_settings p0 rng).1], strokeAfterFirst e0.m_settings p0,
        (emitDab e0.m_settings p0 rng).2) := by
  rw [processInput_first32 fuel (beginStroke e0) p0 rng (by delta beginStroke; exact Eq.refl _)
    (by delta beginStroke; exact Eq.refl _)]
  delta strokeAfterFirst beginStroke setBrushSettings BrushEngine.new
  exact Eq.refl _

/-- Position of the dabs of one call of a stroke without mappings: the call after the
samples `pre`, towards the sample `p`. -/
theorem stroke_positions (settings : BrushSettings F32) (p0 : InputPoint F32)
    (pre : List (InputPoint F32)) (p : InputPoint F32) (rng : RandomSource F32) (M : ℚ)
    (hmap : settings.mappings = []) (hsize : (0.1 : F32) ≤ settings.baseSize)
    (hs : (0.0 : F32) < settings.baseSize * settings.baseSpacing)
    (hts0 : p0.timestamp ≠ 0) (hts : ∀ q ∈ pre, q.timestamp ≠ 0)
    (hseg : ∀ d ∈ segmentLengths p0 pre,
      (settings.baseSize * settings.baseSpacing + d).isFinite = true ∧ toRat d ≤ M)
    (hlast : (settings.baseSize * settings.baseSpacing +
      segmentLength (pre.getLastD p0) p).isFinite = true)
    (hM : toRat (segmentLength (pre.getLastD p0) p) ≤ M)
    (fuel : Nat) (outpre : List (List (BrushDab F32)) × BrushEngine F32 × RandomSource F32)
    (r : List (BrushDab F32) × BrushEngine F32 × RandomSource F32)
    (hpre : runStroke fuel (strokeAfterFirst settings p0) pre rng = some outpre)
    (hcall : processInput fuel outpre.2.1 p outpre.2.2 = some r) :
    outpre.2.1.m_lastInput = pre.getLastD p0 ∧
    ∀ (k : Nat) (dab : BrushDab F32), r.1[k]? = some dab →
      ∃ W : Int, 0 ≤ W ∧ W ≤ 2 ^ 149 ∧
        dab.x = (pre.getLastD p0).x + (p.x - (pre.getLastD p0).x) * F32.fin W ∧
        dab.y = (pre.getLastD p0).y + (p.y - (pre.getLastD p0).y) * F32.fin W ∧
        |pathLength p0 pre + toRat (segmentLength (pre.getLastD p0) p) * toRat (F32.fin W) -
            ((dabCount outpre.1 : ℚ) + (k : ℚ) + 1) *
              toRat (settings.baseSize * settings.baseSpacing)| ≤
          ((dabCount outpre.1 : ℚ) + (pre.length : ℚ) + (k : ℚ) + 4) *
            (toRat (settings.baseSize * settings.baseSpacing) + M) / 2 ^ 23 := by
  obtain ⟨f1, f2, f3, f4⟩ := strokeAfterFirst_fields settings p0
  generalize strokeAfterFirst settings p0 = E at f1 f2 f3 f4 hpre
  have z1 : (0.0 : F32) ≤ 0.0 := by decide!
  have z2 : IsBinary32 E.m_distanceSinceLastDab := isBinary32_of_eq_zero f4
  obtain ⟨i1, i2, i3, i8, i4, i5, i6, i7⟩ := stroke_conservation fuel M pre
    E rng outpre (by rw [f1]; exact hmap)
    (by rw [f1]; exact hsize) f2 (by rw [f3]; exact hts0) hts
    (by rw [f4]; exact z1) (by rw [f4, f1]; exact hs) z2
    (by rw [f3, f1]; exact hseg) hpre
  obtain ⟨l1, _⟩ := runStroke_lastInput fuel pre E rng outpre f2
    (by rw [f3]; exact hts0) hts hpre
  rw [f3] at l1 i6 i7
  rw [f1] at i1 i5 i7
  rw [f4] at i7
  refine ⟨l1, ?_⟩
  have hsp : spacingFor outpre.2.1.m_settings p outpre.2.2 =
      settings.baseSize * settings.baseSpacing := by
    rw [spacingFor_plain outpre.2.1.m_settings (by rw [i1]; exact hmap)
      (by rw [i1]; exact hsize) p outpre.2.2, i1]
  obtain ⟨_, _, _, _, _, c6, c7, _, _⟩ := call_conservation fuel outpre.2.1 p outpre.2.2 r i2 i3
    i4 (by rw [hsp]; exact i5) (by rw [hsp, l1]; exact hlast) hcall
  obtain ⟨hrun, _, hlist, _⟩ := processInput_loopSamples fuel outpre.2.1 p outpre.2.2 r i2 i3
    hcall
  have hsc : ∀ m ∈ outpre.2.1.m_settings.mappings, m.target ≠ BrushProperty.Scatter := by
    rw [i1, hmap]; intro m hm; simp at hm
  rw [hsp, l1] at hrun hlist
  rw [l1] at c6 c7
  intro k dab hdab
  have hk : k < r.1.length := by
    by_contra hk
    rw [List.getElem?_eq_none (by simpa using hk)] at hdab
    simp at hdab
  rw [hlist] at hdab
  obtain ⟨q, hq, hx, hy⟩ := emitAll_getElem_xy32 outpre.2.1.m_settings hsc _ _ k dab hdab
  obtain ⟨_, hq2⟩ := loopSample_getElem _ _ _ _ _ _ k q hq
  obtain ⟨haf, hdf, _⟩ := add_error c6
  have hd : (0.0 : F32) < segmentLength (pre.getLastD p0) p := by
    obtain ⟨Dn, hDn⟩ := (isFinite_iff _).mp hdf
    have hnn : ¬ segmentLength (pre.getLastD p0) p < 0 := sqrt_notNeg _
    have h0 := (hrun 0 (by omega)).1
    rw [hDn] at hnn h0 ⊢
    rw [zero_eq, lt_fin] at hnn
    rw [zero_lit, lt_fin]
    by_contra hle
    have e0 : Dn = 0 := by omega
    rw [e0] at h0
    have h1 : subIter (settings.baseSize * settings.baseSpacing) 0
        (outpre.2.1.m_distanceSinceLastDab + F32.fin 0) =
        outpre.2.1.m_distanceSinceLastDab := by
      rw [add_zero_of_isBinary32 i8]
      rfl
    rw [h1] at h0
    exact not_le_of_lt32 i5 h0
  obtain ⟨U, hU, U0, U1, hw⟩ := loop_fraction_error k i4 i5 hd c6
    (fun j hj => hrun j (by omega))
  have hqx : q.x = (pre.getLastD p0).x + (p.x - (pre.getLastD p0).x) * F32.fin U := by
    rw [hq2, ← hU]; rfl
  have hqy : q.y = (pre.getLastD p0).y + (p.y - (pre.getLastD p0).y) * F32.fin U := by
    rw [hq2, ← hU]; rfl
  refine ⟨U, U0, U1, hx.trans hqx, hy.trans hqy, ?_⟩
  have hδ : (0 : ℚ) < toRat (segmentLength (pre.getLastD p0) p) := by
    obtain ⟨Dn, hDn⟩ := (isFinite_iff _).mp hdf
    rw [hDn] at hd ⊢
    rw [zero_lit, lt_fin] at hd
    rw [toRat_fin]
    exact div_pos (by exact_mod_cast hd) (pow_pos (by norm_num) _)
  have ha0 : (0 : ℚ) ≤ toRat outpre.2.1.m_distanceSinceLastDab := by
    obtain ⟨Aa, hAa⟩ := nonneg_cases i4 haf
    rw [hAa]; exact toRat_nonneg_of_nat Aa
  have haσ : toRat outpre.2.1.m_distanceSinceLastDab ≤
      toRat (settings.baseSize * settings.baseSpacing) := by
    obtain ⟨hsf, _, _⟩ := add_error hlast
    obtain ⟨Aa, hAa⟩ := (isFinite_iff _).mp haf
    obtain ⟨B, hB⟩ := (isFinite_iff _).mp hsf
    have h5 := i5
    rw [hAa, hB] at h5 ⊢
    rw [lt_fin] at h5
    rw [toRat_fin, toRat_fin]
    exact (div_le_div_iff_of_pos_right (pow_pos (by norm_num) _)).mpr
      (by exact_mod_cast (le_of_lt h5))
  have e7 : toRat (0.0 : F32) = 0 := by rw [zero_lit, toRat_fin]; simp
  rw [e7] at i7
  generalize toRat (segmentLength (pre.getLastD p0) p) = δ at *
  generalize toRat (settings.baseSize * settings.baseSpacing) = σ at *
  generalize toRat outpre.2.1.m_distanceSinceLastDab = a at *
  generalize toRat (F32.fin U) = w at *
  generalize pathLength p0 pre = Dp at *
  generalize (dabCount outpre.1 : ℚ) = N at *
  generalize (pre.length : ℚ) = L at *
  have hk0 : (0 : ℚ) ≤ (k : ℚ) := Nat.cast_nonneg k
  generalize (k : ℚ) = κ at *
  -- the fraction bound, multiplied by the segment length
  have hw2 : |δ * w - ((κ + 1) * σ - a)| ≤ (κ + 4) * (a + δ) / 2 ^ 23 := by
    have e1 : δ * w - ((κ + 1) * σ - a) = δ * (w - ((κ + 1) * σ - a) / δ) := by
      field_simp
      ring
    have e2 : (κ + 4) * (a + δ) / 2 ^ 23 = δ * ((κ + 4) * ((a + δ) / δ) / 2 ^ 23) := by
      field_simp
      ring
    rw [e1, e2, abs_mul, abs_of_pos hδ]
    exact mul_le_mul_of_nonneg_left hw (le_of_lt hδ)
  have hw3 : (κ + 4) * (a + δ) / 2 ^ 23 ≤ (κ + 4) * (σ + M) / 2 ^ 23 := by
    apply div_le_div_of_nonneg_right _ (by norm_num)
    exact mul_le_mul_of_nonneg_left (by linarith only [haσ, hM]) (by linarith only [hk0])
  have hsum : Dp + δ * w - (N + κ + 1) * σ =
      (0 + Dp - N * σ - a) + (δ * w - ((κ + 1) * σ - a)) := by ring
  rw [hsum]
  refine le_trans (abs_add _ _) ?_
  have e3 : (N + L + κ + 4) * (σ + M) / 2 ^ 23 =
      (N + L) * (σ + M) / 2 ^ 23 + (κ + 4) * (σ + M) / 2 ^ 23 := by ring
  rw [e3]
  linarith only [i7, hw2, hw3]

/-- C2 (counterexample): base size 5, spacing fraction `0.08f`, no mappings, the straight
line from `(0, 0)` to `(4, 0)`. The spacing `S * F` is `13421772 * 2^-25 = 0.39999998`, so
`floor(D / (S * F)) = 10`. Fed as one sample, the line gives 9 dabs after the first; split
at `x = 1, 2, 3` it gives 10, and the seventh and ninth of these lie at
`93952400 * 2^-25` and `120795952 * 2^-25`, not at `7 * S * F = 93952404 * 2^-25` and
`9 * S * F = 120795948 * 2^-25`. -/
theorem split_changes_dab_count :
    lineSettings.mappings = [] ∧ (0.1 : F32) ≤ lineSettings.baseSize ∧
    lineSettings.baseSize * lineSettings.baseSpacing = F32.fin (13421772 * 2 ^ 124) ∧
    pathLength lineStart lineWhole = 4 ∧ pathLength lineStart lineSplit = 4 ∧
    (10 : ℚ) * toRat (lineSettings.baseSize * lineSettings.baseSpacing) ≤ 4 ∧
    (4 : ℚ) < 11 * toRat (lineSettings.baseSize * lineSettings.baseSpacing) ∧
    (runStroke 20 (strokeAfterFirst lineSettings lineStart) lineWhole zeroDraws).map
      (fun o => dabCount o.1) = some 9 ∧
    (runStroke 20 (strokeAfterFirst lineSettings lineStart) lineSplit zeroDraws).map
      (fun o => dabCount o.1) = some 10 ∧
    (runStroke 20 (strokeAfterFirst lineSettings lineStart) lineSplit zeroDraws).map
      (fun o => o.1.map (fun l => l.map (fun d => d.x))) =
      some [[F32.fin (13421772 * 2 ^ 124), F32.fin (26843544 * 2 ^ 124)],
        [F32.fin (40265316 * 2 ^ 124), F32.fin (53687088 * 2 ^ 124),
          F32.fin (67108860 * 2 ^ 124)],
        [F32.fin (80530632 * 2 ^ 124), F32.fin (93952400 * 2 ^ 124)],
        [F32.fin (107374176 * 2 ^ 124), F32.fin (120795952 * 2 ^ 124),
          F32.fin (134217720 * 2 ^ 124)]] := by
  refine ⟨rfl, by decide!, by decide!, by decide!, by decide!, by decide!, by decide!,
    by decide!, by decide!, by decide!⟩

/-- A remainder `0 ≤ a < s` below a finite spacing, as rational numbers. -/
theorem acc_toRat_bounds {a s : F32} (ha : (0.0 : F32) ≤ a) (has : a < s)
    (hsf : s.isFinite = true) : 0 ≤ toRat a ∧ toRat a < toRat s := by
  obtain ⟨B, hB⟩ := (isFinite_iff _).mp hsf
  rw [hB] at has ⊢
  have haf : a.isFinite = true := by
    rcases le_fin_cases (le_of_lt32 has) with h | ⟨j, h, _⟩
    · rw [h] at ha; exact absurd ha (by decide!)
    · rw [h]; rfl
  obtain ⟨Aa, hAa⟩ := nonneg_cases ha haf
  rw [hAa] at has ⊢
  rw [lt_fin] at has
  refine ⟨toRat_nonneg_of_nat Aa, ?_⟩
  rw [toRat_fin, toRat_fin]
  exact (div_lt_div_iff_of_pos_right (pow_pos (by norm_num) _)).mpr (by exact_mod_cast has)

/-- C2 (amended): a configuration without mappings, base size `S ≥ 0.1`, binary32 spacing
`s = S * F > 0` finite, and a stroke begun with `beginStroke` whose samples `p0 :: ps` have
non-zero timestamps, with `s + d` finite for every segment length `d`; `D` is the sum of the
binary32 segment lengths. The first call returns one dab and leaves the state
`strokeAfterFirst`. The remaining calls all return when no segment is longer than
`8388000 * s`. Whenever they return with `N` dabs in total and remainder `a`, then
`0 ≤ a < s` and `|D - N * s - a| ≤ tol` with `tol = (N + |ps|) * (s + D) / 2^23`, so
`N * s ≤ D + tol` and `D - tol < (N + 1) * s`: the count is `floor(D / s)` up to rounding.
The `k`-th dab of the call towards sample `p`, after the samples `pre` with `n` dabs, lies
at `last + (p - last) * W` for a binary32 fraction `W` in `[0, 1]` whose distance along
the path `D_pre + d * W` is within `(n + |pre| + k + 4) * (s + D) / 2^23` of
`(n + k + 1) * s`. -/
theorem straight_line_dab_count (settings : BrushSettings F32) (p0 : InputPoint F32)
    (ps : List (InputPoint F32)) (rng : RandomSource F32)
    (hmap : settings.mappings = []) (hsize : (0.1 : F32) ≤ settings.baseSize)
    (hs : (0.0 : F32) < settings.baseSize * settings.baseSpacing)
    (hsfin : (settings.baseSize * settings.baseSpacing).isFinite = true)
    (hts0 : p0.timestamp ≠ 0) (hts : ∀ p ∈ ps, p.timestamp ≠ 0)
    (hseg : ∀ d ∈ segmentLengths p0 ps,
      (settings.baseSize * settings.baseSpacing + d).isFinite = true) :
    (∀ (fuel : Nat) (e0 : BrushEngine F32) (rng0 : RandomSource F32),
      e0.m_settings = settings →
      ∃ (d : BrushDab F32) (rng1 : RandomSource F32),
        processInput fuel (beginStroke e0) p0 rng0 =
          some ([d], strokeAfterFirst settings p0, rng1)) ∧
    ((∀ d ∈ segmentLengths p0 ps,
        toRat d ≤ 8388000 * toRat (settings.baseSize * settings.baseSpacing)) →
      ∃ (fuel : Nat) (out : List (List (BrushDab F32)) × BrushEngine F32 × RandomSource F32),
        runStroke fuel (strokeAfterFirst settings p0) ps rng = some out) ∧
    (∀ (fuel : Nat) (out : List (List (BrushDab F32)) × BrushEngine F32 × RandomSource F32),
      runStroke fuel (strokeAfterFirst settings p0) ps rng = some out →
      (0.0 : F32) ≤ out.2.1.m_distanceSinceLastDab ∧
      out.2.1.m_distanceSinceLastDab < settings.baseSize * settings.baseSpacing ∧
      |pathLength p0 ps -
          (dabCount out.1 : ℚ) * toRat (settings.baseSize * settings.baseSpacing) -
          toRat out.2.1.m_distanceSinceLastDab| ≤
        ((dabCount out.1 : ℚ) + (ps.length : ℚ)) *
          (toRat (settings.baseSize * settings.baseSpacing) + pathLength p0 ps) / 2 ^ 23 ∧
      (dabCount out.1 : ℚ) * toRat (settings.baseSize * settings.baseSpacing) ≤
        pathLength p0 ps + ((dabCount out.1 : ℚ) + (ps.length : ℚ)) *
          (toRat (settings.baseSize * settings.baseSpacing) + pathLength p0 ps) / 2 ^ 23 ∧
      pathLength p0 ps - ((dabCount out.1 : ℚ) + (ps.length : ℚ)) *
          (toRat (settings.baseSize * settings.baseSpacing) + pathLength p0 ps) / 2 ^ 23 <
        ((dabCount out.1 : ℚ) + 1) * toRat (settings.baseSize * settings.baseSpacing)) ∧
    (∀ (fuel : Nat) (pre : List (InputPoint F32)) (p : InputPoint F32)
      (post : List (InputPoint F32))
      (outpre : List (List (BrushDab F32)) × BrushEngine F32 × RandomSource F32)
      (r : List (BrushDab F32) × BrushEngine F32 × RandomSource F32),
      ps = pre ++ p :: post →
      runStroke fuel (strokeAfterFirst settings p0) pre rng = some outpre →
      processInput fuel outpre.2.1 p outpre.2.2 = some r →
      outpre.2.1.m_lastInput = pre.getLastD p0 ∧
      ∀ (k : Nat) (dab : BrushDab F32), r.1[k]? = some dab →
        ∃ W : Int, 0 ≤ W ∧ W ≤ 2 ^ 149 ∧
          dab.x = (pre.getLastD p0).x + (p.x - (pre.getLastD p0).x) * F32.fin W ∧
          dab.y = (pre.getLastD p0).y + (p.y - (pre.getLastD p0).y) * F32.fin W ∧
          |pathLength p0 pre + toRat (segmentLength (pre.getLastD p0) p) * toRat (F32.fin W) -
              ((dabCount outpre.1 : ℚ) + (k : ℚ) + 1) *
                toRat (settings.baseSize * settings.baseSpacing)| ≤
            ((dabCount outpre.1 : ℚ) + (pre.length : ℚ) + (k : ℚ) + 4) *
              (toRat (settings.baseSize * settings.baseSpacing) + pathLength p0 ps) /
                2 ^ 23) := by
  refine ⟨?_, ?_, ?_, ?_⟩
  · intro fuel e0 rng0 he
    refine ⟨(emitDab e0.m_settings p0 rng0).1, (emitDab e0.m_settings p0 rng0).2, ?_⟩
    rw [beginStroke_first fuel e0 p0 rng0, he]
  · intro hlen
    obtain ⟨f1, f2, f3, f4⟩ := strokeAfterFirst_fields settings p0
    generalize strokeAfterFirst settings p0 = E at f1 f2 f3 f4
    have z1 : (0.0 : F32) ≤ 0.0 := by decide!
    exact stroke_returns ps E rng (by rw [f1]; exact hmap) (by rw [f1]; exact hsize) f2
      (by rw [f3]; exact hts0) hts (by rw [f4]; exact z1) (by rw [f4, f1]; exact hs)
      (by rw [f3, f1]; exact fun d hd => ⟨hseg d hd, hlen d hd⟩)
  · intro fuel out hret
    obtain ⟨f1, f2, f3, f4⟩ := strokeAfterFirst_fields settings p0
    generalize strokeAfterFirst settings p0 = E at f1 f2 f3 f4 hret
    have z1 : (0.0 : F32) ≤ 0.0 := by decide!
    obtain ⟨_, _, _, _, i4, i5, i6, i7⟩ := stroke_conservation fuel (pathLength p0 ps) ps E rng
      out (by rw [f1]; exact hmap) (by rw [f1]; exact hsize) f2 (by rw [f3]; exact hts0) hts
      (by rw [f4]; exact z1) (by rw [f4, f1]; exact hs) (isBinary32_of_eq_zero f4)
      (by rw [f3, f1]; exact fun d hd => ⟨hseg d hd, segment_le_pathLength ps p0 d hd⟩) hret
    rw [f3] at i6 i7
    rw [f1] at i5 i7
    rw [f4] at i7
    have e7 : toRat (0.0 : F32) = 0 := by rw [zero_lit, toRat_fin]; simp
    rw [e7, zero_add] at i7
    refine ⟨i4, i5, i7, ?_, ?_⟩
    · have ha0 := (acc_toRat_bounds i4 i5 hsfin).1
      have h7 := (abs_le.mp i7).1
      linarith only [h7, ha0]
    · have haσ := (acc_toRat_bounds i4 i5 hsfin).2
      have h7 := (abs_le.mp i7).2
      linarith only [h7, haσ]
  · intro fuel pre p post outpre r hps hpre hcall
    have hmem : ∀ d ∈ segmentLengths p0 pre, d ∈ segmentLengths p0 ps := by
      intro d hd
      rw [hps, segmentLengths_append]
      exact List.mem_append_left _ hd
    have hmem2 : segmentLength (pre.getLastD p0) p ∈ segmentLengths p0 ps := by
      rw [hps, segmentLengths_append]
      exact List.mem_append_right _ (List.mem_cons_self _ _)
    exact stroke_positions settings p0 pre p rng (pathLength p0 ps) hmap hsize hs hts0
      (fun q hq => hts q (by rw [hps]; exact List.mem_append_left _ hq))
      (fun d hd => ⟨hseg d (hmem d hd), segment_le_pathLength ps p0 d (hmem d hd)⟩)
      (hseg _ hmem2) (segment_le_pathLength ps p0 _ hmem2) fuel outpre r hpre hcall

/-- C2 at a concrete input: base size 5, spacing fraction `0.08f`, the line from `(0, 0)` to
`(4, 0)` split at `x = 1, 2, 3`. -/
theorem straight_line_dab_count_witness :
    (0.0 : F32) < lineSettings.baseSize * lineSettings.baseSpacing ∧
    ∃ (fuel : Nat) (out : List (List (BrushDab F32)) × BrushEngine F32 × RandomSource F32),
      runStroke fuel (strokeAfterFirst lineSettings lineStart) lineSplit zeroDraws = some out :=
  ⟨by decide!,
    (straight_line_dab_count lineSettings lineStart lineSplit zeroDraws rfl (by decide!)
      (by decide!) (by decide!) (by decide) (by decide!) (by decide!)).2.1 (by decide!)⟩

/-- C8 (counterexample): with size proportional to pressure, the stroke `(0, 0)`, `(3, 0)`
at pressure 1 (spacing 4, nothing emitted, remainder 3), then `(4, 0)` at pressure 1/4
(spacing 1) emits four dabs in the third call, the first three all at `(3, 0)`:
consecutive dabs at distance 0, with spacing 1 and no scatter. All numbers involved are
binary32 numbers and no operation rounds. -/
theorem dabs_pile_up_in_binary32 :
    (runStroke 5 (beginStroke (setBrushSettings BrushEngine.new shrinkSettings))
        shrinkSamples zeroDraws).map
      (fun o => o.1.map (fun out => out.map (fun d => (d.x, d.y, d.scatter)))) =
      some [[(0.0, 0.0, 0.0)], [],
        [(3.0, 0.0, 0.0), (3.0, 0.0, 0.0), (3.0, 0.0, 0.0), (4.0, 0.0, 0.0)]] ∧
    spacingFor shrinkSettings (samplePoint 3.0 0.0 1.0 2) zeroDraws = 4.0 ∧
    spacingFor shrinkSettings (samplePoint 4.0 0.0 0.25 3) zeroDraws = 1.0 := by
  refine ⟨by decide!, by decide!, by decide!⟩

theorem reachable_carriedStroke : Reachable carriedStroke := by
  have h1 : Reachable (strokeAfterFirst shrinkSettings (samplePoint 0.0 0.0 1.0 1)) :=
    reachable_strokeAfterFirst _ _
  have h2 : (processInput 5 (strokeAfterFirst shrinkSettings (samplePoint 0.0 0.0 1.0 1))
      (samplePoint 3.0 0.0 1.0 2) zeroDraws).map (fun r => r.2.1) = some carriedStroke := by
    decide!
  rcases h : processInput 5 (strokeAfterFirst shrinkSettings (samplePoint 0.0 0.0 1.0 1))
      (samplePoint 3.0 0.0 1.0 2) zeroDraws with _ | r
  · rw [h] at h2; simp at h2
  · rw [h] at h2
    simp only [Option.map_some', Option.some.injEq] at h2
    have h3 := Reachable.afterProcessInput 5 _ _ _ r h1 h
    rw [h2] at h3
    exact h3

/-- C23 (counterexample): in the reachable state `carriedStroke` (after `(0, 0)` and
`(3, 0)` at spacing 4, remainder 3) the sample `(3, 0)` at pressure 1/4 gives spacing 1, so
the loop body executes, and the segment length is 0; the quotient
`(accumulator - spacing) / distance` is then `2 / 0 = +inf`. -/
theorem loop_runs_with_distance_zero :
    Reachable carriedStroke ∧
    loopBodyRuns carriedStroke (samplePoint 3.0 0.0 0.25 3) zeroDraws ∧
    segmentLength carriedStroke.m_lastInput (samplePoint 3.0 0.0 0.25 3) = 0.0 ∧
    (carriedStroke.m_distanceSinceLastDab +
        segmentLength carriedStroke.m_lastInput (samplePoint 3.0 0.0 0.25 3) -
        spacingFor carriedStroke.m_settings (samplePoint 3.0 0.0 0.25 3) zeroDraws) /
      segmentLength carriedStroke.m_lastInput (samplePoint 3.0 0.0 0.25 3) = F32.inf false :=
  ⟨reachable_carriedStroke, ⟨rfl, by decide, by decide!, by decide!⟩, by decide!, by decide!⟩

/-- C22 (counterexample): for the sample with pressure 2, tiltX 3 and tiltY -3 the
normaliser returns 2 for Pressure, 2 for TiltX and -1 for TiltY, all outside `[0, 1]`. -/
theorem out_of_range_value_not_clamped :
    (getInputValue outOfRangeSample InputSource.Pressure zeroDraws).1 = 2.0 ∧
    (getInputValue outOfRangeSample InputSource.TiltX zeroDraws).1 = 2.0 ∧
    (getInputValue outOfRangeSample InputSource.TiltY zeroDraws).1 = -1.0 ∧
    (1.0 : F32) < 2.0 ∧ (-1.0 : F32) < 0.0 := by
  refine ⟨by decide!, by decide!, by decide!, by decide!, by decide!⟩

theorem applyScatter_scatter32 (dab : BrushDab F32) (rng : RandomSource F32) :
    (applyScatter dab rng).1.scatter = dab.scatter := by
  unfold applyScatter
  by_cases h : dab.scatter > 0.0
  · rw [if_pos h]
  · rw [if_neg h]

theorem emitDab_scatter32 (settings : BrushSettings F32) (input : InputPoint F32)
    (rng : RandomSource F32) :
    (emitDab settings input rng).1.scatter =
      (settings.mappings.foldl (applyMapping input) (generateDab settings input, rng)).1.scatter := by
  unfold emitDab
  simp only
  rw [applyScatter_scatter32]
  unfold applyMappings
  simp only
  exact clampDab_scatter32 _

theorem emitAll_mem32 (settings : BrushSettings F32) :
    ∀ (ps : List (InputPoint F32)) (rng : RandomSource F32) (d : BrushDab F32),
      d ∈ (emitAll settings ps rng).1 →
      ∃ (p : InputPoint F32) (rng0 : RandomSource F32), d = (emitDab settings p rng0).1
  | [], rng, d, h => by simp [emitAll] at h
  | p :: ps, rng, d, h => by
    simp only [emitAll, List.mem_cons] at h
    rcases h with h | h
    · exact ⟨p, rng, h⟩
    · exact emitAll_mem32 settings ps _ d h

/-- Every dab a returning call of `processInput` emits is the dab resolved from one
sample. -/
theorem processInput_mem_emitDab32 (fuel : Nat) (e : BrushEngine F32) (input : InputPoint F32)
    (rng : RandomSource F32) (r : List (BrushDab F32) × BrushEngine F32 × RandomSource F32)
    (hret : processInput fuel e input rng = some r) (d : BrushDab F32) (hd : d ∈ r.1) :
    ∃ (p : InputPoint F32) (rng0 : RandomSource F32), d = (emitDab e.m_settings p rng0).1 := by
  cases hact : e.m_strokeActive with
  | false =>
    rw [processInput_idle32 fuel e input rng hact] at hret
    simp only [Option.some.injEq] at hret
    rw [← hret] at hd
    simp at hd
  | true =>
    by_cases ht : e.m_lastInput.timestamp = 0
    · rw [processInput_first32 fuel e input rng hact ht] at hret
      simp only [Option.some.injEq] at hret
      rw [← hret] at hd
      simp only [List.mem_singleton] at hd
      exact ⟨input, rng, hd⟩
    · obtain ⟨_, _, hlist, _⟩ := processInput_loopSamples fuel e input rng r hact ht hret
      rw [hlist] at hd
      exact emitAll_mem32 e.m_settings _ _ d hd

/-- C13 (counterexample): with one constant `Scatter` mapping of output -1 the dab emitted
by the first call after `beginStroke` has scatter -1, which is below 0. -/
theorem negative_scatter_in_binary32 :
    (processInput 0 (beginStroke (setBrushSettings BrushEngine.new negativeScatterSettings))
        (samplePoint 0.0 0.0 1.0 1) zeroDraws).map (fun r => r.1.map (fun d => d.scatter)) =
      some [-1.0] ∧
    (-1.0 : F32) < 0.0 := by
  refine ⟨by decide!, by decide!⟩

/-- C13 (amended): for every engine state, sample and random source, in binary32. The
first call of a stroke returns for every fuel, with one dab. Without a `Scatter`-target
mapping every dab emitted by a returning call of `processInput` has the default scatter 0.
When `mappings = pre ++ m :: post` with `m` the last `Scatter`-target mapping, the dab
resolved from any sample `p` has as its scatter the unclamped curve output of `m` for that
same sample `p` (with the random source as left by the mappings before `m`), and every dab
emitted by a returning call of `processInput` is the dab resolved from one sample `p` and
has that output for `p` as its scatter. -/
theorem scatter_unclamped (e : BrushEngine F32) (input : InputPoint F32)
    (rng : RandomSource F32) :
    (e.m_strokeActive = true → e.m_lastInput.timestamp = 0 → ∀ fuel : Nat,
      processInput fuel e input rng =
        some ([(emitDab e.m_settings input rng).1], { e with m_lastInput := input },
          (emitDab e.m_settings input rng).2)) ∧
    ((∀ m ∈ e.m_settings.mappings, m.target ≠ BrushProperty.Scatter) →
      ∀ (fuel : Nat) (r : List (BrushDab F32) × BrushEngine F32 × RandomSource F32),
        processInput fuel e input rng = some r →
        ∀ d ∈ r.1, d.scatter = (BrushDab.default : BrushDab F32).scatter ∧
          ¬ d.scatter < 0) ∧
    (∀ (pre post : List (InputMapping F32)) (m : InputMapping F32),
      e.m_settings.mappings = pre ++ m :: post → m.target = BrushProperty.Scatter →
      (∀ m' ∈ post, m'.target ≠ BrushProperty.Scatter) →
      (∀ (p : InputPoint F32) (rng0 : RandomSource F32),
        (emitDab e.m_settings p rng0).1.scatter =
          InputMapping.apply m (getInputValue p m.source
            (pre.foldl (applyMapping p) (generateDab e.m_settings p, rng0)).2).1) ∧
      ∀ (fuel : Nat) (r : List (BrushDab F32) × BrushEngine F32 × RandomSource F32),
        processInput fuel e input rng = some r →
        ∀ d ∈ r.1, ∃ (p : InputPoint F32) (rng0 : RandomSource F32),
          d = (emitDab e.m_settings p rng0).1 ∧
          d.scatter = InputMapping.apply m (getInputValue p m.source
            (pre.foldl (applyMapping p) (generateDab e.m_settings p, rng0)).2).1) := by
  refine ⟨?_, ?_, ?_⟩
  · intro hact hts fuel
    exact processInput_first32 fuel e input rng hact hts
  · intro h fuel r hret d hd
    obtain ⟨p, rng0, hdp⟩ := processInput_mem_emitDab32 fuel e input rng r hret d hd
    have e1 : d.scatter = (BrushDab.default : BrushDab F32).scatter := by
      rw [hdp, emitDab_scatter32, foldl_applyMapping_scatter32 p e.m_settings.mappings h]
      exact generateDab_scatter32 e.m_settings p
    refine ⟨e1, ?_⟩
    rw [e1]
    exact (by decide! : ¬ (BrushDab.default : BrushDab F32).scatter < 0)
  · intro pre post m hsplit hm hpost
    have key : ∀ (p : InputPoint F32) (rng0 : RandomSource F32),
        (emitDab e.m_settings p rng0).1.scatter =
          InputMapping.apply m (getInputValue p m.source
            (pre.foldl (applyMapping p) (generateDab e.m_settings p, rng0)).2).1 := by
      intro p rng0
      rw [emitDab_scatter32, hsplit, List.foldl_append, List.foldl_cons,
        foldl_applyMapping_scatter32 p post hpost]
      unfold applyMapping
      simp only [hm]
    refine ⟨key, ?_⟩
    intro fuel r hret d hd
    obtain ⟨p, rng0, hdp⟩ := processInput_mem_emitDab32 fuel e input rng r hret d hd
    exact ⟨p, rng0, hdp, by rw [hdp]; exact key p rng0⟩

/-- C13 at a concrete input: the constant `Scatter` mapping with output -1 on the first
sample of a stroke. -/
theorem scatter_unclamped_witness :
    ∀ (fuel : Nat) (r : List (BrushDab F32) × BrushEngine F32 × RandomSource F32),
      processInput fuel (beginStroke (setBrushSettings BrushEngine.new negativeScatterSettings))
        (samplePoint 0.0 0.0 1.0 1) zeroDraws = some r →
      ∀ d ∈ r.1, ∃ (p : InputPoint F32) (rng0 : RandomSource F32),
        d = (emitDab (beginStroke (setBrushSettings BrushEngine.new
          negativeScatterSettings)).m_settings p rng0).1 ∧
        d.scatter = InputMapping.apply (constantMapping BrushProperty.Scatter (-1.0))
          (getInputValue p (constantMapping BrushProperty.Scatter (-1.0)).source
            (([] : List (InputMapping F32)).foldl (applyMapping p)
              (generateDab (beginStroke (setBrushSettings BrushEngine.new
                negativeScatterSettings)).m_settings p, rng0)).2).1 :=
  ((scatter_unclamped (beginStroke (setBrushSettings BrushEngine.new negativeScatterSettings))
      (samplePoint 0.0 0.0 1.0 1) zeroDraws).2.2
    [] [] (constantMapping BrushProperty.Scatter (-1.0)) rfl rfl (by simp)).2

end Binary32

/-- C18 (counterexample): the mapping with strength 0, inverted quadratic curve and range
`[1, 3]` at the input `x = 2^100`. In binary32 `(1 - x)^2` overflows to `+inf`, and
`(inf - 2) * 0` is NaN, so `apply(x)` is NaN and not `(minOutput + maxOutput) / 2 = 2`. -/
theorem strength_zero_overflow :
    Binary32.InputMapping.apply zeroStrengthMapping twoPow100 = F32.nan ∧
    (zeroStrengthMapping.minOutput + zeroStrengthMapping.maxOutput) / 2 = 2 := by
  decide!

/-- C18 (amended): for every mapping with strength 0 and every input `x`, in binary32:
when the difference `result - baseValue` that `apply` multiplies by the strength is finite,
`apply(x)` is `(minOutput + maxOutput) * 0.5`, and NaN otherwise; and
`(minOutput + maxOutput) * 0.5` equals `(minOutput + maxOutput) / 2` in binary32. -/
theorem apply_strength_zero (m : InputMapping F32) (hs : m.strength = 0) (x : F32) :
    Binary32.InputMapping.apply m x =
      (if (Binary32.InputMapping.result m x - Binary32.InputMapping.baseValue m).isFinite
       then (m.minOutput + m.maxOutput) * 0.5 else F32.nan) ∧
    (m.minOutput + m.maxOutput) * 0.5 = (m.minOutput + m.maxOutput) / 2 := by
  refine ⟨?_, mul_half_eq_div_two _⟩
  unfold Binary32.InputMapping.apply
  rw [hs, zero_eq]
  have hb : IsBinary32 (Binary32.InputMapping.baseValue m) := mul_isBinary32 _ _
  generalize Binary32.InputMapping.result m x - Binary32.InputMapping.baseValue m = E
  cases E with
  | fin k =>
    rw [mul_zero_of_finite (x := fin k) rfl, add_zero_of_isBinary32 hb]
    rfl
  | inf s =>
    simp only [isFinite]
    show _ + mul (inf s) (fin 0) = _
    simp only [mul, if_true]
    cases Binary32.InputMapping.baseValue m <;> rfl
  | nan =>
    simp only [isFinite]
    show _ + mul nan (fin 0) = _
    simp only [mul]
    cases Binary32.InputMapping.baseValue m <;> rfl

/-- C18 at a concrete input: the mapping `zeroStrengthMapping` at `x = 0.25`. -/
theorem apply_strength_zero_witness :
    Binary32.InputMapping.apply zeroStrengthMapping 0.25 =
      (if (Binary32.InputMapping.result zeroStrengthMapping 0.25 -
          Binary32.InputMapping.baseValue zeroStrengthMapping).isFinite
       then (zeroStrengthMapping.minOutput + zeroStrengthMapping.maxOutput) * 0.5 else F32.nan) ∧
    (zeroStrengthMapping.minOutput + zeroStrengthMapping.maxOutput) * 0.5 =
      (zeroStrengthMapping.minOutput + zeroStrengthMapping.maxOutput) / 2 :=
  apply_strength_zero zeroStrengthMapping (by decide!) 0.25

theorem lt_neg_one_le {t : F32} (ht : IsBinary32 t) (h : t < -1) :
    t ≤ F32.fin (-(2 ^ 149 + 2 ^ 126)) := by
  have e : (-1 : F32) = F32.fin (-(2 ^ 149)) := by decide!
  rw [e] at h
  cases t with
  | fin k =>
    rw [lt_fin] at h
    rw [le_fin]
    obtain ⟨_, hg⟩ := ht
    have hk : 2 ^ 149 ≤ k.natAbs := by omega
    have h1 := le_gridExp hk
    have h2 : 2 ^ 126 ∣ k.natAbs :=
      Nat.dvd_trans (pow_dvd_pow 2 (by omega)) (Nat.dvd_of_mod_eq_zero hg)
    obtain ⟨c, hc⟩ := h2
    have h3 : 2 ^ 149 < k.natAbs := by omega
    have h4 : 2 ^ 23 < c := by
      by_contra hcon
      have : c ≤ 2 ^ 23 := by omega
      have : 2 ^ 126 * c ≤ 2 ^ 126 * 2 ^ 23 := Nat.mul_le_mul_left _ this
      have e2 : (2 : Nat) ^ 126 * 2 ^ 23 = 2 ^ 149 := by norm_num
      omega
    have h5 : 2 ^ 126 * (2 ^ 23 + 1) ≤ 2 ^ 126 * c := Nat.mul_le_mul_left _ h4
    have e3 : (2 : Nat) ^ 126 * (2 ^ 23 + 1) = 2 ^ 149 + 2 ^ 126 := by norm_num
    omega
  | inf s =>
    rw [lt_def] at h; rw [le_def]
    simp [lt] at h; simp [le, h]
  | nan => rw [lt_def] at h; simp [lt] at h

theorem tilt_below (t : F32) (ht : IsBinary32 t) (h : t < -1) : (t + 1.0) * 0.5 < 0 := by
  have h1 := lt_neg_one_le ht h
  rw [one_lit, half_lit, zero_eq]
  cases t with
  | fin k =>
    rw [le_fin] at h1
    have h2 : F32.fin k + F32.fin (2 ^ 149) ≤ F32.fin (-(2 ^ 126)) := by
      have h0 := fin_add_le_fin_add h1 (2 ^ 149)
      have e : F32.fin (-(2 ^ 149 + 2 ^ 126)) + F32.fin (2 ^ 149) = F32.fin (-(2 ^ 126)) := by
        decide!
      rw [e] at h0
      exact h0
    rcases le_fin_cases h2 with h3 | ⟨j, h3, h4⟩
    · rw [h3]; decide!
    · rw [h3]
      have h5 := fin_mul_le_fin_mul h4 (c := 2 ^ 148) (by positivity)
      have e : F32.fin (-(2 ^ 126)) * F32.fin (2 ^ 148) = F32.fin (-(2 ^ 125)) := by decide!
      rw [e] at h5
      exact lt_of_le_of_lt32 h5 ((lt_fin _ _).mpr (by norm_num))
  | inf s =>
    rw [le_def] at h1
    simp [le] at h1
    subst h1
    decide!
  | nan => rw [le_def] at h1; simp [le] at h1

theorem tilt_above (t : F32) (h : secondAboveOne ≤ t) : 1 < (t + 1.0) * 0.5 := by
  rw [one_lit, half_lit, one_eq]
  unfold secondAboveOne at h
  cases t with
  | fin k =>
    rw [le_fin] at h
    have h2 : F32.fin (2 ^ 150 + 2 ^ 127) ≤ F32.fin k + F32.fin (2 ^ 149) := by
      have h0 := fin_add_le_fin_add h (2 ^ 149)
      have e : F32.fin (2 ^ 149 + 2 ^ 127) + F32.fin (2 ^ 149) = F32.fin (2 ^ 150 + 2 ^ 127) := by
        decide!
      rw [e] at h0
      exact h0
    rcases fin_le_cases h2 with h3 | ⟨j, h3, h4⟩
    · rw [h3]; decide!
    · rw [h3]
      have h5 := fin_mul_le_fin_mul h4 (c := 2 ^ 148) (by positivity)
      have e : F32.fin (2 ^ 150 + 2 ^ 127) * F32.fin (2 ^ 148) = F32.fin (2 ^ 149 + 2 ^ 126) := by
        decide!
      rw [e] at h5
      exact lt_of_lt_of_le32 ((lt_fin _ _).mpr (by norm_num)) h5
  | inf s =>
    rw [le_def] at h
    simp [le] at h
    subst h
    decide!
  | nan => rw [le_def] at h; simp [le] at h

/-- C22 (amended): the normaliser does not clamp. For every sample the value returned for
`Pressure` is `pressure` itself and for `TiltX`, `TiltY` it is the binary32
`(tilt + 1.0) * 0.5`. A binary32 tilt below -1 gives a value below 0 and a tilt of at least
`1 + 2^-22` gives a value above 1, so such values reach the mapping curve outside `[0, 1]`;
the one tilt above 1 whose value is still inside `[0, 1]` is `1 + 2^-23`, which rounds to
exactly 1. -/
theorem getInputValue_not_clamped (input : InputPoint F32) (rng : RandomSource F32) :
    (Binary32.getInputValue input InputSource.Pressure rng).1 = input.pressure ∧
    (Binary32.getInputValue input InputSource.TiltX rng).1 = (input.tiltX + 1.0) * 0.5 ∧
    (Binary32.getInputValue input InputSource.TiltY rng).1 = (input.tiltY + 1.0) * 0.5 ∧
    (IsBinary32 input.tiltX → input.tiltX < -1 →
      (Binary32.getInputValue input InputSource.TiltX rng).1 < 0) ∧
    (secondAboveOne ≤ input.tiltX →
      1 < (Binary32.getInputValue input InputSource.TiltX rng).1) ∧
    (IsBinary32 input.tiltY → input.tiltY < -1 →
      (Binary32.getInputValue input InputSource.TiltY rng).1 < 0) ∧
    (secondAboveOne ≤ input.tiltY →
      1 < (Binary32.getInputValue input InputSource.TiltY rng).1) ∧
    (Binary32.getInputValue (tiltSample32 1.0 nextAboveOne nextAboveOne)
      InputSource.TiltX rng).1 = 1 :=
  ⟨rfl, rfl, rfl, tilt_below _, tilt_above _, tilt_below _, tilt_above _,
    (by decide! : (nextAboveOne + 1.0) * 0.5 = 1)⟩

end

end Acute
